import Mathlib

/-!
# Red-black tree of `rb_tree.c`: heap model and verification

The C program keeps its nodes in individually allocated heap cells linked by
`parent`, `left` and `right` pointers.  The model below keeps that shape: a
pointer is an `Option Nat` (`none` is `NULL`), the heap is a map from addresses
to cells, and every C function becomes a function on the handle-plus-heap
state.  A run that dereferences `NULL`, touches a cell that is not live, trips
an `assert`, or exhausts the fuel of a `while` loop ends in a `Fault`.
-/

set_option autoImplicit false

namespace Rb

/-! ## Data model -/

/-- Ways in which a run of the C code can fail to return normally. -/
inductive Fault where
  | null_deref
  | bad_access
  | assert_failed
  | out_of_fuel
  deriving DecidableEq, Repr

/-- The cell `struct rb_node` (rb_tree.c, lines 8-15). -/
structure rb_node (α : Type) where
  parent : Option Nat
  left : Option Nat
  right : Option Nat
  red : Bool
  value : α
  deriving DecidableEq, Repr

/-- The handle `struct rb_tree` (rb_tree.h, lines 14-18) together with the heap it
points into.  `fr` tells whether a destructor callback was supplied; the values
handed to it are appended to `destroyed`, the addresses handed to `free` are
appended to `freed`.  `next` is the address the allocator hands out next and
`junk` is the indeterminate content found in the `parent` field of a freshly
allocated cell. -/
structure rb_tree (α : Type) where
  root : Option Nat
  cmp : α → α → Int
  fr : Bool
  mem : Nat → Option (rb_node α)
  next : Nat
  junk : Nat → Option Nat
  destroyed : List α
  freed : List Nat

variable {α : Type}

/-! ## Memory access -/

/-- C `assert`. -/
def assert (b : Bool) : Except Fault Unit :=
  if b then pure () else throw Fault.assert_failed

/-- Read the cell a pointer refers to. -/
def load (tree : rb_tree α) : Option Nat → Except Fault (rb_node α)
  | none => throw Fault.null_deref
  | some a =>
    match tree.mem a with
    | none => throw Fault.bad_access
    | some n => pure n

/-- Overwrite the cell at address `a`. -/
def store (tree : rb_tree α) (a : Nat) (n : rb_node α) : rb_tree α :=
  { tree with mem := fun k => if k = a then some n else tree.mem k }

/-- Apply a field update to the cell a pointer refers to. -/
def modify (tree : rb_tree α) (p : Option Nat) (f : rb_node α → rb_node α) :
    Except Fault (rb_tree α) :=
  match p with
  | none => throw Fault.null_deref
  | some a =>
    match tree.mem a with
    | none => throw Fault.bad_access
    | some n => pure (store tree a (f n))

/-- The read `p->parent`. -/
def get_parent (tree : rb_tree α) (p : Option Nat) : Except Fault (Option Nat) :=
  (load tree p).map (fun n => n.parent)

/-- The read `p->left`. -/
def get_left (tree : rb_tree α) (p : Option Nat) : Except Fault (Option Nat) :=
  (load tree p).map (fun n => n.left)

/-- The read `p->right`. -/
def get_right (tree : rb_tree α) (p : Option Nat) : Except Fault (Option Nat) :=
  (load tree p).map (fun n => n.right)

/-- The read `p->red`. -/
def get_red (tree : rb_tree α) (p : Option Nat) : Except Fault Bool :=
  (load tree p).map (fun n => n.red)

/-- The read `p->value`. -/
def get_value (tree : rb_tree α) (p : Option Nat) : Except Fault α :=
  (load tree p).map (fun n => n.value)

/-- The write `p->parent = x`. -/
def set_parent (tree : rb_tree α) (p x : Option Nat) : Except Fault (rb_tree α) :=
  modify tree p (fun n => { n with parent := x })

/-- The write `p->left = x`. -/
def set_left (tree : rb_tree α) (p x : Option Nat) : Except Fault (rb_tree α) :=
  modify tree p (fun n => { n with left := x })

/-- The write `p->right = x`. -/
def set_right (tree : rb_tree α) (p x : Option Nat) : Except Fault (rb_tree α) :=
  modify tree p (fun n => { n with right := x })

/-- The write `p->red = b`. -/
def set_red (tree : rb_tree α) (p : Option Nat) (b : Bool) : Except Fault (rb_tree α) :=
  modify tree p (fun n => { n with red := b })

/-- The write `p->value = v`. -/
def set_value (tree : rb_tree α) (p : Option Nat) (v : α) : Except Fault (rb_tree α) :=
  modify tree p (fun n => { n with value := v })

/-- The store `child->ref = false` of `delete_node` (rb_tree.c line 388).
`struct rb_node` (lines 8-15) declares the members `parent`, `left`, `right`,
`red` and `value` and no member `ref`: the store needs a live cell and reaches
none of those five fields, so the colour bit `red` keeps its content. -/
def set_ref (tree : rb_tree α) (p : Option Nat) (_ : Bool) : Except Fault (rb_tree α) :=
  modify tree p (fun n => n)

/-- The library call `free` on a live cell: the cell stops being live. -/
def free (tree : rb_tree α) (p : Option Nat) : Except Fault (rb_tree α) :=
  match p with
  | none => pure tree
  | some a =>
    match tree.mem a with
    | none => throw Fault.bad_access
    | some _ =>
      pure { tree with mem := fun k => if k = a then none else tree.mem k,
                       freed := tree.freed ++ [a] }

/-! ## Helper functions (rb_tree.c, lines 22-85) -/

/-- The loop `while(node->left != NULL) node = node->left;` -/
def get_head_loop : Nat → rb_tree α → Option Nat → Except Fault (Option Nat)
  | 0, _, _ => throw Fault.out_of_fuel
  | fuel + 1, tree, node => do
    let l ← get_left tree node
    if l ≠ none then get_head_loop fuel tree l else pure node

/-- The function `get_head` (lines 22-32). -/
def get_head (fuel : Nat) (tree : rb_tree α) (root : Option Nat) :
    Except Fault (Option Nat) :=
  if root = none then pure none else get_head_loop fuel tree root

/-- The upward loop of `get_next` (lines 39-42), including the final
`return node->parent`. -/
def get_next_up : Nat → rb_tree α → Option Nat → Except Fault (Option Nat)
  | 0, _, _ => throw Fault.out_of_fuel
  | fuel + 1, tree, node => do
    let p ← get_parent tree node
    if p ≠ none then
      let pr ← get_right tree p
      if pr = node then get_next_up fuel tree p else get_parent tree node
    else get_parent tree node

/-- The function `get_next` (lines 34-51). -/
def get_next (fuel : Nat) (tree : rb_tree α) (node : Option Nat) :
    Except Fault (Option Nat) := do
  assert (node ≠ none)
  let r ← get_right tree node
  if r = none then get_next_up fuel tree node
  else get_head_loop fuel tree r

/-- The function `create_node` (lines 53-60); `malloc_checked` either returns a
fresh cell or ends the process, so a returning call always yields a cell.  The
`parent` field is not written. -/
def create_node (tree : rb_tree α) (value : α) : rb_tree α × Option Nat :=
  let a := tree.next
  let cell : rb_node α :=
    { parent := tree.junk a, left := none, right := none, red := true, value := value }
  ({ tree with mem := fun k => if k = a then some cell else tree.mem k, next := a + 1 },
   some a)

/-- The function `free_value` (lines 62-66). -/
def free_value (tree : rb_tree α) (value : α) : rb_tree α :=
  if tree.fr then { tree with destroyed := tree.destroyed ++ [value] } else tree

/-- The function `free_node` (lines 68-71). -/
def free_node (tree : rb_tree α) (node : Option Nat) : Except Fault (rb_tree α) := do
  let v ← get_value tree node
  free (free_value tree v) node

/-- The function `find` (lines 73-85). -/
def find : Nat → rb_tree α → Option Nat → α → Except Fault (Option Nat)
  | 0, _, _, _ => throw Fault.out_of_fuel
  | fuel + 1, tree, pos, value =>
    if pos ≠ none then do
      let pv ← get_value tree pos
      let c := tree.cmp value pv
      if c < 0 then do
        let l ← get_left tree pos
        find fuel tree l value
      else if c > 0 then do
        let r ← get_right tree pos
        find fuel tree r value
      else pure pos
    else pure pos

/-! ## Initialisation (lines 91-97) -/

/-- The function `rb_tree_init`. -/
def rb_tree_init (tree : rb_tree α) (cmp : α → α → Int) (fr : Bool) : rb_tree α :=
  { tree with root := none, cmp := cmp, fr := fr }

/-! ## Printing (lines 103-140) -/

/-- What `print_node` writes for one node: the value, the colour, and the values
of the parent, left child and right child where present. -/
structure print_line (α : Type) where
  value : α
  red : Bool
  parent : Option α
  left : Option α
  right : Option α
  deriving DecidableEq, Repr

/-- Value of the neighbour a pointer refers to, when the pointer is not `NULL`. -/
def neighbour_value (tree : rb_tree α) (p : Option Nat) : Except Fault (Option α) :=
  if p ≠ none then (get_value tree p).map some else pure none

/-- The function `print_node` (lines 103-130). -/
def print_node (tree : rb_tree α) (node : Option Nat) : Except Fault (print_line α) := do
  assert (node ≠ none)
  let v ← get_value tree node
  let c ← get_red tree node
  let p ← get_parent tree node
  let pv ← neighbour_value tree p
  let l ← get_left tree node
  let lv ← neighbour_value tree l
  let r ← get_right tree node
  let rv ← neighbour_value tree r
  pure { value := v, red := c, parent := pv, left := lv, right := rv }

/-- The loop of `rb_tree_print` (lines 136-139). -/
def rb_tree_print_loop : Nat → rb_tree α → Option Nat → Except Fault (List (print_line α))
  | 0, _, _ => throw Fault.out_of_fuel
  | fuel + 1, tree, pos =>
    if pos ≠ none then do
      let line ← print_node tree pos
      let nxt ← get_next (fuel + 1) tree pos
      let rest ← rb_tree_print_loop fuel tree nxt
      pure (line :: rest)
    else pure []

/-- The function `rb_tree_print` (lines 132-140): the lines printed, in order. -/
def rb_tree_print (fuel : Nat) (tree : rb_tree α) : Except Fault (List (print_line α)) := do
  let pos ← get_head fuel tree tree.root
  rb_tree_print_loop fuel tree pos

/-- The values visited by the traversal of `rb_tree_print`, in order. -/
def traversal (fuel : Nat) (tree : rb_tree α) : Except Fault (List α) :=
  (rb_tree_print fuel tree).map (fun ls => ls.map (fun l => l.value))

/-! ## Insertion (lines 146-303) -/

/-- The function `get_uncle` (lines 146-156). -/
def get_uncle (tree : rb_tree α) (node : Option Nat) : Except Fault (Option Nat) := do
  assert (node ≠ none)
  let p ← get_parent tree node
  assert (p ≠ none)
  let g ← get_parent tree p
  assert (g ≠ none)
  let gl ← get_left tree g
  if p = gl then get_right tree g else get_left tree g

/-- The function `rotate_right` (lines 158-185). -/
def rotate_right (tree : rb_tree α) (pivot : Option Nat) : Except Fault (rb_tree α) := do
  assert (pivot ≠ none)
  let parent ← get_parent tree pivot
  assert (parent ≠ none)
  let pl ← get_left tree parent
  assert (pivot = pl)
  let child ← get_right tree pivot
  let tree ← set_left tree parent child
  let tree ← (if child ≠ none then set_parent tree child parent else pure tree)
  let pp ← get_parent tree parent
  let tree ← set_parent tree pivot pp
  let pp ← get_parent tree parent
  let tree ← (if pp = none then pure { tree with root := pivot }
    else do
      let ppl ← get_left tree pp
      if parent = ppl then set_left tree pp pivot else set_right tree pp pivot)
  let tree ← set_right tree pivot parent
  set_parent tree parent pivot

/-- The function `rotate_left` (lines 187-214). -/
def rotate_left (tree : rb_tree α) (pivot : Option Nat) : Except Fault (rb_tree α) := do
  assert (pivot ≠ none)
  let parent ← get_parent tree pivot
  assert (parent ≠ none)
  let pr ← get_right tree parent
  assert (pivot = pr)
  let child ← get_left tree pivot
  let tree ← set_right tree parent child
  let tree ← (if child ≠ none then set_parent tree child parent else pure tree)
  let pp ← get_parent tree parent
  let tree ← set_parent tree pivot pp
  let pp ← get_parent tree parent
  let tree ← (if pp = none then pure { tree with root := pivot }
    else do
      let ppl ← get_left tree pp
      if parent = ppl then set_left tree pp pivot else set_right tree pp pivot)
  let tree ← set_left tree pivot parent
  set_parent tree parent pivot

/-- The uncle-red branch of `fix_after_insert` (lines 233-236): repaint and
return the node the loop continues with. -/
def fix_recolour (tree : rb_tree α) (node uncle : Option Nat) :
    Except Fault (rb_tree α × Option Nat) := do
  let tree ← set_red tree uncle false
  let p ← get_parent tree node
  let tree ← set_red tree p false
  let p ← get_parent tree node
  let node ← get_parent tree p
  let tree ← set_red tree node true
  pure (tree, node)

/-- The first rotation of the uncle-black branch (lines 240-246): when the node
is an inner grandchild it is rotated above its parent and the old parent
becomes the current node. -/
def fix_inner (tree : rb_tree α) (node : Option Nat) :
    Except Fault (rb_tree α × Option Nat) := do
  let p ← get_parent tree node
  let pr ← get_right tree p
  let c1 ← (if node = pr then do
      let g ← get_parent tree p
      let gl ← get_left tree g
      pure (decide (p = gl))
    else pure false)
  if c1 then do
    let tree ← rotate_left tree node
    let node ← get_left tree node
    pure (tree, node)
  else do
    let pl ← get_left tree p
    let c2 ← (if node = pl then do
        let g ← get_parent tree p
        let gr ← get_right tree g
        pure (decide (p = gr))
      else pure false)
    if c2 then do
      let tree ← rotate_right tree node
      let node ← get_right tree node
      pure (tree, node)
    else pure (tree, node)

/-- The second rotation of the uncle-black branch and the repainting
(lines 250-257). -/
def fix_outer (tree : rb_tree α) (node : Option Nat) : Except Fault (rb_tree α) := do
  let p ← get_parent tree node
  let pl ← get_left tree p
  let tree ← (if node = pl then do
      let tree ← rotate_right tree p
      let p ← get_parent tree node
      let r ← get_right tree p
      set_red tree r true
    else do
      let tree ← rotate_left tree p
      let p ← get_parent tree node
      let l ← get_left tree p
      set_red tree l true)
  let p ← get_parent tree node
  set_red tree p false

/-- The loop of `fix_after_insert` (lines 220-261). -/
def fix_after_insert_loop : Nat → rb_tree α → Option Nat → Except Fault (rb_tree α)
  | 0, _, _ => throw Fault.out_of_fuel
  | fuel + 1, tree, node => do
    let p ← get_parent tree node
    if p = none then set_red tree node false
    else do
      let pred ← get_red tree p
      if !pred then pure tree
      else do
        let uncle ← get_uncle tree node
        let ured ← (if uncle ≠ none then get_red tree uncle else pure false)
        if ured then do
          let (tree, node) ← fix_recolour tree node uncle
          fix_after_insert_loop fuel tree node
        else do
          let (tree, node) ← fix_inner tree node
          fix_outer tree node

/-- The function `fix_after_insert` (lines 216-262). -/
def fix_after_insert (fuel : Nat) (tree : rb_tree α) (node : Option Nat) :
    Except Fault (rb_tree α) := do
  assert (node ≠ none)
  fix_after_insert_loop fuel tree node

/-- The descent loop of `rb_tree_insert` (lines 274-301); `fix_fuel` is the
fuel handed to `fix_after_insert`. -/
def rb_tree_insert_loop (fix_fuel : Nat) :
    Nat → rb_tree α → Option Nat → α → Except Fault (rb_tree α)
  | 0, _, _, _ => throw Fault.out_of_fuel
  | fuel + 1, tree, pos, value => do
    let pv ← get_value tree pos
    let c := tree.cmp value pv
    if c < 0 then do
      let l ← get_left tree pos
      if l = none then do
        let (tree, node) := create_node tree value
        let tree ← set_parent tree node pos
        let tree ← set_left tree pos node
        fix_after_insert fix_fuel tree node
      else rb_tree_insert_loop fix_fuel fuel tree l value
    else if c > 0 then do
      let r ← get_right tree pos
      if r = none then do
        let (tree, node) := create_node tree value
        let tree ← set_parent tree node pos
        let tree ← set_right tree pos node
        fix_after_insert fix_fuel tree node
      else rb_tree_insert_loop fix_fuel fuel tree r value
    else do
      let old ← get_value tree pos
      let tree := free_value tree old
      set_value tree pos value

/-- The function `rb_tree_insert` (lines 264-303). -/
def rb_tree_insert (fuel : Nat) (tree : rb_tree α) (value : α) : Except Fault (rb_tree α) :=
  if tree.root = none then do
    let (tree, node) := create_node tree value
    let tree := { tree with root := node }
    let tree ← set_parent tree node none
    fix_after_insert fuel tree node
  else rb_tree_insert_loop fuel fuel tree tree.root value

/-! ## Deletion (lines 309-422) -/

/-- The function `replace_with_child` (lines 309-324). -/
def replace_with_child (tree : rb_tree α) (node child : Option Nat) :
    Except Fault (rb_tree α) := do
  assert (node ≠ none)
  assert (child ≠ none)
  let p ← get_parent tree node
  if p = none then
    set_parent { tree with root := child } child none
  else do
    let pl ← get_left tree p
    let tree ← (if pl = node then set_left tree p child else set_right tree p child)
    let p ← get_parent tree node
    set_parent tree child p

/-- The function `detach_node` (lines 326-339). -/
def detach_node (tree : rb_tree α) (node : Option Nat) : Except Fault (rb_tree α) := do
  assert (node ≠ none)
  let p ← get_parent tree node
  if p = none then pure { tree with root := none }
  else do
    let pl ← get_left tree p
    if pl = node then set_left tree p none else set_right tree p none

/-- The function `pick_node_to_delete` (lines 341-356); the inner loop at lines
347-349 is the loop of `get_head`. -/
def pick_node_to_delete (fuel : Nat) (tree : rb_tree α) (node : Option Nat) :
    Except Fault (rb_tree α × Option Nat) := do
  assert (node ≠ none)
  let r ← get_right tree node
  let l ← get_left tree node
  if r ≠ none ∧ l ≠ none then do
    let n ← get_head_loop fuel tree r
    let tmp_value ← get_value tree n
    let nv ← get_value tree node
    let tree ← set_value tree n nv
    let tree ← set_value tree node tmp_value
    pure (tree, n)
  else pure (tree, node)

/-- The function `delete_node` (lines 358-410). -/
def delete_node (fuel : Nat) (tree : rb_tree α) (node : Option Nat) :
    Except Fault (rb_tree α) := do
  assert (node ≠ none)
  let (tree, node) ← pick_node_to_delete fuel tree node
  let l ← get_left tree node
  let r ← get_right tree node
  assert (l = none ∨ r = none)
  let child := if l ≠ none then l else if r ≠ none then r else none
  let red ← get_red tree node
  if red then
    if child = none then detach_node tree node
    else replace_with_child tree node child
  else do
    let cred ← (if child ≠ none then get_red tree child else pure false)
    if cred then do
      let tree ← replace_with_child tree node child
      set_ref tree child false
    else do
      let p ← get_parent tree node
      if p = none then
        free_node { tree with root := none } node
      else do
        let pl ← get_left tree p
        if node = pl then do
          let sibling ← get_right tree p
          let sred ← (if sibling ≠ none then get_red tree sibling else pure false)
          if sred then do
            let tree ← set_red tree sibling false
            let p ← get_parent tree node
            set_red tree p true
          else pure tree
        else pure tree

/-- The function `rb_tree_delete` (lines 412-422): the returned flag and the
state after the call. -/
def rb_tree_delete (fuel : Nat) (tree : rb_tree α) (value : α) :
    Except Fault (Bool × rb_tree α) := do
  let node ← find fuel tree tree.root value
  if node = none then pure (false, tree)
  else do
    let tree ← delete_node fuel tree node
    pure (true, tree)

/-! ## Disposal (lines 429-447) -/

/-- The loop of `rb_tree_dispose` (lines 434-446). -/
def rb_tree_dispose_loop : Nat → rb_tree α → Option Nat → Except Fault (rb_tree α)
  | 0, _, _ => throw Fault.out_of_fuel
  | fuel + 1, tree, node =>
    if node ≠ none then do
      let l ← get_left tree node
      if l ≠ none then do
        let tree ← set_left tree node none
        rb_tree_dispose_loop fuel tree l
      else do
        let r ← get_right tree node
        if node = r then do
          let tree ← set_right tree node none
          rb_tree_dispose_loop fuel tree r
        else do
          let nxt ← get_parent tree node
          let tree ← free_node tree node
          rb_tree_dispose_loop fuel tree nxt
    else pure tree

/-- The function `rb_tree_dispose` (lines 429-447). -/
def rb_tree_dispose (fuel : Nat) (tree : rb_tree α) : Except Fault (rb_tree α) :=
  rb_tree_dispose_loop fuel tree tree.root

/-! ## The driver (main.c) -/

/-- The comparator `cmp_element` (main.c, lines 5-7): the difference of two
`int`s, reduced to 32 bits. -/
def cmp_element (value1 value2 : Int) : Int :=
  (value1 - value2 + 2 ^ 31) % 2 ^ 32 - 2 ^ 31

/-- The array `numbers` of `main` (main.c, line 15). -/
def numbers : List Int := [7, 2, 1, 8, 9, 5, 3, 4, 6, 0]

/-- A heap with no live cell, holding an uninitialised handle. -/
def blank (α : Type) : rb_tree α :=
  { root := none, cmp := fun _ _ => 0, fr := false, mem := fun _ => none, next := 0,
    junk := fun _ => none, destroyed := [], freed := [] }

/-- Insert the values of a list one after the other, as the first loop of `main`
does (main.c, lines 21-25). -/
def insert_all (fuel : Nat) : rb_tree α → List α → Except Fault (rb_tree α)
  | tree, [] => pure tree
  | tree, v :: vs => do
    let tree ← rb_tree_insert fuel tree v
    insert_all fuel tree vs

/-- The state `main` reaches after its insertion loop. -/
def main_inserted (fuel : Nat) : Except Fault (rb_tree Int) :=
  insert_all fuel (rb_tree_init (blank Int) cmp_element false) numbers

/-! ## Abstract trees and the heap they describe -/

/-- A finite binary tree whose nodes carry their heap address, colour and value. -/
inductive Tree (α : Type) where
  | nil : Tree α
  | node (a : Nat) (l : Tree α) (red : Bool) (v : α) (r : Tree α) : Tree α
  deriving DecidableEq, Repr

/-- Pointer to the root cell of a tree. -/
def Tree.ptr : Tree α → Option Nat
  | Tree.nil => none
  | Tree.node a _ _ _ _ => some a

/-- Addresses of the cells of a tree, in order. -/
def Tree.addrs : Tree α → List Nat
  | Tree.nil => []
  | Tree.node a l _ _ r => l.addrs ++ a :: r.addrs

/-- Values of a tree, in order. -/
def Tree.values : Tree α → List α
  | Tree.nil => []
  | Tree.node _ l _ v r => l.values ++ v :: r.values

/-- Number of nodes on the longest downward path. -/
def Tree.height : Tree α → Nat
  | Tree.nil => 0
  | Tree.node _ l _ _ r => max l.height r.height + 1

/-- Colour of the root; an absent tree counts as black. -/
def Tree.isRed : Tree α → Bool
  | Tree.nil => false
  | Tree.node _ _ c _ _ => c

/-- The heap holds the tree `t` below a cell whose address is `par`: every node
of `t` is a live cell with exactly the recorded fields, and the parent field of
every cell is the address of the node above it. -/
def Models (mem : Nat → Option (rb_node α)) : Option Nat → Tree α → Prop
  | _, Tree.nil => True
  | par, Tree.node a l c v r =>
    mem a = some { parent := par, left := l.ptr, right := r.ptr, red := c, value := v } ∧
    Models mem (some a) l ∧ Models mem (some a) r

/-- The state `s` holds the well-formed tree `t`: the handle points to its root,
child and parent pointers agree, no cell occurs twice, and every cell was
handed out by the allocator. -/
structure Rep (s : rb_tree α) (t : Tree α) : Prop where
  root : s.root = t.ptr
  models : Models s.mem none t
  nodup : t.addrs.Nodup
  live : ∀ a ∈ t.addrs, a < s.next

/-- Invariant 1: every value of a left subtree compares less than the value of
the node, every value of a right subtree compares greater. -/
def Tree.bst (cmp : α → α → Int) : Tree α → Prop
  | Tree.nil => True
  | Tree.node _ l _ v r =>
    (∀ x ∈ l.values, cmp x v < 0) ∧ (∀ x ∈ r.values, cmp x v > 0) ∧ l.bst cmp ∧ r.bst cmp

/-- Invariant 3: no red node has a red child. -/
def Tree.noRedRed : Tree α → Prop
  | Tree.nil => True
  | Tree.node _ l c _ r =>
    (c = true → l.isRed = false ∧ r.isRed = false) ∧ l.noRedRed ∧ r.noRedRed

/-- Number of black nodes on each path from the root to an absent child, one
entry per path. -/
def Tree.blackCounts : Tree α → List Nat
  | Tree.nil => [0]
  | Tree.node _ l c _ r =>
    (l.blackCounts ++ r.blackCounts).map (fun k => k + (if c then 0 else 1))

/-- Invariant 4: all paths from the root to an absent child hold the same number
of black nodes. -/
def Tree.equalBlack (t : Tree α) : Prop :=
  ∀ x ∈ t.blackCounts, ∀ y ∈ t.blackCounts, x = y

/-- The four red-black invariants of an abstract tree. -/
structure Tree.valid (cmp : α → α → Int) (t : Tree α) : Prop where
  bst : t.bst cmp
  root_black : t.isRed = false
  no_red_red : t.noRedRed
  equal_black : t.equalBlack

/-- The state holds a well-formed tree that satisfies the four red-black
invariants. -/
def rb_valid (s : rb_tree α) : Prop := ∃ t, Rep s t ∧ t.valid s.cmp

/-- The comparator is a three-way comparison of a strict total order (section 3:
equal values never coexist; section 6: total order). -/
structure TotalCmp (cmp : α → α → Int) : Prop where
  symm : ∀ a b, cmp a b < 0 ↔ 0 < cmp b a
  trans : ∀ a b c, cmp a b < 0 → cmp b c < 0 → cmp a c < 0
  eq_left : ∀ a b c, cmp a b = 0 → cmp b c < 0 → cmp a c < 0
  eq_right : ∀ a b c, cmp a b = 0 → cmp c b < 0 → cmp c a < 0

/-- The comparator realises the order of the integers. -/
def IntOrder (cmp : Int → Int → Int) : Prop :=
  ∀ a b, (cmp a b < 0 ↔ a < b) ∧ (0 < cmp a b ↔ b < a)

/-- Black height along the leftmost path. -/
def Tree.bh : Tree α → Nat
  | Tree.nil => 0
  | Tree.node _ l c _ _ => l.bh + (if c then 0 else 1)

/-- Both subtrees of every node have the same black height. -/
def Tree.balanced : Tree α → Prop
  | Tree.nil => True
  | Tree.node _ l _ _ r => l.bh = r.bh ∧ l.balanced ∧ r.balanced

/-- One step of a path from a node down to a hole: `L` when the hole is the left
child (the sibling is the right subtree), `R` when it is the right child. -/
inductive Frame (α : Type) where
  | L (a : Nat) (red : Bool) (v : α) (sib : Tree α) : Frame α
  | R (a : Nat) (red : Bool) (v : α) (sib : Tree α) : Frame α

/-- Address of the node of a frame. -/
def Frame.addr : Frame α → Nat
  | Frame.L a _ _ _ => a
  | Frame.R a _ _ _ => a

/-- Colour of the node of a frame. -/
def Frame.red : Frame α → Bool
  | Frame.L _ c _ _ => c
  | Frame.R _ c _ _ => c

/-- Value of the node of a frame. -/
def Frame.value : Frame α → α
  | Frame.L _ _ v _ => v
  | Frame.R _ _ v _ => v

/-- The subtree hanging off the frame beside the hole. -/
def Frame.sib : Frame α → Tree α
  | Frame.L _ _ _ t => t
  | Frame.R _ _ _ t => t

/-- Put a tree into the hole of a frame. -/
def Frame.fill : Frame α → Tree α → Tree α
  | Frame.L a c v sib, t => Tree.node a t c v sib
  | Frame.R a c v sib, t => Tree.node a sib c v t

/-- Put a tree into the hole of a path; the first frame is the one next to the
hole. -/
def plug : List (Frame α) → Tree α → Tree α
  | [], t => t
  | f :: fs, t => plug fs (f.fill t)

/-- Pointer to the node right above the hole. -/
def ctxPtr : List (Frame α) → Option Nat
  | [] => none
  | f :: _ => some f.addr

/-- Addresses of a path: its nodes and their side subtrees. -/
def ctxAddrs : List (Frame α) → List Nat
  | [] => []
  | f :: fs => f.addr :: f.sib.addrs ++ ctxAddrs fs

/-- Values that come before the hole in order. -/
def ctxPre : List (Frame α) → List α
  | [] => []
  | Frame.L _ _ _ _ :: fs => ctxPre fs
  | Frame.R _ _ v sib :: fs => ctxPre fs ++ sib.values ++ [v]

/-- Values that come after the hole in order. -/
def ctxPost : List (Frame α) → List α
  | [] => []
  | Frame.L _ _ v sib :: fs => v :: sib.values ++ ctxPost fs
  | Frame.R _ _ _ _ :: fs => ctxPost fs

/-- Colour conditions on a path around a hole of black height `h`: every side
subtree is balanced with the matching black height and free of red-red pairs,
and a red node on the path has a black sibling subtree and a black node above
it (so the topmost node is black). -/
def CtxOK : List (Frame α) → Nat → Prop
  | [], _ => True
  | f :: fs, h =>
    f.sib.noRedRed ∧ f.sib.balanced ∧ f.sib.bh = h ∧
    (f.red = true → f.sib.isRed = false ∧ ∃ g gs, fs = g :: gs ∧ g.red = false) ∧
    CtxOK fs (h + (if f.red then 0 else 1))

/-- The fields of the state that insertion-time repainting and rotation never
touch. -/
def SameAux (s s' : rb_tree α) : Prop :=
  s'.cmp = s.cmp ∧ s'.fr = s.fr ∧ s'.next = s.next ∧ s'.junk = s.junk ∧
  s'.destroyed = s.destroyed ∧ s'.freed = s.freed

/-- Read the tree below a pointer back from the heap, checking every parent
field on the way. -/
def readTree : Nat → (Nat → Option (rb_node α)) → Option Nat → Option Nat → Option (Tree α)
  | 0, _, _, _ => none
  | _ + 1, _, _, none => some Tree.nil
  | fuel + 1, mem, par, some a =>
    match mem a with
    | none => none
    | some n =>
      if n.parent = par then
        match readTree fuel mem (some a) n.left, readTree fuel mem (some a) n.right with
        | some l, some r => some (Tree.node a l n.red n.value r)
        | _, _ => none
      else none

/-- Repaint the node of a frame. -/
def Frame.paint : Frame α → Bool → Frame α
  | Frame.L a _ v t, c => Frame.L a c v t
  | Frame.R a _ v t, c => Frame.R a c v t

/-- Replace the side subtree of a frame. -/
def Frame.withSib : Frame α → Tree α → Frame α
  | Frame.L a c v _, t => Frame.L a c v t
  | Frame.R a c v _, t => Frame.R a c v t

/-- Repaint the root of a tree. -/
def Tree.paint : Tree α → Bool → Tree α
  | Tree.nil, _ => Tree.nil
  | Tree.node a l _ v r, c => Tree.node a l c v r

/-- The ordered list `new` arises from the ordered list `old` by putting `v` at
its place, in exchange for the element that compares equal to `v` when there is
one. -/
def InsertedInto (cmp : α → α → Int) (v : α) (old new : List α) : Prop :=
  ∃ pre post, new = pre ++ v :: post ∧ (∀ y ∈ pre, cmp y v < 0) ∧ (∀ y ∈ post, cmp v y < 0) ∧
    (old = pre ++ post ∨ ∃ o, cmp v o = 0 ∧ old = pre ++ o :: post)

/-- Three-way comparison of unbounded integers: `cmp_element` on values whose
difference fits an `int`. -/
def cmp_int (value1 value2 : Int) : Int := value1 - value2

/-- A freshly initialised handle over an empty heap, ordered by `cmp_int`, with a
destructor supplied. -/
def fresh : rb_tree Int := rb_tree_init (blank Int) cmp_int true

/-- A heap that holds the one-node tree with the black root 7 at address 0, ordered
by `cmp_int`, with a destructor supplied. -/
def single : rb_tree Int :=
  { root := some 0, cmp := cmp_int, fr := true,
    mem := fun k =>
      if k = 0 then
        some { parent := none, left := none, right := none, red := false, value := 7 }
      else none,
    next := 1, junk := fun _ => none, destroyed := [], freed := [] }

/-- Every address of `A` is a live cell whose three pointers are absent or lie in
`A` again. -/
def Closed (mem : Nat → Option (rb_node α)) (A : List Nat) : Prop :=
  ∀ a ∈ A, ∃ n, mem a = some n ∧ (∀ p, n.parent = some p → p ∈ A) ∧
    (∀ p, n.left = some p → p ∈ A) ∧ (∀ p, n.right = some p → p ∈ A)

/-- The state reached by inserting a list of integers into `fresh`. -/
def tree_of (vs : List Int) : rb_tree Int :=
  match insert_all 20 fresh vs with
  | Except.ok s => s
  | Except.error _ => fresh

/-- The state after `rb_tree_delete`, whatever flag it returned. -/
def after_delete (s : rb_tree Int) (v : Int) : rb_tree Int :=
  match rb_tree_delete 20 s v with
  | Except.ok r => r.2
  | Except.error _ => s

/-- The state after `rb_tree_dispose`. -/
def after_dispose (s : rb_tree Int) : rb_tree Int :=
  match rb_tree_dispose 20 s with
  | Except.ok r => r
  | Except.error _ => s

/-! ## Further notions used by the statements about rotation, deletion and disposal -/

/-- The left spine of a tree: address and value of the root, of its left child,
and so on down to the leftmost node. -/
def Tree.spine : Tree α → List (Nat × α)
  | Tree.nil => []
  | Tree.node a l _ v _ => (a, v) :: l.spine

/-- A seven-node red-black tree over the integers 1..7: the black root 4 at
address 0, its red left child 2 with the black leaves 1 and 3, and its black
right child 6 with the red leaves 5 and 7. -/
def sample_tree : Tree Int :=
  Tree.node 0
    (Tree.node 1 (Tree.node 3 Tree.nil false 1 Tree.nil) true 2
      (Tree.node 4 Tree.nil false 3 Tree.nil))
    false 4
    (Tree.node 2 (Tree.node 5 Tree.nil true 5 Tree.nil) false 6
      (Tree.node 6 Tree.nil true 7 Tree.nil))

/-- The heap cells of `sample_tree`, listed by address. -/
def sample_cells : List (rb_node Int) :=
  [⟨none, some 1, some 2, false, 4⟩, ⟨some 0, some 3, some 4, true, 2⟩,
   ⟨some 0, some 5, some 6, false, 6⟩, ⟨some 1, none, none, false, 1⟩,
   ⟨some 1, none, none, false, 3⟩, ⟨some 2, none, none, true, 5⟩,
   ⟨some 2, none, none, true, 7⟩]

/-- A state that holds `sample_tree`, ordered by `cmp_int`, with a destructor
supplied. -/
def sample : rb_tree Int :=
  { root := some 0, cmp := cmp_int, fr := true, mem := fun k => sample_cells[k]?,
    next := 7, junk := fun _ => none, destroyed := [], freed := [] }

/-- The colour and the value of a cell: the two fields a rotation has no
business with. -/
def rb_node.payload (n : rb_node α) : Bool × α := (n.red, n.value)

/-- Every address is live in both heaps or in neither, and a live cell has the
same colour and the same value in both. -/
def SamePayload (s s' : rb_tree α) : Prop :=
  ∀ a, (s'.mem a).map rb_node.payload = (s.mem a).map rb_node.payload

/-- The last branch of `delete_node` (rb_tree.c lines 389-409) on its own, the
one taken for a black node without a red child: the root is unhooked from the
handle and freed; any other node stays where it is, and when it is a left child
with a red sibling, the sibling is painted black and the parent red. -/
def delete_leaf (tree : rb_tree α) (node : Option Nat) : Except Fault (rb_tree α) := do
  let p ← get_parent tree node
  if p = none then
    free_node { tree with root := none } node
  else do
    let pl ← get_left tree p
    if node = pl then do
      let sibling ← get_right tree p
      let sred ← (if sibling ≠ none then get_red tree sibling else pure false)
      if sred then do
        let tree ← set_red tree sibling false
        let p ← get_parent tree node
        set_red tree p true
      else pure tree
    else pure tree

/-- Parent references are the exact inverses of child references on the nodes of
`t`: the cell the handle points to has no parent, and every child pointer of a
node of `t` leads to a live cell whose parent field is the address of that
node. -/
def ParentInverse (s : rb_tree α) (t : Tree α) : Prop :=
  (∀ r, s.root = some r → ∃ n, s.mem r = some n ∧ n.parent = none) ∧
  ∀ a ∈ t.addrs, ∃ n, s.mem a = some n ∧
    (∀ c, n.left = some c → c ∈ t.addrs ∧ ∃ k, s.mem c = some k ∧ k.parent = some a) ∧
    (∀ c, n.right = some c → c ∈ t.addrs ∧ ∃ k, s.mem c = some k ∧ k.parent = some a)

/-- The state `sample` with an allocator that hands out cells whose `parent`
field holds a stale address. -/
def sample_stale : rb_tree Int :=
  { sample with junk := fun _ => some 5 }

/-- The state reached by inserting a list of integers into a given state. -/
def after_inserts (s : rb_tree Int) (vs : List Int) : rb_tree Int :=
  match insert_all 20 s vs with
  | Except.ok r => r
  | Except.error _ => s

/-- The state `main`-style client code reaches by inserting 10, 20, ..., 60,
deleting 10 and inserting 5 and 15. -/
def red_rooted : rb_tree Int :=
  after_inserts (after_delete (tree_of [10, 20, 30, 40, 50, 60]) 10) [5, 15]

/-- The tree held by `red_rooted`: its root 20 is red. -/
def red_rooted_tree : Tree Int :=
  Tree.node 1
    (Tree.node 0 (Tree.node 6 Tree.nil true 5 Tree.nil) false 10
      (Tree.node 7 Tree.nil true 15 Tree.nil))
    true 20
    (Tree.node 3 (Tree.node 2 Tree.nil false 30 Tree.nil) false 40
      (Tree.node 4 Tree.nil false 50 (Tree.node 5 Tree.nil true 60 Tree.nil)))

/-! ### Insertion with a count of the rotations

The functions below are `fix_inner`, `fix_outer`, the loop of
`fix_after_insert`, `fix_after_insert`, the loop of `rb_tree_insert` and
`rb_tree_insert` once more, statement by statement, with one addition: next to
the state they return the number of calls of `rotate_left` and `rotate_right`
they made. -/

/-- The function `fix_inner` with the number of rotations it made. -/
def fix_inner_counted (tree : rb_tree α) (node : Option Nat) :
    Except Fault ((rb_tree α × Option Nat) × Nat) := do
  let p ← get_parent tree node
  let pr ← get_right tree p
  let c1 ← (if node = pr then do
      let g ← get_parent tree p
      let gl ← get_left tree g
      pure (decide (p = gl))
    else pure false)
  if c1 then do
    let tree ← rotate_left tree node
    let node ← get_left tree node
    pure ((tree, node), 1)
  else do
    let pl ← get_left tree p
    let c2 ← (if node = pl then do
        let g ← get_parent tree p
        let gr ← get_right tree g
        pure (decide (p = gr))
      else pure false)
    if c2 then do
      let tree ← rotate_right tree node
      let node ← get_right tree node
      pure ((tree, node), 1)
    else pure ((tree, node), 0)

/-- The function `fix_outer` with the number of rotations it made. -/
def fix_outer_counted (tree : rb_tree α) (node : Option Nat) :
    Except Fault (rb_tree α × Nat) := do
  let p ← get_parent tree node
  let pl ← get_left tree p
  let tree ← (if node = pl then do
      let tree ← rotate_right tree p
      let p ← get_parent tree node
      let r ← get_right tree p
      set_red tree r true
    else do
      let tree ← rotate_left tree p
      let p ← get_parent tree node
      let l ← get_left tree p
      set_red tree l true)
  let p ← get_parent tree node
  let tree ← set_red tree p false
  pure (tree, 1)

/-- The loop of `fix_after_insert` with the number of rotations it made. -/
def fix_after_insert_loop_counted :
    Nat → rb_tree α → Option Nat → Except Fault (rb_tree α × Nat)
  | 0, _, _ => throw Fault.out_of_fuel
  | fuel + 1, tree, node => do
    let p ← get_parent tree node
    if p = none then do
      let tree ← set_red tree node false
      pure (tree, 0)
    else do
      let pred ← get_red tree p
      if !pred then pure (tree, 0)
      else do
        let uncle ← get_uncle tree node
        let ured ← (if uncle ≠ none then get_red tree uncle else pure false)
        if ured then do
          let x ← fix_recolour tree node uncle
          fix_after_insert_loop_counted fuel x.1 x.2
        else do
          let x ← fix_inner_counted tree node
          let y ← fix_outer_counted x.1.1 x.1.2
          pure (y.1, x.2 + y.2)

/-- The function `fix_after_insert` with the number of rotations it made. -/
def fix_after_insert_counted (fuel : Nat) (tree : rb_tree α) (node : Option Nat) :
    Except Fault (rb_tree α × Nat) := do
  assert (node ≠ none)
  fix_after_insert_loop_counted fuel tree node

/-- The descent loop of `rb_tree_insert` with the number of rotations made. -/
def rb_tree_insert_loop_counted (fix_fuel : Nat) :
    Nat → rb_tree α → Option Nat → α → Except Fault (rb_tree α × Nat)
  | 0, _, _, _ => throw Fault.out_of_fuel
  | fuel + 1, tree, pos, value => do
    let pv ← get_value tree pos
    let c := tree.cmp value pv
    if c < 0 then do
      let l ← get_left tree pos
      if l = none then do
        let (tree, node) := create_node tree value
        let tree ← set_parent tree node pos
        let tree ← set_left tree pos node
        fix_after_insert_counted fix_fuel tree node
      else rb_tree_insert_loop_counted fix_fuel fuel tree l value
    else if c > 0 then do
      let r ← get_right tree pos
      if r = none then do
        let (tree, node) := create_node tree value
        let tree ← set_parent tree node pos
        let tree ← set_right tree pos node
        fix_after_insert_counted fix_fuel tree node
      else rb_tree_insert_loop_counted fix_fuel fuel tree r value
    else do
      let old ← get_value tree pos
      let tree := free_value tree old
      let tree ← set_value tree pos value
      pure (tree, 0)

/-- The function `rb_tree_insert` with the number of rotations it made. -/
def rb_tree_insert_counted (fuel : Nat) (tree : rb_tree α) (value : α) :
    Except Fault (rb_tree α × Nat) :=
  if tree.root = none then do
    let (tree, node) := create_node tree value
    let tree := { tree with root := node }
    let tree ← set_parent tree node none
    fix_after_insert_counted fuel tree node
  else rb_tree_insert_loop_counted fuel fuel tree tree.root value

/-- The condition under which the loop of `fix_after_insert` runs during an
insertion into a valid tree: the current node is red, its subtree has no
red-red pair and equal black heights, and the path above it is fine for a black
node of the same black height. -/
def LoopInv (s : rb_tree α) (K : List (Frame α)) (n : Nat) (l : Tree α) (v : α)
    (r : Tree α) : Prop :=
  Rep s (plug K (Tree.node n l true v r)) ∧ (Tree.node n l true v r).noRedRed ∧
  (Tree.node n l true v r).balanced ∧ CtxOK K (Tree.node n l true v r).bh

/-- The three pointer fields of a cell. -/
def rb_node.links (n : rb_node α) : Option Nat × Option Nat × Option Nat :=
  (n.parent, n.left, n.right)

/-! ## Running the memory primitives -/

@[simp] theorem ok_bind {β γ : Type} (a : β) (f : β → Except Fault γ) :
    (Except.ok a >>= f) = f a := rfl

@[simp] theorem error_bind {β γ : Type} (e : Fault) (f : β → Except Fault γ) :
    ((Except.error e : Except Fault β) >>= f) = Except.error e := rfl

@[simp] theorem pure_eq_ok {β : Type} (a : β) : (pure a : Except Fault β) = Except.ok a := rfl

@[simp] theorem throw_eq_error {β : Type} (e : Fault) :
    (throw e : Except Fault β) = Except.error e := rfl

@[simp] theorem map_ok {β γ : Type} (a : β) (f : β → γ) :
    (Except.ok a : Except Fault β).map f = Except.ok (f a) := rfl

@[simp] theorem assert_true : assert true = Except.ok () := rfl

@[simp] theorem assert_false : assert false = Except.error Fault.assert_failed := rfl

@[simp] theorem store_mem (s : rb_tree α) (a : Nat) (n : rb_node α) (k : Nat) :
    (store s a n).mem k = if k = a then some n else s.mem k := rfl

@[simp] theorem store_root (s : rb_tree α) (a : Nat) (n : rb_node α) :
    (store s a n).root = s.root := rfl

@[simp] theorem store_next (s : rb_tree α) (a : Nat) (n : rb_node α) :
    (store s a n).next = s.next := rfl

@[simp] theorem store_cmp (s : rb_tree α) (a : Nat) (n : rb_node α) :
    (store s a n).cmp = s.cmp := rfl

@[simp] theorem store_fr (s : rb_tree α) (a : Nat) (n : rb_node α) :
    (store s a n).fr = s.fr := rfl

@[simp] theorem store_junk (s : rb_tree α) (a : Nat) (n : rb_node α) :
    (store s a n).junk = s.junk := rfl

@[simp] theorem store_destroyed (s : rb_tree α) (a : Nat) (n : rb_node α) :
    (store s a n).destroyed = s.destroyed := rfl

@[simp] theorem store_freed (s : rb_tree α) (a : Nat) (n : rb_node α) :
    (store s a n).freed = s.freed := rfl

theorem load_of_mem {s : rb_tree α} {a : Nat} {n : rb_node α} (h : s.mem a = some n) :
    load s (some a) = Except.ok n := by
  simp [load, h]

theorem get_parent_of_mem {s : rb_tree α} {a : Nat} {n : rb_node α} (h : s.mem a = some n) :
    get_parent s (some a) = Except.ok n.parent := by
  simp [get_parent, load, h]

theorem get_left_of_mem {s : rb_tree α} {a : Nat} {n : rb_node α} (h : s.mem a = some n) :
    get_left s (some a) = Except.ok n.left := by
  simp [get_left, load, h]

theorem get_right_of_mem {s : rb_tree α} {a : Nat} {n : rb_node α} (h : s.mem a = some n) :
    get_right s (some a) = Except.ok n.right := by
  simp [get_right, load, h]

theorem get_red_of_mem {s : rb_tree α} {a : Nat} {n : rb_node α} (h : s.mem a = some n) :
    get_red s (some a) = Except.ok n.red := by
  simp [get_red, load, h]

theorem get_value_of_mem {s : rb_tree α} {a : Nat} {n : rb_node α} (h : s.mem a = some n) :
    get_value s (some a) = Except.ok n.value := by
  simp [get_value, load, h]

theorem modify_of_mem {s : rb_tree α} {a : Nat} {n : rb_node α} (h : s.mem a = some n)
    (f : rb_node α → rb_node α) : modify s (some a) f = Except.ok (store s a (f n)) := by
  simp [modify, h]

/-! ## Trees in the heap -/

theorem models_congr {mem mem' : Nat → Option (rb_node α)} {par : Option Nat} {t : Tree α}
    (h : Models mem par t) (hagree : ∀ a ∈ t.addrs, mem' a = mem a) : Models mem' par t := by
  induction t generalizing par with
  | nil => trivial
  | node a l c v r ihl ihr =>
    obtain ⟨hc, hl, hr⟩ := h
    refine ⟨?_, ihl hl ?_, ihr hr ?_⟩
    · rw [hagree a (by simp [Tree.addrs])]; exact hc
    · intro b hb; exact hagree b (by simp [Tree.addrs, hb])
    · intro b hb; exact hagree b (by simp [Tree.addrs, hb])

theorem models_plug {mem : Nat → Option (rb_node α)} {K : List (Frame α)} {t : Tree α}
    (h : Models mem none (plug K t)) : Models mem (ctxPtr K) t := by
  induction K generalizing t with
  | nil => exact h
  | cons f F ih =>
    have h1 := ih (t := f.fill t) h
    cases f with
    | L a c v sib => exact h1.2.1
    | R a c v sib => exact h1.2.2

theorem ptr_plug_cons (f : Frame α) (F : List (Frame α)) (t w : Tree α) :
    (plug (f :: F) t).ptr = (plug (f :: F) w).ptr := by
  induction F generalizing f t w with
  | nil => cases f <;> rfl
  | cons g G ih => exact ih g (f.fill t) (f.fill w)

theorem ptr_plug_of_ptr (K : List (Frame α)) {t w : Tree α} (h : t.ptr = w.ptr) :
    (plug K t).ptr = (plug K w).ptr := by
  cases K with
  | nil => exact h
  | cons f F => exact ptr_plug_cons f F t w

theorem addrs_plug (K : List (Frame α)) (t : Tree α) :
    List.Perm (plug K t).addrs (t.addrs ++ ctxAddrs K) := by
  induction K generalizing t with
  | nil => simp [plug, ctxAddrs]
  | cons f F ih =>
    refine (ih (f.fill t)).trans ?_
    cases f with
    | L a c v sib =>
      simp only [Frame.fill, Tree.addrs, ctxAddrs, Frame.addr, Frame.sib, List.append_assoc,
        List.cons_append]
      exact List.Perm.refl _
    | R a c v sib =>
      simp only [Frame.fill, Tree.addrs, ctxAddrs, Frame.addr, Frame.sib, List.append_assoc,
        List.cons_append]
      have : List.Perm (sib.addrs ++ a :: t.addrs) (t.addrs ++ a :: sib.addrs) := by
        refine (List.perm_append_comm).trans ?_
        simp only [List.cons_append]
        exact List.perm_middle.symm
      simpa [List.append_assoc] using List.Perm.append_right (ctxAddrs F) this

theorem values_plug (K : List (Frame α)) (t : Tree α) :
    (plug K t).values = ctxPre K ++ t.values ++ ctxPost K := by
  induction K generalizing t with
  | nil => simp [plug, ctxPre, ctxPost]
  | cons f F ih =>
    cases f with
    | L a c v sib => simp [plug, ih, Frame.fill, Tree.values, ctxPre, ctxPost]
    | R a c v sib => simp [plug, ih, Frame.fill, Tree.values, ctxPre, ctxPost]

theorem models_plug_replace {mem mem' : Nat → Option (rb_node α)} {K : List (Frame α)}
    {t w : Tree α} (h : Models mem none (plug K t))
    (hagree : ∀ a ∈ ctxAddrs K, mem' a = mem a)
    (hptr : K ≠ [] → w.ptr = t.ptr) (ht' : Models mem' (ctxPtr K) w) :
    Models mem' none (plug K w) := by
  induction K generalizing t w with
  | nil => exact ht'
  | cons f F ih =>
    have hf := models_plug (K := F) (t := f.fill t) h
    have hp := hptr (by simp)
    refine ih (t := f.fill t) (w := f.fill w) h ?_ ?_ ?_
    · intro a ha; exact hagree a (by simp [ctxAddrs, ha])
    · intro _; cases f <;> rfl
    · cases f with
      | L a c v sib =>
        obtain ⟨hc, _, hs⟩ := hf
        refine ⟨?_, ht', models_congr hs ?_⟩
        · rw [hagree a (by simp [ctxAddrs, Frame.addr]), hc, hp]
        · intro b hb; exact hagree b (by simp [ctxAddrs, Frame.sib, hb])
      | R a c v sib =>
        obtain ⟨hc, hs, _⟩ := hf
        refine ⟨?_, models_congr hs ?_, ht'⟩
        · rw [hagree a (by simp [ctxAddrs, Frame.addr]), hc, hp]
        · intro b hb; exact hagree b (by simp [ctxAddrs, Frame.sib, hb])

theorem rep_nodup_split {s : rb_tree α} {K : List (Frame α)} {t : Tree α}
    (h : Rep s (plug K t)) : (t.addrs ++ ctxAddrs K).Nodup :=
  (addrs_plug K t).nodup_iff.mp h.nodup

theorem rep_focus {s : rb_tree α} {K : List (Frame α)} {a : Nat} {l r : Tree α} {c : Bool}
    {v : α} (h : Rep s (plug K (Tree.node a l c v r))) :
    s.mem a = some { parent := ctxPtr K, left := l.ptr, right := r.ptr, red := c, value := v } :=
  (models_plug h.models).1

theorem rep_replace {s s' : rb_tree α} {K : List (Frame α)} {t w : Tree α}
    (h : Rep s (plug K t))
    (hroot : s'.root = (plug K w).ptr)
    (hagree : ∀ a ∈ ctxAddrs K, s'.mem a = s.mem a)
    (hptr : K ≠ [] → w.ptr = t.ptr)
    (ht' : Models s'.mem (ctxPtr K) w)
    (hnd : w.addrs.Nodup) (hdisj : ∀ a ∈ w.addrs, a ∉ ctxAddrs K)
    (hlive : ∀ a ∈ w.addrs, a < s'.next) (hnext : s.next ≤ s'.next) :
    Rep s' (plug K w) := by
  have hsplit := rep_nodup_split h
  have hlive0 := h.live
  refine ⟨hroot, models_plug_replace h.models hagree hptr ht', ?_, ?_⟩
  · rw [(addrs_plug K w).nodup_iff]
    rw [List.nodup_append] at hsplit ⊢
    exact ⟨hnd, hsplit.2.1, fun a ha hb => hdisj a ha hb⟩
  · intro a ha
    have ha' := (addrs_plug K w).mem_iff.mp ha
    rcases List.mem_append.mp ha' with h1 | h1
    · exact hlive a h1
    · have : a ∈ (plug K t).addrs :=
        (addrs_plug K t).mem_iff.mpr (List.mem_append.mpr (Or.inr h1))
      exact lt_of_lt_of_le (hlive0 a this) hnext

theorem rep_replace_perm {s s' : rb_tree α} {K : List (Frame α)} {t w : Tree α}
    (h : Rep s (plug K t))
    (hroot : s'.root = (plug K w).ptr)
    (hagree : ∀ a ∈ ctxAddrs K, s'.mem a = s.mem a)
    (hptr : K ≠ [] → w.ptr = t.ptr)
    (ht' : Models s'.mem (ctxPtr K) w)
    (hperm : List.Perm w.addrs t.addrs) (hnext : s'.next = s.next) :
    Rep s' (plug K w) := by
  have hsplit := rep_nodup_split h
  rw [List.nodup_append] at hsplit
  refine rep_replace h hroot hagree hptr ht' (hperm.nodup_iff.mpr hsplit.1) ?_ ?_ (le_of_eq hnext.symm)
  · intro a ha hb
    exact hsplit.2.2 (hperm.mem_iff.mp ha) hb
  · intro a ha
    rw [hnext]
    exact h.live a ((addrs_plug K t).mem_iff.mpr
      (List.mem_append.mpr (Or.inl (hperm.mem_iff.mp ha))))

theorem rep_root_cons {s : rb_tree α} {f : Frame α} {F : List (Frame α)} {t : Tree α}
    (h : Rep s (plug (f :: F) t)) (w : Tree α) : s.root = (plug (f :: F) w).ptr := by
  rw [h.root]; exact ptr_plug_cons f F t w

@[simp] theorem ctxPtr_nil : ctxPtr ([] : List (Frame α)) = none := rfl

@[simp] theorem ctxPtr_cons (f : Frame α) (F : List (Frame α)) :
    ctxPtr (f :: F) = some f.addr := rfl

@[simp] theorem addr_L (a : Nat) (c : Bool) (v : α) (t : Tree α) : (Frame.L a c v t).addr = a := rfl

@[simp] theorem addr_R (a : Nat) (c : Bool) (v : α) (t : Tree α) : (Frame.R a c v t).addr = a := rfl

@[simp] theorem sib_L (a : Nat) (c : Bool) (v : α) (t : Tree α) : (Frame.L a c v t).sib = t := rfl

@[simp] theorem sib_R (a : Nat) (c : Bool) (v : α) (t : Tree α) : (Frame.R a c v t).sib = t := rfl

@[simp] theorem red_L (a : Nat) (c : Bool) (v : α) (t : Tree α) : (Frame.L a c v t).red = c := rfl

@[simp] theorem red_R (a : Nat) (c : Bool) (v : α) (t : Tree α) : (Frame.R a c v t).red = c := rfl

@[simp] theorem fill_L (a : Nat) (c : Bool) (v : α) (t u : Tree α) :
    (Frame.L a c v t).fill u = Tree.node a u c v t := rfl

@[simp] theorem fill_R (a : Nat) (c : Bool) (v : α) (t u : Tree α) :
    (Frame.R a c v t).fill u = Tree.node a t c v u := rfl

@[simp] theorem isRed_nil : (Tree.nil : Tree α).isRed = false := rfl

@[simp] theorem isRed_node (a : Nat) (l r : Tree α) (c : Bool) (v : α) :
    (Tree.node a l c v r).isRed = c := rfl

@[simp] theorem plug_nil (t : Tree α) : plug [] t = t := rfl

@[simp] theorem plug_cons (f : Frame α) (F : List (Frame α)) (t : Tree α) :
    plug (f :: F) t = plug F (f.fill t) := rfl

@[simp] theorem ptr_nil : (Tree.nil : Tree α).ptr = none := rfl

@[simp] theorem ptr_node (a : Nat) (l r : Tree α) (c : Bool) (v : α) :
    (Tree.node a l c v r).ptr = some a := rfl

theorem ptr_mem_addrs {t : Tree α} {a : Nat} (h : t.ptr = some a) : a ∈ t.addrs := by
  cases t with
  | nil => simp at h
  | node b l c v r =>
    simp only [ptr_node, Option.some.injEq] at h
    simp [Tree.addrs, h]

theorem ptr_ne_of_not_mem {t : Tree α} {a : Nat} (h : a ∉ t.addrs) : ¬ some a = t.ptr :=
  fun e => h (ptr_mem_addrs e.symm)


/-! ## Rotations on well-formed trees -/

theorem rotate_left_rep {s : rb_tree α} {K : List (Frame α)} {p x : Nat} {A B C : Tree α}
    {cp cx : Bool} {vp vx : α}
    (h : Rep s (plug K (Tree.node p A cp vp (Tree.node x B cx vx C)))) :
    ∃ s', rotate_left s (some x) = Except.ok s' ∧
      Rep s' (plug K (Tree.node x (Tree.node p A cp vp B) cx vx C)) ∧ SameAux s s' := by
  have hnd := rep_nodup_split h
  rcases K with _ | ⟨(⟨g, cg, vg, sib⟩ | ⟨g, cg, vg, sib⟩), G⟩ <;>
    rcases B with _ | ⟨b, Bl, cb, vb, Br⟩
  · have hm := h.models
    simp only [plug_nil, fill_L, fill_R, Models, ptr_node, ptr_nil, ctxPtr_nil, ctxPtr_cons, addr_L, addr_R] at hm
    obtain ⟨hp, hA, hx, -, hC⟩ := hm
    simp only [Tree.addrs, ctxAddrs, addr_L, addr_R, sib_L, sib_R] at hnd
    simp [List.nodup_append, List.nodup_cons, not_or] at hnd
    have hpx : p ≠ x := by simp [hnd]
    simp [rotate_left, get_parent, get_left, get_right, set_right, set_left, set_parent, load,
      modify, hp, hx, hpx, hpx.symm]
    refine ⟨?_, ?_⟩
    · refine rep_replace_perm (K := []) h ?_ ?_ ?_ ?_ ?_ ?_
      · simp [plug]
      · intro a ha; simp [ctxAddrs] at ha
      · intro hc; exact absurd rfl hc
      · simp only [fill_L, fill_R, Models, ptr_node, ptr_nil, ctxPtr_nil, ctxPtr_cons, addr_L, addr_R]
        refine ⟨?_, ⟨?_, ?_, ?_⟩, ?_⟩
        · simp [hpx, hpx.symm]
        · simp [hpx, hpx.symm]
        · refine models_congr hA ?_
          intro a ha
          have h1 : a ≠ p := by rintro rfl; exact absurd ha (by simp [hnd])
          have h2 : a ≠ x := by rintro rfl; exact absurd ha (by simp [hnd])
          simp [h1, h2]
        · trivial
        · refine models_congr hC ?_
          intro a ha
          have h1 : a ≠ p := by rintro rfl; exact absurd ha (by simp [hnd])
          have h2 : a ≠ x := by rintro rfl; exact absurd ha (by simp [hnd])
          simp [h1, h2]
      · simp [Tree.addrs]
      · rfl
    · simp [SameAux]
  · have hm := h.models
    simp only [plug_nil, fill_L, fill_R, Models, ptr_node, ptr_nil, ctxPtr_nil, ctxPtr_cons, addr_L, addr_R] at hm
    obtain ⟨hp, hA, hx, ⟨hb, hBl, hBr⟩, hC⟩ := hm
    simp only [Tree.addrs, ctxAddrs, addr_L, addr_R, sib_L, sib_R] at hnd
    simp [List.nodup_append, List.nodup_cons, not_or] at hnd
    have hpb : p ≠ b := by simp [hnd]
    have hpx : p ≠ x := by simp [hnd]
    have hbx : b ≠ x := by simp [hnd]
    simp [rotate_left, get_parent, get_left, get_right, set_right, set_left, set_parent, load,
      modify, hp, hb, hx, hpb, hpb.symm, hpx, hpx.symm, hbx, hbx.symm]
    refine ⟨?_, ?_⟩
    · refine rep_replace_perm (K := []) h ?_ ?_ ?_ ?_ ?_ ?_
      · simp [plug]
      · intro a ha; simp [ctxAddrs] at ha
      · intro hc; exact absurd rfl hc
      · simp only [fill_L, fill_R, Models, ptr_node, ptr_nil, ctxPtr_nil, ctxPtr_cons, addr_L, addr_R]
        refine ⟨?_, ⟨?_, ?_, ⟨?_, ?_, ?_⟩⟩, ?_⟩
        · simp [hpb, hpb.symm, hpx, hpx.symm, hbx, hbx.symm]
        · simp [hpb, hpb.symm, hpx, hpx.symm, hbx, hbx.symm]
        · refine models_congr hA ?_
          intro a ha
          have h1 : a ≠ p := by rintro rfl; exact absurd ha (by simp [hnd])
          have h2 : a ≠ b := by rintro rfl; exact absurd ha (by simp [hnd])
          have h3 : a ≠ x := by rintro rfl; exact absurd ha (by simp [hnd])
          simp [h1, h2, h3]
        · simp [hpb, hpb.symm, hpx, hpx.symm, hbx, hbx.symm]
        · refine models_congr hBl ?_
          intro a ha
          have h1 : a ≠ p := by rintro rfl; exact absurd ha (by simp [hnd])
          have h2 : a ≠ b := by rintro rfl; exact absurd ha (by simp [hnd])
          have h3 : a ≠ x := by rintro rfl; exact absurd ha (by simp [hnd])
          simp [h1, h2, h3]
        · refine models_congr hBr ?_
          intro a ha
          have h1 : a ≠ p := by rintro rfl; exact absurd ha (by simp [hnd])
          have h2 : a ≠ b := by rintro rfl; exact absurd ha (by simp [hnd])
          have h3 : a ≠ x := by rintro rfl; exact absurd ha (by simp [hnd])
          simp [h1, h2, h3]
        · refine models_congr hC ?_
          intro a ha
          have h1 : a ≠ p := by rintro rfl; exact absurd ha (by simp [hnd])
          have h2 : a ≠ b := by rintro rfl; exact absurd ha (by simp [hnd])
          have h3 : a ≠ x := by rintro rfl; exact absurd ha (by simp [hnd])
          simp [h1, h2, h3]
      · simp [Tree.addrs]
      · rfl
    · simp [SameAux]
  · have hm := models_plug (K := G) h.models
    simp only [plug_nil, fill_L, fill_R, Models, ptr_node, ptr_nil, ctxPtr_nil, ctxPtr_cons, addr_L, addr_R] at hm
    obtain ⟨hg, ⟨hp, hA, hx, -, hC⟩, hsib⟩ := hm
    simp only [Tree.addrs, ctxAddrs, addr_L, addr_R, sib_L, sib_R] at hnd
    simp [List.nodup_append, List.nodup_cons, not_or] at hnd
    have hpx : p ≠ x := by simp [hnd]
    have hpg : p ≠ g := by simp [hnd]
    have hxg : x ≠ g := by simp [hnd]
    simp [rotate_left, get_parent, get_left, get_right, set_right, set_left, set_parent, load,
      modify, hp, hx, hg, hpx, hpx.symm, hpg, hpg.symm, hxg, hxg.symm]
    refine ⟨?_, ?_⟩
    · refine rep_replace_perm (K := G) (t := (Frame.L g cg vg sib).fill _)
        (w := (Frame.L g cg vg sib).fill _) h ?_ ?_ ?_ ?_ ?_ ?_
      · simp [h.root]; exact ptr_plug_of_ptr G rfl
      · intro a ha
        have h1 : a ≠ p := by rintro rfl; exact absurd ha (by simp [hnd])
        have h2 : a ≠ x := by rintro rfl; exact absurd ha (by simp [hnd])
        have h3 : a ≠ g := by rintro rfl; exact absurd ha (by simp [hnd])
        simp [h1, h2, h3]
      · intro _; rfl
      · simp only [fill_L, fill_R, Models, ptr_node, ptr_nil, ctxPtr_nil, ctxPtr_cons, addr_L, addr_R]
        refine ⟨?_, ⟨?_, ⟨?_, ?_, ?_⟩, ?_⟩, ?_⟩
        · simp [hpx, hpx.symm, hpg, hpg.symm, hxg, hxg.symm]
        · simp [hpx, hpx.symm, hpg, hpg.symm, hxg, hxg.symm]
        · simp [hpx, hpx.symm, hpg, hpg.symm, hxg, hxg.symm]
        · refine models_congr hA ?_
          intro a ha
          have h1 : a ≠ p := by rintro rfl; exact absurd ha (by simp [hnd])
          have h2 : a ≠ x := by rintro rfl; exact absurd ha (by simp [hnd])
          have h3 : a ≠ g := by rintro rfl; exact absurd ha (by simp [hnd])
          simp [h1, h2, h3]
        · trivial
        · refine models_congr hC ?_
          intro a ha
          have h1 : a ≠ p := by rintro rfl; exact absurd ha (by simp [hnd])
          have h2 : a ≠ x := by rintro rfl; exact absurd ha (by simp [hnd])
          have h3 : a ≠ g := by rintro rfl; exact absurd ha (by simp [hnd])
          simp [h1, h2, h3]
        · refine models_congr hsib ?_
          intro a ha
          have h1 : a ≠ p := by rintro rfl; exact absurd ha (by simp [hnd])
          have h2 : a ≠ x := by rintro rfl; exact absurd ha (by simp [hnd])
          have h3 : a ≠ g := by rintro rfl; exact absurd ha (by simp [hnd])
          simp [h1, h2, h3]
      · simp [Tree.addrs]
      · rfl
    · simp [SameAux]
  · have hm := models_plug (K := G) h.models
    simp only [plug_nil, fill_L, fill_R, Models, ptr_node, ptr_nil, ctxPtr_nil, ctxPtr_cons, addr_L, addr_R] at hm
    obtain ⟨hg, ⟨hp, hA, hx, ⟨hb, hBl, hBr⟩, hC⟩, hsib⟩ := hm
    simp only [Tree.addrs, ctxAddrs, addr_L, addr_R, sib_L, sib_R] at hnd
    simp [List.nodup_append, List.nodup_cons, not_or] at hnd
    have hpb : p ≠ b := by simp [hnd]
    have hpx : p ≠ x := by simp [hnd]
    have hpg : p ≠ g := by simp [hnd]
    have hbx : b ≠ x := by simp [hnd]
    have hbg : b ≠ g := by simp [hnd]
    have hxg : x ≠ g := by simp [hnd]
    simp [rotate_left, get_parent, get_left, get_right, set_right, set_left, set_parent, load,
      modify, hp, hb, hx, hg, hpb, hpb.symm, hpx, hpx.symm, hpg, hpg.symm, hbx, hbx.symm, hbg, hbg.symm, hxg, hxg.symm]
    refine ⟨?_, ?_⟩
    · refine rep_replace_perm (K := G) (t := (Frame.L g cg vg sib).fill _)
        (w := (Frame.L g cg vg sib).fill _) h ?_ ?_ ?_ ?_ ?_ ?_
      · simp [h.root]; exact ptr_plug_of_ptr G rfl
      · intro a ha
        have h1 : a ≠ p := by rintro rfl; exact absurd ha (by simp [hnd])
        have h2 : a ≠ b := by rintro rfl; exact absurd ha (by simp [hnd])
        have h3 : a ≠ x := by rintro rfl; exact absurd ha (by simp [hnd])
        have h4 : a ≠ g := by rintro rfl; exact absurd ha (by simp [hnd])
        simp [h1, h2, h3, h4]
      · intro _; rfl
      · simp only [fill_L, fill_R, Models, ptr_node, ptr_nil, ctxPtr_nil, ctxPtr_cons, addr_L, addr_R]
        refine ⟨?_, ⟨?_, ⟨?_, ?_, ⟨?_, ?_, ?_⟩⟩, ?_⟩, ?_⟩
        · simp [hpb, hpb.symm, hpx, hpx.symm, hpg, hpg.symm, hbx, hbx.symm, hbg, hbg.symm, hxg, hxg.symm]
        · simp [hpb, hpb.symm, hpx, hpx.symm, hpg, hpg.symm, hbx, hbx.symm, hbg, hbg.symm, hxg, hxg.symm]
        · simp [hpb, hpb.symm, hpx, hpx.symm, hpg, hpg.symm, hbx, hbx.symm, hbg, hbg.symm, hxg, hxg.symm]
        · refine models_congr hA ?_
          intro a ha
          have h1 : a ≠ p := by rintro rfl; exact absurd ha (by simp [hnd])
          have h2 : a ≠ b := by rintro rfl; exact absurd ha (by simp [hnd])
          have h3 : a ≠ x := by rintro rfl; exact absurd ha (by simp [hnd])
          have h4 : a ≠ g := by rintro rfl; exact absurd ha (by simp [hnd])
          simp [h1, h2, h3, h4]
        · simp [hpb, hpb.symm, hpx, hpx.symm, hpg, hpg.symm, hbx, hbx.symm, hbg, hbg.symm, hxg, hxg.symm]
        · refine models_congr hBl ?_
          intro a ha
          have h1 : a ≠ p := by rintro rfl; exact absurd ha (by simp [hnd])
          have h2 : a ≠ b := by rintro rfl; exact absurd ha (by simp [hnd])
          have h3 : a ≠ x := by rintro rfl; exact absurd ha (by simp [hnd])
          have h4 : a ≠ g := by rintro rfl; exact absurd ha (by simp [hnd])
          simp [h1, h2, h3, h4]
        · refine models_congr hBr ?_
          intro a ha
          have h1 : a ≠ p := by rintro rfl; exact absurd ha (by simp [hnd])
          have h2 : a ≠ b := by rintro rfl; exact absurd ha (by simp [hnd])
          have h3 : a ≠ x := by rintro rfl; exact absurd ha (by simp [hnd])
          have h4 : a ≠ g := by rintro rfl; exact absurd ha (by simp [hnd])
          simp [h1, h2, h3, h4]
        · refine models_congr hC ?_
          intro a ha
          have h1 : a ≠ p := by rintro rfl; exact absurd ha (by simp [hnd])
          have h2 : a ≠ b := by rintro rfl; exact absurd ha (by simp [hnd])
          have h3 : a ≠ x := by rintro rfl; exact absurd ha (by simp [hnd])
          have h4 : a ≠ g := by rintro rfl; exact absurd ha (by simp [hnd])
          simp [h1, h2, h3, h4]
        · refine models_congr hsib ?_
          intro a ha
          have h1 : a ≠ p := by rintro rfl; exact absurd ha (by simp [hnd])
          have h2 : a ≠ b := by rintro rfl; exact absurd ha (by simp [hnd])
          have h3 : a ≠ x := by rintro rfl; exact absurd ha (by simp [hnd])
          have h4 : a ≠ g := by rintro rfl; exact absurd ha (by simp [hnd])
          simp [h1, h2, h3, h4]
      · simp [Tree.addrs]
      · rfl
    · simp [SameAux]
  · have hm := models_plug (K := G) h.models
    simp only [plug_nil, fill_L, fill_R, Models, ptr_node, ptr_nil, ctxPtr_nil, ctxPtr_cons, addr_L, addr_R] at hm
    obtain ⟨hg, hsib, ⟨hp, hA, hx, -, hC⟩⟩ := hm
    simp only [Tree.addrs, ctxAddrs, addr_L, addr_R, sib_L, sib_R] at hnd
    simp [List.nodup_append, List.nodup_cons, not_or] at hnd
    have hpx : p ≠ x := by simp [hnd]
    have hpg : p ≠ g := by simp [hnd]
    have hxg : x ≠ g := by simp [hnd]
    have hps : ¬ some p = sib.ptr := ptr_ne_of_not_mem (by simp [hnd])
    simp [rotate_left, get_parent, get_left, get_right, set_right, set_left, set_parent, load,
      modify, hp, hx, hg, hpx, hpx.symm, hpg, hpg.symm, hxg, hxg.symm, hps]
    refine ⟨?_, ?_⟩
    · refine rep_replace_perm (K := G) (t := (Frame.R g cg vg sib).fill _)
        (w := (Frame.R g cg vg sib).fill _) h ?_ ?_ ?_ ?_ ?_ ?_
      · simp [h.root]; exact ptr_plug_of_ptr G rfl
      · intro a ha
        have h1 : a ≠ p := by rintro rfl; exact absurd ha (by simp [hnd])
        have h2 : a ≠ x := by rintro rfl; exact absurd ha (by simp [hnd])
        have h3 : a ≠ g := by rintro rfl; exact absurd ha (by simp [hnd])
        simp [h1, h2, h3]
      · intro _; rfl
      · simp only [fill_L, fill_R, Models, ptr_node, ptr_nil, ctxPtr_nil, ctxPtr_cons, addr_L, addr_R]
        refine ⟨?_, ?_, ⟨?_, ⟨?_, ?_, ?_⟩, ?_⟩⟩
        · simp [hpx, hpx.symm, hpg, hpg.symm, hxg, hxg.symm, hps]
        · refine models_congr hsib ?_
          intro a ha
          have h1 : a ≠ p := by rintro rfl; exact absurd ha (by simp [hnd])
          have h2 : a ≠ x := by rintro rfl; exact absurd ha (by simp [hnd])
          have h3 : a ≠ g := by rintro rfl; exact absurd ha (by simp [hnd])
          simp [h1, h2, h3]
        · simp [hpx, hpx.symm, hpg, hpg.symm, hxg, hxg.symm, hps]
        · simp [hpx, hpx.symm, hpg, hpg.symm, hxg, hxg.symm, hps]
        · refine models_congr hA ?_
          intro a ha
          have h1 : a ≠ p := by rintro rfl; exact absurd ha (by simp [hnd])
          have h2 : a ≠ x := by rintro rfl; exact absurd ha (by simp [hnd])
          have h3 : a ≠ g := by rintro rfl; exact absurd ha (by simp [hnd])
          simp [h1, h2, h3]
        · trivial
        · refine models_congr hC ?_
          intro a ha
          have h1 : a ≠ p := by rintro rfl; exact absurd ha (by simp [hnd])
          have h2 : a ≠ x := by rintro rfl; exact absurd ha (by simp [hnd])
          have h3 : a ≠ g := by rintro rfl; exact absurd ha (by simp [hnd])
          simp [h1, h2, h3]
      · simp [Tree.addrs]
      · rfl
    · simp [SameAux]
  · have hm := models_plug (K := G) h.models
    simp only [plug_nil, fill_L, fill_R, Models, ptr_node, ptr_nil, ctxPtr_nil, ctxPtr_cons, addr_L, addr_R] at hm
    obtain ⟨hg, hsib, ⟨hp, hA, hx, ⟨hb, hBl, hBr⟩, hC⟩⟩ := hm
    simp only [Tree.addrs, ctxAddrs, addr_L, addr_R, sib_L, sib_R] at hnd
    simp [List.nodup_append, List.nodup_cons, not_or] at hnd
    have hpb : p ≠ b := by simp [hnd]
    have hpx : p ≠ x := by simp [hnd]
    have hpg : p ≠ g := by simp [hnd]
    have hbx : b ≠ x := by simp [hnd]
    have hbg : b ≠ g := by simp [hnd]
    have hxg : x ≠ g := by simp [hnd]
    have hps : ¬ some p = sib.ptr := ptr_ne_of_not_mem (by simp [hnd])
    simp [rotate_left, get_parent, get_left, get_right, set_right, set_left, set_parent, load,
      modify, hp, hb, hx, hg, hpb, hpb.symm, hpx, hpx.symm, hpg, hpg.symm, hbx, hbx.symm, hbg, hbg.symm, hxg, hxg.symm, hps]
    refine ⟨?_, ?_⟩
    · refine rep_replace_perm (K := G) (t := (Frame.R g cg vg sib).fill _)
        (w := (Frame.R g cg vg sib).fill _) h ?_ ?_ ?_ ?_ ?_ ?_
      · simp [h.root]; exact ptr_plug_of_ptr G rfl
      · intro a ha
        have h1 : a ≠ p := by rintro rfl; exact absurd ha (by simp [hnd])
        have h2 : a ≠ b := by rintro rfl; exact absurd ha (by simp [hnd])
        have h3 : a ≠ x := by rintro rfl; exact absurd ha (by simp [hnd])
        have h4 : a ≠ g := by rintro rfl; exact absurd ha (by simp [hnd])
        simp [h1, h2, h3, h4]
      · intro _; rfl
      · simp only [fill_L, fill_R, Models, ptr_node, ptr_nil, ctxPtr_nil, ctxPtr_cons, addr_L, addr_R]
        refine ⟨?_, ?_, ⟨?_, ⟨?_, ?_, ⟨?_, ?_, ?_⟩⟩, ?_⟩⟩
        · simp [hpb, hpb.symm, hpx, hpx.symm, hpg, hpg.symm, hbx, hbx.symm, hbg, hbg.symm, hxg, hxg.symm, hps]
        · refine models_congr hsib ?_
          intro a ha
          have h1 : a ≠ p := by rintro rfl; exact absurd ha (by simp [hnd])
          have h2 : a ≠ b := by rintro rfl; exact absurd ha (by simp [hnd])
          have h3 : a ≠ x := by rintro rfl; exact absurd ha (by simp [hnd])
          have h4 : a ≠ g := by rintro rfl; exact absurd ha (by simp [hnd])
          simp [h1, h2, h3, h4]
        · simp [hpb, hpb.symm, hpx, hpx.symm, hpg, hpg.symm, hbx, hbx.symm, hbg, hbg.symm, hxg, hxg.symm, hps]
        · simp [hpb, hpb.symm, hpx, hpx.symm, hpg, hpg.symm, hbx, hbx.symm, hbg, hbg.symm, hxg, hxg.symm, hps]
        · refine models_congr hA ?_
          intro a ha
          have h1 : a ≠ p := by rintro rfl; exact absurd ha (by simp [hnd])
          have h2 : a ≠ b := by rintro rfl; exact absurd ha (by simp [hnd])
          have h3 : a ≠ x := by rintro rfl; exact absurd ha (by simp [hnd])
          have h4 : a ≠ g := by rintro rfl; exact absurd ha (by simp [hnd])
          simp [h1, h2, h3, h4]
        · simp [hpb, hpb.symm, hpx, hpx.symm, hpg, hpg.symm, hbx, hbx.symm, hbg, hbg.symm, hxg, hxg.symm, hps]
        · refine models_congr hBl ?_
          intro a ha
          have h1 : a ≠ p := by rintro rfl; exact absurd ha (by simp [hnd])
          have h2 : a ≠ b := by rintro rfl; exact absurd ha (by simp [hnd])
          have h3 : a ≠ x := by rintro rfl; exact absurd ha (by simp [hnd])
          have h4 : a ≠ g := by rintro rfl; exact absurd ha (by simp [hnd])
          simp [h1, h2, h3, h4]
        · refine models_congr hBr ?_
          intro a ha
          have h1 : a ≠ p := by rintro rfl; exact absurd ha (by simp [hnd])
          have h2 : a ≠ b := by rintro rfl; exact absurd ha (by simp [hnd])
          have h3 : a ≠ x := by rintro rfl; exact absurd ha (by simp [hnd])
          have h4 : a ≠ g := by rintro rfl; exact absurd ha (by simp [hnd])
          simp [h1, h2, h3, h4]
        · refine models_congr hC ?_
          intro a ha
          have h1 : a ≠ p := by rintro rfl; exact absurd ha (by simp [hnd])
          have h2 : a ≠ b := by rintro rfl; exact absurd ha (by simp [hnd])
          have h3 : a ≠ x := by rintro rfl; exact absurd ha (by simp [hnd])
          have h4 : a ≠ g := by rintro rfl; exact absurd ha (by simp [hnd])
          simp [h1, h2, h3, h4]
      · simp [Tree.addrs]
      · rfl
    · simp [SameAux]

theorem rotate_right_rep {s : rb_tree α} {K : List (Frame α)} {p x : Nat} {A B C : Tree α}
    {cp cx : Bool} {vp vx : α}
    (h : Rep s (plug K (Tree.node p (Tree.node x A cx vx B) cp vp C))) :
    ∃ s', rotate_right s (some x) = Except.ok s' ∧
      Rep s' (plug K (Tree.node x A cx vx (Tree.node p B cp vp C))) ∧ SameAux s s' := by
  have hnd := rep_nodup_split h
  rcases K with _ | ⟨(⟨g, cg, vg, sib⟩ | ⟨g, cg, vg, sib⟩), G⟩ <;>
    rcases B with _ | ⟨b, Bl, cb, vb, Br⟩
  · have hm := h.models
    simp only [plug_nil, fill_L, fill_R, Models, ptr_node, ptr_nil, ctxPtr_nil, ctxPtr_cons, addr_L, addr_R] at hm
    obtain ⟨hp, ⟨hx, hA, -⟩, hC⟩ := hm
    simp only [Tree.addrs, ctxAddrs, addr_L, addr_R, sib_L, sib_R] at hnd
    simp [List.nodup_append, List.nodup_cons, not_or] at hnd
    have hxp : x ≠ p := by simp [hnd]
    simp [rotate_right, get_parent, get_left, get_right, set_right, set_left, set_parent, load,
      modify, hx, hp, hxp, hxp.symm]
    refine ⟨?_, ?_⟩
    · refine rep_replace_perm (K := []) h ?_ ?_ ?_ ?_ ?_ ?_
      · simp [plug]
      · intro a ha; simp [ctxAddrs] at ha
      · intro hc; exact absurd rfl hc
      · simp only [fill_L, fill_R, Models, ptr_node, ptr_nil, ctxPtr_nil, ctxPtr_cons, addr_L, addr_R]
        refine ⟨?_, ?_, ⟨?_, ?_, ?_⟩⟩
        · simp [hxp, hxp.symm]
        · refine models_congr hA ?_
          intro a ha
          have h1 : a ≠ x := by rintro rfl; exact absurd ha (by simp [hnd])
          have h2 : a ≠ p := by rintro rfl; exact absurd ha (by simp [hnd])
          simp [h1, h2]
        · simp [hxp, hxp.symm]
        · trivial
        · refine models_congr hC ?_
          intro a ha
          have h1 : a ≠ x := by rintro rfl; exact absurd ha (by simp [hnd])
          have h2 : a ≠ p := by rintro rfl; exact absurd ha (by simp [hnd])
          simp [h1, h2]
      · simp [Tree.addrs]
      · rfl
    · simp [SameAux]
  · have hm := h.models
    simp only [plug_nil, fill_L, fill_R, Models, ptr_node, ptr_nil, ctxPtr_nil, ctxPtr_cons, addr_L, addr_R] at hm
    obtain ⟨hp, ⟨hx, hA, ⟨hb, hBl, hBr⟩⟩, hC⟩ := hm
    simp only [Tree.addrs, ctxAddrs, addr_L, addr_R, sib_L, sib_R] at hnd
    simp [List.nodup_append, List.nodup_cons, not_or] at hnd
    have hxb : x ≠ b := by simp [hnd]
    have hxp : x ≠ p := by simp [hnd]
    have hbp : b ≠ p := by simp [hnd]
    simp [rotate_right, get_parent, get_left, get_right, set_right, set_left, set_parent, load,
      modify, hx, hb, hp, hxb, hxb.symm, hxp, hxp.symm, hbp, hbp.symm]
    refine ⟨?_, ?_⟩
    · refine rep_replace_perm (K := []) h ?_ ?_ ?_ ?_ ?_ ?_
      · simp [plug]
      · intro a ha; simp [ctxAddrs] at ha
      · intro hc; exact absurd rfl hc
      · simp only [fill_L, fill_R, Models, ptr_node, ptr_nil, ctxPtr_nil, ctxPtr_cons, addr_L, addr_R]
        refine ⟨?_, ?_, ⟨?_, ⟨?_, ?_, ?_⟩, ?_⟩⟩
        · simp [hxb, hxb.symm, hxp, hxp.symm, hbp, hbp.symm]
        · refine models_congr hA ?_
          intro a ha
          have h1 : a ≠ x := by rintro rfl; exact absurd ha (by simp [hnd])
          have h2 : a ≠ b := by rintro rfl; exact absurd ha (by simp [hnd])
          have h3 : a ≠ p := by rintro rfl; exact absurd ha (by simp [hnd])
          simp [h1, h2, h3]
        · simp [hxb, hxb.symm, hxp, hxp.symm, hbp, hbp.symm]
        · simp [hxb, hxb.symm, hxp, hxp.symm, hbp, hbp.symm]
        · refine models_congr hBl ?_
          intro a ha
          have h1 : a ≠ x := by rintro rfl; exact absurd ha (by simp [hnd])
          have h2 : a ≠ b := by rintro rfl; exact absurd ha (by simp [hnd])
          have h3 : a ≠ p := by rintro rfl; exact absurd ha (by simp [hnd])
          simp [h1, h2, h3]
        · refine models_congr hBr ?_
          intro a ha
          have h1 : a ≠ x := by rintro rfl; exact absurd ha (by simp [hnd])
          have h2 : a ≠ b := by rintro rfl; exact absurd ha (by simp [hnd])
          have h3 : a ≠ p := by rintro rfl; exact absurd ha (by simp [hnd])
          simp [h1, h2, h3]
        · refine models_congr hC ?_
          intro a ha
          have h1 : a ≠ x := by rintro rfl; exact absurd ha (by simp [hnd])
          have h2 : a ≠ b := by rintro rfl; exact absurd ha (by simp [hnd])
          have h3 : a ≠ p := by rintro rfl; exact absurd ha (by simp [hnd])
          simp [h1, h2, h3]
      · simp [Tree.addrs]
      · rfl
    · simp [SameAux]
  · have hm := models_plug (K := G) h.models
    simp only [plug_nil, fill_L, fill_R, Models, ptr_node, ptr_nil, ctxPtr_nil, ctxPtr_cons, addr_L, addr_R] at hm
    obtain ⟨hg, ⟨hp, ⟨hx, hA, -⟩, hC⟩, hsib⟩ := hm
    simp only [Tree.addrs, ctxAddrs, addr_L, addr_R, sib_L, sib_R] at hnd
    simp [List.nodup_append, List.nodup_cons, not_or] at hnd
    have hxp : x ≠ p := by simp [hnd]
    have hxg : x ≠ g := by simp [hnd]
    have hpg : p ≠ g := by simp [hnd]
    simp [rotate_right, get_parent, get_left, get_right, set_right, set_left, set_parent, load,
      modify, hx, hp, hg, hxp, hxp.symm, hxg, hxg.symm, hpg, hpg.symm]
    refine ⟨?_, ?_⟩
    · refine rep_replace_perm (K := G) (t := (Frame.L g cg vg sib).fill _)
        (w := (Frame.L g cg vg sib).fill _) h ?_ ?_ ?_ ?_ ?_ ?_
      · simp [h.root]; exact ptr_plug_of_ptr G rfl
      · intro a ha
        have h1 : a ≠ x := by rintro rfl; exact absurd ha (by simp [hnd])
        have h2 : a ≠ p := by rintro rfl; exact absurd ha (by simp [hnd])
        have h3 : a ≠ g := by rintro rfl; exact absurd ha (by simp [hnd])
        simp [h1, h2, h3]
      · intro _; rfl
      · simp only [fill_L, fill_R, Models, ptr_node, ptr_nil, ctxPtr_nil, ctxPtr_cons, addr_L, addr_R]
        refine ⟨?_, ⟨?_, ?_, ⟨?_, ?_, ?_⟩⟩, ?_⟩
        · simp [hxp, hxp.symm, hxg, hxg.symm, hpg, hpg.symm]
        · simp [hxp, hxp.symm, hxg, hxg.symm, hpg, hpg.symm]
        · refine models_congr hA ?_
          intro a ha
          have h1 : a ≠ x := by rintro rfl; exact absurd ha (by simp [hnd])
          have h2 : a ≠ p := by rintro rfl; exact absurd ha (by simp [hnd])
          have h3 : a ≠ g := by rintro rfl; exact absurd ha (by simp [hnd])
          simp [h1, h2, h3]
        · simp [hxp, hxp.symm, hxg, hxg.symm, hpg, hpg.symm]
        · trivial
        · refine models_congr hC ?_
          intro a ha
          have h1 : a ≠ x := by rintro rfl; exact absurd ha (by simp [hnd])
          have h2 : a ≠ p := by rintro rfl; exact absurd ha (by simp [hnd])
          have h3 : a ≠ g := by rintro rfl; exact absurd ha (by simp [hnd])
          simp [h1, h2, h3]
        · refine models_congr hsib ?_
          intro a ha
          have h1 : a ≠ x := by rintro rfl; exact absurd ha (by simp [hnd])
          have h2 : a ≠ p := by rintro rfl; exact absurd ha (by simp [hnd])
          have h3 : a ≠ g := by rintro rfl; exact absurd ha (by simp [hnd])
          simp [h1, h2, h3]
      · simp [Tree.addrs]
      · rfl
    · simp [SameAux]
  · have hm := models_plug (K := G) h.models
    simp only [plug_nil, fill_L, fill_R, Models, ptr_node, ptr_nil, ctxPtr_nil, ctxPtr_cons, addr_L, addr_R] at hm
    obtain ⟨hg, ⟨hp, ⟨hx, hA, ⟨hb, hBl, hBr⟩⟩, hC⟩, hsib⟩ := hm
    simp only [Tree.addrs, ctxAddrs, addr_L, addr_R, sib_L, sib_R] at hnd
    simp [List.nodup_append, List.nodup_cons, not_or] at hnd
    have hxb : x ≠ b := by simp [hnd]
    have hxp : x ≠ p := by simp [hnd]
    have hxg : x ≠ g := by simp [hnd]
    have hbp : b ≠ p := by simp [hnd]
    have hbg : b ≠ g := by simp [hnd]
    have hpg : p ≠ g := by simp [hnd]
    simp [rotate_right, get_parent, get_left, get_right, set_right, set_left, set_parent, load,
      modify, hx, hb, hp, hg, hxb, hxb.symm, hxp, hxp.symm, hxg, hxg.symm, hbp, hbp.symm, hbg, hbg.symm, hpg, hpg.symm]
    refine ⟨?_, ?_⟩
    · refine rep_replace_perm (K := G) (t := (Frame.L g cg vg sib).fill _)
        (w := (Frame.L g cg vg sib).fill _) h ?_ ?_ ?_ ?_ ?_ ?_
      · simp [h.root]; exact ptr_plug_of_ptr G rfl
      · intro a ha
        have h1 : a ≠ x := by rintro rfl; exact absurd ha (by simp [hnd])
        have h2 : a ≠ b := by rintro rfl; exact absurd ha (by simp [hnd])
        have h3 : a ≠ p := by rintro rfl; exact absurd ha (by simp [hnd])
        have h4 : a ≠ g := by rintro rfl; exact absurd ha (by simp [hnd])
        simp [h1, h2, h3, h4]
      · intro _; rfl
      · simp only [fill_L, fill_R, Models, ptr_node, ptr_nil, ctxPtr_nil, ctxPtr_cons, addr_L, addr_R]
        refine ⟨?_, ⟨?_, ?_, ⟨?_, ⟨?_, ?_, ?_⟩, ?_⟩⟩, ?_⟩
        · simp [hxb, hxb.symm, hxp, hxp.symm, hxg, hxg.symm, hbp, hbp.symm, hbg, hbg.symm, hpg, hpg.symm]
        · simp [hxb, hxb.symm, hxp, hxp.symm, hxg, hxg.symm, hbp, hbp.symm, hbg, hbg.symm, hpg, hpg.symm]
        · refine models_congr hA ?_
          intro a ha
          have h1 : a ≠ x := by rintro rfl; exact absurd ha (by simp [hnd])
          have h2 : a ≠ b := by rintro rfl; exact absurd ha (by simp [hnd])
          have h3 : a ≠ p := by rintro rfl; exact absurd ha (by simp [hnd])
          have h4 : a ≠ g := by rintro rfl; exact absurd ha (by simp [hnd])
          simp [h1, h2, h3, h4]
        · simp [hxb, hxb.symm, hxp, hxp.symm, hxg, hxg.symm, hbp, hbp.symm, hbg, hbg.symm, hpg, hpg.symm]
        · simp [hxb, hxb.symm, hxp, hxp.symm, hxg, hxg.symm, hbp, hbp.symm, hbg, hbg.symm, hpg, hpg.symm]
        · refine models_congr hBl ?_
          intro a ha
          have h1 : a ≠ x := by rintro rfl; exact absurd ha (by simp [hnd])
          have h2 : a ≠ b := by rintro rfl; exact absurd ha (by simp [hnd])
          have h3 : a ≠ p := by rintro rfl; exact absurd ha (by simp [hnd])
          have h4 : a ≠ g := by rintro rfl; exact absurd ha (by simp [hnd])
          simp [h1, h2, h3, h4]
        · refine models_congr hBr ?_
          intro a ha
          have h1 : a ≠ x := by rintro rfl; exact absurd ha (by simp [hnd])
          have h2 : a ≠ b := by rintro rfl; exact absurd ha (by simp [hnd])
          have h3 : a ≠ p := by rintro rfl; exact absurd ha (by simp [hnd])
          have h4 : a ≠ g := by rintro rfl; exact absurd ha (by simp [hnd])
          simp [h1, h2, h3, h4]
        · refine models_congr hC ?_
          intro a ha
          have h1 : a ≠ x := by rintro rfl; exact absurd ha (by simp [hnd])
          have h2 : a ≠ b := by rintro rfl; exact absurd ha (by simp [hnd])
          have h3 : a ≠ p := by rintro rfl; exact absurd ha (by simp [hnd])
          have h4 : a ≠ g := by rintro rfl; exact absurd ha (by simp [hnd])
          simp [h1, h2, h3, h4]
        · refine models_congr hsib ?_
          intro a ha
          have h1 : a ≠ x := by rintro rfl; exact absurd ha (by simp [hnd])
          have h2 : a ≠ b := by rintro rfl; exact absurd ha (by simp [hnd])
          have h3 : a ≠ p := by rintro rfl; exact absurd ha (by simp [hnd])
          have h4 : a ≠ g := by rintro rfl; exact absurd ha (by simp [hnd])
          simp [h1, h2, h3, h4]
      · simp [Tree.addrs]
      · rfl
    · simp [SameAux]
  · have hm := models_plug (K := G) h.models
    simp only [plug_nil, fill_L, fill_R, Models, ptr_node, ptr_nil, ctxPtr_nil, ctxPtr_cons, addr_L, addr_R] at hm
    obtain ⟨hg, hsib, ⟨hp, ⟨hx, hA, -⟩, hC⟩⟩ := hm
    simp only [Tree.addrs, ctxAddrs, addr_L, addr_R, sib_L, sib_R] at hnd
    simp [List.nodup_append, List.nodup_cons, not_or] at hnd
    have hxp : x ≠ p := by simp [hnd]
    have hxg : x ≠ g := by simp [hnd]
    have hpg : p ≠ g := by simp [hnd]
    have hps : ¬ some p = sib.ptr := ptr_ne_of_not_mem (by simp [hnd])
    simp [rotate_right, get_parent, get_left, get_right, set_right, set_left, set_parent, load,
      modify, hx, hp, hg, hxp, hxp.symm, hxg, hxg.symm, hpg, hpg.symm, hps]
    refine ⟨?_, ?_⟩
    · refine rep_replace_perm (K := G) (t := (Frame.R g cg vg sib).fill _)
        (w := (Frame.R g cg vg sib).fill _) h ?_ ?_ ?_ ?_ ?_ ?_
      · simp [h.root]; exact ptr_plug_of_ptr G rfl
      · intro a ha
        have h1 : a ≠ x := by rintro rfl; exact absurd ha (by simp [hnd])
        have h2 : a ≠ p := by rintro rfl; exact absurd ha (by simp [hnd])
        have h3 : a ≠ g := by rintro rfl; exact absurd ha (by simp [hnd])
        simp [h1, h2, h3]
      · intro _; rfl
      · simp only [fill_L, fill_R, Models, ptr_node, ptr_nil, ctxPtr_nil, ctxPtr_cons, addr_L, addr_R]
        refine ⟨?_, ?_, ⟨?_, ?_, ⟨?_, ?_, ?_⟩⟩⟩
        · simp [hxp, hxp.symm, hxg, hxg.symm, hpg, hpg.symm, hps]
        · refine models_congr hsib ?_
          intro a ha
          have h1 : a ≠ x := by rintro rfl; exact absurd ha (by simp [hnd])
          have h2 : a ≠ p := by rintro rfl; exact absurd ha (by simp [hnd])
          have h3 : a ≠ g := by rintro rfl; exact absurd ha (by simp [hnd])
          simp [h1, h2, h3]
        · simp [hxp, hxp.symm, hxg, hxg.symm, hpg, hpg.symm, hps]
        · refine models_congr hA ?_
          intro a ha
          have h1 : a ≠ x := by rintro rfl; exact absurd ha (by simp [hnd])
          have h2 : a ≠ p := by rintro rfl; exact absurd ha (by simp [hnd])
          have h3 : a ≠ g := by rintro rfl; exact absurd ha (by simp [hnd])
          simp [h1, h2, h3]
        · simp [hxp, hxp.symm, hxg, hxg.symm, hpg, hpg.symm, hps]
        · trivial
        · refine models_congr hC ?_
          intro a ha
          have h1 : a ≠ x := by rintro rfl; exact absurd ha (by simp [hnd])
          have h2 : a ≠ p := by rintro rfl; exact absurd ha (by simp [hnd])
          have h3 : a ≠ g := by rintro rfl; exact absurd ha (by simp [hnd])
          simp [h1, h2, h3]
      · simp [Tree.addrs]
      · rfl
    · simp [SameAux]
  · have hm := models_plug (K := G) h.models
    simp only [plug_nil, fill_L, fill_R, Models, ptr_node, ptr_nil, ctxPtr_nil, ctxPtr_cons, addr_L, addr_R] at hm
    obtain ⟨hg, hsib, ⟨hp, ⟨hx, hA, ⟨hb, hBl, hBr⟩⟩, hC⟩⟩ := hm
    simp only [Tree.addrs, ctxAddrs, addr_L, addr_R, sib_L, sib_R] at hnd
    simp [List.nodup_append, List.nodup_cons, not_or] at hnd
    have hxb : x ≠ b := by simp [hnd]
    have hxp : x ≠ p := by simp [hnd]
    have hxg : x ≠ g := by simp [hnd]
    have hbp : b ≠ p := by simp [hnd]
    have hbg : b ≠ g := by simp [hnd]
    have hpg : p ≠ g := by simp [hnd]
    have hps : ¬ some p = sib.ptr := ptr_ne_of_not_mem (by simp [hnd])
    simp [rotate_right, get_parent, get_left, get_right, set_right, set_left, set_parent, load,
      modify, hx, hb, hp, hg, hxb, hxb.symm, hxp, hxp.symm, hxg, hxg.symm, hbp, hbp.symm, hbg, hbg.symm, hpg, hpg.symm, hps]
    refine ⟨?_, ?_⟩
    · refine rep_replace_perm (K := G) (t := (Frame.R g cg vg sib).fill _)
        (w := (Frame.R g cg vg sib).fill _) h ?_ ?_ ?_ ?_ ?_ ?_
      · simp [h.root]; exact ptr_plug_of_ptr G rfl
      · intro a ha
        have h1 : a ≠ x := by rintro rfl; exact absurd ha (by simp [hnd])
        have h2 : a ≠ b := by rintro rfl; exact absurd ha (by simp [hnd])
        have h3 : a ≠ p := by rintro rfl; exact absurd ha (by simp [hnd])
        have h4 : a ≠ g := by rintro rfl; exact absurd ha (by simp [hnd])
        simp [h1, h2, h3, h4]
      · intro _; rfl
      · simp only [fill_L, fill_R, Models, ptr_node, ptr_nil, ctxPtr_nil, ctxPtr_cons, addr_L, addr_R]
        refine ⟨?_, ?_, ⟨?_, ?_, ⟨?_, ⟨?_, ?_, ?_⟩, ?_⟩⟩⟩
        · simp [hxb, hxb.symm, hxp, hxp.symm, hxg, hxg.symm, hbp, hbp.symm, hbg, hbg.symm, hpg, hpg.symm, hps]
        · refine models_congr hsib ?_
          intro a ha
          have h1 : a ≠ x := by rintro rfl; exact absurd ha (by simp [hnd])
          have h2 : a ≠ b := by rintro rfl; exact absurd ha (by simp [hnd])
          have h3 : a ≠ p := by rintro rfl; exact absurd ha (by simp [hnd])
          have h4 : a ≠ g := by rintro rfl; exact absurd ha (by simp [hnd])
          simp [h1, h2, h3, h4]
        · simp [hxb, hxb.symm, hxp, hxp.symm, hxg, hxg.symm, hbp, hbp.symm, hbg, hbg.symm, hpg, hpg.symm, hps]
        · refine models_congr hA ?_
          intro a ha
          have h1 : a ≠ x := by rintro rfl; exact absurd ha (by simp [hnd])
          have h2 : a ≠ b := by rintro rfl; exact absurd ha (by simp [hnd])
          have h3 : a ≠ p := by rintro rfl; exact absurd ha (by simp [hnd])
          have h4 : a ≠ g := by rintro rfl; exact absurd ha (by simp [hnd])
          simp [h1, h2, h3, h4]
        · simp [hxb, hxb.symm, hxp, hxp.symm, hxg, hxg.symm, hbp, hbp.symm, hbg, hbg.symm, hpg, hpg.symm, hps]
        · simp [hxb, hxb.symm, hxp, hxp.symm, hxg, hxg.symm, hbp, hbp.symm, hbg, hbg.symm, hpg, hpg.symm, hps]
        · refine models_congr hBl ?_
          intro a ha
          have h1 : a ≠ x := by rintro rfl; exact absurd ha (by simp [hnd])
          have h2 : a ≠ b := by rintro rfl; exact absurd ha (by simp [hnd])
          have h3 : a ≠ p := by rintro rfl; exact absurd ha (by simp [hnd])
          have h4 : a ≠ g := by rintro rfl; exact absurd ha (by simp [hnd])
          simp [h1, h2, h3, h4]
        · refine models_congr hBr ?_
          intro a ha
          have h1 : a ≠ x := by rintro rfl; exact absurd ha (by simp [hnd])
          have h2 : a ≠ b := by rintro rfl; exact absurd ha (by simp [hnd])
          have h3 : a ≠ p := by rintro rfl; exact absurd ha (by simp [hnd])
          have h4 : a ≠ g := by rintro rfl; exact absurd ha (by simp [hnd])
          simp [h1, h2, h3, h4]
        · refine models_congr hC ?_
          intro a ha
          have h1 : a ≠ x := by rintro rfl; exact absurd ha (by simp [hnd])
          have h2 : a ≠ b := by rintro rfl; exact absurd ha (by simp [hnd])
          have h3 : a ≠ p := by rintro rfl; exact absurd ha (by simp [hnd])
          have h4 : a ≠ g := by rintro rfl; exact absurd ha (by simp [hnd])
          simp [h1, h2, h3, h4]
      · simp [Tree.addrs]
      · rfl
    · simp [SameAux]

/-! ## Reading and repainting the node in focus -/

theorem rep_get_parent {s : rb_tree α} {K : List (Frame α)} {a : Nat} {l r : Tree α}
    {c : Bool} {v : α} (h : Rep s (plug K (Tree.node a l c v r))) :
    get_parent s (some a) = Except.ok (ctxPtr K) := by
  rw [get_parent_of_mem (rep_focus h)]

theorem rep_get_left {s : rb_tree α} {K : List (Frame α)} {a : Nat} {l r : Tree α}
    {c : Bool} {v : α} (h : Rep s (plug K (Tree.node a l c v r))) :
    get_left s (some a) = Except.ok l.ptr := by
  rw [get_left_of_mem (rep_focus h)]

theorem rep_get_right {s : rb_tree α} {K : List (Frame α)} {a : Nat} {l r : Tree α}
    {c : Bool} {v : α} (h : Rep s (plug K (Tree.node a l c v r))) :
    get_right s (some a) = Except.ok r.ptr := by
  rw [get_right_of_mem (rep_focus h)]

theorem rep_get_red {s : rb_tree α} {K : List (Frame α)} {a : Nat} {l r : Tree α}
    {c : Bool} {v : α} (h : Rep s (plug K (Tree.node a l c v r))) :
    get_red s (some a) = Except.ok c := by
  rw [get_red_of_mem (rep_focus h)]

theorem rep_get_value {s : rb_tree α} {K : List (Frame α)} {a : Nat} {l r : Tree α}
    {c : Bool} {v : α} (h : Rep s (plug K (Tree.node a l c v r))) :
    get_value s (some a) = Except.ok v := by
  rw [get_value_of_mem (rep_focus h)]

theorem rep_child_ne {s : rb_tree α} {K : List (Frame α)} {a : Nat} {l r : Tree α}
    {c : Bool} {v : α} (h : Rep s (plug K (Tree.node a l c v r))) {x : Nat}
    (hl : l.ptr = some x) : ¬ some x = r.ptr := by
  have hnd := rep_nodup_split h
  simp only [Tree.addrs] at hnd
  intro hr
  have h1 := ptr_mem_addrs hl
  have h2 := ptr_mem_addrs hr.symm
  have h3 : (l.addrs ++ a :: r.addrs).Nodup := (List.nodup_append.mp hnd).1
  exact (List.nodup_append.mp h3).2.2 h1 (List.mem_cons_of_mem a h2)

/-- Overwriting the colour or the value of the node in focus. -/
theorem rep_store {s : rb_tree α} {K : List (Frame α)} {a : Nat} {l r : Tree α}
    {c : Bool} {v : α} (h : Rep s (plug K (Tree.node a l c v r))) (c' : Bool) (v' : α) :
    Rep (store s a { parent := ctxPtr K, left := l.ptr, right := r.ptr, red := c', value := v' })
      (plug K (Tree.node a l c' v' r)) := by
  have hnd := rep_nodup_split h
  simp only [Tree.addrs] at hnd
  simp [List.nodup_append, List.nodup_cons, not_or] at hnd
  obtain ⟨hc, hl, hr⟩ := models_plug h.models
  refine rep_replace_perm h ?_ ?_ ?_ ?_ ?_ ?_
  · simp only [store_root, h.root]; exact ptr_plug_of_ptr K rfl
  · intro b hb
    have h1 : b ≠ a := by rintro rfl; exact absurd hb (by simp [hnd])
    simp [h1]
  · intro _; rfl
  · refine ⟨by simp, models_congr hl ?_, models_congr hr ?_⟩
    · intro b hb
      have h1 : b ≠ a := by rintro rfl; exact absurd hb (by simp [hnd])
      simp [h1]
    · intro b hb
      have h1 : b ≠ a := by rintro rfl; exact absurd hb (by simp [hnd])
      simp [h1]
  · simp [Tree.addrs]
  · rfl

theorem set_red_rep {s : rb_tree α} {K : List (Frame α)} {a : Nat} {l r : Tree α}
    {c : Bool} {v : α} (h : Rep s (plug K (Tree.node a l c v r))) (c' : Bool) :
    ∃ s', set_red s (some a) c' = Except.ok s' ∧
      Rep s' (plug K (Tree.node a l c' v r)) ∧ SameAux s s' := by
  refine ⟨_, ?_, rep_store h c' v, ?_⟩
  · rw [set_red, modify_of_mem (rep_focus h)]
  · simp [SameAux]

theorem sameAux_refl (s : rb_tree α) : SameAux s s := by simp [SameAux]

theorem sameAux_trans {s1 s2 s3 : rb_tree α} (h12 : SameAux s1 s2) (h23 : SameAux s2 s3) :
    SameAux s1 s3 := by
  obtain ⟨a1, a2, a3, a4, a5, a6⟩ := h12
  obtain ⟨b1, b2, b3, b4, b5, b6⟩ := h23
  exact ⟨b1.trans a1, b2.trans a2, b3.trans a3, b4.trans a4, b5.trans a5, b6.trans a6⟩

/-! ## Colour invariants of paths -/

theorem bh_mem_blackCounts (t : Tree α) : t.bh ∈ t.blackCounts := by
  induction t with
  | nil => simp [Tree.bh, Tree.blackCounts]
  | node a l c v r ihl _ =>
    simp only [Tree.bh, Tree.blackCounts, List.mem_map, List.mem_append]
    exact ⟨l.bh, Or.inl ihl, rfl⟩

theorem balanced_counts {t : Tree α} (h : t.balanced) : ∀ x ∈ t.blackCounts, x = t.bh := by
  induction t with
  | nil => intro x hx; simpa [Tree.blackCounts, Tree.bh] using hx
  | node a l c v r ihl ihr =>
    obtain ⟨he, hl, hr⟩ := h
    intro x hx
    simp only [Tree.blackCounts, List.mem_map, List.mem_append] at hx
    obtain ⟨y, hy, rfl⟩ := hx
    rcases hy with hy | hy
    · rw [ihl hl y hy]; rfl
    · rw [ihr hr y hy, ← he]; rfl

theorem equalBlack_of_balanced {t : Tree α} (h : t.balanced) : t.equalBlack := by
  intro x hx y hy
  rw [balanced_counts h x hx, balanced_counts h y hy]

theorem balanced_of_equalBlack {t : Tree α} (h : t.equalBlack) : t.balanced := by
  induction t with
  | nil => trivial
  | node a l c v r ihl ihr =>
    have hl : l.equalBlack := by
      intro x hx y hy
      have := h (x + if c then 0 else 1) (by simp [Tree.blackCounts]; exact Or.inl hx)
        (y + if c then 0 else 1) (by simp [Tree.blackCounts]; exact Or.inl hy)
      omega
    have hr : r.equalBlack := by
      intro x hx y hy
      have := h (x + if c then 0 else 1) (by simp [Tree.blackCounts]; exact Or.inr hx)
        (y + if c then 0 else 1) (by simp [Tree.blackCounts]; exact Or.inr hy)
      omega
    refine ⟨?_, ihl hl, ihr hr⟩
    have := h (l.bh + if c then 0 else 1)
      (by simp [Tree.blackCounts]; exact Or.inl (bh_mem_blackCounts l))
      (r.bh + if c then 0 else 1)
      (by simp [Tree.blackCounts]; exact Or.inr (bh_mem_blackCounts r))
    omega

theorem equalBlack_iff_balanced (t : Tree α) : t.equalBlack ↔ t.balanced :=
  ⟨balanced_of_equalBlack, equalBlack_of_balanced⟩

/-- Filling the hole of a path that satisfies `CtxOK` with a matching subtree
gives a tree that satisfies the colour invariants. -/
theorem ctxOK_plug {K : List (Frame α)} {t : Tree α}
    (hc : CtxOK K t.bh) (h1 : t.noRedRed) (h2 : t.balanced)
    (h3 : t.isRed = true → ∃ g G, K = g :: G ∧ g.red = false) :
    (plug K t).noRedRed ∧ (plug K t).balanced ∧
      (K ≠ [] → (plug K t).isRed = false) := by
  induction K generalizing t with
  | nil => exact ⟨h1, h2, fun hne => absurd rfl hne⟩
  | cons f F ih =>
    obtain ⟨s1, s2, s3, s4, s5⟩ := hc
    have hfill : (f.fill t).bh = t.bh + (if f.red then 0 else 1) := by
      cases f with
      | L a c v sib => simp [Tree.bh]
      | R a c v sib => simp only [fill_R, Tree.bh, red_R]; simp only [sib_R] at s3; rw [s3]
    have key := ih (t := f.fill t) (by rw [hfill]; exact s5) ?_ ?_ ?_
    · refine ⟨key.1, key.2.1, fun _ => ?_⟩
      cases F with
      | nil =>
        simp only [plug_cons, plug_nil]
        cases hfr : f.red with
        | false => cases f <;> simp_all
        | true => obtain ⟨_, g, G, hg, _⟩ := s4 hfr; simp at hg
      | cons g G => exact key.2.2 (by simp)
    · cases f with
      | L a c v sib =>
        simp only [fill_L, Tree.noRedRed]
        refine ⟨fun hc => ?_, h1, s1⟩
        subst hc
        refine ⟨?_, (s4 rfl).1⟩
        cases ht : t.isRed with
        | false => rfl
        | true => obtain ⟨g, G, hg, hgr⟩ := h3 ht; simp at hg; simp [← hg] at hgr
      | R a c v sib =>
        simp only [fill_R, Tree.noRedRed]
        refine ⟨fun hc => ?_, s1, h1⟩
        subst hc
        refine ⟨(s4 rfl).1, ?_⟩
        cases ht : t.isRed with
        | false => rfl
        | true => obtain ⟨g, G, hg, hgr⟩ := h3 ht; simp at hg; simp [← hg] at hgr
    · cases f with
      | L a c v sib => exact ⟨s3.symm, h2, s2⟩
      | R a c v sib => exact ⟨s3, s2, h2⟩
    · intro hr
      have : f.red = true := by cases f <;> simpa using hr
      exact (s4 this).2

/-- The path around any subtree of a tree that satisfies the colour invariants
satisfies `CtxOK`. -/
theorem ctxOK_of_plug {K : List (Frame α)} {t : Tree α}
    (h1 : (plug K t).noRedRed) (h2 : (plug K t).balanced)
    (h3 : (plug K t).isRed = false) :
    CtxOK K t.bh ∧ t.noRedRed ∧ t.balanced ∧
      (t.isRed = true → ∃ g G, K = g :: G ∧ g.red = false) := by
  induction K generalizing t with
  | nil => exact ⟨trivial, h1, h2, fun hr => by simp [hr] at h3⟩
  | cons f F ih =>
    obtain ⟨k1, k2, k3, k4⟩ := ih (t := f.fill t) h1 h2 h3
    cases f with
    | L a c v sib =>
      simp only [fill_L, Tree.noRedRed, Tree.balanced, Tree.bh, isRed_node] at k1 k2 k3 k4
      refine ⟨⟨k2.2.2, k3.2.2, k3.1.symm, ?_, k1⟩, k2.2.1, k3.2.1, ?_⟩
      · intro hc; simp only [red_L] at hc; exact ⟨(k2.1 hc).2, k4 hc⟩
      · intro hr
        refine ⟨_, _, rfl, ?_⟩
        cases c with
        | false => rfl
        | true => have := (k2.1 rfl).1; simp [hr] at this
    | R a c v sib =>
      simp only [fill_R, Tree.noRedRed, Tree.balanced, Tree.bh, isRed_node] at k1 k2 k3 k4
      refine ⟨⟨k2.2.1, k3.2.1, k3.1, ?_, ?_⟩, k2.2.2, k3.2.2, ?_⟩
      · intro hc; simp only [red_R] at hc; exact ⟨(k2.1 hc).1, k4 hc⟩
      · simp only [red_R]; rw [← k3.1]; exact k1
      · intro hr
        refine ⟨_, _, rfl, ?_⟩
        cases c with
        | false => rfl
        | true => have := (k2.1 rfl).2; simp [hr] at this

/-! ## The steps of `fix_after_insert` on well-formed trees -/

theorem rep_child_ne' {s : rb_tree α} {K : List (Frame α)} {a : Nat} {l r : Tree α}
    {c : Bool} {v : α} (h : Rep s (plug K (Tree.node a l c v r))) {x : Nat}
    (hr : r.ptr = some x) : ¬ some x = l.ptr := by
  intro hl
  exact rep_child_ne h hl.symm (hr.symm)

@[simp] theorem addr_paint (f : Frame α) (c : Bool) : (f.paint c).addr = f.addr := by
  cases f <;> rfl

@[simp] theorem sib_paint (f : Frame α) (c : Bool) : (f.paint c).sib = f.sib := by
  cases f <;> rfl

@[simp] theorem red_paint (f : Frame α) (c : Bool) : (f.paint c).red = c := by
  cases f <;> rfl

@[simp] theorem addr_withSib (f : Frame α) (t : Tree α) : (f.withSib t).addr = f.addr := by
  cases f <;> rfl

@[simp] theorem sib_withSib (f : Frame α) (t : Tree α) : (f.withSib t).sib = t := by
  cases f <;> rfl

@[simp] theorem red_withSib (f : Frame α) (t : Tree α) : (f.withSib t).red = f.red := by
  cases f <;> rfl

theorem frame_get_parent {s : rb_tree α} {f : Frame α} {F : List (Frame α)} {t : Tree α}
    (h : Rep s (plug (f :: F) t)) : get_parent s (some f.addr) = Except.ok (ctxPtr F) := by
  cases f with
  | L a c v sib => exact rep_get_parent (K := F) h
  | R a c v sib => exact rep_get_parent (K := F) h

theorem frame_get_red {s : rb_tree α} {f : Frame α} {F : List (Frame α)} {t : Tree α}
    (h : Rep s (plug (f :: F) t)) : get_red s (some f.addr) = Except.ok f.red := by
  cases f with
  | L a c v sib => exact rep_get_red (K := F) h
  | R a c v sib => exact rep_get_red (K := F) h

theorem frame_set_red {s : rb_tree α} {f : Frame α} {F : List (Frame α)} {t : Tree α}
    (h : Rep s (plug (f :: F) t)) (c : Bool) :
    ∃ s', set_red s (some f.addr) c = Except.ok s' ∧
      Rep s' (plug (f.paint c :: F) t) ∧ SameAux s s' := by
  cases f with
  | L a c' v sib => exact set_red_rep (K := F) h c
  | R a c' v sib => exact set_red_rep (K := F) h c

theorem sib_set_red {s : rb_tree α} {f : Frame α} {F : List (Frame α)} {t : Tree α}
    (h : Rep s (plug (f :: F) t)) {u : Nat} (hu : f.sib.ptr = some u) (c : Bool) :
    ∃ s', set_red s (some u) c = Except.ok s' ∧
      Rep s' (plug (f.withSib (f.sib.paint c) :: F) t) ∧ SameAux s s' := by
  cases f with
  | L a c' v sib =>
    cases sib with
    | nil => simp at hu
    | node b bl cb vb br =>
      simp only [sib_L, ptr_node, Option.some.injEq] at hu
      subst hu
      exact set_red_rep (K := Frame.R a c' v t :: F) h c
  | R a c' v sib =>
    cases sib with
    | nil => simp at hu
    | node b bl cb vb br =>
      simp only [sib_R, ptr_node, Option.some.injEq] at hu
      subst hu
      exact set_red_rep (K := Frame.L a c' v t :: F) h c

theorem sib_get_red {s : rb_tree α} {f : Frame α} {F : List (Frame α)} {t : Tree α}
    (h : Rep s (plug (f :: F) t)) :
    (if f.sib.ptr ≠ none then get_red s f.sib.ptr else pure false) = Except.ok f.sib.isRed := by
  cases f with
  | L a c' v sib =>
    cases sib with
    | nil => simp
    | node b bl cb vb br =>
      simp [rep_get_red (K := Frame.R a c' v t :: F) h]
  | R a c' v sib =>
    cases sib with
    | nil => simp
    | node b bl cb vb br =>
      simp [rep_get_red (K := Frame.L a c' v t :: F) h]

theorem get_uncle_rep {s : rb_tree α} {f g : Frame α} {G : List (Frame α)} {n : Nat}
    {l r : Tree α} {c : Bool} {v : α}
    (h : Rep s (plug (f :: g :: G) (Tree.node n l c v r))) :
    get_uncle s (some n) = Except.ok g.sib.ptr := by
  have e1 := rep_get_parent h
  have e2 := frame_get_parent h
  simp only [ctxPtr_cons] at e1 e2
  cases g with
  | L b cb vb u =>
    have h' : Rep s (plug G (Tree.node b (f.fill (Tree.node n l c v r)) cb vb u)) := h
    have e3 := rep_get_left h'
    have e4 := rep_get_right h'
    have hp : (f.fill (Tree.node n l c v r)).ptr = some f.addr := by cases f <;> rfl
    simp only [hp, addr_L] at e2 e3 e4
    simp [get_uncle, e1, e2, e3, e4]
  | R b cb vb u =>
    have h' : Rep s (plug G (Tree.node b u cb vb (f.fill (Tree.node n l c v r)))) := h
    have e3 := rep_get_left h'
    have hp : (f.fill (Tree.node n l c v r)).ptr = some f.addr := by cases f <;> rfl
    have hne := rep_child_ne' h' hp
    simp only [addr_R] at e2 e3
    simp [get_uncle, e1, e2, e3, hne]

theorem fix_recolour_rep {s : rb_tree α} {f g : Frame α} {G : List (Frame α)} {n : Nat}
    {l r : Tree α} {c : Bool} {v : α}
    (h : Rep s (plug (f :: g :: G) (Tree.node n l c v r))) {u : Nat}
    (hu : g.sib.ptr = some u) :
    ∃ s', fix_recolour s (some n) (some u) = Except.ok (s', some g.addr) ∧
      Rep s' (plug (f.paint false :: (g.withSib (g.sib.paint false)).paint true :: G)
        (Tree.node n l c v r)) ∧ SameAux s s' := by
  obtain ⟨s1, e1, R1, A1⟩ := sib_set_red (f := g) (F := G) h hu false
  have R1' : Rep s1 (plug (f :: g.withSib (g.sib.paint false) :: G) (Tree.node n l c v r)) := R1
  have e2 := rep_get_parent R1'
  obtain ⟨s2, e3, R2, A2⟩ := frame_set_red R1' false
  have e4 := rep_get_parent R2
  have e5 := frame_get_parent R2
  have R2' : Rep s2 (plug (g.withSib (g.sib.paint false) :: G)
      ((f.paint false).fill (Tree.node n l c v r))) := R2
  obtain ⟨s3, e6, R3, A3⟩ := frame_set_red R2' true
  simp only [ctxPtr_cons, addr_paint, addr_withSib] at e2 e3 e4 e5 e6
  refine ⟨s3, ?_, R3, sameAux_trans (sameAux_trans A1 A2) A3⟩
  simp [fix_recolour, e1, e2, e3, e4, e5, e6]

theorem fix_inner_LL {s : rb_tree α} {G : List (Frame α)} {n p g : Nat}
    {l r psib u : Tree α} {cn cp cg : Bool} {v vp vg : α}
    (h : Rep s (plug G (Tree.node g (Tree.node p (Tree.node n l cn v r) cp vp psib) cg vg u))) :
    fix_inner s (some n) = Except.ok (s, some n) := by
  have e1 := rep_get_parent (K := Frame.L p cp vp psib :: Frame.L g cg vg u :: G) h
  have e2 := rep_get_right (K := Frame.L g cg vg u :: G) h
  have e3 := rep_get_left (K := Frame.L g cg vg u :: G) h
  have e4 := rep_get_parent (K := Frame.L g cg vg u :: G) h
  have e5 := rep_get_right (K := G) h
  have n1 := rep_child_ne (K := Frame.L g cg vg u :: G) h (x := n) rfl
  have n2 := rep_child_ne (K := G) h (x := p) rfl
  simp only [ctxPtr_cons, addr_L, ptr_node] at e1 e2 e3 e4 e5
  simp [fix_inner, e1, e2, e3, e4, e5, n1, n2]

theorem fix_inner_RR {s : rb_tree α} {G : List (Frame α)} {n p g : Nat}
    {l r psib u : Tree α} {cn cp cg : Bool} {v vp vg : α}
    (h : Rep s (plug G (Tree.node g u cg vg (Tree.node p psib cp vp (Tree.node n l cn v r))))) :
    fix_inner s (some n) = Except.ok (s, some n) := by
  have e1 := rep_get_parent (K := Frame.R p cp vp psib :: Frame.R g cg vg u :: G) h
  have e2 := rep_get_right (K := Frame.R g cg vg u :: G) h
  have e3 := rep_get_left (K := Frame.R g cg vg u :: G) h
  have e4 := rep_get_parent (K := Frame.R g cg vg u :: G) h
  have e5 := rep_get_left (K := G) h
  have n1 := rep_child_ne' (K := Frame.R g cg vg u :: G) h (x := n) rfl
  have n2 := rep_child_ne' (K := G) h (x := p) rfl
  simp only [ctxPtr_cons, addr_R, ptr_node] at e1 e2 e3 e4 e5
  simp [fix_inner, e1, e2, e3, e4, e5, n1, n2]

theorem fix_inner_LR {s : rb_tree α} {G : List (Frame α)} {n p g : Nat}
    {l r psib u : Tree α} {cn cp cg : Bool} {v vp vg : α}
    (h : Rep s (plug G (Tree.node g (Tree.node p psib cp vp (Tree.node n l cn v r)) cg vg u))) :
    ∃ s', fix_inner s (some n) = Except.ok (s', some p) ∧
      Rep s' (plug G (Tree.node g (Tree.node n (Tree.node p psib cp vp l) cn v r) cg vg u)) ∧
      SameAux s s' := by
  have e1 := rep_get_parent (K := Frame.R p cp vp psib :: Frame.L g cg vg u :: G) h
  have e2 := rep_get_right (K := Frame.L g cg vg u :: G) h
  have e4 := rep_get_parent (K := Frame.L g cg vg u :: G) h
  have e5 := rep_get_left (K := G) h
  obtain ⟨s1, e6, R1, A1⟩ := rotate_left_rep (K := Frame.L g cg vg u :: G) h
  have e7 := rep_get_left (K := Frame.L g cg vg u :: G) R1
  simp only [ctxPtr_cons, addr_L, addr_R, ptr_node] at e1 e2 e4 e5 e7
  refine ⟨s1, ?_, R1, A1⟩
  simp [fix_inner, e1, e2, e4, e5, e6, e7]

theorem fix_inner_RL {s : rb_tree α} {G : List (Frame α)} {n p g : Nat}
    {l r psib u : Tree α} {cn cp cg : Bool} {v vp vg : α}
    (h : Rep s (plug G (Tree.node g u cg vg (Tree.node p (Tree.node n l cn v r) cp vp psib)))) :
    ∃ s', fix_inner s (some n) = Except.ok (s', some p) ∧
      Rep s' (plug G (Tree.node g u cg vg (Tree.node n l cn v (Tree.node p r cp vp psib)))) ∧
      SameAux s s' := by
  have e1 := rep_get_parent (K := Frame.L p cp vp psib :: Frame.R g cg vg u :: G) h
  have e2 := rep_get_right (K := Frame.R g cg vg u :: G) h
  have e3 := rep_get_left (K := Frame.R g cg vg u :: G) h
  have e4 := rep_get_parent (K := Frame.R g cg vg u :: G) h
  have e5 := rep_get_right (K := G) h
  have n1 := rep_child_ne (K := Frame.R g cg vg u :: G) h (x := n) rfl
  obtain ⟨s1, e6, R1, A1⟩ := rotate_right_rep (K := Frame.R g cg vg u :: G) h
  have e7 := rep_get_right (K := Frame.R g cg vg u :: G) R1
  simp only [ctxPtr_cons, addr_L, addr_R, ptr_node] at e1 e2 e3 e4 e5 e7
  refine ⟨s1, ?_, R1, A1⟩
  simp [fix_inner, e1, e2, e3, e4, e5, e6, e7, n1]

theorem fix_outer_L {s : rb_tree α} {G : List (Frame α)} {n p g : Nat}
    {l r psib u : Tree α} {cn cp cg : Bool} {v vp vg : α}
    (h : Rep s (plug G (Tree.node g (Tree.node p (Tree.node n l cn v r) cp vp psib) cg vg u))) :
    ∃ s', fix_outer s (some n) = Except.ok s' ∧
      Rep s' (plug G (Tree.node p (Tree.node n l cn v r) false vp
        (Tree.node g psib true vg u))) ∧
      SameAux s s' := by
  have e1 := rep_get_parent (K := Frame.L p cp vp psib :: Frame.L g cg vg u :: G) h
  have e2 := rep_get_left (K := Frame.L g cg vg u :: G) h
  obtain ⟨s1, e3, R1, A1⟩ := rotate_right_rep (K := G) h
  have e4 := rep_get_parent
    (K := Frame.L p cp vp (Tree.node g psib cg vg u) :: G) R1
  have e5 := rep_get_right (K := G) R1
  obtain ⟨s2, e6, R2, A2⟩ := set_red_rep
    (K := Frame.R p cp vp (Tree.node n l cn v r) :: G) R1 true
  have e7 := rep_get_parent
    (K := Frame.L p cp vp (Tree.node g psib true vg u) :: G) R2
  obtain ⟨s3, e8, R3, A3⟩ := set_red_rep (K := G) R2 false
  simp only [ctxPtr_cons, addr_L, addr_R, ptr_node] at e1 e2 e4 e5 e7
  refine ⟨s3, ?_, R3, sameAux_trans (sameAux_trans A1 A2) A3⟩
  simp [fix_outer, e1, e2, e3, e4, e5, e6, e7, e8]

theorem fix_outer_R {s : rb_tree α} {G : List (Frame α)} {n p g : Nat}
    {l r psib u : Tree α} {cn cp cg : Bool} {v vp vg : α}
    (h : Rep s (plug G (Tree.node g u cg vg (Tree.node p psib cp vp (Tree.node n l cn v r))))) :
    ∃ s', fix_outer s (some n) = Except.ok s' ∧
      Rep s' (plug G (Tree.node p (Tree.node g u true vg psib) false vp
        (Tree.node n l cn v r))) ∧
      SameAux s s' := by
  have e1 := rep_get_parent (K := Frame.R p cp vp psib :: Frame.R g cg vg u :: G) h
  have e2 := rep_get_left (K := Frame.R g cg vg u :: G) h
  have n1 := rep_child_ne' (K := Frame.R g cg vg u :: G) h (x := n) rfl
  obtain ⟨s1, e3, R1, A1⟩ := rotate_left_rep (K := G) h
  have e4 := rep_get_parent
    (K := Frame.R p cp vp (Tree.node g u cg vg psib) :: G) R1
  have e5 := rep_get_left (K := G) R1
  obtain ⟨s2, e6, R2, A2⟩ := set_red_rep
    (K := Frame.L p cp vp (Tree.node n l cn v r) :: G) R1 true
  have e7 := rep_get_parent
    (K := Frame.R p cp vp (Tree.node g u true vg psib) :: G) R2
  obtain ⟨s3, e8, R3, A3⟩ := set_red_rep (K := G) R2 false
  simp only [ctxPtr_cons, addr_L, addr_R, ptr_node] at e1 e2 e4 e5 e7
  refine ⟨s3, ?_, R3, sameAux_trans (sameAux_trans A1 A2) A3⟩
  simp [fix_outer, e1, e2, e3, e4, e5, e6, e7, e8, n1]

theorem ctxOK_plug_root {K : List (Frame α)} {t : Tree α}
    (hc : CtxOK K t.bh) (h1 : t.noRedRed) (h2 : t.balanced) (h3 : t.isRed = false) :
    (plug K t).noRedRed ∧ (plug K t).balanced ∧ (plug K t).isRed = false := by
  have key := ctxOK_plug hc h1 h2 (fun hr => by simp [h3] at hr)
  refine ⟨key.1, key.2.1, ?_⟩
  cases K with
  | nil => exact h3
  | cons f F => exact key.2.2 (by simp)

theorem isRed_eq_true_iff {t : Tree α} (h : t.isRed = true) :
    ∃ a l v r, t = Tree.node a l true v r := by
  cases t with
  | nil => simp at h
  | node a l c v r => simp only [isRed_node] at h; subst h; exact ⟨a, l, v, r, rfl⟩

theorem loop_root {s s' : rb_tree α} {n : Nat} (fuel : Nat)
    (e1 : get_parent s (some n) = Except.ok none)
    (e2 : set_red s (some n) false = Except.ok s') :
    fix_after_insert_loop (fuel + 1) s (some n) = Except.ok s' := by
  simp [fix_after_insert_loop, e1, e2]

theorem loop_black_parent {s : rb_tree α} {n p : Nat} (fuel : Nat)
    (e1 : get_parent s (some n) = Except.ok (some p))
    (e2 : get_red s (some p) = Except.ok false) :
    fix_after_insert_loop (fuel + 1) s (some n) = Except.ok s := by
  simp [fix_after_insert_loop, e1, e2]

theorem loop_red_uncle {s s1 : rb_tree α} {n p : Nat} {u n1 : Option Nat} (fuel : Nat)
    (e1 : get_parent s (some n) = Except.ok (some p))
    (e2 : get_red s (some p) = Except.ok true)
    (e3 : get_uncle s (some n) = Except.ok u)
    (e4 : (if u ≠ none then get_red s u else pure false) = Except.ok true)
    (e5 : fix_recolour s (some n) u = Except.ok (s1, n1)) :
    fix_after_insert_loop (fuel + 1) s (some n) = fix_after_insert_loop fuel s1 n1 := by
  simp only [fix_after_insert_loop]
  rw [e1]; simp only [ok_bind]
  rw [e2]; simp only [ok_bind]
  rw [e3]; simp only [ok_bind]
  rw [e4]; simp only [ok_bind]
  rw [e5]; simp

theorem loop_black_uncle {s : rb_tree α} {n p : Nat} {u : Option Nat} (fuel : Nat)
    (e1 : get_parent s (some n) = Except.ok (some p))
    (e2 : get_red s (some p) = Except.ok true)
    (e3 : get_uncle s (some n) = Except.ok u)
    (e4 : (if u ≠ none then get_red s u else pure false) = Except.ok false) :
    fix_after_insert_loop (fuel + 1) s (some n) =
      (fix_inner s (some n) >>= fun x => fix_outer x.1 x.2) := by
  simp only [fix_after_insert_loop]
  rw [e1]; simp only [ok_bind]
  rw [e2]; simp only [ok_bind]
  rw [e3]; simp only [ok_bind]
  rw [e4]; simp

/-- The loop of `fix_after_insert` started at a red node whose subtree is fine
and whose surroundings are fine for a black node of the same black height:
it returns, and the tree then satisfies the colour invariants and holds the
same values in the same order. -/
theorem fix_after_insert_loop_rep (k : Nat) :
    ∀ (K : List (Frame α)) (fuel : Nat) (s : rb_tree α) (n : Nat) (l r : Tree α) (v : α),
      K.length ≤ k → K.length < fuel →
      Rep s (plug K (Tree.node n l true v r)) →
      (Tree.node n l true v r).noRedRed → (Tree.node n l true v r).balanced →
      CtxOK K (Tree.node n l true v r).bh →
      ∃ s' T, fix_after_insert_loop fuel s (some n) = Except.ok s' ∧ Rep s' T ∧
        T.isRed = false ∧ T.noRedRed ∧ T.balanced ∧
        T.values = (plug K (Tree.node n l true v r)).values ∧ SameAux s s' := by
  induction k using Nat.strong_induction_on with
  | _ k ih =>
    intro K fuel s n l r v hk hf hrep hnr hbal hctx
    cases fuel with
    | zero => omega
    | succ fuel =>
    rcases K with _ | ⟨f, F⟩
    · have e1 := rep_get_parent hrep
      obtain ⟨s', e2, R, A⟩ := set_red_rep hrep false
      simp only [ctxPtr_nil] at e1
      refine ⟨s', _, loop_root fuel e1 e2, R, rfl, ?_, hbal, rfl, A⟩
      simp only [plug_nil, Tree.noRedRed] at hnr ⊢
      exact ⟨fun hc => by simp at hc, hnr.2⟩
    · have e1 := rep_get_parent hrep
      have e2 := frame_get_red hrep
      simp only [ctxPtr_cons] at e1
      cases hfr : f.red with
      | false =>
        have key := ctxOK_plug hctx hnr hbal (fun _ => ⟨f, F, rfl, hfr⟩)
        rw [hfr] at e2
        exact ⟨s, _, loop_black_parent fuel e1 e2, hrep, key.2.2 (by simp), key.1, key.2.1, rfl,
          sameAux_refl s⟩
      | true =>
        obtain ⟨c1, c2, c3, c4, c5⟩ := hctx
        obtain ⟨hpsib, g, G, rfl, hg⟩ := c4 hfr
        obtain ⟨d1, d2, d3, d4, d5⟩ := c5
        have e3 := get_uncle_rep hrep
        have e4 := sib_get_red (f := g) (F := G) hrep
        rw [hfr] at e2
        have hlen : G.length < k := by simp only [List.length_cons] at hk; omega
        have hfuel : G.length < fuel := by simp only [List.length_cons] at hf; omega
        simp only [hfr, hg, if_true, Bool.false_eq_true, if_false, Nat.add_zero] at d3 d5
        simp only [Tree.noRedRed, Tree.balanced, Tree.bh, if_true, Nat.add_zero] at hnr hbal c3 d3 d5
        cases hu : g.sib.isRed with
        | true =>
          obtain ⟨u, ul, uv, ur, hueq⟩ := isRed_eq_true_iff hu
          have hup : g.sib.ptr = some u := by rw [hueq]; rfl
          obtain ⟨s1, e5, R1, A1⟩ := fix_recolour_rep hrep hup
          rw [hu] at e4
          rw [hup] at e3 e4
          have eloop := loop_red_uncle fuel e1 e2 e3 e4 e5
          simp only [hueq, Tree.noRedRed, Tree.balanced, Tree.bh, if_true, Nat.add_zero] at d1 d2 d3
          rcases f with ⟨p, cp, vp, psib⟩ | ⟨p, cp, vp, psib⟩ <;>
            rcases g with ⟨gg, cg, vg, usib⟩ | ⟨gg, cg, vg, usib⟩
          all_goals
            simp only [sib_L, sib_R, red_L, red_R, addr_L, addr_R] at *
            subst hueq hfr hg
            have key := ih _ hlen G fuel s1 gg _ _ vg le_rfl hfuel R1 ?_ ?_ ?_
            · obtain ⟨s', T, e6, R, k1, k2, k3, k4, A⟩ := key
              refine ⟨s', T, eloop.trans e6, R, k1, k2, k3, ?_, sameAux_trans A1 A⟩
              rw [k4]; simp [values_plug, Tree.values, ctxPre, ctxPost, Frame.paint, Frame.withSib]
            · simp [Tree.noRedRed, Frame.paint, Frame.withSib, Tree.paint, hnr, c1, d1, hpsib]
            · have b1 := hbal.1
              have b2 := d2.1
              simp [Tree.balanced, Tree.bh, Frame.paint, Frame.withSib, Tree.paint, hbal, c2, c3, d2,
                d3]
              try omega
            · simpa [Tree.bh, Frame.paint, Frame.withSib, Tree.paint, c3, d3] using d5
        | false =>
          rw [hu] at e4
          have eloop := loop_black_uncle fuel e1 e2 e3 e4
          rcases f with ⟨p, cp, vp, psib⟩ | ⟨p, cp, vp, psib⟩ <;>
            rcases g with ⟨gg, cg, vg, usib⟩ | ⟨gg, cg, vg, usib⟩ <;>
            simp only [sib_L, sib_R, red_L, red_R, addr_L, addr_R] at * <;>
            subst hfr hg
          · have i1 := fix_inner_LL (G := G) hrep
            obtain ⟨s', o1, R, hA⟩ := fix_outer_L (G := G) hrep
            have hprog : fix_after_insert_loop (fuel + 1) s (some n) = Except.ok s' := by
              rw [eloop, i1]; simpa using o1
            have key := ctxOK_plug_root (K := G) (t := Tree.node p (Tree.node n l true v r) false vp (Tree.node gg psib true vg usib)) ?_ ?_ ?_ rfl
            · exact ⟨s', _, hprog, R, key.2.2, key.1, key.2.1,
                by simp [values_plug, Tree.values, ctxPre, ctxPost], hA⟩
            · simpa [Tree.bh, c3, d3] using d5
            · simp [Tree.noRedRed, hnr, c1, d1, hpsib, hu]
            · have b1 := hbal.1
              simp [Tree.balanced, Tree.bh, hbal, c2, c3, d2, d3]
              try omega
          · obtain ⟨s1, i1, R1, A1⟩ := fix_inner_RL (G := G) hrep
            obtain ⟨s', o1, R, A2⟩ := fix_outer_R (G := G) R1
            have hA := sameAux_trans A1 A2
            have hprog : fix_after_insert_loop (fuel + 1) s (some n) = Except.ok s' := by
              rw [eloop, i1]; simpa using o1
            have key := ctxOK_plug_root (K := G) (t := Tree.node n (Tree.node gg usib true vg l) false v (Tree.node p r true vp psib)) ?_ ?_ ?_ rfl
            · exact ⟨s', _, hprog, R, key.2.2, key.1, key.2.1,
                by simp [values_plug, Tree.values, ctxPre, ctxPost], hA⟩
            · simpa [Tree.bh, c3, d3] using d5
            · simp [Tree.noRedRed, hnr, c1, d1, hpsib, hu]
            · have b1 := hbal.1
              simp [Tree.balanced, Tree.bh, hbal, c2, c3, d2, d3]
              try omega
          · obtain ⟨s1, i1, R1, A1⟩ := fix_inner_LR (G := G) hrep
            obtain ⟨s', o1, R, A2⟩ := fix_outer_L (G := G) R1
            have hA := sameAux_trans A1 A2
            have hprog : fix_after_insert_loop (fuel + 1) s (some n) = Except.ok s' := by
              rw [eloop, i1]; simpa using o1
            have key := ctxOK_plug_root (K := G) (t := Tree.node n (Tree.node p psib true vp l) false v (Tree.node gg r true vg usib)) ?_ ?_ ?_ rfl
            · exact ⟨s', _, hprog, R, key.2.2, key.1, key.2.1,
                by simp [values_plug, Tree.values, ctxPre, ctxPost], hA⟩
            · simpa [Tree.bh, c3, d3] using d5
            · simp [Tree.noRedRed, hnr, c1, d1, hpsib, hu]
            · have b1 := hbal.1
              simp [Tree.balanced, Tree.bh, hbal, c2, c3, d2, d3]
              try omega
          · have i1 := fix_inner_RR (G := G) hrep
            obtain ⟨s', o1, R, hA⟩ := fix_outer_R (G := G) hrep
            have hprog : fix_after_insert_loop (fuel + 1) s (some n) = Except.ok s' := by
              rw [eloop, i1]; simpa using o1
            have key := ctxOK_plug_root (K := G) (t := Tree.node p (Tree.node gg usib true vg psib) false vp (Tree.node n l true v r)) ?_ ?_ ?_ rfl
            · exact ⟨s', _, hprog, R, key.2.2, key.1, key.2.1,
                by simp [values_plug, Tree.values, ctxPre, ctxPost], hA⟩
            · simpa [Tree.bh, c3, d3] using d5
            · simp [Tree.noRedRed, hnr, c1, d1, hpsib, hu]
            · have b1 := hbal.1
              simp [Tree.balanced, Tree.bh, hbal, c2, c3, d2, d3]
              try omega

/-! ## Attaching a new leaf -/

theorem rep_live_lt {s : rb_tree α} {K : List (Frame α)} {t : Tree α}
    (h : Rep s (plug K t)) : ∀ a, a ∈ t.addrs ++ ctxAddrs K → a < s.next := by
  intro a ha
  exact h.live a ((addrs_plug K t).mem_iff.mpr ha)

theorem attach_left_rep {s : rb_tree α} {K : List (Frame α)} {a : Nat} {c : Bool} {x : α}
    {r : Tree α} (h : Rep s (plug K (Tree.node a Tree.nil c x r))) (v : α) :
    ∃ s2 s3, set_parent (create_node s v).1 (some s.next) (some a) = Except.ok s2 ∧
      set_left s2 (some a) (some s.next) = Except.ok s3 ∧
      Rep s3 (plug (Frame.L a c x r :: K) (Tree.node s.next Tree.nil true v Tree.nil)) ∧
      s3.cmp = s.cmp ∧ s3.fr = s.fr ∧ s3.next = s.next + 1 := by
  have hnd := rep_nodup_split h
  have hlive := rep_live_lt h
  have hcell := rep_focus h
  obtain ⟨-, -, hr⟩ := models_plug h.models
  simp only [Tree.addrs, List.nil_append] at hnd hlive
  simp [List.nodup_append, List.nodup_cons, not_or] at hnd
  have hma : s.next ≠ a := by
    have := hlive a (by simp); omega
  simp only [ptr_nil] at hcell
  refine ⟨store (create_node s v).1 s.next
      { parent := some a, left := none, right := none, red := true, value := v },
    store (store (create_node s v).1 s.next
      { parent := some a, left := none, right := none, red := true, value := v }) a
      { parent := ctxPtr K, left := some s.next, right := r.ptr, red := c, value := x },
    ?_, ?_, ?_, ?_, ?_, ?_⟩
  · simp [set_parent, modify, create_node]
  · simp [set_left, modify, create_node, hcell, hma, hma.symm]
  · refine rep_replace (K := K) (t := Tree.node a Tree.nil c x r)
      (w := Tree.node a (Tree.node s.next Tree.nil true v Tree.nil) c x r) h ?_ ?_ ?_ ?_ ?_ ?_ ?_ ?_
    · simp only [store_root, create_node, h.root]; exact ptr_plug_of_ptr K rfl
    · intro b hb
      have h1 : b ≠ a := by rintro rfl; exact absurd hb (by simp [hnd])
      have h2 : b ≠ s.next := by
        have := hlive b (by simp [hb]); omega
      simp [store, create_node, h1, h2]
    · intro _; rfl
    · simp only [Models, ptr_node, ptr_nil]
      refine ⟨by simp [store, hma.symm], ⟨by simp [store, create_node, hma], trivial, trivial⟩,
        models_congr hr ?_⟩
      intro b hb
      have h1 : b ≠ a := by rintro rfl; exact absurd hb (by simp [hnd])
      have h2 : b ≠ s.next := by
        have := hlive b (by simp [hb]); omega
      simp [store, create_node, h1, h2]
    · simp only [Tree.addrs, List.nil_append, List.cons_append]
      refine List.nodup_cons.mpr ⟨?_, List.nodup_cons.mpr ⟨by simp [hnd], by simp [hnd]⟩⟩
      intro hm
      have := hlive s.next (List.mem_append_left _ hm)
      omega
    · intro b hb hc
      simp only [Tree.addrs, List.nil_append, List.cons_append, List.mem_cons] at hb
      rcases hb with rfl | rfl | hb
      · have := hlive s.next (by simp [hc]); omega
      · exact absurd hc (by simp [hnd])
      · exact hnd.2.2.2 hb hc
    · intro b hb
      simp only [Tree.addrs, List.nil_append, List.cons_append, List.mem_cons] at hb
      simp only [store_next, create_node]
      rcases hb with rfl | rfl | hb
      · omega
      · have := hlive b (by simp); omega
      · have := hlive b (by simp [hb]); omega
    · simp [store, create_node]
  · rfl
  · rfl
  · rfl

theorem attach_right_rep {s : rb_tree α} {K : List (Frame α)} {a : Nat} {c : Bool} {x : α}
    {l : Tree α} (h : Rep s (plug K (Tree.node a l c x Tree.nil))) (v : α) :
    ∃ s2 s3, set_parent (create_node s v).1 (some s.next) (some a) = Except.ok s2 ∧
      set_right s2 (some a) (some s.next) = Except.ok s3 ∧
      Rep s3 (plug (Frame.R a c x l :: K) (Tree.node s.next Tree.nil true v Tree.nil)) ∧
      s3.cmp = s.cmp ∧ s3.fr = s.fr ∧ s3.next = s.next + 1 := by
  have hnd := rep_nodup_split h
  have hlive := rep_live_lt h
  have hcell := rep_focus h
  obtain ⟨-, hl, -⟩ := models_plug h.models
  simp only [Tree.addrs] at hnd hlive
  simp [List.nodup_append, List.nodup_cons, not_or] at hnd
  have hma : s.next ≠ a := by
    have := hlive a (by simp); omega
  simp only [ptr_nil] at hcell
  refine ⟨store (create_node s v).1 s.next
      { parent := some a, left := none, right := none, red := true, value := v },
    store (store (create_node s v).1 s.next
      { parent := some a, left := none, right := none, red := true, value := v }) a
      { parent := ctxPtr K, left := l.ptr, right := some s.next, red := c, value := x },
    ?_, ?_, ?_, ?_, ?_, ?_⟩
  · simp [set_parent, modify, create_node]
  · simp [set_right, modify, create_node, hcell, hma, hma.symm]
  · refine rep_replace (K := K) (t := Tree.node a l c x Tree.nil)
      (w := Tree.node a l c x (Tree.node s.next Tree.nil true v Tree.nil)) h ?_ ?_ ?_ ?_ ?_ ?_ ?_ ?_
    · simp only [store_root, create_node, h.root]; exact ptr_plug_of_ptr K rfl
    · intro b hb
      have h1 : b ≠ a := by rintro rfl; exact absurd hb (by simp [hnd])
      have h2 : b ≠ s.next := by
        have := hlive b (by simp [hb]); omega
      simp [store, create_node, h1, h2]
    · intro _; rfl
    · simp only [Models, ptr_node, ptr_nil]
      refine ⟨by simp [store, hma.symm], models_congr hl ?_,
        by simp [store, create_node, hma], trivial, trivial⟩
      intro b hb
      have h1 : b ≠ a := by rintro rfl; exact absurd hb (by simp [hnd])
      have h2 : b ≠ s.next := by
        have := hlive b (by simp [hb]); omega
      simp [store, create_node, h1, h2]
    · have hm1 : s.next ∉ l.addrs := by
        intro hm
        have := hlive s.next (by simp [hm]); omega
      simp [Tree.addrs, List.nodup_append, List.nodup_cons, hnd, hm1, hma.symm]
    · intro b hb hc
      simp [Tree.addrs] at hb
      rcases hb with hb | rfl | rfl
      · exact hnd.2.2.2 hb hc
      · exact absurd hc (by simp [hnd])
      · have := hlive s.next (by simp [hc]); omega
    · intro b hb
      simp [Tree.addrs] at hb
      simp only [store_next, create_node]
      rcases hb with hb | rfl | rfl
      · have := hlive b (by simp [hb]); omega
      · have := hlive b (by simp); omega
      · omega
    · simp [store, create_node]
  · rfl
  · rfl
  · rfl

/-! ## The descent of `rb_tree_insert` -/

theorem insert_loop_lt_nil {s s2 s3 : rb_tree α} {a : Nat} {x v : α} (ff fuel : Nat)
    (e1 : get_value s (some a) = Except.ok x) (hlt : s.cmp v x < 0)
    (e2 : get_left s (some a) = Except.ok none)
    (a1 : set_parent (create_node s v).1 (some s.next) (some a) = Except.ok s2)
    (a2 : set_left s2 (some a) (some s.next) = Except.ok s3) :
    rb_tree_insert_loop ff (fuel + 1) s (some a) v = fix_after_insert ff s3 (some s.next) := by
  have hc : create_node s v = ((create_node s v).1, some s.next) := rfl
  simp only [rb_tree_insert_loop]
  rw [e1]; simp only [ok_bind, hlt, if_true]
  rw [e2]; simp only [ok_bind, if_true]
  rw [hc]; simp only []
  rw [a1]; simp only [ok_bind]
  rw [a2]; simp only [ok_bind]

theorem insert_loop_lt_node {s : rb_tree α} {a b : Nat} {x v : α} (ff fuel : Nat)
    (e1 : get_value s (some a) = Except.ok x) (hlt : s.cmp v x < 0)
    (e2 : get_left s (some a) = Except.ok (some b)) :
    rb_tree_insert_loop ff (fuel + 1) s (some a) v = rb_tree_insert_loop ff fuel s (some b) v := by
  simp only [rb_tree_insert_loop]
  rw [e1]; simp only [ok_bind, hlt, if_true]
  rw [e2]; simp

theorem insert_loop_gt_nil {s s2 s3 : rb_tree α} {a : Nat} {x v : α} (ff fuel : Nat)
    (e1 : get_value s (some a) = Except.ok x) (hlt : ¬ s.cmp v x < 0) (hgt : s.cmp v x > 0)
    (e2 : get_right s (some a) = Except.ok none)
    (a1 : set_parent (create_node s v).1 (some s.next) (some a) = Except.ok s2)
    (a2 : set_right s2 (some a) (some s.next) = Except.ok s3) :
    rb_tree_insert_loop ff (fuel + 1) s (some a) v = fix_after_insert ff s3 (some s.next) := by
  have hc : create_node s v = ((create_node s v).1, some s.next) := rfl
  simp only [rb_tree_insert_loop]
  rw [e1]; simp only [ok_bind, hlt, hgt, if_true, if_false]
  rw [e2]; simp only [ok_bind, if_true]
  rw [hc]; simp only []
  rw [a1]; simp only [ok_bind]
  rw [a2]; simp only [ok_bind]

theorem insert_loop_gt_node {s : rb_tree α} {a b : Nat} {x v : α} (ff fuel : Nat)
    (e1 : get_value s (some a) = Except.ok x) (hlt : ¬ s.cmp v x < 0) (hgt : s.cmp v x > 0)
    (e2 : get_right s (some a) = Except.ok (some b)) :
    rb_tree_insert_loop ff (fuel + 1) s (some a) v = rb_tree_insert_loop ff fuel s (some b) v := by
  simp only [rb_tree_insert_loop]
  rw [e1]; simp only [ok_bind, hlt, hgt, if_true, if_false]
  rw [e2]; simp

theorem insert_loop_eq {s : rb_tree α} {a : Nat} {x v : α} (ff fuel : Nat)
    (e1 : get_value s (some a) = Except.ok x) (hlt : ¬ s.cmp v x < 0) (hgt : ¬ s.cmp v x > 0) :
    rb_tree_insert_loop ff (fuel + 1) s (some a) v = set_value (free_value s x) (some a) v := by
  simp only [rb_tree_insert_loop]
  rw [e1]; simp only [ok_bind, hlt, hgt, if_false]

theorem rep_free_value {s : rb_tree α} {t : Tree α} (h : Rep s t) (x : α) :
    Rep (free_value s x) t := by
  unfold free_value
  split
  · exact ⟨h.root, h.models, h.nodup, h.live⟩
  · exact h

@[simp] theorem free_value_cmp (s : rb_tree α) (x : α) : (free_value s x).cmp = s.cmp := by
  unfold free_value; split <;> rfl

@[simp] theorem free_value_fr (s : rb_tree α) (x : α) : (free_value s x).fr = s.fr := by
  unfold free_value; split <;> rfl

@[simp] theorem free_value_next (s : rb_tree α) (x : α) : (free_value s x).next = s.next := by
  unfold free_value; split <;> rfl

@[simp] theorem free_value_mem (s : rb_tree α) (x : α) : (free_value s x).mem = s.mem := by
  unfold free_value; split <;> rfl

@[simp] theorem free_value_root (s : rb_tree α) (x : α) : (free_value s x).root = s.root := by
  unfold free_value; split <;> rfl

theorem height_le_plug (K : List (Frame α)) (t : Tree α) :
    K.length + t.height ≤ (plug K t).height := by
  induction K generalizing t with
  | nil => simp
  | cons f F ih =>
    have h1 := ih (f.fill t)
    have h2 : t.height + 1 ≤ (f.fill t).height := by
      cases f <;> simp [Tree.height]
    simp only [plug_cons, List.length_cons]
    omega

theorem height_le_length (t : Tree α) : t.height ≤ t.addrs.length := by
  induction t with
  | nil => simp [Tree.height]
  | node a l c v r ihl ihr =>
    simp only [Tree.height, Tree.addrs, List.length_append, List.length_cons]
    omega

theorem nodup_length_le {l : List Nat} {n : Nat} (hnd : l.Nodup) (hlt : ∀ a ∈ l, a < n) :
    l.length ≤ n := by
  have h1 : l.toFinset ⊆ Finset.range n := by
    intro a ha
    simp only [List.mem_toFinset] at ha
    exact Finset.mem_range.mpr (hlt a ha)
  have h2 := Finset.card_le_card h1
  rw [List.toFinset_card_of_nodup hnd, Finset.card_range] at h2
  exact h2

theorem rep_height_le {s : rb_tree α} {t : Tree α} (h : Rep s t) : t.height ≤ s.next :=
  le_trans (height_le_length t) (nodup_length_le h.nodup h.live)

theorem colours_revalue {K : List (Frame α)} {a : Nat} {l r : Tree α} {c : Bool} {x v : α}
    (h1 : (plug K (Tree.node a l c x r)).isRed = false)
    (h2 : (plug K (Tree.node a l c x r)).noRedRed)
    (h3 : (plug K (Tree.node a l c x r)).balanced) :
    (plug K (Tree.node a l c v r)).isRed = false ∧
      (plug K (Tree.node a l c v r)).noRedRed ∧ (plug K (Tree.node a l c v r)).balanced := by
  obtain ⟨k1, k2, k3, k4⟩ := ctxOK_of_plug h2 h3 h1
  have key := ctxOK_plug (K := K) (t := Tree.node a l c v r) k1 k2 k3 k4
  refine ⟨?_, key.1, key.2.1⟩
  cases K with
  | nil => exact h1
  | cons f F => exact key.2.2 (by simp)

theorem ctxPost_lt {cmp : α → α → Int} (hc : TotalCmp cmp) {a : Nat} {c : Bool} {x v : α}
    {l r : Tree α} {K : List (Frame α)} (hb : (Tree.node a l c x r).bst cmp)
    (hlt : cmp v x < 0) (hpost : ∀ y ∈ ctxPost K, cmp v y < 0) :
    ∀ y ∈ ctxPost (Frame.L a c x r :: K), cmp v y < 0 := by
  intro y hy
  simp only [ctxPost, List.cons_append, List.mem_cons, List.mem_append] at hy
  rcases hy with rfl | hy | hy
  · exact hlt
  · exact hc.trans v x y hlt ((hc.symm x y).mpr (hb.2.1 y hy))
  · exact hpost y hy

theorem ctxPre_lt {cmp : α → α → Int} (hc : TotalCmp cmp) {a : Nat} {c : Bool} {x v : α}
    {l r : Tree α} {K : List (Frame α)} (hb : (Tree.node a l c x r).bst cmp)
    (hgt : cmp v x > 0) (hpre : ∀ y ∈ ctxPre K, cmp y v < 0) :
    ∀ y ∈ ctxPre (Frame.R a c x l :: K), cmp y v < 0 := by
  intro y hy
  have hxv : cmp x v < 0 := (hc.symm x v).mpr hgt
  simp only [ctxPre, List.mem_append, List.mem_singleton] at hy
  rcases hy with (hy | hy) | rfl
  · exact hpre y hy
  · exact hc.trans y x v (hb.1 y hy) hxv
  · exact hxv

theorem cmp_eq_zero {cmp : α → α → Int} {v x : α}
    (hlt : ¬ cmp v x < 0) (hgt : ¬ cmp v x > 0) : cmp v x = 0 := by
  omega

/-- The descent loop of `rb_tree_insert` on a tree that satisfies the invariants. -/
theorem insert_loop_rep (v : α) :
    ∀ (t : Tree α) (K : List (Frame α)) (s : rb_tree α) (ff fuel : Nat),
      TotalCmp s.cmp → t ≠ Tree.nil → Rep s (plug K t) →
      (plug K t).isRed = false → (plug K t).noRedRed → (plug K t).balanced →
      t.bst s.cmp → (∀ y ∈ ctxPre K, s.cmp y v < 0) → (∀ y ∈ ctxPost K, s.cmp v y < 0) →
      t.height ≤ fuel → K.length + t.height < ff →
      ∃ s' T, rb_tree_insert_loop ff fuel s t.ptr v = Except.ok s' ∧ Rep s' T ∧
        T.isRed = false ∧ T.noRedRed ∧ T.balanced ∧
        InsertedInto s.cmp v (plug K t).values T.values ∧
        s'.cmp = s.cmp ∧ s'.fr = s.fr ∧ s.next ≤ s'.next ∧ s'.next ≤ s.next + 1 := by
  intro t
  induction t with
  | nil => intro K s ff fuel _ hne; exact absurd rfl hne
  | node a l c x r ihl ihr =>
    intro K s ff fuel hc _ hrep h1 h2 h3 hb hpre hpost hfuel hff
    cases fuel with
    | zero => simp [Tree.height] at hfuel
    | succ fuel =>
    have e1 := rep_get_value hrep
    have e2 := rep_get_left hrep
    have e3 := rep_get_right hrep
    simp only [Tree.height] at hfuel hff
    simp only [ptr_node]
    by_cases hlt : s.cmp v x < 0
    · have hpost' := ctxPost_lt hc hb hlt hpost
      cases l with
      | nil =>
        obtain ⟨s2, s3, a1, a2, R3, q1, q2, q3⟩ := attach_left_rep hrep v
        rw [insert_loop_lt_nil ff fuel e1 hlt e2 a1 a2]
        obtain ⟨k1, -, -, -⟩ := ctxOK_of_plug (K := Frame.L a c x r :: K) (t := Tree.nil) h2 h3 h1
        obtain ⟨s', T, f1, R, c1, c2, c3, c4, A⟩ := fix_after_insert_loop_rep _
          (Frame.L a c x r :: K) ff s3 s.next Tree.nil Tree.nil v le_rfl
          (by simp only [List.length_cons]; omega) R3 (by simp [Tree.noRedRed])
          (by simp [Tree.balanced]) (by simpa [Tree.bh] using k1)
        refine ⟨s', T, ?_, R, c1, c2, c3, ?_, ?_, ?_, ?_, ?_⟩
        · simp [fix_after_insert, f1]
        · refine ⟨ctxPre K, ctxPost (Frame.L a c x r :: K), ?_, hpre, hpost', Or.inl ?_⟩
          · rw [c4]; simp [values_plug, Tree.values, ctxPre, ctxPost]
          · simp [values_plug, Tree.values, ctxPre, ctxPost]
        · rw [A.1, q1]
        · rw [A.2.1, q2]
        · rw [A.2.2.1, q3]; omega
        · rw [A.2.2.1, q3]
      | node b bl cb bv br =>
        rw [insert_loop_lt_node ff fuel e1 hlt e2]
        have key := ihl (Frame.L a c x r :: K) s ff fuel hc (by simp) hrep h1 h2 h3 hb.2.2.1
          hpre hpost' (by omega) (by simp only [List.length_cons]; omega)
        exact key
    · by_cases hgt : s.cmp v x > 0
      · have hpre' := ctxPre_lt hc hb hgt hpre
        cases r with
        | nil =>
          obtain ⟨s2, s3, a1, a2, R3, q1, q2, q3⟩ := attach_right_rep hrep v
          rw [insert_loop_gt_nil ff fuel e1 hlt hgt e3 a1 a2]
          obtain ⟨k1, -, -, -⟩ := ctxOK_of_plug (K := Frame.R a c x l :: K) (t := Tree.nil)
            h2 h3 h1
          obtain ⟨s', T, f1, R, c1, c2, c3, c4, A⟩ := fix_after_insert_loop_rep _
            (Frame.R a c x l :: K) ff s3 s.next Tree.nil Tree.nil v le_rfl
            (by simp only [List.length_cons]; omega) R3 (by simp [Tree.noRedRed])
            (by simp [Tree.balanced]) (by simpa [Tree.bh] using k1)
          refine ⟨s', T, ?_, R, c1, c2, c3, ?_, ?_, ?_, ?_, ?_⟩
          · simp [fix_after_insert, f1]
          · refine ⟨ctxPre (Frame.R a c x l :: K), ctxPost K, ?_, hpre', hpost, Or.inl ?_⟩
            · rw [c4]; simp [values_plug, Tree.values, ctxPre, ctxPost]
            · simp [values_plug, Tree.values, ctxPre, ctxPost]
          · rw [A.1, q1]
          · rw [A.2.1, q2]
          · rw [A.2.2.1, q3]; omega
          · rw [A.2.2.1, q3]
        | node b bl cb bv br =>
          rw [insert_loop_gt_node ff fuel e1 hlt hgt e3]
          have key := ihr (Frame.R a c x l :: K) s ff fuel hc (by simp) hrep h1 h2 h3 hb.2.2.2
            hpre' hpost (by omega) (by simp only [List.length_cons]; omega)
          exact key
      · have heq := cmp_eq_zero hlt hgt
        rw [insert_loop_eq ff fuel e1 hlt hgt]
        have R0 := rep_free_value hrep x
        have R1 := rep_store R0 c v
        obtain ⟨k1, k2, k3⟩ := colours_revalue (v := v) h1 h2 h3
        refine ⟨_, _, ?_, R1, k1, k2, k3, ?_, by simp, by simp, by simp, by simp⟩
        · rw [set_value, modify_of_mem (rep_focus R0)]
        · refine ⟨ctxPre K ++ l.values, r.values ++ ctxPost K, ?_, ?_, ?_, Or.inr ⟨x, heq, ?_⟩⟩
          · simp [values_plug, Tree.values]
          · intro y hy
            rcases List.mem_append.mp hy with hy | hy
            · exact hpre y hy
            · exact hc.eq_right v x y heq (hb.1 y hy)
          · intro y hy
            rcases List.mem_append.mp hy with hy | hy
            · exact hc.eq_left v x y heq ((hc.symm x y).mpr (hb.2.1 y hy))
            · exact hpost y hy
          · simp [values_plug, Tree.values]

/-! ## Ordering -/

theorem bst_iff_sorted {cmp : α → α → Int} (hc : TotalCmp cmp) (t : Tree α) :
    t.bst cmp ↔ t.values.Pairwise (fun a b => cmp a b < 0) := by
  induction t with
  | nil => simp [Tree.bst, Tree.values]
  | node a l c x r ihl ihr =>
    simp only [Tree.bst, Tree.values, List.pairwise_append, List.pairwise_cons, ihl, ihr,
      List.mem_cons]
    constructor
    · rintro ⟨h1, h2, h3, h4⟩
      refine ⟨h3, ⟨fun b hb => (hc.symm x b).mpr (h2 b hb), h4⟩, ?_⟩
      rintro y hy b (rfl | hb)
      · exact h1 y hy
      · exact hc.trans y x b (h1 y hy) ((hc.symm x b).mpr (h2 b hb))
    · rintro ⟨h1, ⟨h2, h3⟩, h4⟩
      exact ⟨fun y hy => h4 y hy x (Or.inl rfl), fun b hb => (hc.symm x b).mp (h2 b hb), h1, h3⟩

theorem insertedInto_sorted {cmp : α → α → Int} {v : α} {old new : List α}
    (h : InsertedInto cmp v old new) (hs : old.Pairwise (fun a b => cmp a b < 0)) :
    new.Pairwise (fun a b => cmp a b < 0) := by
  obtain ⟨pre, post, rfl, hpre, hpost, hold⟩ := h
  rcases hold with rfl | ⟨o, -, rfl⟩
  · simp only [List.pairwise_append, List.pairwise_cons, List.mem_cons] at hs ⊢
    refine ⟨hs.1, ⟨hpost, hs.2.1⟩, ?_⟩
    rintro y hy b (rfl | hb)
    · exact hpre y hy
    · exact hs.2.2 y hy b hb
  · simp only [List.pairwise_append, List.pairwise_cons, List.mem_cons] at hs ⊢
    refine ⟨hs.1, ⟨hpost, hs.2.1.2⟩, ?_⟩
    rintro y hy b (rfl | hb)
    · exact hpre y hy
    · exact hs.2.2 y hy b (Or.inr hb)

/-! ## `rb_tree_insert` on a valid tree -/

theorem rep_nil_root {s : rb_tree α} (h : Rep s Tree.nil) : s.root = none := h.root

theorem rep_of_root_none {s : rb_tree α} (h : s.root = none) : Rep s Tree.nil :=
  ⟨h, trivial, List.nodup_nil, fun a ha => by simp [Tree.addrs] at ha⟩

/-- A call of `rb_tree_insert` on a state that holds a valid tree returns, and
the state then holds a valid tree whose values are the old ones with the new
value put at its place. -/
theorem rb_tree_insert_rep {s : rb_tree α} {t : Tree α} (hc : TotalCmp s.cmp) (h : Rep s t)
    (hv : t.valid s.cmp) (v : α) (fuel : Nat) (hf : s.next < fuel) :
    ∃ s' T, rb_tree_insert fuel s v = Except.ok s' ∧ Rep s' T ∧ T.valid s'.cmp ∧
      InsertedInto s.cmp v t.values T.values ∧
      s'.cmp = s.cmp ∧ s'.fr = s.fr ∧ s.next ≤ s'.next ∧ s'.next ≤ s.next + 1 := by
  have hsorted := (bst_iff_sorted hc t).mp hv.bst
  have hbal := balanced_of_equalBlack hv.equal_black
  have main : ∃ s' T, rb_tree_insert fuel s v = Except.ok s' ∧ Rep s' T ∧
      T.isRed = false ∧ T.noRedRed ∧ T.balanced ∧ InsertedInto s.cmp v t.values T.values ∧
      s'.cmp = s.cmp ∧ s'.fr = s.fr ∧ s.next ≤ s'.next ∧ s'.next ≤ s.next + 1 := by
    cases t with
    | nil =>
      have hroot := h.root
      simp only [ptr_nil] at hroot
      have R0 : Rep (store { (create_node s v).1 with root := some s.next } s.next
          { parent := none, left := none, right := none, red := true, value := v })
          (plug [] (Tree.node s.next Tree.nil true v Tree.nil)) := by
        refine ⟨rfl, ?_, ?_, ?_⟩
        · simp [Models]
        · simp [Tree.addrs]
        · intro a ha
          simp [Tree.addrs] at ha
          simp [create_node, ha]
      obtain ⟨s', T, f1, R, c1, c2, c3, c4, A⟩ := fix_after_insert_loop_rep 0 [] fuel _ s.next
        Tree.nil Tree.nil v le_rfl (by simp; omega) R0 (by simp [Tree.noRedRed])
        (by simp [Tree.balanced]) trivial
      refine ⟨s', T, ?_, R, c1, c2, c3, ?_, ?_, ?_, ?_, ?_⟩
      · have hcn : create_node s v = ((create_node s v).1, some s.next) := rfl
        simp only [rb_tree_insert, hroot, if_true]
        rw [hcn]
        simp only []
        have e1 : set_parent { (create_node s v).1 with root := some s.next } (some s.next) none =
            Except.ok (store { (create_node s v).1 with root := some s.next } s.next
              { parent := none, left := none, right := none, red := true, value := v }) := by
          simp [set_parent, modify, create_node]
        rw [e1]
        simp [fix_after_insert, f1]
      · refine ⟨[], [], ?_, by simp, by simp, Or.inl (by simp [Tree.values])⟩
        rw [c4]; simp [Tree.values]
      · rw [A.1]; rfl
      · rw [A.2.1]; rfl
      · rw [A.2.2.1]; simp [create_node]
      · rw [A.2.2.1]; simp [create_node]
    | node a l c x r =>
      have hroot := h.root
      simp only [ptr_node] at hroot
      have hh := rep_height_le h
      have key := insert_loop_rep v (Tree.node a l c x r) [] s fuel fuel hc (by simp) h
        hv.root_black hv.no_red_red hbal hv.bst (by simp [ctxPre]) (by simp [ctxPost])
        (by omega) (by simp only [List.length_nil]; omega)
      obtain ⟨s', T, f1, rest⟩ := key
      refine ⟨s', T, ?_, rest⟩
      simp only [rb_tree_insert, hroot]
      simpa using f1
  obtain ⟨s', T, f1, R, c1, c2, c3, c4, q1, q2, q3, q4⟩ := main
  refine ⟨s', T, f1, R, ⟨?_, c1, c2, equalBlack_of_balanced c3⟩, c4, q1, q2, q3, q4⟩
  rw [q1]
  exact (bst_iff_sorted hc T).mpr (insertedInto_sorted c4 hsorted)

/-! ## The tree a heap holds is determined by the heap -/

theorem readTree_of_models {mem : Nat → Option (rb_node α)} :
    ∀ (t : Tree α) (par : Option Nat) (fuel : Nat), Models mem par t → t.height < fuel →
      readTree fuel mem par t.ptr = some t := by
  intro t
  induction t with
  | nil =>
    intro par fuel _ hf
    cases fuel with
    | zero => simp at hf
    | succ fuel => rfl
  | node a l c v r ihl ihr =>
    intro par fuel hm hf
    cases fuel with
    | zero => simp at hf
    | succ fuel =>
    obtain ⟨hc, hl, hr⟩ := hm
    simp only [Tree.height] at hf
    have h1 := ihl (some a) fuel hl (by omega)
    have h2 := ihr (some a) fuel hr (by omega)
    simp [readTree, hc, h1, h2]

/-- The abstract tree of a well-formed state is the one read off its heap. -/
theorem readTree_of_rep {s : rb_tree α} {t : Tree α} (h : Rep s t) (fuel : Nat)
    (hf : s.next < fuel) : readTree fuel s.mem none s.root = some t := by
  rw [h.root]
  exact readTree_of_models t none fuel h.models (lt_of_le_of_lt (rep_height_le h) hf)

theorem rep_unique {s : rb_tree α} {t u : Tree α} (h : Rep s t) (k : Rep s u) : t = u := by
  have h1 := readTree_of_rep h (s.next + 1) (by omega)
  have h2 := readTree_of_rep k (s.next + 1) (by omega)
  rw [h1] at h2
  exact Option.some.inj h2

/-! ## In-order traversal -/

theorem frame_get_value {s : rb_tree α} {f : Frame α} {F : List (Frame α)} {t : Tree α}
    (h : Rep s (plug (f :: F) t)) : get_value s (some f.addr) = Except.ok f.value := by
  cases f with
  | L a c v sib => exact rep_get_value (K := F) h
  | R a c v sib => exact rep_get_value (K := F) h

theorem neighbour_value_sub {s : rb_tree α} {K : List (Frame α)} {t : Tree α}
    (h : Rep s (plug K t)) : ∃ o, neighbour_value s t.ptr = Except.ok o := by
  cases t with
  | nil => exact ⟨none, by simp [neighbour_value]⟩
  | node a l c v r => exact ⟨some v, by simp [neighbour_value, rep_get_value h]⟩

theorem neighbour_value_ctx {s : rb_tree α} {K : List (Frame α)} {t : Tree α}
    (h : Rep s (plug K t)) : ∃ o, neighbour_value s (ctxPtr K) = Except.ok o := by
  cases K with
  | nil => exact ⟨none, by simp [neighbour_value]⟩
  | cons f F => exact ⟨some f.value, by simp [neighbour_value, frame_get_value h]⟩

theorem print_node_rep {s : rb_tree α} {K : List (Frame α)} {a : Nat} {l r : Tree α}
    {c : Bool} {v : α} (h : Rep s (plug K (Tree.node a l c v r))) :
    ∃ line, print_node s (some a) = Except.ok line ∧ line.value = v := by
  obtain ⟨pv, e1⟩ := neighbour_value_ctx h
  obtain ⟨lv, e2⟩ := neighbour_value_sub (K := Frame.L a c v r :: K) (t := l) h
  obtain ⟨rv, e3⟩ := neighbour_value_sub (K := Frame.R a c v l :: K) (t := r) h
  refine ⟨{ value := v, red := c, parent := pv, left := lv, right := rv }, ?_, rfl⟩
  simp [print_node, rep_get_value h, rep_get_red h, rep_get_parent h, rep_get_left h,
    rep_get_right h, e1, e2, e3]

/-- The loop of `get_head` walks down the left spine of the subtree in focus and
stops at its first node in order. -/
theorem get_head_loop_rep :
    ∀ (t : Tree α) (K : List (Frame α)) (s : rb_tree α) (fuel : Nat),
      t ≠ Tree.nil → Rep s (plug K t) → t.height ≤ fuel →
      ∃ (m : Nat) (M : List (Frame α)) (c : Bool) (v : α) (r : Tree α),
        get_head_loop fuel s t.ptr = Except.ok (some m) ∧
        plug M (Tree.node m Tree.nil c v r) = plug K t ∧
        v :: r.values ++ ctxPost M = t.values ++ ctxPost K ∧ ∃ N, M = N ++ K := by
  intro t
  induction t with
  | nil => intro K s fuel hne; exact absurd rfl hne
  | node a l c x r ihl _ =>
    intro K s fuel _ hrep hfuel
    cases fuel with
    | zero => simp [Tree.height] at hfuel
    | succ fuel =>
    simp only [Tree.height] at hfuel
    have e1 := rep_get_left hrep
    cases l with
    | nil =>
      refine ⟨a, K, c, x, r, ?_, rfl, by simp [Tree.values], [], rfl⟩
      simp [get_head_loop, e1]
    | node b bl cb bv br =>
      obtain ⟨m, M, c', v', r', e2, hp, hv, N, hN⟩ := ihl (Frame.L a c x r :: K) s fuel
        (by simp) hrep (by omega)
      refine ⟨m, M, c', v', r', ?_, hp, ?_, N ++ [Frame.L a c x r], by simp [hN]⟩
      · simp only [ptr_node] at e1 e2 ⊢
        simp [get_head_loop, e1, e2]
      · rw [hv]; simp [Tree.values, ctxPost]

/-- The upward loop of `get_next` climbs while the node is a right child and
returns the first node above that is reached from its left child. -/
theorem get_next_up_rep :
    ∀ (K : List (Frame α)) (s : rb_tree α) (fuel : Nat) (n : Nat) (l r : Tree α) (c : Bool)
      (v : α), Rep s (plug K (Tree.node n l c v r)) → K.length < fuel →
      (get_next_up fuel s (some n) = Except.ok none ∧ ctxPost K = []) ∨
      ∃ (m : Nat) (M : List (Frame α)) (ml : Tree α) (cm : Bool) (vm : α) (mr : Tree α),
        get_next_up fuel s (some n) = Except.ok (some m) ∧
        plug M (Tree.node m ml cm vm mr) = plug K (Tree.node n l c v r) ∧
        vm :: mr.values ++ ctxPost M = ctxPost K := by
  intro K
  induction K with
  | nil =>
    intro s fuel n l r c v hrep hfuel
    cases fuel with
    | zero => simp at hfuel
    | succ fuel =>
    left
    have e1 := rep_get_parent hrep
    simp only [ctxPtr_nil] at e1
    exact ⟨by simp [get_next_up, e1], rfl⟩
  | cons f F ih =>
    intro s fuel n l r c v hrep hfuel
    cases fuel with
    | zero => simp at hfuel
    | succ fuel =>
    simp only [List.length_cons] at hfuel
    have e1 := rep_get_parent hrep
    simp only [ctxPtr_cons] at e1
    cases f with
    | L p cp vp psib =>
      right
      have e2 := rep_get_right (K := F) hrep
      have hne := rep_child_ne (K := F) hrep (x := n) rfl
      simp only [addr_L] at e1
      refine ⟨p, F, _, cp, vp, psib, ?_, rfl, by simp [ctxPost]⟩
      have hne' : ¬ psib.ptr = some n := fun e => hne e.symm
      simp [get_next_up, e1, e2, hne']
    | R p cp vp psib =>
      have e2 := rep_get_right (K := F) hrep
      simp only [addr_R, ptr_node] at e1 e2
      have step : get_next_up (fuel + 1) s (some n) = get_next_up fuel s (some p) := by
        simp [get_next_up, e1, e2]
      rw [step]
      rcases ih s fuel p psib (Tree.node n l c v r) cp vp hrep (by omega) with ⟨h1, h2⟩ | h
      · left; exact ⟨h1, by simpa [ctxPost] using h2⟩
      · right
        obtain ⟨m, M, ml, cm, vm, mr, h1, h2, h3⟩ := h
        exact ⟨m, M, ml, cm, vm, mr, h1, h2, by simpa [ctxPost] using h3⟩

/-- The function `get_next` at a node of a well-formed tree returns the node
that follows it in order, or absence at the last node. -/
theorem get_next_rep {s : rb_tree α} {K : List (Frame α)} {a : Nat} {l r : Tree α} {c : Bool}
    {v : α} (h : Rep s (plug K (Tree.node a l c v r))) (fuel : Nat)
    (hfuel : (plug K (Tree.node a l c v r)).height < fuel) :
    (get_next fuel s (some a) = Except.ok none ∧ r.values ++ ctxPost K = []) ∨
    ∃ (m : Nat) (M : List (Frame α)) (ml : Tree α) (cm : Bool) (vm : α) (mr : Tree α),
      get_next fuel s (some a) = Except.ok (some m) ∧
      plug M (Tree.node m ml cm vm mr) = plug K (Tree.node a l c v r) ∧
      vm :: mr.values ++ ctxPost M = r.values ++ ctxPost K := by
  have hh := height_le_plug K (Tree.node a l c v r)
  simp only [Tree.height] at hh
  have e1 := rep_get_right h
  cases r with
  | nil =>
    have e : get_next fuel s (some a) = get_next_up fuel s (some a) := by
      simp [get_next, e1]
    rw [e]
    simpa [Tree.values] using get_next_up_rep K s fuel a l Tree.nil c v h (by omega)
  | node b bl cb bv br =>
    have e : get_next fuel s (some a) = get_head_loop fuel s (some b) := by
      simp [get_next, e1]
    rw [e]
    right
    obtain ⟨m, M, c', v', r', e2, hp, hv, -⟩ := get_head_loop_rep (Tree.node b bl cb bv br)
      (Frame.R a c v l :: K) s fuel (by simp) h (by omega)
    refine ⟨m, M, Tree.nil, c', v', r', e2, hp, ?_⟩
    rw [hv]; simp [ctxPost]

/-- The loop of `rb_tree_print` started at a node prints that node and all nodes
after it, in order. -/
theorem rb_tree_print_loop_rep (k : Nat) :
    ∀ (K : List (Frame α)) (s : rb_tree α) (fuel : Nat) (a : Nat) (l r : Tree α) (c : Bool)
      (v : α), Rep s (plug K (Tree.node a l c v r)) →
      (r.values ++ ctxPost K).length ≤ k →
      (plug K (Tree.node a l c v r)).height + (r.values ++ ctxPost K).length + 1 < fuel →
      ∃ lines, rb_tree_print_loop fuel s (some a) = Except.ok lines ∧
        lines.map (fun x => x.value) = v :: r.values ++ ctxPost K := by
  induction k with
  | zero =>
    intro K s fuel a l r c v hrep hk hfuel
    cases fuel with
    | zero => omega
    | succ fuel =>
    obtain ⟨line, p1, p2⟩ := print_node_rep hrep
    have hnil : r.values ++ ctxPost K = [] := List.length_eq_zero.mp (by omega)
    rcases get_next_rep hrep (fuel + 1) (by omega) with ⟨g1, -⟩ | ⟨m, M, ml, cm, vm, mr, -, -, g3⟩
    · refine ⟨[line], ?_, by simp [p2, hnil]⟩
      cases fuel with
      | zero => omega
      | succ fuel => simp [rb_tree_print_loop, p1, g1]
    · rw [hnil] at g3; simp at g3
  | succ k ih =>
    intro K s fuel a l r c v hrep hk hfuel
    cases fuel with
    | zero => omega
    | succ fuel =>
    obtain ⟨line, p1, p2⟩ := print_node_rep hrep
    rcases get_next_rep hrep (fuel + 1) (by omega) with ⟨g1, g2⟩ | ⟨m, M, ml, cm, vm, mr, g1, g2, g3⟩
    · refine ⟨[line], ?_, by simp [p2, g2]⟩
      cases fuel with
      | zero => omega
      | succ fuel => simp [rb_tree_print_loop, p1, g1]
    · have hrep' : Rep s (plug M (Tree.node m ml cm vm mr)) := by rw [g2]; exact hrep
      have hlen : (mr.values ++ ctxPost M).length + 1 = (r.values ++ ctxPost K).length := by
        rw [← g3]; simp
      obtain ⟨rest, q1, q2⟩ := ih M s fuel m ml mr cm vm hrep' (by omega)
        (by rw [g2]; omega)
      refine ⟨line :: rest, ?_, ?_⟩
      · simp [rb_tree_print_loop, p1, g1, q1]
      · simp only [List.map_cons, p2, q2, List.cons_append]
        rw [← List.cons_append, g3]

/-- On a well-formed tree the traversal of `rb_tree_print` returns the values in
order. -/
theorem traversal_rep {s : rb_tree α} {t : Tree α} (h : Rep s t) (fuel : Nat)
    (hfuel : 2 * s.next + 1 < fuel) : traversal fuel s = Except.ok t.values := by
  have hh := rep_height_le h
  have hl : t.values.length ≤ s.next := by
    have h1 := nodup_length_le h.nodup h.live
    have h2 : t.values.length = t.addrs.length := by
      clear h hh h1
      induction t with
      | nil => rfl
      | node a l c v r ihl ihr => simp [Tree.values, Tree.addrs, ihl, ihr]
    omega
  cases t with
  | nil =>
    have hroot := h.root
    simp only [ptr_nil] at hroot
    cases fuel with
    | zero => omega
    | succ fuel => simp [traversal, rb_tree_print, get_head, hroot, rb_tree_print_loop, Tree.values]
  | node a l c x r =>
    have hroot := h.root
    simp only [ptr_node] at hroot
    obtain ⟨m, M, c', v', r', e1, hp, hv, -⟩ := get_head_loop_rep (Tree.node a l c x r) [] s fuel
      (by simp) h (by omega)
    have hrep' : Rep s (plug M (Tree.node m Tree.nil c' v' r')) := by rw [hp]; exact h
    have hv' : v' :: (r'.values ++ ctxPost M) = (Tree.node a l c x r).values := by
      simpa [ctxPost] using hv
    have hlen : (r'.values ++ ctxPost M).length + 1 = (Tree.node a l c x r).values.length := by
      rw [← hv']; simp
    obtain ⟨lines, q1, q2⟩ := rb_tree_print_loop_rep _ M s fuel m Tree.nil r' c' v' hrep' le_rfl
      (by rw [hp]; simp only [plug_nil]; omega)
    simp only [ptr_node] at e1
    simp [traversal, rb_tree_print, get_head, hroot, e1, q1, q2]
    simpa using hv'

/-! ## Sequences of insertions -/

theorem totalCmp_of_intOrder {cmp : Int → Int → Int} (h : IntOrder cmp) : TotalCmp cmp := by
  have eq0 : ∀ a b, cmp a b = 0 → a = b := by
    intro a b hab
    have h1 := (h a b).1
    have h2 := (h a b).2
    omega
  refine ⟨?_, ?_, ?_, ?_⟩
  · intro a b; rw [(h a b).1, (h b a).2]
  · intro a b c; rw [(h a b).1, (h b c).1, (h a c).1]; omega
  · intro a b c hab; rw [eq0 a b hab]; exact id
  · intro a b c hab; rw [eq0 a b hab]; exact id

theorem intOrder_cmp_int : IntOrder cmp_int := by
  intro a b; unfold cmp_int; constructor <;> omega

theorem totalCmp_cmp_int : TotalCmp cmp_int := totalCmp_of_intOrder intOrder_cmp_int

theorem valid_nil (cmp : α → α → Int) : (Tree.nil : Tree α).valid cmp :=
  ⟨trivial, rfl, trivial, by intro x hx y hy; simp [Tree.blackCounts] at hx hy; omega⟩

theorem rb_valid_init (s : rb_tree α) (cmp : α → α → Int) (fr : Bool) :
    rb_valid (rb_tree_init s cmp fr) :=
  ⟨Tree.nil, rep_of_root_none rfl, valid_nil _⟩

theorem rb_valid_fresh : rb_valid fresh := rb_valid_init _ _ _

theorem insert_all_valid (fuel : Nat) :
    ∀ (vs : List α) (s : rb_tree α), TotalCmp s.cmp → rb_valid s → s.next + vs.length < fuel →
      ∃ s', insert_all fuel s vs = Except.ok s' ∧ rb_valid s' ∧ s'.cmp = s.cmp := by
  intro vs
  induction vs with
  | nil => intro s _ hv _; exact ⟨s, rfl, hv, rfl⟩
  | cons v vs ih =>
    intro s hc hv hf
    obtain ⟨t, R, hval⟩ := hv
    simp only [List.length_cons] at hf
    obtain ⟨s1, T, e1, R1, v1, -, q1, -, -, q4⟩ :=
      rb_tree_insert_rep hc R hval v fuel (by omega)
    obtain ⟨s', e2, v2, q⟩ := ih s1 (by rw [q1]; exact hc) ⟨T, R1, v1⟩ (by omega)
    refine ⟨s', ?_, v2, q.trans q1⟩
    simp [insert_all, e1, e2]

/-- C1: a call of `rb_tree_insert` on a tree that satisfies the four red-black
invariants (order under the comparator, black root, no red node with a red
parent, equal black count on all paths to an absent child) returns and leaves a
tree that satisfies them again; the empty tree made by `rb_tree_init` satisfies
them, and so does the tree after each insertion of any sequence of insertions
into it. -/
theorem insert_preserves_invariants (s : rb_tree α) (v : α) (vs : List α) (fuel : Nat)
    (hc : TotalCmp s.cmp) (hv : rb_valid s) (hf : s.next + vs.length < fuel) :
    (∃ s', rb_tree_insert fuel s v = Except.ok s' ∧ rb_valid s') ∧
    rb_valid (rb_tree_init s s.cmp s.fr) ∧
    ∀ k, k ≤ vs.length →
      ∃ s', insert_all fuel (rb_tree_init s s.cmp s.fr) (vs.take k) = Except.ok s' ∧
        rb_valid s' := by
  refine ⟨?_, rb_valid_init _ _ _, ?_⟩
  · obtain ⟨t, R, hval⟩ := hv
    obtain ⟨s1, T, e1, R1, v1, -⟩ := rb_tree_insert_rep hc R hval v fuel (by omega)
    exact ⟨s1, e1, T, R1, v1⟩
  · intro k hk
    have hlen : (vs.take k).length ≤ vs.length := by simp
    obtain ⟨s', e, hv', -⟩ := insert_all_valid fuel (vs.take k) (rb_tree_init s s.cmp s.fr) hc
      (rb_valid_init _ _ _) (by simp only [rb_tree_init]; omega)
    exact ⟨s', e, hv'⟩

theorem insert_preserves_invariants_witness :
    TotalCmp fresh.cmp ∧ rb_valid fresh ∧ fresh.next + numbers.length < 20 ∧
    ((∃ s', rb_tree_insert 20 fresh 7 = Except.ok s' ∧ rb_valid s') ∧
      rb_valid (rb_tree_init fresh fresh.cmp fresh.fr) ∧
      ∀ k, k ≤ numbers.length →
        ∃ s', insert_all 20 (rb_tree_init fresh fresh.cmp fresh.fr) (numbers.take k) =
          Except.ok s' ∧ rb_valid s') :=
  ⟨totalCmp_cmp_int, rb_valid_fresh, by decide,
    insert_preserves_invariants fresh 7 numbers 20 totalCmp_cmp_int rb_valid_fresh (by decide)⟩

/-! ## Insert then traverse -/

theorem insertedInto_mem {cmp : Int → Int → Int} (hc : IntOrder cmp) {v : Int}
    {old new : List Int} (h : InsertedInto cmp v old new) :
    ∀ x, x ∈ new ↔ x = v ∨ x ∈ old := by
  obtain ⟨pre, post, rfl, -, -, hold⟩ := h
  intro x
  rcases hold with rfl | ⟨o, ho, rfl⟩
  · simp only [List.mem_append, List.mem_cons]; tauto
  · have hov : o = v := by
      have h1 := (hc v o).1
      have h2 := (hc v o).2
      omega
    subst hov
    simp only [List.mem_append, List.mem_cons]; tauto

theorem insert_all_values (fuel : Nat) :
    ∀ (vs : List Int) (s : rb_tree Int) (t : Tree Int), IntOrder s.cmp → Rep s t →
      t.valid s.cmp → s.next + vs.length < fuel →
      ∃ s' T, insert_all fuel s vs = Except.ok s' ∧ Rep s' T ∧ T.valid s'.cmp ∧
        (∀ x, x ∈ T.values ↔ x ∈ t.values ∨ x ∈ vs) ∧ s'.cmp = s.cmp ∧
        s'.next ≤ s.next + vs.length := by
  intro vs
  induction vs with
  | nil => intro s t _ R hv _; exact ⟨s, t, rfl, R, hv, by simp, rfl, by simp⟩
  | cons v vs ih =>
    intro s t hc R hval hf
    simp only [List.length_cons] at hf
    obtain ⟨s1, T1, e1, R1, v1, i1, q1, -, -, q4⟩ :=
      rb_tree_insert_rep (totalCmp_of_intOrder hc) R hval v fuel (by omega)
    obtain ⟨s', T, e2, R2, v2, m2, q, n2⟩ := ih s1 T1 (by rw [q1]; exact hc) R1 v1 (by omega)
    refine ⟨s', T, ?_, R2, v2, ?_, q.trans q1, ?_⟩
    · simp [insert_all, e1, e2]
    · intro x
      rw [m2 x, insertedInto_mem hc i1 x]
      simp only [List.mem_cons]; tauto
    · simp only [List.length_cons]; omega

/-- C2: inserting any finite list of integers one by one into an empty tree
ordered by the integers and then walking it with `get_head` and `get_next`, as
`rb_tree_print` does, visits exactly the inserted values, each once, in strictly
ascending order; the ten numbers of `main` come out as 0 to 9. -/
theorem traversal_after_inserts (s : rb_tree Int) (xs : List Int) (fuel : Nat)
    (hc : IntOrder s.cmp) (hf : 2 * (s.next + xs.length) + 1 < fuel) :
    (∃ s' out, insert_all fuel (rb_tree_init s s.cmp s.fr) xs = Except.ok s' ∧
      traversal fuel s' = Except.ok out ∧ out.Pairwise (fun a b => a < b) ∧ out.Nodup ∧
      ∀ x, x ∈ out ↔ x ∈ xs) ∧
    (main_inserted 20).bind (traversal 20) = Except.ok [0, 1, 2, 3, 4, 5, 6, 7, 8, 9] := by
  refine ⟨?_, rfl⟩
  obtain ⟨s', T, e1, R, hv, hm, q, hn⟩ := insert_all_values fuel xs (rb_tree_init s s.cmp s.fr)
    Tree.nil hc (rep_of_root_none rfl) (valid_nil _) (by simp only [rb_tree_init]; omega)
  have hn' : s'.next ≤ s.next + xs.length := hn
  have hsorted : T.values.Pairwise (fun a b => a < b) := by
    have h1 := (bst_iff_sorted (totalCmp_of_intOrder (by rw [q]; exact hc)) T).mp hv.bst
    refine h1.imp ?_
    intro a b hab
    have hc' : IntOrder s'.cmp := by rw [q]; exact hc
    exact (hc' a b).1.mp hab
  refine ⟨s', T.values, e1, traversal_rep R fuel (by omega), hsorted, ?_, ?_⟩
  · exact hsorted.imp (fun hab => ne_of_lt hab)
  · intro x; rw [hm x]; simp [Tree.values]

theorem traversal_after_inserts_witness :
    IntOrder fresh.cmp ∧ 2 * (fresh.next + numbers.length) + 1 < 30 ∧
    ((∃ s' out, insert_all 30 (rb_tree_init fresh fresh.cmp fresh.fr) numbers = Except.ok s' ∧
      traversal 30 s' = Except.ok out ∧ out.Pairwise (fun a b => a < b) ∧ out.Nodup ∧
      ∀ x, x ∈ out ↔ x ∈ numbers) ∧
    (main_inserted 20).bind (traversal 20) = Except.ok [0, 1, 2, 3, 4, 5, 6, 7, 8, 9]) :=
  ⟨intOrder_cmp_int, by decide,
    traversal_after_inserts fresh numbers 30 intOrder_cmp_int (by decide)⟩

/-! ## Walking down to a given node -/

theorem plug_append (A B : List (Frame α)) (t : Tree α) :
    plug (A ++ B) t = plug B (plug A t) := by
  induction A generalizing t with
  | nil => rfl
  | cons f F ih => simp only [List.cons_append, plug_cons, ih]

theorem plug_snoc (A : List (Frame α)) (f : Frame α) (t : Tree α) :
    plug (A ++ [f]) t = f.fill (plug A t) := by
  rw [plug_append]; rfl

theorem plug_node_ptr (M : List (Frame α)) (a : Nat) (l r : Tree α) (c : Bool) (x : α) :
    ∃ b bl cb bx br, plug M (Tree.node a l c x r) = Tree.node b bl cb bx br := by
  induction M generalizing a l r c x with
  | nil => exact ⟨a, l, c, x, r, rfl⟩
  | cons f F ih =>
    cases f with
    | L p cp vp sib => exact ih p _ sib cp vp
    | R p cp vp sib => exact ih p sib _ cp vp

theorem mem_values_plug (M : List (Frame α)) (a : Nat) (l r : Tree α) (c : Bool) (x : α) :
    x ∈ (plug M (Tree.node a l c x r)).values := by
  rw [values_plug]; simp [Tree.values]

theorem height_plug_lt (M : List (Frame α)) (t : Tree α) :
    M.length + t.height ≤ (plug M t).height := height_le_plug M t

/-- The descent of `rb_tree_insert` towards a node whose value compares equal to
the new value ends at that node and replaces its value. -/
theorem insert_loop_found (v : α) {a : Nat} {l r : Tree α} {c : Bool} {x : α} :
    ∀ (M K : List (Frame α)) (s : rb_tree α) (ff fuel : Nat), TotalCmp s.cmp →
      Rep s (plug K (plug M (Tree.node a l c x r))) →
      (plug M (Tree.node a l c x r)).bst s.cmp → s.cmp v x = 0 → M.length < fuel →
      rb_tree_insert_loop ff fuel s (plug M (Tree.node a l c x r)).ptr v =
        set_value (free_value s x) (some a) v := by
  intro M
  induction M using List.reverseRecOn with
  | nil =>
    intro K s ff fuel hc hrep hb heq hfuel
    cases fuel with
    | zero => simp at hfuel
    | succ fuel =>
    have e1 := rep_get_value (K := K) hrep
    simp only [plug_nil, ptr_node]
    exact insert_loop_eq ff fuel e1 (by omega) (by omega)
  | append_singleton M f ih =>
    intro K s ff fuel hc hrep hb heq hfuel
    cases fuel with
    | zero => simp at hfuel
    | succ fuel =>
    simp only [List.length_append, List.length_singleton] at hfuel
    rw [plug_snoc] at hrep hb ⊢
    obtain ⟨b, bl, cb, bx, br, hsub⟩ := plug_node_ptr M a l r c x
    have hx := mem_values_plug M a l r c x
    cases f with
    | L p cp vp sib =>
      simp only [fill_L, ptr_node] at hrep hb ⊢
      have e1 := rep_get_value (K := K) hrep
      have e2 := rep_get_left (K := K) hrep
      have hlt : s.cmp v vp < 0 := hc.eq_left v x vp heq (hb.1 x hx)
      rw [hsub] at e2
      rw [insert_loop_lt_node ff fuel e1 hlt e2]
      have := ih (Frame.L p cp vp sib :: K) s ff fuel hc hrep hb.2.2.1 heq (by omega)
      rw [hsub] at this
      exact this
    | R p cp vp sib =>
      simp only [fill_R, ptr_node] at hrep hb ⊢
      have e1 := rep_get_value (K := K) hrep
      have e2 := rep_get_right (K := K) hrep
      have hxv : s.cmp vp x < 0 := (hc.symm vp x).mpr (hb.2.1 x hx)
      have hvp : s.cmp vp v < 0 := hc.eq_right v x vp heq hxv
      have hgt : s.cmp v vp > 0 := (hc.symm vp v).mp hvp
      rw [hsub] at e2
      rw [insert_loop_gt_node ff fuel e1 (by omega) hgt e2]
      have := ih (Frame.R p cp vp sib :: K) s ff fuel hc hrep hb.2.2.2 heq (by omega)
      rw [hsub] at this
      exact this

/-- The function `find` walks down to a node whose value compares equal to the
value looked for. -/
theorem find_found (v : α) {a : Nat} {l r : Tree α} {c : Bool} {x : α} :
    ∀ (M K : List (Frame α)) (s : rb_tree α) (fuel : Nat), TotalCmp s.cmp →
      Rep s (plug K (plug M (Tree.node a l c x r))) →
      (plug M (Tree.node a l c x r)).bst s.cmp → s.cmp v x = 0 → M.length < fuel →
      find fuel s (plug M (Tree.node a l c x r)).ptr v = Except.ok (some a) := by
  intro M
  induction M using List.reverseRecOn with
  | nil =>
    intro K s fuel hc hrep hb heq hfuel
    cases fuel with
    | zero => simp at hfuel
    | succ fuel =>
    have e1 := rep_get_value (K := K) hrep
    simp [find, e1, heq]
  | append_singleton M f ih =>
    intro K s fuel hc hrep hb heq hfuel
    cases fuel with
    | zero => simp at hfuel
    | succ fuel =>
    simp only [List.length_append, List.length_singleton] at hfuel
    rw [plug_snoc] at hrep hb ⊢
    obtain ⟨b, bl, cb, bx, br, hsub⟩ := plug_node_ptr M a l r c x
    have hx := mem_values_plug M a l r c x
    cases f with
    | L p cp vp sib =>
      simp only [fill_L, ptr_node] at hrep hb ⊢
      have e1 := rep_get_value (K := K) hrep
      have e2 := rep_get_left (K := K) hrep
      have hlt : s.cmp v vp < 0 := hc.eq_left v x vp heq (hb.1 x hx)
      have := ih (Frame.L p cp vp sib :: K) s fuel hc hrep hb.2.2.1 heq (by omega)
      simp [find, e1, e2, hlt, this]
    | R p cp vp sib =>
      simp only [fill_R, ptr_node] at hrep hb ⊢
      have e1 := rep_get_value (K := K) hrep
      have e2 := rep_get_right (K := K) hrep
      have hxv : s.cmp vp x < 0 := (hc.symm vp x).mpr (hb.2.1 x hx)
      have hvp : s.cmp vp v < 0 := hc.eq_right v x vp heq hxv
      have hgt : 0 < s.cmp v vp := (hc.symm vp v).mp hvp
      have hnlt : ¬ s.cmp v vp < 0 := by omega
      have := ih (Frame.R p cp vp sib :: K) s fuel hc hrep hb.2.2.2 heq (by omega)
      simp [find, e1, e2, hgt, hnlt, this]

/-- The function `find` returns absence when no value of the subtree compares
equal, and otherwise a node of the subtree whose value compares equal. -/
theorem find_rep (v : α) :
    ∀ (t : Tree α) (K : List (Frame α)) (s : rb_tree α) (fuel : Nat), TotalCmp s.cmp →
      Rep s (plug K t) → t.bst s.cmp → t.height < fuel →
      (find fuel s t.ptr v = Except.ok none ∧ ∀ y ∈ t.values, s.cmp v y ≠ 0) ∨
      ∃ (b : Nat) (M : List (Frame α)) (bl : Tree α) (cb : Bool) (bx : α) (br : Tree α),
        find fuel s t.ptr v = Except.ok (some b) ∧
        plug M (Tree.node b bl cb bx br) = plug K t ∧ s.cmp v bx = 0 := by
  intro t
  induction t with
  | nil =>
    intro K s fuel _ _ _ hfuel
    cases fuel with
    | zero => simp at hfuel
    | succ fuel => left; exact ⟨by simp [find], by simp [Tree.values]⟩
  | node a l c x r ihl ihr =>
    intro K s fuel hc hrep hb hfuel
    cases fuel with
    | zero => simp at hfuel
    | succ fuel =>
    simp only [Tree.height] at hfuel
    have e1 := rep_get_value hrep
    have e2 := rep_get_left hrep
    have e3 := rep_get_right hrep
    by_cases hlt : s.cmp v x < 0
    · have step : find (fuel + 1) s (Tree.node a l c x r).ptr v = find fuel s l.ptr v := by
        simp [find, e1, e2, hlt]
      rw [step]
      rcases ihl (Frame.L a c x r :: K) s fuel hc hrep hb.2.2.1 (by omega) with ⟨h1, h2⟩ | h
      · left
        refine ⟨h1, ?_⟩
        intro y hy
        simp only [Tree.values, List.mem_append, List.mem_cons] at hy
        rcases hy with hy | rfl | hy
        · exact h2 y hy
        · omega
        · intro h0
          have hxy : s.cmp x y < 0 := (hc.symm x y).mpr (hb.2.1 y hy)
          have hxv : s.cmp x v < 0 := hc.eq_right v y x h0 hxy
          have := (hc.symm x v).mp hxv
          omega
      · right; exact h
    · by_cases hgt : 0 < s.cmp v x
      · have step : find (fuel + 1) s (Tree.node a l c x r).ptr v = find fuel s r.ptr v := by
          simp [find, e1, e3, hlt, hgt]
        rw [step]
        rcases ihr (Frame.R a c x l :: K) s fuel hc hrep hb.2.2.2 (by omega) with ⟨h1, h2⟩ | h
        · left
          refine ⟨h1, ?_⟩
          intro y hy
          simp only [Tree.values, List.mem_append, List.mem_cons] at hy
          rcases hy with hy | rfl | hy
          · intro h0
            have hvx : s.cmp v x < 0 := hc.eq_left v y x h0 (hb.1 y hy)
            omega
          · omega
          · exact h2 y hy
        · right; exact h
      · right
        refine ⟨a, K, l, c, x, r, ?_, rfl, by omega⟩
        simp [find, e1, hlt, hgt]

theorem rep_single : Rep single (plug [] (Tree.node 0 Tree.nil false 7 Tree.nil)) := by
  refine ⟨rfl, ?_, ?_, ?_⟩
  · simp [Models, single]
  · simp [Tree.addrs]
  · intro a ha
    simp [Tree.addrs] at ha
    simp [single, ha]

theorem valid_single : (Tree.node 0 Tree.nil false (7 : Int) Tree.nil).valid cmp_int := by
  refine ⟨?_, rfl, ?_, ?_⟩
  · simp [Tree.bst, Tree.values]
  · simp [Tree.noRedRed]
  · intro x hx y hy
    simp [Tree.blackCounts] at hx hy
    omega

/-- C3: when the inserted value compares equal to the value of a node of a tree
in order, `rb_tree_insert` hands exactly that node's old value to the destructor
(when one is supplied) and nothing else, frees nothing, stores the new value in
that node and changes no other cell and no pointer or colour, so the tree keeps
its shape and the traversal keeps its length. -/
theorem insert_equal_replaces (s : rb_tree α) (K : List (Frame α)) (a : Nat) (l r : Tree α)
    (c : Bool) (x v : α) (fuel : Nat) (hc : TotalCmp s.cmp)
    (hrep : Rep s (plug K (Tree.node a l c x r)))
    (hb : (plug K (Tree.node a l c x r)).bst s.cmp) (heq : s.cmp v x = 0)
    (hf : 2 * s.next + 1 < fuel) :
    ∃ s', rb_tree_insert fuel s v = Except.ok s' ∧
      s'.destroyed = (if s.fr then s.destroyed ++ [x] else s.destroyed) ∧
      s'.freed = s.freed ∧ s'.root = s.root ∧ s'.next = s.next ∧
      s.mem a = some { parent := ctxPtr K, left := l.ptr, right := r.ptr, red := c, value := x } ∧
      s'.mem a = some { parent := ctxPtr K, left := l.ptr, right := r.ptr, red := c, value := v } ∧
      (∀ b, b ≠ a → s'.mem b = s.mem b) ∧
      Rep s' (plug K (Tree.node a l c v r)) ∧
      ∃ out out', traversal fuel s = Except.ok out ∧ traversal fuel s' = Except.ok out' ∧
        out'.length = out.length := by
  have hcell := rep_focus hrep
  have hh := rep_height_le hrep
  have hK := height_le_plug K (Tree.node a l c x r)
  obtain ⟨b, bl, cb, bx, br, hsub⟩ := plug_node_ptr K a l r c x
  have hroot : s.root = some b := by rw [hrep.root, hsub]; rfl
  have R0 := rep_free_value hrep x
  have R1 := rep_store R0 c v
  have hcell0 := rep_focus R0
  have hrun : rb_tree_insert fuel s v = Except.ok (store (free_value s x) a
      { parent := ctxPtr K, left := l.ptr, right := r.ptr, red := c, value := v }) := by
    have key := insert_loop_found v K [] s fuel fuel hc hrep hb heq (by omega)
    rw [hsub] at key
    simp only [ptr_node] at key
    simp only [rb_tree_insert, hroot]
    simp only [reduceCtorEq, if_false]
    rw [key, set_value, modify_of_mem hcell0]
  refine ⟨_, hrun, ?_, ?_, ?_, ?_, hcell, ?_, ?_, R1, ?_⟩
  · simp only [store_destroyed, free_value]; split <;> rfl
  · simp only [store_freed, free_value]; split <;> rfl
  · simp
  · simp
  · simp
  · intro b' hb'; simp [hb']
  · refine ⟨_, _, traversal_rep hrep fuel hf, traversal_rep R1 fuel (by simpa using hf), ?_⟩
    simp [values_plug, Tree.values]

theorem insert_equal_replaces_witness :
    TotalCmp single.cmp ∧ Rep single (plug [] (Tree.node 0 Tree.nil false 7 Tree.nil)) ∧
    (plug [] (Tree.node 0 Tree.nil false (7 : Int) Tree.nil)).bst single.cmp ∧
    single.cmp 7 7 = 0 ∧ 2 * single.next + 1 < 10 ∧
    ∃ s', rb_tree_insert 10 single 7 = Except.ok s' ∧
      s'.destroyed = (if single.fr then single.destroyed ++ [7] else single.destroyed) ∧
      s'.freed = single.freed ∧ s'.root = single.root ∧ s'.next = single.next ∧
      single.mem 0 =
        some { parent := none, left := none, right := none, red := false, value := 7 } ∧
      s'.mem 0 =
        some { parent := none, left := none, right := none, red := false, value := 7 } ∧
      (∀ b, b ≠ 0 → s'.mem b = single.mem b) ∧
      Rep s' (plug [] (Tree.node 0 Tree.nil false 7 Tree.nil)) ∧
      ∃ out out', traversal 10 single = Except.ok out ∧ traversal 10 s' = Except.ok out' ∧
        out'.length = out.length :=
  ⟨totalCmp_cmp_int, rep_single, valid_single.bst, by decide, by decide,
    insert_equal_replaces single [] 0 Tree.nil Tree.nil false 7 7 10 totalCmp_cmp_int rep_single
      valid_single.bst (by decide) (by decide)⟩

/-! ## Closed heaps: running the deletion code without a fault -/

theorem closed_of_models {mem : Nat → Option (rb_node α)} {A : List Nat} :
    ∀ (t : Tree α) (par : Option Nat), Models mem par t → (∀ p, par = some p → p ∈ A) →
      (∀ a ∈ t.addrs, a ∈ A) →
      ∀ a ∈ t.addrs, ∃ n, mem a = some n ∧ (∀ p, n.parent = some p → p ∈ A) ∧
        (∀ p, n.left = some p → p ∈ A) ∧ (∀ p, n.right = some p → p ∈ A) := by
  intro t
  induction t with
  | nil => intro par _ _ _ a ha; simp [Tree.addrs] at ha
  | node b l c v r ihl ihr =>
    intro par hm hpar hsub a ha
    obtain ⟨hc, hl, hr⟩ := hm
    have hbA : b ∈ A := hsub b (by simp [Tree.addrs])
    simp only [Tree.addrs, List.mem_append, List.mem_cons] at ha
    rcases ha with ha | rfl | ha
    · exact ihl (some b) hl (fun p hp => by cases hp; exact hbA)
        (fun x hx => hsub x (by simp [Tree.addrs, hx])) a ha
    · refine ⟨_, hc, hpar, ?_, ?_⟩
      · intro p hp; exact hsub p (by simp [Tree.addrs, ptr_mem_addrs hp])
      · intro p hp; exact hsub p (by simp [Tree.addrs, ptr_mem_addrs hp])
    · exact ihr (some b) hr (fun p hp => by cases hp; exact hbA)
        (fun x hx => hsub x (by simp [Tree.addrs, hx])) a ha

theorem closed_of_rep {s : rb_tree α} {t : Tree α} (h : Rep s t) : Closed s.mem t.addrs :=
  closed_of_models t none h.models (fun p hp => by cases hp) (fun a ha => ha)

theorem closed_store {s : rb_tree α} {A : List Nat} (h : Closed s.mem A) {a : Nat}
    {n : rb_node α} (hp : ∀ p, n.parent = some p → p ∈ A) (hl : ∀ p, n.left = some p → p ∈ A)
    (hr : ∀ p, n.right = some p → p ∈ A) : Closed (store s a n).mem A := by
  intro b hb
  by_cases hba : b = a
  · subst hba; exact ⟨n, by simp, hp, hl, hr⟩
  · obtain ⟨m, hm, h1, h2, h3⟩ := h b hb
    exact ⟨m, by simp [hba, hm], h1, h2, h3⟩

theorem closed_get_parent {s : rb_tree α} {A : List Nat} (h : Closed s.mem A) {a : Nat}
    (ha : a ∈ A) : ∃ q, get_parent s (some a) = Except.ok q ∧ ∀ p, q = some p → p ∈ A := by
  obtain ⟨n, hn, h1, -, -⟩ := h a ha
  exact ⟨n.parent, get_parent_of_mem hn, h1⟩

theorem closed_get_left {s : rb_tree α} {A : List Nat} (h : Closed s.mem A) {a : Nat}
    (ha : a ∈ A) : ∃ q, get_left s (some a) = Except.ok q ∧ ∀ p, q = some p → p ∈ A := by
  obtain ⟨n, hn, -, h2, -⟩ := h a ha
  exact ⟨n.left, get_left_of_mem hn, h2⟩

theorem closed_get_right {s : rb_tree α} {A : List Nat} (h : Closed s.mem A) {a : Nat}
    (ha : a ∈ A) : ∃ q, get_right s (some a) = Except.ok q ∧ ∀ p, q = some p → p ∈ A := by
  obtain ⟨n, hn, -, -, h3⟩ := h a ha
  exact ⟨n.right, get_right_of_mem hn, h3⟩

theorem closed_get_red {s : rb_tree α} {A : List Nat} (h : Closed s.mem A) {a : Nat}
    (ha : a ∈ A) : ∃ b, get_red s (some a) = Except.ok b := by
  obtain ⟨n, hn, -⟩ := h a ha
  exact ⟨n.red, get_red_of_mem hn⟩

theorem closed_get_value {s : rb_tree α} {A : List Nat} (h : Closed s.mem A) {a : Nat}
    (ha : a ∈ A) : ∃ b, get_value s (some a) = Except.ok b := by
  obtain ⟨n, hn, -⟩ := h a ha
  exact ⟨n.value, get_value_of_mem hn⟩

theorem closed_set_parent {s : rb_tree α} {A : List Nat} (h : Closed s.mem A) {a : Nat}
    (ha : a ∈ A) {x : Option Nat} (hx : ∀ p, x = some p → p ∈ A) :
    ∃ s', set_parent s (some a) x = Except.ok s' ∧ Closed s'.mem A := by
  obtain ⟨n, hn, h1, h2, h3⟩ := h a ha
  exact ⟨_, by rw [set_parent, modify_of_mem hn],
    closed_store (n := { n with parent := x }) h hx h2 h3⟩

theorem closed_set_left {s : rb_tree α} {A : List Nat} (h : Closed s.mem A) {a : Nat}
    (ha : a ∈ A) {x : Option Nat} (hx : ∀ p, x = some p → p ∈ A) :
    ∃ s', set_left s (some a) x = Except.ok s' ∧ Closed s'.mem A := by
  obtain ⟨n, hn, h1, h2, h3⟩ := h a ha
  exact ⟨_, by rw [set_left, modify_of_mem hn],
    closed_store (n := { n with left := x }) h h1 hx h3⟩

theorem closed_set_right {s : rb_tree α} {A : List Nat} (h : Closed s.mem A) {a : Nat}
    (ha : a ∈ A) {x : Option Nat} (hx : ∀ p, x = some p → p ∈ A) :
    ∃ s', set_right s (some a) x = Except.ok s' ∧ Closed s'.mem A := by
  obtain ⟨n, hn, h1, h2, h3⟩ := h a ha
  exact ⟨_, by rw [set_right, modify_of_mem hn],
    closed_store (n := { n with right := x }) h h1 h2 hx⟩

theorem closed_set_red {s : rb_tree α} {A : List Nat} (h : Closed s.mem A) {a : Nat}
    (ha : a ∈ A) (b : Bool) :
    ∃ s', set_red s (some a) b = Except.ok s' ∧ Closed s'.mem A := by
  obtain ⟨n, hn, h1, h2, h3⟩ := h a ha
  exact ⟨_, by rw [set_red, modify_of_mem hn],
    closed_store (n := { n with red := b }) h h1 h2 h3⟩

theorem closed_set_ref {s : rb_tree α} {A : List Nat} (h : Closed s.mem A) {a : Nat}
    (ha : a ∈ A) (b : Bool) :
    ∃ s', set_ref s (some a) b = Except.ok s' ∧ Closed s'.mem A := by
  obtain ⟨n, hn, h1, h2, h3⟩ := h a ha
  exact ⟨_, by rw [set_ref, modify_of_mem hn],
    closed_store (n := n) h h1 h2 h3⟩

theorem closed_free_node {s : rb_tree α} {A : List Nat} (h : Closed s.mem A) {a : Nat}
    (ha : a ∈ A) : ∃ s', free_node s (some a) = Except.ok s' := by
  obtain ⟨n, hn, -⟩ := h a ha
  have hm : (free_value s n.value).mem a = some n := by rw [free_value_mem]; exact hn
  refine ⟨{ free_value s n.value with
      mem := fun k => if k = a then none else (free_value s n.value).mem k,
      freed := (free_value s n.value).freed ++ [a] }, ?_⟩
  simp [free_node, get_value_of_mem hn, free, hn]

theorem detach_node_ok {s : rb_tree α} {A : List Nat} (h : Closed s.mem A) {a : Nat}
    (ha : a ∈ A) : ∃ s', detach_node s (some a) = Except.ok s' := by
  obtain ⟨q, e1, hq⟩ := closed_get_parent h ha
  cases q with
  | none => exact ⟨{ s with root := none }, by simp [detach_node, e1]⟩
  | some p =>
    have hp := hq p rfl
    obtain ⟨pl, e2, -⟩ := closed_get_left h hp
    obtain ⟨s1, e3, -⟩ := closed_set_left h hp (x := none) (fun _ hx => by cases hx)
    obtain ⟨s2, e4, -⟩ := closed_set_right h hp (x := none) (fun _ hx => by cases hx)
    by_cases hc : pl = some a
    · exact ⟨s1, by simp [detach_node, e1, e2, hc, e3]⟩
    · exact ⟨s2, by simp [detach_node, e1, e2, hc, e4]⟩

theorem replace_with_child_ok {s : rb_tree α} {A : List Nat} (h : Closed s.mem A) {a b : Nat}
    (ha : a ∈ A) (hb : b ∈ A) :
    ∃ s', replace_with_child s (some a) (some b) = Except.ok s' ∧ Closed s'.mem A := by
  obtain ⟨q, e1, hq⟩ := closed_get_parent h ha
  cases q with
  | none =>
    have h' : Closed ({ s with root := some b } : rb_tree α).mem A := h
    obtain ⟨s1, e2, c1⟩ := closed_set_parent h' hb (x := none) (fun _ hx => by cases hx)
    exact ⟨s1, by simp [replace_with_child, e1, e2], c1⟩
  | some p =>
    have hp := hq p rfl
    obtain ⟨pl, e2, -⟩ := closed_get_left h hp
    have hbx : ∀ p', some b = some p' → p' ∈ A := fun p' hx => by cases hx; exact hb
    obtain ⟨s1, e3, c1⟩ := closed_set_left h hp hbx
    obtain ⟨s2, e4, c2⟩ := closed_set_right h hp hbx
    by_cases hc : pl = some a
    · obtain ⟨q1, e5, hq1⟩ := closed_get_parent c1 ha
      obtain ⟨s3, e6, c3⟩ := closed_set_parent c1 hb hq1
      exact ⟨s3, by simp [replace_with_child, e1, e2, hc, e3, e5, e6], c3⟩
    · obtain ⟨q1, e5, hq1⟩ := closed_get_parent c2 ha
      obtain ⟨s3, e6, c3⟩ := closed_set_parent c2 hb hq1
      exact ⟨s3, by simp [replace_with_child, e1, e2, hc, e4, e5, e6], c3⟩

theorem pick_two {s s1 s2 : rb_tree α} {a b d m : Nat} {x vm : α} (fuel : Nat)
    (e1 : get_right s (some a) = Except.ok (some b))
    (e2 : get_left s (some a) = Except.ok (some d))
    (e3 : get_head_loop fuel s (some b) = Except.ok (some m))
    (e4 : get_value s (some m) = Except.ok vm)
    (e5 : get_value s (some a) = Except.ok x)
    (w1 : set_value s (some m) x = Except.ok s1)
    (w2 : set_value s1 (some a) vm = Except.ok s2) :
    pick_node_to_delete fuel s (some a) = Except.ok (s2, some m) := by
  simp [pick_node_to_delete, e1, e2, e3, e4, e5, w1, w2]

/-- The function `pick_node_to_delete` returns a node with at most one child: the
node itself, or, when it has two children, the first node of its right subtree
after the two values were swapped. -/
theorem pick_node_to_delete_rep {s : rb_tree α} {K : List (Frame α)} {a : Nat} {l r : Tree α}
    {c : Bool} {x : α} (hrep : Rep s (plug K (Tree.node a l c x r))) (fuel : Nat)
    (hfuel : (plug K (Tree.node a l c x r)).height < fuel) :
    ∃ (s2 : rb_tree α) (m : Nat) (M : List (Frame α)) (ml : Tree α) (cm : Bool) (vm : α)
      (mr : Tree α), pick_node_to_delete fuel s (some a) = Except.ok (s2, some m) ∧
      Rep s2 (plug M (Tree.node m ml cm vm mr)) ∧ (ml = Tree.nil ∨ mr = Tree.nil) ∧
      s2.fr = s.fr ∧ s2.destroyed = s.destroyed ∧ s2.freed = s.freed := by
  have hh := height_le_plug K (Tree.node a l c x r)
  simp only [Tree.height] at hh
  have e1 := rep_get_right hrep
  have e2 := rep_get_left hrep
  cases r with
  | nil =>
    exact ⟨s, a, K, l, c, x, Tree.nil, by simp [pick_node_to_delete, e1, e2], hrep, Or.inr rfl,
      rfl, rfl, rfl⟩
  | node b bl cb bv br =>
    cases l with
    | nil =>
      exact ⟨s, a, K, Tree.nil, c, x, _, by simp [pick_node_to_delete, e1, e2], hrep, Or.inl rfl,
        rfl, rfl, rfl⟩
    | node d dl cd dv dr =>
      obtain ⟨m, M, cm, vm, mr, e3, hp, -, N, hN⟩ := get_head_loop_rep (Tree.node b bl cb bv br)
        (Frame.R a c x (Tree.node d dl cd dv dr) :: K) s fuel (by simp) hrep (by omega)
      subst hN
      have hrepM : Rep s (plug (N ++ Frame.R a c x (Tree.node d dl cd dv dr) :: K)
          (Tree.node m Tree.nil cm vm mr)) := by rw [hp]; exact hrep
      have e4 := rep_get_value hrepM
      have e5 := rep_get_value hrep
      have c1 := rep_focus hrepM
      have R1 := rep_store hrepM cm x
      rw [plug_append] at R1
      have c2 := rep_focus (K := K) R1
      have R2 := rep_store (K := K) R1 c vm
      rw [show plug K (Tree.node a (Tree.node d dl cd dv dr) c vm
          (plug N (Tree.node m Tree.nil cm x mr))) =
        plug (N ++ Frame.R a c vm (Tree.node d dl cd dv dr) :: K)
          (Tree.node m Tree.nil cm x mr) from by rw [plug_append]; rfl] at R2
      refine ⟨_, m, _, Tree.nil, cm, x, mr, ?_, R2, Or.inl rfl, rfl, rfl, rfl⟩
      simp only [ptr_node] at e1 e2 e3
      exact pick_two fuel e1 e2 e3 e4 e5 (by rw [set_value, modify_of_mem c1])
        (by rw [set_value, modify_of_mem c2])

/-- The last branch of `delete_node` (lines 389-409), entered for a black node
without a red child, returns. -/
theorem delete_black_ok {s : rb_tree α} {M : List (Frame α)} {m : Nat} {ml mr : Tree α}
    {cm : Bool} {vm : α} (R : Rep s (plug M (Tree.node m ml cm vm mr))) :
    ∃ s', (do
        let p ← get_parent s (some m)
        if p = none then free_node { s with root := none } (some m)
        else do
          let pl ← get_left s p
          if some m = pl then do
            let sibling ← get_right s p
            let sred ← (if sibling ≠ none then get_red s sibling else pure false)
            if sred = true then do
              let tree ← set_red s sibling false
              let p ← get_parent tree (some m)
              set_red tree p true
            else pure s
          else pure s) = Except.ok s' := by
  have e1 := rep_get_parent R
  have hcl := closed_of_rep R
  have hm : m ∈ (plug M (Tree.node m ml cm vm mr)).addrs :=
    (addrs_plug M _).mem_iff.mpr (by simp [Tree.addrs])
  cases M with
  | nil =>
    have hcl' : Closed ({ s with root := none } : rb_tree α).mem
        (plug [] (Tree.node m ml cm vm mr)).addrs := hcl
    obtain ⟨s', e2⟩ := closed_free_node hcl' hm
    exact ⟨s', by simp [e1, e2]⟩
  | cons f F =>
    simp only [ctxPtr_cons] at e1
    cases f with
    | L p cp vp psib =>
      have e2 := rep_get_left (K := F) R
      have e3 := rep_get_right (K := F) R
      have e4 := sib_get_red (f := Frame.L p cp vp psib) (F := F) R
      simp only [addr_L, sib_L, ptr_node] at e1 e2 e3 e4
      cases hs : psib.isRed with
      | false =>
        rw [hs] at e4
        refine ⟨s, ?_⟩
        rw [e1]; simp only [ok_bind]
        rw [e2]; simp only [ok_bind]
        rw [e3]; simp only [ok_bind]
        rw [e4]; simp
      | true =>
        rw [hs] at e4
        obtain ⟨u, ul, uv, ur, hueq⟩ := isRed_eq_true_iff hs
        have hup : (Frame.L p cp vp psib).sib.ptr = some u := by simp [hueq]
        obtain ⟨s1, e5, R1, -⟩ := sib_set_red (f := Frame.L p cp vp psib) (F := F) R hup false
        have e6 := rep_get_parent R1
        obtain ⟨s2, e7, -, -⟩ := frame_set_red R1 true
        simp only [ctxPtr_cons, addr_withSib, addr_L] at e6 e7
        have hpp : psib.ptr = some u := by simp [hueq]
        refine ⟨s2, ?_⟩
        rw [e1]; simp only [ok_bind]
        rw [e2]; simp only [ok_bind]
        rw [e3]; simp only [ok_bind]
        rw [e4]; simp only [ok_bind]
        rw [hpp, e5]; simp only [ok_bind]
        rw [e6]; simp only [ok_bind]
        rw [e7]; simp
    | R p cp vp psib =>
      have e2 := rep_get_left (K := F) R
      have hne := rep_child_ne' (K := F) R (x := m) rfl
      simp only [addr_R] at e1 e2
      refine ⟨s, ?_⟩
      rw [e1]; simp only [ok_bind]
      rw [e2]; simp [hne]

/-- The function `delete_node` returns on every node of a well-formed tree. -/
theorem delete_node_ok {s : rb_tree α} {K : List (Frame α)} {a : Nat} {l r : Tree α}
    {c : Bool} {x : α} (hrep : Rep s (plug K (Tree.node a l c x r))) (fuel : Nat)
    (hfuel : (plug K (Tree.node a l c x r)).height < fuel) :
    ∃ s', delete_node fuel s (some a) = Except.ok s' := by
  obtain ⟨s2, m, M, ml, cm, vm, mr, e0, R2, hone, -⟩ := pick_node_to_delete_rep hrep fuel hfuel
  have hcl := closed_of_rep R2
  have hm : m ∈ (plug M (Tree.node m ml cm vm mr)).addrs :=
    (addrs_plug M _).mem_iff.mpr (by simp [Tree.addrs])
  have e1 := rep_get_left R2
  have e2 := rep_get_right R2
  have e3 := rep_get_red R2
  have haddr : ∀ (t : Tree α) (p : Nat), t.ptr = some p →
      (t = ml ∨ t = mr) → p ∈ (plug M (Tree.node m ml cm vm mr)).addrs := by
    intro t p hp ht
    refine (addrs_plug M _).mem_iff.mpr (List.mem_append.mpr (Or.inl ?_))
    rcases ht with rfl | rfl
    · simp [Tree.addrs, ptr_mem_addrs hp]
    · simp [Tree.addrs, ptr_mem_addrs hp]
  -- the child pointer
  have hchild : ∀ p, (if ml.ptr ≠ none then ml.ptr else if mr.ptr ≠ none then mr.ptr else none)
      = some p → p ∈ (plug M (Tree.node m ml cm vm mr)).addrs := by
    intro p hp
    split at hp
    · exact haddr ml p hp (Or.inl rfl)
    · split at hp
      · exact haddr mr p hp (Or.inr rfl)
      · cases hp
  have hassert : (decide (ml.ptr = none ∨ mr.ptr = none)) = true := by
    rcases hone with rfl | rfl <;> simp
  generalize hch : (if ml.ptr ≠ none then ml.ptr else if mr.ptr ≠ none then mr.ptr else none)
    = child at hchild
  have hprog : delete_node fuel s (some a) =
      (if cm = true then
        if child = none then detach_node s2 (some m) else replace_with_child s2 (some m) child
      else do
        let cred ← (if child ≠ none then get_red s2 child else pure false)
        if cred = true then do
          let tree ← replace_with_child s2 (some m) child
          set_ref tree child false
        else do
          let p ← get_parent s2 (some m)
          if p = none then free_node { s2 with root := none } (some m)
          else do
            let pl ← get_left s2 p
            if some m = pl then do
              let sibling ← get_right s2 p
              let sred ← (if sibling ≠ none then get_red s2 sibling else pure false)
              if sred = true then do
                let tree ← set_red s2 sibling false
                let p ← get_parent tree (some m)
                set_red tree p true
              else pure s2
            else pure s2) := by
    simp only [delete_node]
    rw [e0]
    simp only [ok_bind, e1, e2, e3, hassert, hch]
    simp
  rw [hprog]
  obtain ⟨sb, eb⟩ := delete_black_ok R2
  cases cm with
  | true =>
    cases child with
    | none =>
      obtain ⟨s', e⟩ := detach_node_ok hcl hm
      exact ⟨s', by simp [e]⟩
    | some ch =>
      obtain ⟨s', e, -⟩ := replace_with_child_ok hcl hm (hchild ch rfl)
      exact ⟨s', by simp [e]⟩
  | false =>
    cases child with
    | none =>
      refine ⟨sb, ?_⟩
      simp only [Bool.false_eq_true, if_false, ne_eq, not_true_eq_false, pure_eq_ok, ok_bind]
      exact eb
    | some ch =>
      obtain ⟨b, e1⟩ := closed_get_red hcl (hchild ch rfl)
      cases b with
      | false =>
        refine ⟨sb, ?_⟩
        simp only [Bool.false_eq_true, if_false, ne_eq, reduceCtorEq, not_false_eq_true, if_true,
          e1, ok_bind]
        exact eb
      | true =>
        obtain ⟨s3, e2, c3⟩ := replace_with_child_ok hcl hm (hchild ch rfl)
        obtain ⟨s4, e3, -⟩ := closed_set_ref c3 (hchild ch rfl) false
        exact ⟨s4, by simp [e1, e2, e3]⟩

/-! ## Return value of `rb_tree_delete` -/

/-- C4: on a tree in order, `find` returns a node whose value compares equal to
the value looked for when the tree holds such a value and absence otherwise, and
`rb_tree_delete` returns, with the flag true exactly when the tree held a value
that compares equal. -/
theorem delete_returns_present (s : rb_tree α) (t : Tree α) (v : α) (fuel : Nat)
    (hc : TotalCmp s.cmp) (hrep : Rep s t) (hb : t.bst s.cmp) (hf : s.next < fuel) :
    (∃ q, find fuel s s.root v = Except.ok q ∧
      (q = none ↔ ∀ y ∈ t.values, s.cmp v y ≠ 0) ∧
      ∀ a, q = some a → a ∈ t.addrs ∧ ∃ n, s.mem a = some n ∧ s.cmp v n.value = 0) ∧
    ∃ b s', rb_tree_delete fuel s v = Except.ok (b, s') ∧
      (b = true ↔ ∃ y ∈ t.values, s.cmp v y = 0) := by
  have hh := rep_height_le hrep
  have hroot := hrep.root
  rcases find_rep v t [] s fuel hc hrep hb (by omega) with ⟨h1, h2⟩ | h
  · rw [← hroot] at h1
    refine ⟨⟨none, h1, ⟨fun _ => h2, fun _ => rfl⟩, by intro a ha; cases ha⟩, false, s, ?_, ?_⟩
    · simp [rb_tree_delete, h1]
    · simp only [Bool.false_eq_true, false_iff, not_exists, not_and]
      exact h2
  · obtain ⟨b, M, bl, cb, bx, br, h1, h2, h3⟩ := h
    rw [← hroot] at h1
    simp only [plug_nil] at h2
    have hrepM : Rep s (plug M (Tree.node b bl cb bx br)) := by rw [h2]; exact hrep
    have hmem : bx ∈ t.values := by rw [← h2]; exact mem_values_plug M b bl br cb bx
    have haddr : b ∈ t.addrs := by
      rw [← h2]; exact (addrs_plug M _).mem_iff.mpr (by simp [Tree.addrs])
    obtain ⟨s', e⟩ := delete_node_ok hrepM fuel (by rw [h2]; omega)
    refine ⟨⟨some b, h1, ?_, ?_⟩, true, s', ?_, ?_⟩
    · simp only [reduceCtorEq, false_iff, not_forall]
      exact ⟨bx, hmem, by simp [h3]⟩
    · intro a ha
      cases ha
      exact ⟨haddr, _, rep_focus hrepM, h3⟩
    · simp [rb_tree_delete, h1, e]
    · simp only [true_iff]
      exact ⟨bx, hmem, h3⟩

theorem delete_returns_present_witness :
    TotalCmp single.cmp ∧ Rep single (Tree.node 0 Tree.nil false 7 Tree.nil) ∧
    (Tree.node 0 Tree.nil false (7 : Int) Tree.nil).bst single.cmp ∧ single.next < 5 ∧
    ((∃ q, find 5 single single.root 7 = Except.ok q ∧
      (q = none ↔ ∀ y ∈ (Tree.node 0 Tree.nil false (7 : Int) Tree.nil).values,
        single.cmp 7 y ≠ 0) ∧
      ∀ a, q = some a → a ∈ (Tree.node 0 Tree.nil false (7 : Int) Tree.nil).addrs ∧
        ∃ n, single.mem a = some n ∧ single.cmp 7 n.value = 0) ∧
    ∃ b s', rb_tree_delete 5 single 7 = Except.ok (b, s') ∧
      (b = true ↔ ∃ y ∈ (Tree.node 0 Tree.nil false (7 : Int) Tree.nil).values,
        single.cmp 7 y = 0)) :=
  ⟨totalCmp_cmp_int, rep_single, valid_single.bst, by decide,
    delete_returns_present single _ 7 5 totalCmp_cmp_int rep_single valid_single.bst
      (by decide)⟩

/-- C5: deleting a value that compares equal to no value of a tree in order
returns false and hands back the very same state: nothing reaches the destructor
and root, cells, links, colours and values are untouched, so the traversal is
unchanged too. -/
theorem delete_absent_unchanged (s : rb_tree α) (t : Tree α) (v : α) (fuel : Nat)
    (hc : TotalCmp s.cmp) (hrep : Rep s t) (hb : t.bst s.cmp)
    (habs : ∀ y ∈ t.values, s.cmp v y ≠ 0) (hf : s.next < fuel) :
    rb_tree_delete fuel s v = Except.ok (false, s) ∧
    ∀ s', rb_tree_delete fuel s v = Except.ok (false, s') →
      s'.destroyed = s.destroyed ∧ s'.freed = s.freed ∧ s'.root = s.root ∧ s'.mem = s.mem ∧
      traversal fuel s' = traversal fuel s := by
  have hh := rep_height_le hrep
  have hroot := hrep.root
  have hrun : rb_tree_delete fuel s v = Except.ok (false, s) := by
    rcases find_rep v t [] s fuel hc hrep hb (by omega) with ⟨h1, -⟩ | h
    · rw [← hroot] at h1
      simp [rb_tree_delete, h1]
    · obtain ⟨b, M, bl, cb, bx, br, -, h2, h3⟩ := h
      simp only [plug_nil] at h2
      have hmem : bx ∈ t.values := by rw [← h2]; exact mem_values_plug M b bl br cb bx
      exact absurd h3 (habs bx hmem)
  refine ⟨hrun, ?_⟩
  intro s' hs'
  rw [hrun] at hs'
  cases hs'
  exact ⟨rfl, rfl, rfl, rfl, rfl⟩

theorem delete_absent_unchanged_witness :
    TotalCmp single.cmp ∧ Rep single (Tree.node 0 Tree.nil false 7 Tree.nil) ∧
    (Tree.node 0 Tree.nil false (7 : Int) Tree.nil).bst single.cmp ∧
    (∀ y ∈ (Tree.node 0 Tree.nil false (7 : Int) Tree.nil).values, single.cmp 3 y ≠ 0) ∧
    single.next < 5 ∧
    (rb_tree_delete 5 single 3 = Except.ok (false, single) ∧
      ∀ s', rb_tree_delete 5 single 3 = Except.ok (false, s') →
        s'.destroyed = single.destroyed ∧ s'.freed = single.freed ∧ s'.root = single.root ∧
        s'.mem = single.mem ∧ traversal 5 s' = traversal 5 single) :=
  ⟨totalCmp_cmp_int, rep_single, valid_single.bst, by simp [Tree.values, single, cmp_int],
    by decide,
    delete_absent_unchanged single _ 3 5 totalCmp_cmp_int rep_single valid_single.bst
      (by simp [Tree.values, single, cmp_int]) (by decide)⟩

/-! ## Deletion and disposal on concrete trees -/

theorem rep_root_colour {s : rb_tree α} {t : Tree α} (h : Rep s t) {r : Nat}
    (hr : s.root = some r) : (s.mem r).map (fun n => n.red) = some t.isRed := by
  cases t with
  | nil => have := h.root; rw [hr] at this; cases this
  | node a l c v r' =>
    have h1 := h.root
    rw [hr] at h1
    simp only [ptr_node, Option.some.injEq] at h1
    subst h1
    rw [h.models.1]; rfl

theorem rb_valid_tree_of (vs : List Int) (h : vs.length < 20) : rb_valid (tree_of vs) := by
  obtain ⟨s', e, hv, -⟩ := insert_all_valid 20 vs fresh totalCmp_cmp_int rb_valid_fresh
    (by simpa [fresh, rb_tree_init, blank] using h)
  unfold tree_of
  rw [e]
  exact hv

/-- C6 (failing run): in the tree built by inserting 1, 2, 3, 4 the node 1 is a
black leaf below the root; `rb_tree_delete` of 1 returns true and the traversal
afterwards still yields 1, 2, 3, 4. -/
theorem delete_black_leaf_keeps_key :
    insert_all 20 fresh [1, 2, 3, 4] = Except.ok (tree_of [1, 2, 3, 4]) ∧
    rb_valid (tree_of [1, 2, 3, 4]) ∧
    traversal 20 (tree_of [1, 2, 3, 4]) = Except.ok [1, 2, 3, 4] ∧
    rb_tree_delete 20 (tree_of [1, 2, 3, 4]) 1 =
      Except.ok (true, after_delete (tree_of [1, 2, 3, 4]) 1) ∧
    traversal 20 (after_delete (tree_of [1, 2, 3, 4]) 1) = Except.ok [1, 2, 3, 4] :=
  ⟨rfl, rb_valid_tree_of _ (by decide), rfl, rfl, rfl⟩

/-- C7 (failing run): the tree built by inserting 1 to 6 satisfies the four
invariants; `rb_tree_delete` of 1 returns true and leaves a tree whose root is
red, so the invariants no longer hold. -/
theorem delete_breaks_invariants :
    insert_all 20 fresh [1, 2, 3, 4, 5, 6] = Except.ok (tree_of [1, 2, 3, 4, 5, 6]) ∧
    rb_valid (tree_of [1, 2, 3, 4, 5, 6]) ∧
    rb_tree_delete 20 (tree_of [1, 2, 3, 4, 5, 6]) 1 =
      Except.ok (true, after_delete (tree_of [1, 2, 3, 4, 5, 6]) 1) ∧
    ¬ rb_valid (after_delete (tree_of [1, 2, 3, 4, 5, 6]) 1) := by
  refine ⟨rfl, rb_valid_tree_of _ (by decide), rfl, ?_⟩
  rintro ⟨t, R, hv⟩
  have hroot : (after_delete (tree_of [1, 2, 3, 4, 5, 6]) 1).root = some 1 := rfl
  have hcol := rep_root_colour R hroot
  have hred : ((after_delete (tree_of [1, 2, 3, 4, 5, 6]) 1).mem 1).map (fun n => n.red) =
      some true := rfl
  rw [hred, hv.root_black] at hcol
  cases hcol

/-- C8 (failing run): in the valid tree built by inserting 1, 2, 3, 4 with a
destructor supplied the node 4 is a red leaf; `rb_tree_delete` of 4 returns true
and unlinks the node, but nothing is handed to the destructor and nothing is
freed. -/
theorem delete_skips_destructor :
    insert_all 20 fresh [1, 2, 3, 4] = Except.ok (tree_of [1, 2, 3, 4]) ∧
    (tree_of [1, 2, 3, 4]).fr = true ∧ rb_valid (tree_of [1, 2, 3, 4]) ∧
    rb_tree_delete 20 (tree_of [1, 2, 3, 4]) 4 =
      Except.ok (true, after_delete (tree_of [1, 2, 3, 4]) 4) ∧
    traversal 20 (after_delete (tree_of [1, 2, 3, 4]) 4) = Except.ok [1, 2, 3] ∧
    (after_delete (tree_of [1, 2, 3, 4]) 4).destroyed = [] ∧
    (after_delete (tree_of [1, 2, 3, 4]) 4).freed = [] :=
  ⟨rfl, rfl, rb_valid_tree_of _ (by decide), rfl, rfl, rfl, rfl⟩

/-- C9 (failing run): on the tree of the ten numbers of `main`, built with a
destructor supplied, `rb_tree_dispose` hands only the four values 0, 1, 2, 5 on the
left spine to the destructor and frees only their four cells. -/
theorem dispose_skips_nodes :
    insert_all 20 fresh numbers = Except.ok (tree_of numbers) ∧
    (tree_of numbers).fr = true ∧ rb_valid (tree_of numbers) ∧
    traversal 20 (tree_of numbers) = Except.ok [0, 1, 2, 3, 4, 5, 6, 7, 8, 9] ∧
    rb_tree_dispose 20 (tree_of numbers) = Except.ok (after_dispose (tree_of numbers)) ∧
    (after_dispose (tree_of numbers)).destroyed = [0, 1, 2, 5] ∧
    (after_dispose (tree_of numbers)).freed = [9, 2, 1, 5] :=
  ⟨rfl, rfl, rb_valid_tree_of _ (by decide), rfl, rfl, rfl, rfl⟩

/-- C10 (failing run): after `rb_tree_dispose` of the tree of the ten numbers of
`main` the handle still points to the freed root cell, and both the traversal and
a further `rb_tree_insert` read that freed cell. -/
theorem dispose_keeps_root :
    insert_all 20 fresh numbers = Except.ok (tree_of numbers) ∧
    rb_valid (tree_of numbers) ∧
    rb_tree_dispose 20 (tree_of numbers) = Except.ok (after_dispose (tree_of numbers)) ∧
    (after_dispose (tree_of numbers)).root = some 5 ∧
    (after_dispose (tree_of numbers)).mem 5 = none ∧
    traversal 20 (after_dispose (tree_of numbers)) = Except.error Fault.bad_access ∧
    rb_tree_insert 20 (after_dispose (tree_of numbers)) 3 = Except.error Fault.bad_access :=
  ⟨rfl, rb_valid_tree_of _ (by decide), rfl, rfl, rfl, rfl, rfl⟩

/-! ## Auxiliary facts for rotation, traversal, deletion and disposal -/

theorem free_node_of_mem {s : rb_tree α} {a : Nat} {n : rb_node α} (h : s.mem a = some n) :
    ∃ s', free_node s (some a) = Except.ok s' ∧
      s'.mem = (fun k => if k = a then none else s.mem k) ∧
      s'.freed = s.freed ++ [a] ∧
      s'.destroyed = (if s.fr then s.destroyed ++ [n.value] else s.destroyed) ∧
      s'.root = s.root ∧ s'.fr = s.fr ∧ s'.cmp = s.cmp ∧ s'.next = s.next := by
  have hv := get_value_of_mem h
  by_cases hfr : s.fr = true
  · refine ⟨_, by simp [free_node, hv, free, free_value, hfr, h]; rfl, ?_⟩
    simp [hfr]
  · refine ⟨_, by simp [free_node, hv, free, free_value, hfr, h]; rfl, ?_⟩
    simp [hfr]

theorem spine_subset (t : Tree α) : ∀ a, a ∈ t.spine.map Prod.fst → a ∈ t.addrs := by
  induction t with
  | nil => intro a h; simp [Tree.spine] at h
  | node b l c v r ihl _ =>
    intro a h
    simp only [Tree.spine, List.map_cons, List.mem_cons] at h
    simp only [Tree.addrs, List.mem_append, List.mem_cons]
    rcases h with h | h
    · exact Or.inr (Or.inl h)
    · exact Or.inl (ihl a h)

theorem spine_node (a : Nat) (l : Tree α) (c : Bool) (v : α) (r : Tree α) :
    (Tree.node a l c v r).spine = (a, v) :: l.spine := rfl

theorem rep_sample : Rep sample sample_tree := by
  refine ⟨rfl, ?_, by decide, by decide⟩
  simp [Models, sample, sample_tree, sample_cells]

theorem valid_sample : sample_tree.valid cmp_int := by
  refine ⟨?_, rfl, ?_, ?_⟩
  · simp [Tree.bst, Tree.values, sample_tree, cmp_int]
  · simp [Tree.noRedRed, sample_tree]
  · intro x hx y hy
    simp [Tree.blackCounts, sample_tree] at hx hy
    omega
theorem bind_ok_iff {β γ : Type} (x : Except Fault β) (f : β → Except Fault γ) (c : γ) :
    (x >>= f) = Except.ok c ↔ ∃ a, x = Except.ok a ∧ f a = Except.ok c := by
  cases x with
  | error e => simp [bind, Except.bind]
  | ok a => simp [bind, Except.bind]

theorem samePayload_refl (s : rb_tree α) : SamePayload s s := fun _ => rfl

theorem samePayload_trans {s t u : rb_tree α} (h1 : SamePayload s t) (h2 : SamePayload t u) :
    SamePayload s u := fun a => (h2 a).trans (h1 a)

theorem modify_payload {s s' : rb_tree α} {p : Option Nat} {f : rb_node α → rb_node α}
    (h : modify s p f = Except.ok s') (hf : ∀ n, (f n).payload = n.payload) :
    SamePayload s s' := by
  cases p with
  | none => simp [modify] at h
  | some a =>
    cases hm : s.mem a with
    | none => simp [modify, hm] at h
    | some n =>
      rw [modify_of_mem hm] at h
      injection h with h
      subst h
      intro k
      rw [store_mem]
      by_cases hk : k = a
      · subst hk; simp [hm, hf]
      · simp [hk]

theorem set_parent_payload {s s' : rb_tree α} {p x : Option Nat}
    (h : set_parent s p x = Except.ok s') : SamePayload s s' := by
  unfold set_parent at h
  exact modify_payload h (fun _ => rfl)

theorem set_left_payload {s s' : rb_tree α} {p x : Option Nat}
    (h : set_left s p x = Except.ok s') : SamePayload s s' := by
  unfold set_left at h
  exact modify_payload h (fun _ => rfl)

theorem set_right_payload {s s' : rb_tree α} {p x : Option Nat}
    (h : set_right s p x = Except.ok s') : SamePayload s s' := by
  unfold set_right at h
  exact modify_payload h (fun _ => rfl)

theorem rotate_left_payload {s s' : rb_tree α} {pivot : Option Nat}
    (h : rotate_left s pivot = Except.ok s') : SamePayload s s' := by
  unfold rotate_left at h
  simp only [bind_ok_iff] at h
  obtain ⟨_, _, parent, _, _, _, pr, _, _, _, child, _, t1, h1, t2, h2, pp, _, t3, h3, pp2, _,
    t4, h4, t5, h5, h6⟩ := h
  have p1 := set_right_payload h1
  have p2 : SamePayload t1 t2 := by
    by_cases hc : child ≠ none
    · rw [if_pos hc] at h2; exact set_parent_payload h2
    · rw [if_neg hc] at h2; injection h2 with h2; subst h2; exact samePayload_refl _
  have p3 := set_parent_payload h3
  have p4 : SamePayload t3 t4 := by
    by_cases hc : pp2 = none
    · rw [if_pos hc] at h4; injection h4 with h4; subst h4; exact fun _ => rfl
    · rw [if_neg hc] at h4
      simp only [bind_ok_iff] at h4
      obtain ⟨ppl, _, h4⟩ := h4
      by_cases hd : parent = ppl
      · rw [if_pos hd] at h4; exact set_left_payload h4
      · rw [if_neg hd] at h4; exact set_right_payload h4
  have p5 := set_left_payload h5
  have p6 := set_parent_payload h6
  exact samePayload_trans p1 (samePayload_trans p2 (samePayload_trans p3
    (samePayload_trans p4 (samePayload_trans p5 p6))))

theorem rotate_right_payload {s s' : rb_tree α} {pivot : Option Nat}
    (h : rotate_right s pivot = Except.ok s') : SamePayload s s' := by
  unfold rotate_right at h
  simp only [bind_ok_iff] at h
  obtain ⟨_, _, parent, _, _, _, pr, _, _, _, child, _, t1, h1, t2, h2, pp, _, t3, h3, pp2, _,
    t4, h4, t5, h5, h6⟩ := h
  have p1 := set_left_payload h1
  have p2 : SamePayload t1 t2 := by
    by_cases hc : child ≠ none
    · rw [if_pos hc] at h2; exact set_parent_payload h2
    · rw [if_neg hc] at h2; injection h2 with h2; subst h2; exact samePayload_refl _
  have p3 := set_parent_payload h3
  have p4 : SamePayload t3 t4 := by
    by_cases hc : pp2 = none
    · rw [if_pos hc] at h4; injection h4 with h4; subst h4; exact fun _ => rfl
    · rw [if_neg hc] at h4
      simp only [bind_ok_iff] at h4
      obtain ⟨ppl, _, h4⟩ := h4
      by_cases hd : parent = ppl
      · rw [if_pos hd] at h4; exact set_left_payload h4
      · rw [if_neg hd] at h4; exact set_right_payload h4
  have p5 := set_right_payload h5
  have p6 := set_parent_payload h6
  exact samePayload_trans p1 (samePayload_trans p2 (samePayload_trans p3
    (samePayload_trans p4 (samePayload_trans p5 p6))))
theorem ctxPre_append (A B : List (Frame α)) : ctxPre (A ++ B) = ctxPre B ++ ctxPre A := by
  induction A with
  | nil => simp [ctxPre]
  | cons f F ih => cases f <;> simp [ctxPre, ih]

theorem ctxPost_append (A B : List (Frame α)) : ctxPost (A ++ B) = ctxPost A ++ ctxPost B := by
  induction A with
  | nil => simp [ctxPost]
  | cons f F ih => cases f <;> simp [ctxPost, ih]

/-- The loop of `get_head` stops at the first node in order of the subtree it is
started on: the path from that node up to the root of the subtree turns right
nowhere. -/
theorem get_head_loop_first :
    ∀ (t : Tree α) (K : List (Frame α)) (s : rb_tree α) (fuel : Nat),
      t ≠ Tree.nil → Rep s (plug K t) → t.height ≤ fuel →
      ∃ (m : Nat) (N : List (Frame α)) (c : Bool) (v : α) (r : Tree α),
        get_head_loop fuel s t.ptr = Except.ok (some m) ∧
        t = plug N (Tree.node m Tree.nil c v r) ∧ ctxPre N = [] := by
  intro t
  induction t with
  | nil => intro K s fuel hne; exact absurd rfl hne
  | node a l c x r ihl _ =>
    intro K s fuel _ hrep hfuel
    cases fuel with
    | zero => simp [Tree.height] at hfuel
    | succ fuel =>
    simp only [Tree.height] at hfuel
    have e1 := rep_get_left hrep
    cases l with
    | nil =>
      refine ⟨a, [], c, x, r, ?_, rfl, rfl⟩
      simp [get_head_loop, e1]
    | node b bl cb bv br =>
      obtain ⟨m, N, c', v', r', e2, hp, hN⟩ := ihl (Frame.L a c x r :: K) s fuel
        (by simp) hrep (by omega)
      refine ⟨m, N ++ [Frame.L a c x r], c', v', r', ?_, ?_, ?_⟩
      · simp only [ptr_node] at e1 e2 ⊢
        simp [get_head_loop, e1, e2]
      · rw [plug_snoc, ← hp]; rfl
      · rw [ctxPre_append, hN]; rfl

theorem totalCmp_irrefl {cmp : α → α → Int} (hc : TotalCmp cmp) (a : α) : ¬ cmp a a < 0 := by
  intro h
  have := (hc.symm a a).mp h
  omega

theorem totalCmp_asymm {cmp : α → α → Int} (hc : TotalCmp cmp) {a b : α} (h : cmp a b < 0) :
    ¬ cmp b a < 0 := by
  intro h'
  have := (hc.symm a b).mp h
  omega

/-- In a sorted list, the elements greater than a given entry are exactly the
entries after it, and the next entry is the least of them. -/
theorem sorted_after {cmp : α → α → Int} (hc : TotalCmp cmp) {pre post : List α} {v : α}
    (hs : (pre ++ v :: post).Pairwise (fun a b => cmp a b < 0)) :
    (∀ y ∈ pre ++ v :: post, cmp v y < 0 → y ∈ post) ∧ (∀ y ∈ post, cmp v y < 0) ∧
    (∀ w rest, post = w :: rest → ∀ y ∈ post, ¬ cmp y w < 0) := by
  simp only [List.pairwise_append, List.pairwise_cons, List.mem_cons] at hs
  obtain ⟨-, ⟨h2, h3⟩, h4⟩ := hs
  refine ⟨?_, h2, ?_⟩
  · intro y hy hlt
    simp only [List.mem_append, List.mem_cons] at hy
    rcases hy with hy | rfl | hy
    · exact absurd hlt (totalCmp_asymm hc (h4 y hy v (Or.inl rfl)))
    · exact absurd hlt (totalCmp_irrefl hc y)
    · exact hy
  · rintro w rest rfl y hy
    simp only [List.pairwise_cons] at h3
    simp only [List.mem_cons] at hy
    rcases hy with rfl | hy
    · exact totalCmp_irrefl hc y
    · exact totalCmp_asymm hc (h3.1 y hy)

/-! ## Insertion and unlinking on arbitrary well-formed trees -/

theorem get_uncle_root {s : rb_tree α} {f : Frame α} {n : Nat} {l r : Tree α} {c : Bool}
    {v : α} (h : Rep s (plug [f] (Tree.node n l c v r))) :
    get_uncle s (some n) = Except.error Fault.assert_failed := by
  have e1 := rep_get_parent h
  have e2 := frame_get_parent h
  simp only [ctxPtr_cons, ctxPtr_nil] at e1 e2
  simp [get_uncle, assert, e1, e2]

theorem loop_uncle_fault {s : rb_tree α} {n p : Nat} {e : Fault} (fuel : Nat)
    (e1 : get_parent s (some n) = Except.ok (some p))
    (e2 : get_red s (some p) = Except.ok true)
    (e3 : get_uncle s (some n) = Except.error e) :
    fix_after_insert_loop (fuel + 1) s (some n) = Except.error e := by
  simp only [fix_after_insert_loop]
  rw [e1]; simp only [ok_bind]
  rw [e2]; simp only [ok_bind]
  rw [e3]; simp

/-- The loop of `fix_after_insert` on any well-formed tree, whatever its colours:
it ends, either by returning a well-formed tree with the same values in the same
order, or at the assertion of `get_uncle` (a red parent without a parent of its
own). -/
theorem fix_loop_wf (k : Nat) :
    ∀ (K : List (Frame α)) (fuel : Nat) (s : rb_tree α) (n : Nat) (l r : Tree α) (c : Bool)
      (v : α), K.length ≤ k → K.length < fuel →
      Rep s (plug K (Tree.node n l c v r)) →
      (∃ s' T, fix_after_insert_loop fuel s (some n) = Except.ok s' ∧ Rep s' T ∧
        T.values = (plug K (Tree.node n l c v r)).values ∧ SameAux s s') ∨
      fix_after_insert_loop fuel s (some n) = Except.error Fault.assert_failed := by
  induction k using Nat.strong_induction_on with
  | _ k ih =>
    intro K fuel s n l r c v hk hf hrep
    cases fuel with
    | zero => omega
    | succ fuel =>
    rcases K with _ | ⟨f, F⟩
    · have e1 := rep_get_parent hrep
      obtain ⟨s', e2, R, A⟩ := set_red_rep hrep false
      simp only [ctxPtr_nil] at e1
      exact Or.inl ⟨s', _, loop_root fuel e1 e2, R, rfl, A⟩
    · have e1 := rep_get_parent hrep
      have e2 := frame_get_red hrep
      simp only [ctxPtr_cons] at e1
      cases hfr : f.red with
      | false =>
        rw [hfr] at e2
        exact Or.inl ⟨s, _, loop_black_parent fuel e1 e2, hrep, rfl, sameAux_refl s⟩
      | true =>
        rw [hfr] at e2
        rcases F with _ | ⟨g, G⟩
        · exact Or.inr (loop_uncle_fault fuel e1 e2 (get_uncle_root hrep))
        · have e3 := get_uncle_rep hrep
          have e4 := sib_get_red (f := g) (F := G) hrep
          have hlen : G.length < k := by simp only [List.length_cons] at hk; omega
          have hfuel : G.length < fuel := by simp only [List.length_cons] at hf; omega
          cases hu : g.sib.isRed with
          | true =>
            obtain ⟨u, ul, uv, ur, hueq⟩ := isRed_eq_true_iff hu
            have hup : g.sib.ptr = some u := by rw [hueq]; rfl
            obtain ⟨s1, e5, R1, A1⟩ := fix_recolour_rep hrep hup
            rw [hu] at e4
            rw [hup] at e3 e4
            have eloop := loop_red_uncle fuel e1 e2 e3 e4 e5
            rw [eloop]
            have hv : (plug (f.paint false :: (g.withSib (g.sib.paint false)).paint true :: G)
                (Tree.node n l c v r)).values = (plug (f :: g :: G) (Tree.node n l c v r)).values := by
              rcases f with ⟨p, cp, vp, psib⟩ | ⟨p, cp, vp, psib⟩ <;>
                rcases g with ⟨gg, cg, vg, usib⟩ | ⟨gg, cg, vg, usib⟩ <;>
                simp only [sib_L, sib_R] at hueq <;> subst hueq <;>
                simp [values_plug, Tree.values, ctxPre, ctxPost, Frame.paint, Frame.withSib,
                  Tree.paint]
            obtain ⟨gn, gl, gc, gv, gr, hg⟩ : ∃ gn gl gc gv gr,
                ((g.withSib (g.sib.paint false)).paint true).fill
                  ((f.paint false).fill (Tree.node n l c v r)) = Tree.node gn gl gc gv gr ∧
                gn = g.addr := by
              rcases g with ⟨gg, cg, vg, usib⟩ | ⟨gg, cg, vg, usib⟩
              · exact ⟨_, _, _, _, _, rfl, rfl⟩
              · exact ⟨_, _, _, _, _, rfl, rfl⟩
            obtain ⟨hg, hgn⟩ := hg
            subst hgn
            have R1' : Rep s1 (plug G (Tree.node g.addr gl gc gv gr)) := by
              rw [← hg]; exact R1
            rcases ih _ hlen G fuel s1 g.addr gl gr gc gv le_rfl hfuel R1' with
              ⟨s', T, e6, R, k4, A⟩ | e6
            · refine Or.inl ⟨s', T, e6, R, ?_, sameAux_trans A1 A⟩
              rw [k4, ← hg, ← hv]; rfl
            · exact Or.inr e6
          | false =>
            rw [hu] at e4
            have eloop := loop_black_uncle fuel e1 e2 e3 e4
            left
            rcases f with ⟨p, cp, vp, psib⟩ | ⟨p, cp, vp, psib⟩ <;>
              rcases g with ⟨gg, cg, vg, usib⟩ | ⟨gg, cg, vg, usib⟩
            · have i1 := fix_inner_LL (G := G) hrep
              obtain ⟨s', o1, R, hA⟩ := fix_outer_L (G := G) hrep
              have hprog : fix_after_insert_loop (fuel + 1) s (some n) = Except.ok s' := by
                rw [eloop, i1]; simpa using o1
              exact ⟨s', _, hprog, R, by simp [values_plug, Tree.values, ctxPre, ctxPost], hA⟩
            · obtain ⟨s1, i1, R1, A1⟩ := fix_inner_RL (G := G) hrep
              obtain ⟨s', o1, R, A2⟩ := fix_outer_R (G := G) R1
              have hA := sameAux_trans A1 A2
              have hprog : fix_after_insert_loop (fuel + 1) s (some n) = Except.ok s' := by
                rw [eloop, i1]; simpa using o1
              exact ⟨s', _, hprog, R, by simp [values_plug, Tree.values, ctxPre, ctxPost], hA⟩
            · obtain ⟨s1, i1, R1, A1⟩ := fix_inner_LR (G := G) hrep
              obtain ⟨s', o1, R, A2⟩ := fix_outer_L (G := G) R1
              have hA := sameAux_trans A1 A2
              have hprog : fix_after_insert_loop (fuel + 1) s (some n) = Except.ok s' := by
                rw [eloop, i1]; simpa using o1
              exact ⟨s', _, hprog, R, by simp [values_plug, Tree.values, ctxPre, ctxPost], hA⟩
            · have i1 := fix_inner_RR (G := G) hrep
              obtain ⟨s', o1, R, hA⟩ := fix_outer_R (G := G) hrep
              have hprog : fix_after_insert_loop (fuel + 1) s (some n) = Except.ok s' := by
                rw [eloop, i1]; simpa using o1
              exact ⟨s', _, hprog, R, by simp [values_plug, Tree.values, ctxPre, ctxPost], hA⟩

theorem fix_after_insert_some (fuel : Nat) (s : rb_tree α) (n : Nat) :
    fix_after_insert fuel s (some n) = fix_after_insert_loop fuel s (some n) := by
  simp [fix_after_insert, assert]

/-- The descent loop of `rb_tree_insert` on any well-formed tree: it ends, either
by returning a well-formed tree that holds the new value, or at the assertion of
`get_uncle`. -/
theorem insert_loop_wf (v : α) :
    ∀ (t : Tree α) (K : List (Frame α)) (s : rb_tree α) (ff fuel : Nat),
      t ≠ Tree.nil → Rep s (plug K t) → t.height ≤ fuel → K.length + t.height < ff →
      (∃ s' T, rb_tree_insert_loop ff fuel s t.ptr v = Except.ok s' ∧ Rep s' T ∧
        v ∈ T.values ∧ s'.cmp = s.cmp ∧ s'.fr = s.fr ∧ s.next ≤ s'.next ∧
        s'.next ≤ s.next + 1) ∨
      rb_tree_insert_loop ff fuel s t.ptr v = Except.error Fault.assert_failed := by
  intro t
  induction t with
  | nil => intro K s ff fuel hne; exact absurd rfl hne
  | node a l c x r ihl ihr =>
    intro K s ff fuel _ hrep hfuel hff
    cases fuel with
    | zero => simp [Tree.height] at hfuel
    | succ fuel =>
    have e1 := rep_get_value hrep
    have e2 := rep_get_left hrep
    have e3 := rep_get_right hrep
    simp only [Tree.height] at hfuel hff
    simp only [ptr_node]
    by_cases hlt : s.cmp v x < 0
    · cases l with
      | nil =>
        obtain ⟨s2, s3, a1, a2, R3, q1, q2, q3⟩ := attach_left_rep hrep v
        rw [insert_loop_lt_nil ff fuel e1 hlt e2 a1 a2, fix_after_insert_some]
        rcases fix_loop_wf _ (Frame.L a c x r :: K) ff s3 s.next Tree.nil Tree.nil true v le_rfl
          (by simp only [List.length_cons]; omega) R3 with ⟨s', T, f1, R, c4, A⟩ | f1
        · refine Or.inl ⟨s', T, f1, R, ?_, ?_, ?_, ?_, ?_⟩
          · rw [c4]; exact mem_values_plug _ _ _ _ _ _
          · rw [A.1, q1]
          · rw [A.2.1, q2]
          · rw [A.2.2.1, q3]; omega
          · rw [A.2.2.1, q3]
        · exact Or.inr f1
      | node b bl cb bv br =>
        rw [insert_loop_lt_node ff fuel e1 hlt e2]
        exact ihl (Frame.L a c x r :: K) s ff fuel (by simp) hrep (by omega)
          (by simp only [List.length_cons]; omega)
    · by_cases hgt : s.cmp v x > 0
      · cases r with
        | nil =>
          obtain ⟨s2, s3, a1, a2, R3, q1, q2, q3⟩ := attach_right_rep hrep v
          rw [insert_loop_gt_nil ff fuel e1 hlt hgt e3 a1 a2, fix_after_insert_some]
          rcases fix_loop_wf _ (Frame.R a c x l :: K) ff s3 s.next Tree.nil Tree.nil true v
            le_rfl (by simp only [List.length_cons]; omega) R3 with ⟨s', T, f1, R, c4, A⟩ | f1
          · refine Or.inl ⟨s', T, f1, R, ?_, ?_, ?_, ?_, ?_⟩
            · rw [c4]; exact mem_values_plug _ _ _ _ _ _
            · rw [A.1, q1]
            · rw [A.2.1, q2]
            · rw [A.2.2.1, q3]; omega
            · rw [A.2.2.1, q3]
          · exact Or.inr f1
        | node b bl cb bv br =>
          rw [insert_loop_gt_node ff fuel e1 hlt hgt e3]
          exact ihr (Frame.R a c x l :: K) s ff fuel (by simp) hrep (by omega)
            (by simp only [List.length_cons]; omega)
      · rw [insert_loop_eq ff fuel e1 hlt hgt]
        have R0 := rep_free_value hrep x
        have R1 := rep_store R0 c v
        refine Or.inl ⟨_, _, ?_, R1, mem_values_plug _ _ _ _ _ _, by simp, by simp, by simp,
          by simp⟩
        rw [set_value, modify_of_mem (rep_focus R0)]

/-- A call of `rb_tree_insert` on any well-formed tree ends: it returns a
well-formed tree that holds the new value, or it stops at the assertion of
`get_uncle`. -/
theorem rb_tree_insert_wf {s : rb_tree α} {t : Tree α} (h : Rep s t) (v : α) (fuel : Nat)
    (hf : s.next < fuel) :
    (∃ s' T, rb_tree_insert fuel s v = Except.ok s' ∧ Rep s' T ∧ v ∈ T.values ∧
      s'.cmp = s.cmp ∧ s'.fr = s.fr ∧ s.next ≤ s'.next ∧ s'.next ≤ s.next + 1) ∨
    rb_tree_insert fuel s v = Except.error Fault.assert_failed := by
  cases t with
  | nil =>
    have hroot := h.root
    simp only [ptr_nil] at hroot
    have R0 : Rep (store { (create_node s v).1 with root := some s.next } s.next
        ⟨none, none, none, true, v⟩)
        (plug [] (Tree.node s.next Tree.nil true v Tree.nil)) := by
      refine ⟨rfl, ?_, ?_, ?_⟩
      · simp [Models]
      · simp [Tree.addrs]
      · intro a ha
        simp [Tree.addrs] at ha
        simp [create_node, ha]
    have hprog : rb_tree_insert fuel s v = fix_after_insert_loop fuel
        (store { (create_node s v).1 with root := some s.next } s.next
          ⟨none, none, none, true, v⟩) (some s.next) := by
      have hcn : create_node s v = ((create_node s v).1, some s.next) := rfl
      simp only [rb_tree_insert, hroot, if_true]
      rw [hcn]
      simp only []
      have e1 : set_parent { (create_node s v).1 with root := some s.next } (some s.next) none =
          Except.ok (store { (create_node s v).1 with root := some s.next } s.next
            ⟨none, none, none, true, v⟩) := by
        simp [set_parent, modify, create_node]
      rw [e1]
      simp [fix_after_insert, assert]
    rw [hprog]
    rcases fix_loop_wf 0 [] fuel _ s.next Tree.nil Tree.nil true v le_rfl (by simp; omega) R0
      with ⟨s', T, f1, R, c4, A⟩ | f1
    · refine Or.inl ⟨s', T, f1, R, ?_, ?_, ?_, ?_, ?_⟩
      · rw [c4]; simp [Tree.values]
      · rw [A.1]; rfl
      · rw [A.2.1]; rfl
      · rw [A.2.2.1]; simp [create_node]
      · rw [A.2.2.1]; simp [create_node]
    · exact Or.inr f1
  | node a l c x r =>
    have hroot := h.root
    simp only [ptr_node] at hroot
    have hh := rep_height_le h
    have key := insert_loop_wf v (Tree.node a l c x r) [] s fuel fuel (by simp) h
      (by omega) (by simp only [List.length_nil]; omega)
    have hprog : rb_tree_insert fuel s v
        = rb_tree_insert_loop fuel fuel s (Tree.node a l c x r).ptr v := by
      simp [rb_tree_insert, hroot]
    rw [hprog]
    exact key

theorem models_reparent {mem mem' : Nat → Option (rb_node α)} {par par' : Option Nat}
    {a : Nat} {l r : Tree α} {c : Bool} {v : α} (h : Models mem par (Tree.node a l c v r))
    (ha : mem' a = some ⟨par', l.ptr, r.ptr, c, v⟩)
    (hagree : ∀ b, b ∈ l.addrs ++ r.addrs → mem' b = mem b) :
    Models mem' par' (Tree.node a l c v r) := by
  obtain ⟨-, hl, hr⟩ := h
  exact ⟨ha, models_congr hl (fun b hb => hagree b (by simp [hb])),
    models_congr hr (fun b hb => hagree b (by simp [hb]))⟩

/-- Facts about a child subtree of the node in focus. -/
theorem rep_child_facts {s : rb_tree α} {K : List (Frame α)} {m : Nat} {ml mr : Tree α}
    {cm : Bool} {vm : α} (h : Rep s (plug K (Tree.node m ml cm vm mr))) {w : Tree α}
    (hw : w = ml ∨ w = mr) :
    Models s.mem (some m) w ∧ w.addrs.Nodup ∧ m ∉ w.addrs ∧
    (∀ a ∈ w.addrs, a ∉ ctxAddrs K) ∧ (∀ a ∈ w.addrs, a < s.next) ∧ m ∉ ctxAddrs K := by
  have hnd := rep_nodup_split h
  have hlive := rep_live_lt h
  obtain ⟨-, hl, hr⟩ := models_plug h.models
  simp only [Tree.addrs, List.append_assoc, List.cons_append] at hnd hlive
  rw [List.nodup_append] at hnd
  obtain ⟨n1, n2, n3⟩ := hnd
  have n2' := n2
  simp only [List.nodup_append, List.nodup_cons, List.mem_append, not_or] at n2'
  rcases hw with rfl | rfl
  · refine ⟨hl, n1, ?_, ?_, fun a ha => hlive a (by simp [ha]), n2'.1.2⟩
    · intro hm; exact n3 hm (by simp)
    · intro a ha hk; exact n3 ha (by simp [hk])
  · refine ⟨hr, n2'.2.1, n2'.1.1, ?_, fun a ha => hlive a (by simp [ha]), n2'.1.2⟩
    intro a ha hk
    exact n2'.2.2.2 ha hk

theorem rep_shrink {s s' : rb_tree α} {F : List (Frame α)} {t w : Tree α}
    (h : Rep s (plug F t)) (hsub : w.addrs.Sublist t.addrs)
    (hroot : s'.root = (plug F w).ptr)
    (hagree : ∀ a ∈ ctxAddrs F, s'.mem a = s.mem a)
    (hptr : F ≠ [] → w.ptr = t.ptr)
    (ht' : Models s'.mem (ctxPtr F) w) (hnext : s'.next = s.next) :
    Rep s' (plug F w) := by
  have hsplit := rep_nodup_split h
  have hlive := rep_live_lt h
  rw [List.nodup_append] at hsplit
  refine rep_replace h hroot hagree hptr ht' (hsplit.1.sublist hsub) ?_ ?_ (le_of_eq hnext.symm)
  · intro a ha hb
    exact hsplit.2.2 (hsub.subset ha) hb
  · intro a ha
    rw [hnext]
    exact hlive a (List.mem_append.mpr (Or.inl (hsub.subset ha)))

theorem child_sublist (m : Nat) (ml mr : Tree α) (cm : Bool) (vm : α) {w : Tree α}
    (hw : w = ml ∨ w = mr) : w.addrs.Sublist (Tree.node m ml cm vm mr).addrs := by
  simp only [Tree.addrs]
  rcases hw with rfl | rfl
  · exact List.sublist_append_left _ _
  · exact (List.sublist_cons_self _ _).trans (List.sublist_append_right _ _)

theorem frame_nodup {s : rb_tree α} {f : Frame α} {F : List (Frame α)} {t : Tree α}
    (h : Rep s (plug (f :: F) t)) :
    f.addr ∉ t.addrs ∧ f.addr ∉ f.sib.addrs ∧ f.addr ∉ ctxAddrs F ∧
    (∀ a ∈ f.sib.addrs, a ∉ t.addrs) ∧ (∀ a ∈ ctxAddrs F, a ∉ t.addrs) := by
  have hnd : (t.addrs ++ (f.addr :: f.sib.addrs ++ ctxAddrs F)).Nodup := rep_nodup_split h
  rw [List.nodup_append] at hnd
  obtain ⟨-, n2, n3⟩ := hnd
  simp only [List.cons_append, List.nodup_cons, List.mem_append, not_or] at n2
  refine ⟨fun ha => n3 ha (by simp), n2.1.1, n2.1.2, fun a ha hb => n3 hb (by simp [ha]),
    fun a ha hb => n3 hb (by simp [ha])⟩

/-- On a well-formed tree `detach_node` cuts the node in focus, together with
whatever hangs below it, out of the tree. -/
theorem detach_node_rep {s : rb_tree α} {K : List (Frame α)} {m : Nat} {ml mr : Tree α}
    {cm : Bool} {vm : α} (h : Rep s (plug K (Tree.node m ml cm vm mr))) :
    ∃ s', detach_node s (some m) = Except.ok s' ∧ Rep s' (plug K Tree.nil) ∧ SameAux s s' ∧
      ∀ k, ctxPtr K ≠ some k → s'.mem k = s.mem k := by
  have e1 := rep_get_parent h
  rcases K with _ | ⟨f, F⟩
  · simp only [ctxPtr_nil] at e1
    refine ⟨{ s with root := none }, by simp [detach_node, assert, e1], ?_, by simp [SameAux],
      fun _ _ => rfl⟩
    exact rep_of_root_none rfl
  · simp only [ctxPtr_cons] at e1
    obtain ⟨k1, k2, k3, k4, k5⟩ := frame_nodup h
    have hsib : Models s.mem (some f.addr) f.sib := by
      have := models_plug (K := F) h.models
      cases f with
      | L p cp vp sib => exact this.2.2
      | R p cp vp sib => exact this.2.1
    rcases f with ⟨p, cp, vp, sib⟩ | ⟨p, cp, vp, sib⟩
    · have hcell := rep_focus (K := F) h
      have e2 := rep_get_left (K := F) h
      simp only [ptr_node, addr_L] at e1 e2 hcell k1 k2 k3
      refine ⟨store s p ⟨ctxPtr F, none, sib.ptr, cp, vp⟩, ?_, ?_, by simp [SameAux],
        fun k hk => by rw [store_mem, if_neg]; rintro rfl; exact hk rfl⟩
      · have e3 : set_left s (some p) none
            = Except.ok (store s p ⟨ctxPtr F, none, sib.ptr, cp, vp⟩) := by
          rw [set_left, modify_of_mem hcell]
        simp [detach_node, assert, e1, e2, e3]
      · refine rep_shrink (F := F) (w := Tree.node p Tree.nil cp vp sib) h ?_ ?_ ?_ ?_ ?_ rfl
        · simp only [Tree.addrs, List.nil_append]
          exact List.sublist_append_right _ _
        · rw [store_root, h.root]; exact ptr_plug_of_ptr F rfl
        · intro a ha
          rw [store_mem, if_neg]; rintro rfl; exact k3 ha
        · intro _; rfl
        · refine ⟨by simp [store_mem], trivial, models_congr hsib ?_⟩
          intro a ha
          rw [store_mem, if_neg]; rintro rfl; exact k2 ha
    · have hcell := rep_focus (K := F) h
      have e2 := rep_get_left (K := F) h
      have hne : ¬ sib.ptr = some m := fun e => rep_child_ne' (K := F) h (x := m) rfl e.symm
      simp only [ptr_node, addr_R] at e1 e2 hcell k1 k2 k3
      refine ⟨store s p ⟨ctxPtr F, sib.ptr, none, cp, vp⟩, ?_, ?_, by simp [SameAux],
        fun k hk => by rw [store_mem, if_neg]; rintro rfl; exact hk rfl⟩
      · have e3 : set_right s (some p) none
            = Except.ok (store s p ⟨ctxPtr F, sib.ptr, none, cp, vp⟩) := by
          rw [set_right, modify_of_mem hcell]
        simp [detach_node, assert, e1, e2, e3, hne]
      · refine rep_shrink (F := F) (w := Tree.node p sib cp vp Tree.nil) h ?_ ?_ ?_ ?_ ?_ rfl
        · simp only [Tree.addrs]
          exact List.Sublist.append (List.Sublist.refl _)
            (List.Sublist.cons₂ _ (List.nil_sublist _))
        · rw [store_root, h.root]; exact ptr_plug_of_ptr F rfl
        · intro a ha
          rw [store_mem, if_neg]; rintro rfl; exact k3 ha
        · intro _; rfl
        · refine ⟨by simp [store_mem], models_congr hsib ?_, trivial⟩
          intro a ha
          rw [store_mem, if_neg]; rintro rfl; exact k2 ha

/-- On a well-formed tree `replace_with_child` puts a child subtree of the node
in focus into the place of that node. -/
theorem replace_with_child_rep {s : rb_tree α} {K : List (Frame α)} {m : Nat} {ml mr : Tree α}
    {cm : Bool} {vm : α} (h : Rep s (plug K (Tree.node m ml cm vm mr)))
    {ch : Nat} {cl cr : Tree α} {cc : Bool} {cv : α}
    (hw : Tree.node ch cl cc cv cr = ml ∨ Tree.node ch cl cc cv cr = mr) :
    ∃ s', replace_with_child s (some m) (some ch) = Except.ok s' ∧
      Rep s' (plug K (Tree.node ch cl cc cv cr)) ∧ SameAux s s' ∧
      ∀ k, ctxPtr K ≠ some k → k ≠ ch → s'.mem k = s.mem k := by
  have e1 := rep_get_parent h
  obtain ⟨hmw, hndw, hmnot, hdisj, hlivew, hmK⟩ := rep_child_facts h hw
  have hcc : s.mem ch = some ⟨some m, cl.ptr, cr.ptr, cc, cv⟩ := hmw.1
  have hchm : ch ≠ m := by rintro rfl; exact hmnot (by simp [Tree.addrs])
  have hsubw : ∀ b, b ∈ cl.addrs ++ cr.addrs → b ≠ ch ∧ b ∈ (Tree.node ch cl cc cv cr).addrs := by
    intro b hb
    simp only [Tree.addrs, List.nodup_append, List.nodup_cons] at hndw
    simp only [List.mem_append] at hb
    refine ⟨?_, by simp only [Tree.addrs, List.mem_append, List.mem_cons]; tauto⟩
    rintro rfl
    rcases hb with hb | hb
    · exact hndw.2.2 hb (by simp)
    · exact hndw.2.1.1 hb
  rcases K with _ | ⟨f, F⟩
  · simp only [ctxPtr_nil] at e1
    refine ⟨store { s with root := some ch } ch ⟨none, cl.ptr, cr.ptr, cc, cv⟩, ?_, ?_,
      by simp [SameAux], fun k _ hk => by rw [store_mem, if_neg hk]⟩
    · simp [replace_with_child, assert, e1, set_parent, modify, hcc]
    · refine ⟨rfl, models_reparent hmw (by simp [store_mem]) ?_, hndw, ?_⟩
      · intro b hb
        rw [store_mem, if_neg (hsubw b hb).1]
      · intro a ha; exact hlivew a ha
  · simp only [ctxPtr_cons] at e1
    obtain ⟨k1, k2, k3, k4, k5⟩ := frame_nodup h
    have hchf : ch ≠ f.addr := by
      intro e
      exact hdisj ch (by simp [Tree.addrs]) (by simp [ctxAddrs, e])
    have hmf : m ≠ f.addr := by intro e; exact hmK (by simp [ctxAddrs, e])
    have hsib : Models s.mem (some f.addr) f.sib := by
      have := models_plug (K := F) h.models
      cases f with
      | L p cp vp sib => exact this.2.2
      | R p cp vp sib => exact this.2.1
    have hcm := rep_focus h
    rcases f with ⟨p, cp, vp, sib⟩ | ⟨p, cp, vp, sib⟩
    · have hcell := rep_focus (K := F) h
      have e2 := rep_get_left (K := F) h
      simp only [ptr_node, addr_L, sib_L, ctxPtr_cons] at e1 e2 hcell k1 k2 k3 k4 hchf hmf hcm hsib
      have e3 : set_left s (some p) (some ch)
          = Except.ok (store s p ⟨ctxPtr F, some ch, sib.ptr, cp, vp⟩) := by
        rw [set_left, modify_of_mem hcell]
      have e4 : get_parent (store s p ⟨ctxPtr F, some ch, sib.ptr, cp, vp⟩) (some m)
          = Except.ok (some p) := by
        rw [get_parent_of_mem (by rw [store_mem, if_neg hmf]; exact hcm)]
      have e5 : set_parent (store s p ⟨ctxPtr F, some ch, sib.ptr, cp, vp⟩) (some ch) (some p)
          = Except.ok (store (store s p ⟨ctxPtr F, some ch, sib.ptr, cp, vp⟩) ch
              ⟨some p, cl.ptr, cr.ptr, cc, cv⟩) := by
        rw [set_parent, modify_of_mem (by rw [store_mem, if_neg hchf]; exact hcc)]
      refine ⟨store (store s p ⟨ctxPtr F, some ch, sib.ptr, cp, vp⟩) ch
        ⟨some p, cl.ptr, cr.ptr, cc, cv⟩, ?_, ?_, ?_⟩
      · simp only [replace_with_child, assert]
        simp [e1, e2, e3, e4, e5]
      · refine rep_shrink (F := F) (w := Tree.node p (Tree.node ch cl cc cv cr) cp vp sib) h
          ?_ ?_ ?_ ?_ ?_ rfl
        · simp only [Tree.addrs]
          exact List.Sublist.append (child_sublist m ml mr cm vm hw)
            (List.Sublist.refl _)
        · simp only [store_root, h.root]; exact ptr_plug_of_ptr F rfl
        · intro a ha
          have h1 : a ≠ p := by rintro rfl; exact k3 ha
          have h2 : a ≠ ch := by
            intro e
            exact hdisj ch (by simp [Tree.addrs]) (by rw [← e]; simp [ctxAddrs, ha])
          simp [store_mem, h1, h2]
        · intro _; rfl
        · refine ⟨by simp [store_mem, hchf.symm], models_reparent hmw (by simp [store_mem]) ?_,
            models_congr hsib ?_⟩
          · intro b hb
            obtain ⟨h1, h2⟩ := hsubw b hb
            have h3 : b ≠ p := by intro e; exact hdisj b h2 (by rw [e]; simp [ctxAddrs])
            simp [store_mem, h1, h3]
          · intro b hb
            have h1 : b ≠ p := by rintro rfl; exact k2 hb
            have h2 : b ≠ ch := by
              intro e
              exact hdisj ch (by simp [Tree.addrs]) (by rw [← e]; simp [ctxAddrs, hb])
            simp [store_mem, h1, h2]
      · refine ⟨by simp [SameAux], fun k hk hk2 => ?_⟩
        have hk1 : k ≠ p := by rintro rfl; exact hk rfl
        simp [store_mem, hk1, hk2]
    · have hcell := rep_focus (K := F) h
      have e2 := rep_get_left (K := F) h
      have hne : ¬ sib.ptr = some m := fun e => rep_child_ne' (K := F) h (x := m) rfl e.symm
      simp only [ptr_node, addr_R, sib_R, ctxPtr_cons] at e1 e2 hcell k1 k2 k3 k4 hchf hmf hcm hsib
      have e3 : set_right s (some p) (some ch)
          = Except.ok (store s p ⟨ctxPtr F, sib.ptr, some ch, cp, vp⟩) := by
        rw [set_right, modify_of_mem hcell]
      have e4 : get_parent (store s p ⟨ctxPtr F, sib.ptr, some ch, cp, vp⟩) (some m)
          = Except.ok (some p) := by
        rw [get_parent_of_mem (by rw [store_mem, if_neg hmf]; exact hcm)]
      have e5 : set_parent (store s p ⟨ctxPtr F, sib.ptr, some ch, cp, vp⟩) (some ch) (some p)
          = Except.ok (store (store s p ⟨ctxPtr F, sib.ptr, some ch, cp, vp⟩) ch
              ⟨some p, cl.ptr, cr.ptr, cc, cv⟩) := by
        rw [set_parent, modify_of_mem (by rw [store_mem, if_neg hchf]; exact hcc)]
      refine ⟨store (store s p ⟨ctxPtr F, sib.ptr, some ch, cp, vp⟩) ch
        ⟨some p, cl.ptr, cr.ptr, cc, cv⟩, ?_, ?_, ?_⟩
      · simp only [replace_with_child, assert]
        simp [e1, e2, e3, e4, e5, hne]
      · refine rep_shrink (F := F) (w := Tree.node p sib cp vp (Tree.node ch cl cc cv cr)) h
          ?_ ?_ ?_ ?_ ?_ rfl
        · simp only [Tree.addrs]
          exact List.Sublist.append (List.Sublist.refl _)
            (List.Sublist.cons₂ _ (child_sublist m ml mr cm vm hw))
        · simp only [store_root, h.root]; exact ptr_plug_of_ptr F rfl
        · intro a ha
          have h1 : a ≠ p := by rintro rfl; exact k3 ha
          have h2 : a ≠ ch := by
            intro e
            exact hdisj ch (by simp [Tree.addrs]) (by rw [← e]; simp [ctxAddrs, ha])
          simp [store_mem, h1, h2]
        · intro _; rfl
        · refine ⟨by simp [store_mem, hchf.symm], models_congr hsib ?_,
            models_reparent hmw (by simp [store_mem]) ?_⟩
          · intro b hb
            have h1 : b ≠ p := by rintro rfl; exact k2 hb
            have h2 : b ≠ ch := by
              intro e
              exact hdisj ch (by simp [Tree.addrs]) (by rw [← e]; simp [ctxAddrs, hb])
            simp [store_mem, h1, h2]
          · intro b hb
            obtain ⟨h1, h2⟩ := hsubw b hb
            have h3 : b ≠ p := by intro e; exact hdisj b h2 (by rw [e]; simp [ctxAddrs])
            simp [store_mem, h1, h3]
      · refine ⟨by simp [SameAux], fun k hk hk2 => ?_⟩
        have hk1 : k ≠ p := by rintro rfl; exact hk rfl
        simp [store_mem, hk1, hk2]
/-- What `pick_node_to_delete` does on a well-formed tree: nothing when the node
has at most one child; otherwise it swaps the value of the node with the value
of the first node in order of its right subtree and returns that node. -/
theorem pick_precise {s : rb_tree α} {K : List (Frame α)} {a : Nat} {l r : Tree α}
    {c : Bool} {x : α} (hrep : Rep s (plug K (Tree.node a l c x r))) (fuel : Nat)
    (hfuel : (plug K (Tree.node a l c x r)).height < fuel) :
    ((l = Tree.nil ∨ r = Tree.nil) ∧
      pick_node_to_delete fuel s (some a) = Except.ok (s, some a)) ∨
    ∃ (s2 : rb_tree α) (m : Nat) (N : List (Frame α)) (cm : Bool) (vm : α) (mr : Tree α)
      (pm : Option Nat),
      l ≠ Tree.nil ∧ r = plug N (Tree.node m Tree.nil cm vm mr) ∧ ctxPre N = [] ∧
      pick_node_to_delete fuel s (some a) = Except.ok (s2, some m) ∧
      Rep s2 (plug (N ++ Frame.R a c vm l :: K) (Tree.node m Tree.nil cm x mr)) ∧
      SameAux s s2 ∧ a ≠ m ∧ s2.root = s.root ∧
      s.mem m = some ⟨pm, none, mr.ptr, cm, vm⟩ ∧
      s2.mem = (fun k => if k = a then some ⟨ctxPtr K, l.ptr, r.ptr, c, vm⟩
        else if k = m then some ⟨pm, none, mr.ptr, cm, x⟩ else s.mem k) := by
  have hh := height_le_plug K (Tree.node a l c x r)
  simp only [Tree.height] at hh
  have e1 := rep_get_right hrep
  have e2 := rep_get_left hrep
  cases r with
  | nil => exact Or.inl ⟨Or.inr rfl, by simp [pick_node_to_delete, e1, e2, assert]⟩
  | node b bl cb bv br =>
    cases l with
    | nil => exact Or.inl ⟨Or.inl rfl, by simp [pick_node_to_delete, e1, e2, assert]⟩
    | node d dl cd dv dr =>
      right
      obtain ⟨m, N, cm, vm, mr, e3, hp, hN⟩ := get_head_loop_first (Tree.node b bl cb bv br)
        (Frame.R a c x (Tree.node d dl cd dv dr) :: K) s fuel (by simp) hrep (by omega)
      have hrepM : Rep s (plug (N ++ Frame.R a c x (Tree.node d dl cd dv dr) :: K)
          (Tree.node m Tree.nil cm vm mr)) := by
        rw [plug_append]
        show Rep s (plug K (Tree.node a (Tree.node d dl cd dv dr) c x
          (plug N (Tree.node m Tree.nil cm vm mr))))
        rw [← hp]; exact hrep
      have e4 := rep_get_value hrepM
      have e5 := rep_get_value hrep
      have c1 := rep_focus hrepM
      have R1 := rep_store hrepM cm x
      rw [plug_append] at R1
      have c2 := rep_focus (K := K) R1
      have R2 := rep_store (K := K) R1 c vm
      rw [show plug K (Tree.node a (Tree.node d dl cd dv dr) c vm
          (plug N (Tree.node m Tree.nil cm x mr))) =
        plug (N ++ Frame.R a c vm (Tree.node d dl cd dv dr) :: K)
          (Tree.node m Tree.nil cm x mr) from by rw [plug_append]; rfl] at R2
      have ham : a ≠ m := by
        intro e
        have hnd := rep_nodup_split hrepM
        rw [List.nodup_append] at hnd
        have hd : m ∉ ctxAddrs (N ++ Frame.R a c x (Tree.node d dl cd dv dr) :: K) :=
          fun hm => hnd.2.2 (by simp [Tree.addrs]) hm
        apply hd
        have : ∀ (A B : List (Frame α)) (k : Nat), k ∈ ctxAddrs B → k ∈ ctxAddrs (A ++ B) := by
          intro A B k hk
          induction A with
          | nil => exact hk
          | cons f F ih => simp [ctxAddrs, ih]
        exact this _ _ _ (by simp [ctxAddrs, e])
      have hptr1 : (plug N (Tree.node m Tree.nil cm x mr)).ptr = (Tree.node b bl cb bv br).ptr := by
        rw [hp]; exact ptr_plug_of_ptr N rfl
      refine ⟨_, m, N, cm, vm, mr, _, by simp, hp, hN, ?_, R2, by simp [SameAux], ham, rfl, c1, ?_⟩
      · simp only [ptr_node] at e1 e2 e3
        exact pick_two fuel e1 e2 e3 e4 e5 (by rw [set_value, modify_of_mem c1])
          (by rw [set_value, modify_of_mem c2])
      · funext k
        simp only [store_mem, hptr1]
        rfl
/-- The function `delete_node` after `pick_node_to_delete` returned: the branch
taken depends on the colour of the picked node and on its child. -/
theorem delete_node_prog {s s2 : rb_tree α} {a m : Nat} {M : List (Frame α)} {ml mr : Tree α}
    {cm : Bool} {vm : α} (fuel : Nat)
    (e0 : pick_node_to_delete fuel s (some a) = Except.ok (s2, some m))
    (R2 : Rep s2 (plug M (Tree.node m ml cm vm mr))) (hone : ml = Tree.nil ∨ mr = Tree.nil)
    {q : Option Nat}
    (hch : (if ml.ptr ≠ none then ml.ptr else if mr.ptr ≠ none then mr.ptr else none) = q) :
    delete_node fuel s (some a) =
      (if cm = true then
        if q = none then detach_node s2 (some m) else replace_with_child s2 (some m) q
      else do
        let cred ← (if q ≠ none then get_red s2 q else pure false)
        if cred = true then do
          let tree ← replace_with_child s2 (some m) q
          set_ref tree q false
        else delete_leaf s2 (some m)) := by
  have e1 := rep_get_left R2
  have e2 := rep_get_right R2
  have e3 := rep_get_red R2
  have hassert : (decide (ml.ptr = none ∨ mr.ptr = none)) = true := by
    rcases hone with rfl | rfl <;> simp
  simp only [delete_node, delete_leaf]
  rw [e0]
  simp only [ok_bind, e1, e2, e3, hassert, hch]
  simp

theorem child_cases {ml mr : Tree α} (hone : ml = Tree.nil ∨ mr = Tree.nil) :
    (ml = Tree.nil ∧ mr = Tree.nil ∧
      (if ml.ptr ≠ none then ml.ptr else if mr.ptr ≠ none then mr.ptr else none) = none) ∨
    ∃ ch cl cc cv cr, (Tree.node ch cl cc cv cr = ml ∨ Tree.node ch cl cc cv cr = mr) ∧
      (if ml.ptr ≠ none then ml.ptr else if mr.ptr ≠ none then mr.ptr else none) = some ch ∧
      ((ml = Tree.node ch cl cc cv cr ∧ mr = Tree.nil) ∨
        (ml = Tree.nil ∧ mr = Tree.node ch cl cc cv cr)) := by
  rcases hone with rfl | rfl
  · cases mr with
    | nil => exact Or.inl ⟨rfl, rfl, by simp⟩
    | node ch cl cc cv cr =>
      exact Or.inr ⟨ch, cl, cc, cv, cr, Or.inr rfl, by simp, Or.inr ⟨rfl, rfl⟩⟩
  · cases ml with
    | nil => exact Or.inl ⟨rfl, rfl, by simp⟩
    | node ch cl cc cv cr =>
      exact Or.inr ⟨ch, cl, cc, cv, cr, Or.inl rfl, by simp, Or.inl ⟨rfl, rfl⟩⟩

/-- The last branch of `delete_node` on the root: the handle is emptied and the
root cell freed. -/
theorem delete_leaf_root {s : rb_tree α} {m : Nat} {ml mr : Tree α} {cm : Bool} {vm : α}
    (R : Rep s (plug [] (Tree.node m ml cm vm mr))) :
    ∃ s', delete_leaf s (some m) = Except.ok s' ∧ Rep s' Tree.nil ∧ s'.root = none ∧
      s'.freed = s.freed ++ [m] ∧ s'.next = s.next ∧ s'.cmp = s.cmp ∧ s'.fr = s.fr := by
  have e1 := rep_get_parent R
  simp only [ctxPtr_nil] at e1
  have hc : ({ s with root := none } : rb_tree α).mem m = some ⟨none, ml.ptr, mr.ptr, cm, vm⟩ :=
    rep_focus R
  obtain ⟨s', e, -, f, -, r, fr, c, n⟩ := free_node_of_mem hc
  exact ⟨s', by simp [delete_leaf, e1, e], rep_of_root_none r, r, f, n, c, fr⟩

/-- The last branch of `delete_node` on a node that has a parent: the node stays
in the tree; when it is a left child and its sibling is red, the sibling turns
black and the parent red, and nothing else changes. -/
theorem delete_leaf_nonroot {s : rb_tree α} {f : Frame α} {F : List (Frame α)} {m : Nat}
    {ml mr : Tree α} {cm : Bool} {vm : α}
    (R : Rep s (plug (f :: F) (Tree.node m ml cm vm mr))) :
    (∃ p cp vp u ul uv ur s', f = Frame.L p cp vp (Tree.node u ul true uv ur) ∧
      delete_leaf s (some m) = Except.ok s' ∧
      Rep s' (plug (Frame.L p true vp (Tree.node u ul false uv ur) :: F)
        (Tree.node m ml cm vm mr)) ∧
      SameAux s s' ∧ s'.root = s.root ∧ p ≠ u ∧
      s.mem p = some ⟨ctxPtr F, some m, some u, cp, vp⟩ ∧
      s.mem u = some ⟨some p, ul.ptr, ur.ptr, true, uv⟩ ∧
      s'.mem = (fun k => if k = p then some ⟨ctxPtr F, some m, some u, true, vp⟩
        else if k = u then some ⟨some p, ul.ptr, ur.ptr, false, uv⟩ else s.mem k)) ∨
    ((∀ p cp vp u ul uv ur, f ≠ Frame.L p cp vp (Tree.node u ul true uv ur)) ∧
      delete_leaf s (some m) = Except.ok s) := by
  have e1 := rep_get_parent R
  simp only [ctxPtr_cons] at e1
  rcases f with ⟨p, cp, vp, sib⟩ | ⟨p, cp, vp, sib⟩
  · have e2 := rep_get_left (K := F) R
    have e3 := rep_get_right (K := F) R
    have e4 := sib_get_red (f := Frame.L p cp vp sib) (F := F) R
    simp only [addr_L, sib_L, ptr_node] at e1 e2 e3 e4
    cases hs : sib.isRed with
    | false =>
      right
      rw [hs] at e4
      refine ⟨?_, ?_⟩
      · intro p' cp' vp' u ul uv ur e
        simp only [Frame.L.injEq] at e
        rw [e.2.2.2] at hs
        simp at hs
      · simp only [delete_leaf]
        rw [e1]; simp only [ok_bind]
        rw [e2]; simp only [ok_bind]
        rw [e3]; simp only [ok_bind]
        rw [e4]; simp
    | true =>
      left
      obtain ⟨u, ul, uv, ur, rfl⟩ := isRed_eq_true_iff hs
      rw [hs] at e4
      have R' : Rep s (plug (Frame.R p cp vp (Tree.node m ml cm vm mr) :: F)
          (Tree.node u ul true uv ur)) := R
      have cu := rep_focus R'
      have R1 := rep_store R' false uv
      have R1' : Rep (store s u ⟨some p, ul.ptr, ur.ptr, false, uv⟩)
          (plug (Frame.L p cp vp (Tree.node u ul false uv ur) :: F)
            (Tree.node m ml cm vm mr)) := R1
      have e5 := rep_get_parent R1'
      have cp1 := rep_focus (K := F) R1'
      have R2 := rep_store (K := F) R1' true vp
      have cp0 := rep_focus (K := F) R
      simp only [ctxPtr_cons, addr_L, addr_R, ptr_node] at cu e5 cp1 cp0
      have hpu : p ≠ u := by
        have := (frame_nodup R').1
        simp only [addr_R, Tree.addrs, List.mem_append, List.mem_cons, not_or] at this
        exact this.2.1
      have w1 : set_red s (some u) false
          = Except.ok (store s u ⟨some p, ul.ptr, ur.ptr, false, uv⟩) := by
        rw [set_red, modify_of_mem cu]
      have w2 : set_red (store s u ⟨some p, ul.ptr, ur.ptr, false, uv⟩) (some p) true
          = Except.ok (store (store s u ⟨some p, ul.ptr, ur.ptr, false, uv⟩) p
              ⟨ctxPtr F, some m, some u, true, vp⟩) := by
        rw [set_red, modify_of_mem cp1]
      refine ⟨p, cp, vp, u, ul, uv, ur, _, rfl, ?_, R2, by simp [SameAux], rfl, hpu, cp0, cu, ?_⟩
      · simp only [delete_leaf]
        rw [e1]; simp only [ok_bind]
        rw [e2]; simp only [ok_bind]
        rw [e3]; simp only [ok_bind]
        rw [e4]; simp only [ok_bind]
        simp [w1, e5, w2]
      · funext k
        simp only [store_mem]
        rfl
  · right
    have e2 := rep_get_left (K := F) R
    have hne : ¬ some m = sib.ptr := rep_child_ne' (K := F) R (x := m) rfl
    simp only [addr_R] at e1 e2
    refine ⟨fun _ _ _ _ _ _ _ e => by simp at e, ?_⟩
    simp only [delete_leaf]
    rw [e1]; simp only [ok_bind]
    rw [e2]; simp [hne]
/-- On any well-formed tree `find` returns `NULL` or a node of the tree. -/
theorem find_any (v : α) :
    ∀ (t : Tree α) (K : List (Frame α)) (s : rb_tree α) (fuel : Nat),
      Rep s (plug K t) → t.height < fuel →
      find fuel s t.ptr v = Except.ok none ∨
      ∃ (b : Nat) (M : List (Frame α)) (bl : Tree α) (cb : Bool) (bx : α) (br : Tree α),
        find fuel s t.ptr v = Except.ok (some b) ∧
        plug M (Tree.node b bl cb bx br) = plug K t := by
  intro t
  induction t with
  | nil =>
    intro K s fuel _ hfuel
    cases fuel with
    | zero => simp at hfuel
    | succ fuel => left; simp [find]
  | node a l c x r ihl ihr =>
    intro K s fuel hrep hfuel
    cases fuel with
    | zero => simp at hfuel
    | succ fuel =>
    simp only [Tree.height] at hfuel
    have e1 := rep_get_value hrep
    have e2 := rep_get_left hrep
    have e3 := rep_get_right hrep
    by_cases hlt : s.cmp v x < 0
    · have step : find (fuel + 1) s (Tree.node a l c x r).ptr v = find fuel s l.ptr v := by
        simp [find, e1, e2, hlt]
      rw [step]
      exact ihl (Frame.L a c x r :: K) s fuel hrep (by omega)
    · by_cases hgt : 0 < s.cmp v x
      · have step : find (fuel + 1) s (Tree.node a l c x r).ptr v = find fuel s r.ptr v := by
          simp [find, e1, e3, hlt, hgt]
        rw [step]
        exact ihr (Frame.R a c x l :: K) s fuel hrep (by omega)
      · right
        refine ⟨a, K, l, c, x, r, ?_, rfl⟩
        simp [find, e1, hlt, hgt]

/-- On any well-formed tree `delete_node` returns, and the state then holds a
well-formed tree again. -/
theorem delete_node_wf {s : rb_tree α} {K : List (Frame α)} {a : Nat} {l r : Tree α}
    {c : Bool} {x : α} (hrep : Rep s (plug K (Tree.node a l c x r))) (fuel : Nat)
    (hfuel : (plug K (Tree.node a l c x r)).height < fuel) :
    ∃ s' T, delete_node fuel s (some a) = Except.ok s' ∧ Rep s' T := by
  obtain ⟨s2, m, M, ml, cm, vm, mr, e0, R2, hone, -⟩ := pick_node_to_delete_rep hrep fuel hfuel
  have hleaf : ∃ s' T, delete_leaf s2 (some m) = Except.ok s' ∧ Rep s' T := by
    rcases M with _ | ⟨f, F⟩
    · obtain ⟨s', e, R, -⟩ := delete_leaf_root R2
      exact ⟨s', _, e, R⟩
    · rcases delete_leaf_nonroot R2 with ⟨p, cp, vp, u, ul, uv, ur, s', -, e, R, -⟩ | ⟨-, e⟩
      · exact ⟨s', _, e, R⟩
      · exact ⟨s2, _, e, R2⟩
  rcases child_cases hone with ⟨rfl, rfl, hch⟩ | ⟨ch, cl, cc, cv, cr, hw, hch, -⟩
  · rw [delete_node_prog fuel e0 R2 hone hch]
    cases cm with
    | true =>
      obtain ⟨s', e, R, -⟩ := detach_node_rep R2
      exact ⟨s', _, by simpa using e, R⟩
    | false =>
      obtain ⟨s', T, e, R⟩ := hleaf
      exact ⟨s', T, by simpa using e, R⟩
  · rw [delete_node_prog fuel e0 R2 hone hch]
    obtain ⟨s3, e3, R3, -⟩ := replace_with_child_rep R2 hw
    cases cm with
    | true => exact ⟨s3, _, by simpa using e3, R3⟩
    | false =>
      have hcred : get_red s2 (some ch) = Except.ok cc := by
        obtain ⟨hmw, -⟩ := rep_child_facts R2 hw
        exact get_red_of_mem hmw.1
      cases cc with
      | true =>
        have R4 := rep_store R3 true cv
        refine ⟨_, _, ?_, R4⟩
        simp only [Bool.false_eq_true, if_false, ne_eq, reduceCtorEq, not_false_eq_true,
          if_true, hcred, ok_bind, e3]
        rw [set_ref, modify_of_mem (rep_focus R3)]
      | false =>
        obtain ⟨s', T, e, R⟩ := hleaf
        refine ⟨s', T, ?_, R⟩
        simp only [Bool.false_eq_true, if_false, ne_eq, reduceCtorEq, not_false_eq_true,
          if_true, hcred, ok_bind]
        exact e

/-- A call of `rb_tree_delete` on any well-formed tree returns, and the state
then holds a well-formed tree again. -/
theorem rb_tree_delete_wf {s : rb_tree α} {t : Tree α} (h : Rep s t) (v : α) (fuel : Nat)
    (hf : s.next < fuel) :
    ∃ b s' T, rb_tree_delete fuel s v = Except.ok (b, s') ∧ Rep s' T := by
  have hh := rep_height_le h
  rcases find_any v t [] s fuel h (by omega) with e | ⟨a, M, bl, cb, bx, br, e, hp⟩
  · rw [← h.root] at e
    exact ⟨false, s, t, by simp [rb_tree_delete, e], h⟩
  · have hrep : Rep s (plug M (Tree.node a bl cb bx br)) := by rw [hp]; exact h
    obtain ⟨s', T, e2, R⟩ := delete_node_wf hrep fuel (by rw [hp]; exact lt_of_le_of_lt hh hf)
    rw [← h.root] at e
    exact ⟨true, s', T, by simp [rb_tree_delete, e, e2], R⟩
theorem readTree_sound {mem : Nat → Option (rb_node α)} :
    ∀ (fuel : Nat) (par p : Option Nat) (t : Tree α), readTree fuel mem par p = some t →
      Models mem par t ∧ t.ptr = p := by
  intro fuel
  induction fuel with
  | zero => intro par p t h; simp [readTree] at h
  | succ fuel ih =>
    intro par p t h
    cases p with
    | none =>
      simp only [readTree, Option.some.injEq] at h
      subst h
      exact ⟨trivial, rfl⟩
    | some a =>
      simp only [readTree] at h
      cases hm : mem a with
      | none => simp [hm] at h
      | some n =>
        simp only [hm] at h
        by_cases hp : n.parent = par
        · simp only [hp, if_true] at h
          cases hl : readTree fuel mem (some a) n.left with
          | none => simp [hl] at h
          | some l =>
            cases hr : readTree fuel mem (some a) n.right with
            | none => simp [hl, hr] at h
            | some r =>
              simp only [hl, hr, Option.some.injEq] at h
              subst h
              obtain ⟨l1, l2⟩ := ih _ _ _ hl
              obtain ⟨r1, r2⟩ := ih _ _ _ hr
              refine ⟨⟨?_, l1, r1⟩, rfl⟩
              rw [hm, l2, r2, ← hp]
        · simp [hp] at h

theorem rep_of_readTree {s : rb_tree α} {t : Tree α} (fuel : Nat)
    (h : readTree fuel s.mem none s.root = some t) (hnd : t.addrs.Nodup)
    (hlive : ∀ a ∈ t.addrs, a < s.next) : Rep s t := by
  obtain ⟨h1, h2⟩ := readTree_sound fuel none s.root t h
  exact ⟨h2.symm, h1, hnd, hlive⟩

theorem rep_red_rooted : Rep red_rooted red_rooted_tree :=
  rep_of_readTree 20 rfl (by decide) (by decide)

/-! ## Counting rotations -/

theorem map_bind {β γ δ : Type} (x : Except Fault β) (f : β → Except Fault γ) (g : γ → δ) :
    Except.map g (x >>= f) = x >>= fun a => Except.map g (f a) := by
  cases x <;> rfl

theorem map_ite {γ δ : Type} (c : Prop) [Decidable c] (x y : Except Fault γ) (g : γ → δ) :
    Except.map g (if c then x else y) = if c then Except.map g x else Except.map g y := by
  split <;> rfl

theorem map_pure_ok {γ δ : Type} (a : γ) (g : γ → δ) :
    Except.map g (pure a : Except Fault γ) = Except.ok (g a) := rfl

theorem bind_ok_self {β : Type} (x : Except Fault β) : (x >>= fun a => Except.ok a) = x := by
  cases x <;> rfl

theorem fix_inner_erase (s : rb_tree α) (n : Option Nat) :
    Except.map Prod.fst (fix_inner_counted s n) = fix_inner s n := by
  simp only [fix_inner_counted, fix_inner, map_bind, map_ite]
  rfl

theorem fix_outer_erase (s : rb_tree α) (n : Option Nat) :
    Except.map Prod.fst (fix_outer_counted s n) = fix_outer s n := by
  simp only [fix_outer_counted, fix_outer, map_bind, map_ite, map_pure_ok, bind_ok_self]

theorem fix_loop_erase : ∀ (fuel : Nat) (s : rb_tree α) (n : Option Nat),
    Except.map Prod.fst (fix_after_insert_loop_counted fuel s n)
      = fix_after_insert_loop fuel s n := by
  intro fuel
  induction fuel with
  | zero => intro s n; rfl
  | succ fuel ih =>
    intro s n
    have h1 : ∀ (x : rb_tree α) (y : Option Nat),
        (fix_outer_counted x y >>= fun a => Except.ok a.1) = fix_outer x y := by
      intro x y
      rw [← fix_outer_erase]
      cases fix_outer_counted x y <;> rfl
    have h2 : (fix_inner_counted s n >>= fun a => fix_outer a.1.1 a.1.2)
        = (fix_inner s n >>= fun d => fix_outer d.1 d.2) := by
      rw [← fix_inner_erase]
      cases fix_inner_counted s n <;> rfl
    simp only [fix_after_insert_loop_counted, fix_after_insert_loop, map_bind, map_ite,
      map_pure_ok, bind_ok_self, ih, h1, h2]
    rfl

theorem fix_after_insert_erase (fuel : Nat) (s : rb_tree α) (n : Option Nat) :
    Except.map Prod.fst (fix_after_insert_counted fuel s n) = fix_after_insert fuel s n := by
  simp only [fix_after_insert_counted, fix_after_insert, map_bind, fix_loop_erase]

theorem insert_loop_erase (ff : Nat) : ∀ (fuel : Nat) (s : rb_tree α) (p : Option Nat) (v : α),
    Except.map Prod.fst (rb_tree_insert_loop_counted ff fuel s p v)
      = rb_tree_insert_loop ff fuel s p v := by
  intro fuel
  induction fuel with
  | zero => intro s p v; rfl
  | succ fuel ih =>
    intro s p v
    simp only [rb_tree_insert_loop_counted, rb_tree_insert_loop, map_bind, map_ite,
      map_pure_ok, bind_ok_self, ih, fix_after_insert_erase]

theorem rb_tree_insert_erase (fuel : Nat) (s : rb_tree α) (v : α) :
    Except.map Prod.fst (rb_tree_insert_counted fuel s v) = rb_tree_insert fuel s v := by
  simp only [rb_tree_insert_counted, rb_tree_insert, map_bind, map_ite,
    map_pure_ok, bind_ok_self, insert_loop_erase, fix_after_insert_erase]

theorem ite_ok_iff {γ : Type} (c : Prop) [Decidable c] (x y : Except Fault γ) (r : γ) :
    (if c then x else y) = Except.ok r ↔ (c ∧ x = Except.ok r) ∨ (¬ c ∧ y = Except.ok r) := by
  split <;> simp [*]

theorem fix_inner_count_le {s : rb_tree α} {n : Option Nat} {x : rb_tree α × Option Nat}
    {i : Nat} (h : fix_inner_counted s n = Except.ok (x, i)) : i ≤ 1 := by
  simp only [fix_inner_counted, bind_ok_iff, ite_ok_iff, pure_eq_ok, Except.ok.injEq,
    Prod.mk.injEq] at h
  obtain ⟨p, -, pr, -, c1, -, h⟩ := h
  rcases h with ⟨-, t, -, m, -, -, rfl⟩ | ⟨-, pl, -, c2, -, h⟩
  · exact le_rfl
  · rcases h with ⟨-, t, -, m, -, -, rfl⟩ | ⟨-, -, rfl⟩
    · exact le_rfl
    · exact Nat.zero_le 1

theorem fix_outer_count_eq {s : rb_tree α} {n : Option Nat} {t : rb_tree α} {j : Nat}
    (h : fix_outer_counted s n = Except.ok (t, j)) : j = 1 := by
  simp only [fix_outer_counted, bind_ok_iff, pure_eq_ok, Except.ok.injEq, Prod.mk.injEq] at h
  obtain ⟨p, -, pl, -, t1, -, p2, -, t2, -, -, rfl⟩ := h
  rfl

theorem fix_loop_count_le : ∀ (fuel : Nat) (s : rb_tree α) (n : Option Nat) (t : rb_tree α)
    (k : Nat), fix_after_insert_loop_counted fuel s n = Except.ok (t, k) → k ≤ 2 := by
  intro fuel
  induction fuel with
  | zero => intro s n t k h; simp [fix_after_insert_loop_counted] at h
  | succ fuel ih =>
    intro s n t k h
    simp only [fix_after_insert_loop_counted, bind_ok_iff, ite_ok_iff, pure_eq_ok,
      Except.ok.injEq, Prod.mk.injEq] at h
    obtain ⟨p, -, h⟩ := h
    rcases h with ⟨-, t1, -, -, rfl⟩ | ⟨-, pred, -, h⟩
    · exact Nat.zero_le 2
    · rcases h with ⟨-, -, rfl⟩ | ⟨-, u, -, ured, -, h⟩
      · exact Nat.zero_le 2
      · rcases h with ⟨-, x, -, h⟩ | ⟨-, x, hx, y, hy, -, rfl⟩
        · exact ih _ _ _ _ h
        · have h1 := fix_inner_count_le (x := x.1) (i := x.2) hx
          have h2 := fix_outer_count_eq (t := y.1) (j := y.2) hy
          omega

theorem fix_after_insert_count_le {fuel : Nat} {s : rb_tree α} {n : Option Nat}
    {t : rb_tree α} {k : Nat} (h : fix_after_insert_counted fuel s n = Except.ok (t, k)) :
    k ≤ 2 := by
  simp only [fix_after_insert_counted, bind_ok_iff] at h
  obtain ⟨-, -, h⟩ := h
  exact fix_loop_count_le _ _ _ _ _ h

theorem insert_loop_count_le (ff : Nat) : ∀ (fuel : Nat) (s : rb_tree α) (p : Option Nat)
    (v : α) (t : rb_tree α) (k : Nat),
    rb_tree_insert_loop_counted ff fuel s p v = Except.ok (t, k) → k ≤ 2 := by
  intro fuel
  induction fuel with
  | zero => intro s p v t k h; simp [rb_tree_insert_loop_counted] at h
  | succ fuel ih =>
    intro s p v t k h
    simp only [rb_tree_insert_loop_counted, bind_ok_iff, ite_ok_iff, pure_eq_ok,
      Except.ok.injEq, Prod.mk.injEq] at h
    obtain ⟨pv, -, h⟩ := h
    rcases h with ⟨-, l, -, h⟩ | ⟨-, h⟩
    · rcases h with ⟨-, t1, -, t2, -, h⟩ | ⟨-, h⟩
      · exact fix_after_insert_count_le h
      · exact ih _ _ _ _ _ h
    · rcases h with ⟨-, r, -, h⟩ | ⟨-, old, -, t1, -, -, rfl⟩
      · rcases h with ⟨-, t1, -, t2, -, h⟩ | ⟨-, h⟩
        · exact fix_after_insert_count_le h
        · exact ih _ _ _ _ _ h
      · exact Nat.zero_le 2

theorem rb_tree_insert_count_le {fuel : Nat} {s : rb_tree α} {v : α} {t : rb_tree α} {k : Nat}
    (h : rb_tree_insert_counted fuel s v = Except.ok (t, k)) : k ≤ 2 := by
  simp only [rb_tree_insert_counted, bind_ok_iff, ite_ok_iff] at h
  rcases h with ⟨-, t1, -, h⟩ | ⟨-, h⟩
  · exact fix_after_insert_count_le h
  · exact insert_loop_count_le _ _ _ _ _ _ _ h

/-! ## The states of the fix-up loop during an insertion into a valid tree -/

/-- In a loop state of an insertion into a valid tree a red parent has a parent
of its own, so `get_uncle` finds both. -/
theorem loopInv_uncle {s : rb_tree α} {f : Frame α} {F : List (Frame α)} {n : Nat}
    {l r : Tree α} {v : α} (h : LoopInv s (f :: F) n l v r) (hfr : f.red = true) :
    ∃ g G, F = g :: G ∧ g.red = false ∧
      get_parent s (some n) = Except.ok (some f.addr) ∧
      get_parent s (some f.addr) = Except.ok (some g.addr) ∧
      get_uncle s (some n) = Except.ok g.sib.ptr := by
  obtain ⟨hrep, -, -, hctx⟩ := h
  obtain ⟨-, -, -, c4, -⟩ := hctx
  obtain ⟨-, g, G, rfl, hg⟩ := c4 hfr
  exact ⟨g, G, rfl, hg, rep_get_parent hrep, frame_get_parent hrep, get_uncle_rep hrep⟩

/-- The uncle-red step keeps the loop condition, now at the grandparent. -/
theorem loopInv_step {s : rb_tree α} {f g : Frame α} {G : List (Frame α)} {n : Nat}
    {l r : Tree α} {v : α} (h : LoopInv s (f :: g :: G) n l v r) (hfr : f.red = true)
    {u : Nat} (hup : g.sib.ptr = some u) (hu : g.sib.isRed = true) :
    ∃ s1 gl gv gr, fix_recolour s (some n) (some u) = Except.ok (s1, some g.addr) ∧
      LoopInv s1 G g.addr gl gv gr ∧ SameAux s s1 := by
  obtain ⟨hrep, hnr, hbal, hctx⟩ := h
  obtain ⟨c1, c2, c3, c4, c5⟩ := hctx
  obtain ⟨hpsib, g', G', hgg, hg⟩ := c4 hfr
  simp only [List.cons.injEq] at hgg
  obtain ⟨rfl, rfl⟩ := hgg
  obtain ⟨d1, d2, d3, d4, d5⟩ := c5
  obtain ⟨s1, e5, R1, A1⟩ := fix_recolour_rep hrep hup
  obtain ⟨w, ul, uv, ur, hueq⟩ := isRed_eq_true_iff hu
  simp only [hfr, hg, if_true, Bool.false_eq_true, if_false, Nat.add_zero] at d3 d5
  simp only [Tree.noRedRed, Tree.balanced, Tree.bh, if_true, Nat.add_zero] at hnr hbal c3 d3 d5
  simp only [hueq, Tree.noRedRed, Tree.balanced, Tree.bh, if_true, Nat.add_zero] at d1 d2 d3
  rcases f with ⟨p, cp, vp, psib⟩ | ⟨p, cp, vp, psib⟩ <;>
    rcases g with ⟨gg, cg, vg, usib⟩ | ⟨gg, cg, vg, usib⟩
  all_goals
    simp only [sib_L, sib_R, red_L, red_R, addr_L, addr_R] at *
    subst hueq hfr hg
    refine ⟨s1, _, vg, _, e5, ⟨R1, ?_, ?_, ?_⟩, A1⟩
    · simp [Tree.noRedRed, Frame.paint, Frame.withSib, Tree.paint, hnr, c1, d1, hpsib]
    · have b1 := hbal.1
      have b2 := d2.1
      simp [Tree.balanced, Tree.bh, Frame.paint, Frame.withSib, Tree.paint, hbal, c2, c3, d2,
        d3]
      try omega
    · simpa [Tree.bh, Frame.paint, Frame.withSib, Tree.paint, c3, d3] using d5

/-- Below a parent and a grandparent the two rotation steps of the uncle-black
branch both return: every rotation they call finds its pivot where it asserts
it to be. -/
theorem loop_rotations_ok {s : rb_tree α} {f g : Frame α} {G : List (Frame α)} {n : Nat}
    {l r : Tree α} {c : Bool} {v : α}
    (hrep : Rep s (plug (f :: g :: G) (Tree.node n l c v r))) :
    ∃ s1 n1 s2 T, fix_inner s (some n) = Except.ok (s1, n1) ∧
      fix_outer s1 n1 = Except.ok s2 ∧ Rep s2 T := by
  rcases f with ⟨p, cp, vp, psib⟩ | ⟨p, cp, vp, psib⟩ <;>
    rcases g with ⟨gg, cg, vg, usib⟩ | ⟨gg, cg, vg, usib⟩
  · have i1 := fix_inner_LL (G := G) hrep
    obtain ⟨s', o1, R, -⟩ := fix_outer_L (G := G) hrep
    exact ⟨_, _, s', _, i1, o1, R⟩
  · obtain ⟨s1, i1, R1, -⟩ := fix_inner_RL (G := G) hrep
    obtain ⟨s', o1, R, -⟩ := fix_outer_R (G := G) R1
    exact ⟨_, _, s', _, i1, o1, R⟩
  · obtain ⟨s1, i1, R1, -⟩ := fix_inner_LR (G := G) hrep
    obtain ⟨s', o1, R, -⟩ := fix_outer_L (G := G) R1
    exact ⟨_, _, s', _, i1, o1, R⟩
  · have i1 := fix_inner_RR (G := G) hrep
    obtain ⟨s', o1, R, -⟩ := fix_outer_R (G := G) hrep
    exact ⟨_, _, s', _, i1, o1, R⟩

theorem assert_ok_iff (b : Bool) (u : Unit) : assert b = Except.ok u ↔ b = true := by
  cases b <;> simp [assert]

/-- A call of `rotate_left` that returns was made on a pivot that has a parent
and is the right child of that parent. -/
theorem rotate_left_pre {s s' : rb_tree α} {pivot : Option Nat}
    (h : rotate_left s pivot = Except.ok s') :
    pivot ≠ none ∧ ∃ q, get_parent s pivot = Except.ok (some q) ∧
      get_right s (some q) = Except.ok pivot := by
  unfold rotate_left at h
  simp only [bind_ok_iff, assert_ok_iff, decide_eq_true_eq] at h
  obtain ⟨_, h1, parent, h2, _, h3, pr, h4, _, h5, -⟩ := h
  obtain ⟨q, rfl⟩ := Option.ne_none_iff_exists'.mp h3
  exact ⟨h1, q, h2, by rw [h4, h5]⟩

/-- A call of `rotate_right` that returns was made on a pivot that has a parent
and is the left child of that parent. -/
theorem rotate_right_pre {s s' : rb_tree α} {pivot : Option Nat}
    (h : rotate_right s pivot = Except.ok s') :
    pivot ≠ none ∧ ∃ q, get_parent s pivot = Except.ok (some q) ∧
      get_left s (some q) = Except.ok pivot := by
  unfold rotate_right at h
  simp only [bind_ok_iff, assert_ok_iff, decide_eq_true_eq] at h
  obtain ⟨_, h1, parent, h2, _, h3, pl, h4, _, h5, -⟩ := h
  obtain ⟨q, rfl⟩ := Option.ne_none_iff_exists'.mp h3
  exact ⟨h1, q, h2, by rw [h4, h5]⟩

/-- The descent of `rb_tree_insert` on a valid tree either replaces a value or
hands the fresh red leaf to the loop of `fix_after_insert` in a state that
satisfies the loop condition. -/
theorem insert_loop_reaches (v : α) :
    ∀ (t : Tree α) (K : List (Frame α)) (s : rb_tree α) (ff fuel : Nat),
      t ≠ Tree.nil → Rep s (plug K t) →
      (plug K t).isRed = false → (plug K t).noRedRed → (plug K t).balanced →
      t.height ≤ fuel →
      (∃ s3 M, rb_tree_insert_loop ff fuel s t.ptr v
          = fix_after_insert_loop ff s3 (some s.next) ∧
        LoopInv s3 M s.next Tree.nil v Tree.nil ∧ M.length ≤ K.length + t.height) ∨
      (∃ s', rb_tree_insert_loop ff fuel s t.ptr v = Except.ok s' ∧ s'.next = s.next) := by
  intro t
  induction t with
  | nil => intro K s ff fuel hne; exact absurd rfl hne
  | node a l c x r ihl ihr =>
    intro K s ff fuel _ hrep h1 h2 h3 hfuel
    cases fuel with
    | zero => simp [Tree.height] at hfuel
    | succ fuel =>
    have e1 := rep_get_value hrep
    have e2 := rep_get_left hrep
    have e3 := rep_get_right hrep
    simp only [Tree.height] at hfuel ⊢
    simp only [ptr_node]
    by_cases hlt : s.cmp v x < 0
    · cases l with
      | nil =>
        obtain ⟨s2, s3, a1, a2, R3, q1, q2, q3⟩ := attach_left_rep hrep v
        rw [insert_loop_lt_nil ff fuel e1 hlt e2 a1 a2, fix_after_insert_some]
        obtain ⟨k1, -, -, -⟩ := ctxOK_of_plug (K := Frame.L a c x r :: K) (t := Tree.nil) h2 h3 h1
        exact Or.inl ⟨s3, _, rfl, ⟨R3, by simp [Tree.noRedRed], by simp [Tree.balanced],
          by simpa [Tree.bh] using k1⟩, by simp⟩
      | node b bl cb bv br =>
        rw [insert_loop_lt_node ff fuel e1 hlt e2]
        rcases ihl (Frame.L a c x r :: K) s ff fuel (by simp) hrep h1 h2 h3 (by omega) with
          ⟨s3, M, e, hi, hlen⟩ | h
        · refine Or.inl ⟨s3, M, e, hi, ?_⟩
          simp only [List.length_cons] at hlen
          omega
        · exact Or.inr h
    · by_cases hgt : s.cmp v x > 0
      · cases r with
        | nil =>
          obtain ⟨s2, s3, a1, a2, R3, q1, q2, q3⟩ := attach_right_rep hrep v
          rw [insert_loop_gt_nil ff fuel e1 hlt hgt e3 a1 a2, fix_after_insert_some]
          obtain ⟨k1, -, -, -⟩ := ctxOK_of_plug (K := Frame.R a c x l :: K) (t := Tree.nil)
            h2 h3 h1
          exact Or.inl ⟨s3, _, rfl, ⟨R3, by simp [Tree.noRedRed], by simp [Tree.balanced],
            by simpa [Tree.bh] using k1⟩, by simp⟩
        | node b bl cb bv br =>
          rw [insert_loop_gt_node ff fuel e1 hlt hgt e3]
          rcases ihr (Frame.R a c x l :: K) s ff fuel (by simp) hrep h1 h2 h3 (by omega) with
            ⟨s3, M, e, hi, hlen⟩ | h
          · refine Or.inl ⟨s3, M, e, hi, ?_⟩
            simp only [List.length_cons] at hlen
            omega
          · exact Or.inr h
      · rw [insert_loop_eq ff fuel e1 hlt hgt]
        have R0 := rep_free_value hrep x
        have e : set_value (free_value s x) (some a) v = Except.ok
            (store (free_value s x) a ⟨ctxPtr K, l.ptr, r.ptr, c, v⟩) := by
          rw [set_value, modify_of_mem (rep_focus R0)]
        exact Or.inr ⟨_, e, by simp⟩

theorem insert_reaches {s : rb_tree α} {t : Tree α} (h : Rep s t)
    (h1 : t.isRed = false) (h2 : t.noRedRed) (h3 : t.balanced) (v : α) (fuel : Nat)
    (hf : s.next < fuel) :
    (∃ s3 M, rb_tree_insert fuel s v = fix_after_insert_loop fuel s3 (some s.next) ∧
      LoopInv s3 M s.next Tree.nil v Tree.nil ∧ M.length < fuel) ∨
    (∃ s', rb_tree_insert fuel s v = Except.ok s' ∧ s'.next = s.next) := by
  cases t with
  | nil =>
    have hroot := h.root
    simp only [ptr_nil] at hroot
    have R0 : Rep (store { (create_node s v).1 with root := some s.next } s.next
        ⟨none, none, none, true, v⟩)
        (plug [] (Tree.node s.next Tree.nil true v Tree.nil)) := by
      refine ⟨rfl, ?_, ?_, ?_⟩
      · simp [Models]
      · simp [Tree.addrs]
      · intro a ha
        simp [Tree.addrs] at ha
        simp [create_node, ha]
    have hprog : rb_tree_insert fuel s v = fix_after_insert_loop fuel
        (store { (create_node s v).1 with root := some s.next } s.next
          ⟨none, none, none, true, v⟩) (some s.next) := by
      have hcn : create_node s v = ((create_node s v).1, some s.next) := rfl
      simp only [rb_tree_insert, hroot, if_true]
      rw [hcn]
      simp only []
      have e1 : set_parent { (create_node s v).1 with root := some s.next } (some s.next) none =
          Except.ok (store { (create_node s v).1 with root := some s.next } s.next
            ⟨none, none, none, true, v⟩) := by
        simp [set_parent, modify, create_node]
      rw [e1]
      simp [fix_after_insert, assert]
    exact Or.inl ⟨_, [], hprog, ⟨R0, by simp [Tree.noRedRed], by simp [Tree.balanced], trivial⟩,
      by simp; omega⟩
  | node a l c x r =>
    have hroot := h.root
    simp only [ptr_node] at hroot
    have hh := rep_height_le h
    have hprog : rb_tree_insert fuel s v
        = rb_tree_insert_loop fuel fuel s (Tree.node a l c x r).ptr v := by
      simp [rb_tree_insert, hroot]
    rw [hprog]
    rcases insert_loop_reaches v (Tree.node a l c x r) [] s fuel fuel (by simp) h h1 h2 h3
      (by omega) with ⟨s3, M, e, hi, hlen⟩ | hr
    · refine Or.inl ⟨s3, M, e, hi, ?_⟩
      simp only [List.length_nil, Nat.zero_add] at hlen
      omega
    · exact Or.inr hr


/-! ## The branches of `delete_node` on a valid tree -/

theorem red_leaf_of_valid {m : Nat} {ml mr : Tree α} {vm : α}
    (h1 : (Tree.node m ml true vm mr).noRedRed) (h2 : (Tree.node m ml true vm mr).balanced)
    (hone : ml = Tree.nil ∨ mr = Tree.nil) : ml = Tree.nil ∧ mr = Tree.nil := by
  simp only [Tree.noRedRed, Tree.balanced, true_implies] at h1 h2
  obtain ⟨⟨c1, c2⟩, -, -⟩ := h1
  obtain ⟨b, -, -⟩ := h2
  rcases hone with rfl | rfl
  · refine ⟨rfl, ?_⟩
    cases mr with
    | nil => rfl
    | node a l c v r =>
      simp only [isRed_node] at c2
      subst c2
      simp [Tree.bh] at b
  · refine ⟨?_, rfl⟩
    cases ml with
    | nil => rfl
    | node a l c v r =>
      simp only [isRed_node] at c1
      subst c1
      simp [Tree.bh] at b

theorem detach_node_payload {s s' : rb_tree α} {node : Option Nat}
    (h : detach_node s node = Except.ok s') : SamePayload s s' := by
  unfold detach_node at h
  simp only [bind_ok_iff, ite_ok_iff, pure_eq_ok, Except.ok.injEq] at h
  obtain ⟨-, -, p, -, h⟩ := h
  rcases h with ⟨-, rfl⟩ | ⟨-, pl, -, h⟩
  · exact fun _ => rfl
  · rcases h with ⟨-, h⟩ | ⟨-, h⟩
    · exact set_left_payload h
    · exact set_right_payload h

theorem ctxAddrs_append (A B : List (Frame α)) :
    ctxAddrs (A ++ B) = ctxAddrs A ++ ctxAddrs B := by
  induction A with
  | nil => rfl
  | cons f F ih => simp [ctxAddrs, ih]

/-- Deleting a red node of a tree that satisfies the colour invariants: the node
is a leaf, `delete_node` detaches it, and the colour invariants still hold. -/
theorem delete_red_rep {s s2 : rb_tree α} {a m : Nat} {M : List (Frame α)} {ml mr : Tree α}
    {vm : α} (fuel : Nat)
    (e0 : pick_node_to_delete fuel s (some a) = Except.ok (s2, some m))
    (R2 : Rep s2 (plug M (Tree.node m ml true vm mr)))
    (hone : ml = Tree.nil ∨ mr = Tree.nil)
    (h1 : (plug M (Tree.node m ml true vm mr)).isRed = false)
    (h2 : (plug M (Tree.node m ml true vm mr)).noRedRed)
    (h3 : (plug M (Tree.node m ml true vm mr)).balanced) :
    ml = Tree.nil ∧ mr = Tree.nil ∧
    ∃ s', delete_node fuel s (some a) = Except.ok s' ∧
      detach_node s2 (some m) = Except.ok s' ∧ Rep s' (plug M Tree.nil) ∧
      (plug M Tree.nil).isRed = false ∧ (plug M Tree.nil).noRedRed ∧
      (plug M Tree.nil).balanced ∧ SameAux s2 s' ∧ SamePayload s2 s' ∧
      ∀ k, ctxPtr M ≠ some k → s'.mem k = s2.mem k := by
  obtain ⟨k1, k2, k3, -⟩ := ctxOK_of_plug h2 h3 h1
  obtain ⟨rfl, rfl⟩ := red_leaf_of_valid k2 k3 hone
  refine ⟨rfl, rfl, ?_⟩
  obtain ⟨s', e, R, A, hk⟩ := detach_node_rep R2
  have key := ctxOK_plug_root (K := M) (t := Tree.nil) (by simpa [Tree.bh] using k1)
    trivial trivial rfl
  refine ⟨s', ?_, e, R, key.2.2, key.1, key.2.1, A, detach_node_payload e, hk⟩
  rw [delete_node_prog fuel e0 R2 hone (q := none) (by simp)]
  simpa using e

theorem samePayload_red {s s' : rb_tree α} (h : SamePayload s s') (k : Nat) :
    (s'.mem k).map rb_node.red = (s.mem k).map rb_node.red := by
  have := congrArg (Option.map Prod.fst) (h k)
  simpa [Option.map_map, Function.comp_def, rb_node.payload] using this

theorem sorted_remove {cmp : α → α → Int} {pre post : List α} {x : α}
    (h : (pre ++ x :: post).Pairwise (fun a b => cmp a b < 0)) :
    (pre ++ post).Pairwise (fun a b => cmp a b < 0) :=
  h.sublist (List.Sublist.append (List.Sublist.refl _) (List.sublist_cons_self _ _))

theorem get_red_of_map {s : rb_tree α} {k : Nat} {c : Bool}
    (h : (s.mem k).map rb_node.red = some c) : get_red s (some k) = Except.ok c := by
  cases hm : s.mem k with
  | none => simp [hm] at h
  | some n =>
    simp only [hm, Option.map_some', Option.some.injEq] at h
    rw [get_red_of_mem hm, h]

theorem get_links_of_map {s : rb_tree α} {k : Nat} {p l r : Option Nat}
    (h : (s.mem k).map rb_node.links = some (p, l, r)) :
    get_parent s (some k) = Except.ok p ∧ get_left s (some k) = Except.ok l ∧
    get_right s (some k) = Except.ok r := by
  cases hm : s.mem k with
  | none => simp [hm] at h
  | some n =>
    simp only [hm, Option.map_some', Option.some.injEq, rb_node.links, Prod.mk.injEq] at h
    obtain ⟨rfl, rfl, rfl⟩ := h
    exact ⟨get_parent_of_mem hm, get_left_of_mem hm, get_right_of_mem hm⟩

/-- After `pick_node_to_delete` every cell has the colour and the links it had
before, the auxiliary fields are the same, and the tree held is a tree on the
same nodes with the same values up to order. -/
theorem pick_keeps {s s2 : rb_tree α} {K : List (Frame α)} {a m : Nat} {l r : Tree α}
    {c : Bool} {x : α} (hrep : Rep s (plug K (Tree.node a l c x r))) (fuel : Nat)
    (hfuel : (plug K (Tree.node a l c x r)).height < fuel)
    (e0 : pick_node_to_delete fuel s (some a) = Except.ok (s2, some m)) :
    ∃ M ml cm vm mr, Rep s2 (plug M (Tree.node m ml cm vm mr)) ∧
      (ml = Tree.nil ∨ mr = Tree.nil) ∧ SameAux s s2 ∧ s2.root = s.root ∧
      (∀ k, (s2.mem k).map rb_node.red = (s.mem k).map rb_node.red) ∧
      (∀ k, (s2.mem k).map rb_node.links = (s.mem k).map rb_node.links) ∧
      (plug M (Tree.node m ml cm vm mr)).addrs.Perm (plug K (Tree.node a l c x r)).addrs ∧
      (plug M (Tree.node m ml cm vm mr)).values.Perm (plug K (Tree.node a l c x r)).values := by
  rcases pick_precise hrep fuel hfuel with ⟨hone, e1⟩ |
    ⟨s2', m', N, cm, vm, mr, pm, hl, hr, hN, e1, R2, A, ham, hroot, cmem, hmem⟩
  · rw [e1] at e0
    injection e0 with e0
    simp only [Prod.mk.injEq, Option.some.injEq] at e0
    obtain ⟨rfl, rfl⟩ := e0
    exact ⟨K, l, c, x, r, hrep, hone, sameAux_refl _, rfl, fun _ => rfl, fun _ => rfl,
      List.Perm.refl _, List.Perm.refl _⟩
  · rw [e1] at e0
    injection e0 with e0
    simp only [Prod.mk.injEq, Option.some.injEq] at e0
    obtain ⟨rfl, rfl⟩ := e0
    have hshape0 : plug K (Tree.node a l c x r)
        = plug (N ++ Frame.R a c x l :: K) (Tree.node m' Tree.nil cm vm mr) := by
      rw [plug_append, hr]; rfl
    refine ⟨_, _, _, _, _, R2, Or.inl rfl, A, hroot, ?_, ?_, ?_, ?_⟩
    · intro k
      rw [hmem]
      by_cases hka : k = a
      · subst hka; simp [rep_focus hrep]
      · by_cases hkm : k = m'
        · subst hkm; simp [hka, cmem]
        · simp [hka, hkm]
    · intro k
      rw [hmem]
      by_cases hka : k = a
      · subst hka; simp [rep_focus hrep, rb_node.links]
      · by_cases hkm : k = m'
        · subst hkm; simp [hka, cmem, rb_node.links]
        · simp [hka, hkm]
    · rw [hshape0]
      refine (addrs_plug _ _).trans (List.Perm.trans ?_ (addrs_plug _ _).symm)
      simp [Tree.addrs, ctxAddrs_append, ctxAddrs]
    · rw [hshape0, values_plug, values_plug, ctxPre_append, ctxPost_append, ctxPre_append,
        ctxPost_append]
      simp only [ctxPre, ctxPost, hN, Tree.values, List.append_nil, List.nil_append,
        List.append_assoc, List.singleton_append, List.cons_append]
      refine List.Perm.append_left _ (List.Perm.append_left _ ?_)
      exact List.Perm.swap _ _ _

/-! ## Rotations keep the order, the colours and the values -/

theorem rotation_values (K : List (Frame α)) (p x : Nat) (A B C : Tree α) (cp cx : Bool)
    (vp vx : α) :
    (plug K (Tree.node x (Tree.node p A cp vp B) cx vx C)).values
      = (plug K (Tree.node p A cp vp (Tree.node x B cx vx C))).values := by
  simp [values_plug, Tree.values]

/-- C11: on a tree with consistent parent and child links, `rotate_left` on a
pivot that is the right child of its parent, and `rotate_right` on a pivot that
is the left child of its parent, return a well-formed tree in which the pivot
stands where its parent stood (below the same ancestors, or at the root of the
handle when the parent was the root); the in-order sequence of values, and so
the traversal, is the same as before, and every cell keeps its colour and its
value. -/
theorem rotation_keeps_order (s u : rb_tree α) (K G : List (Frame α)) (p x q y : Nat)
    (A B C D E H : Tree α) (cp cx cq cy : Bool) (vp vx vq vy : α)
    (hl : Rep s (plug K (Tree.node p A cp vp (Tree.node x B cx vx C))))
    (hr : Rep u (plug G (Tree.node q (Tree.node y D cy vy E) cq vq H))) :
    (∃ s', rotate_left s (some x) = Except.ok s' ∧
      Rep s' (plug K (Tree.node x (Tree.node p A cp vp B) cx vx C)) ∧
      (plug K (Tree.node x (Tree.node p A cp vp B) cx vx C)).values
        = (plug K (Tree.node p A cp vp (Tree.node x B cx vx C))).values ∧
      (∀ fuel, 2 * s.next + 1 < fuel → traversal fuel s' = traversal fuel s) ∧
      SamePayload s s' ∧
      get_parent s' (some x) = get_parent s (some p) ∧
      get_left s' (some x) = Except.ok (some p) ∧
      get_parent s' (some p) = Except.ok (some x) ∧
      (K = [] → s'.root = some x) ∧ (K ≠ [] → s'.root = s.root)) ∧
    (∃ u', rotate_right u (some y) = Except.ok u' ∧
      Rep u' (plug G (Tree.node y D cy vy (Tree.node q E cq vq H))) ∧
      (plug G (Tree.node y D cy vy (Tree.node q E cq vq H))).values
        = (plug G (Tree.node q (Tree.node y D cy vy E) cq vq H)).values ∧
      (∀ fuel, 2 * u.next + 1 < fuel → traversal fuel u' = traversal fuel u) ∧
      SamePayload u u' ∧
      get_parent u' (some y) = get_parent u (some q) ∧
      get_right u' (some y) = Except.ok (some q) ∧
      get_parent u' (some q) = Except.ok (some y) ∧
      (G = [] → u'.root = some y) ∧ (G ≠ [] → u'.root = u.root)) := by
  constructor
  · obtain ⟨s', e, hrep, haux⟩ := rotate_left_rep hl
    have hv := rotation_values K p x A B C cp cx vp vx
    refine ⟨s', e, hrep, hv, ?_, rotate_left_payload e, ?_, rep_get_left hrep, ?_, ?_, ?_⟩
    · intro fuel hf
      rw [traversal_rep hl fuel hf, traversal_rep hrep fuel (by rw [haux.2.2.1]; exact hf), hv]
    · rw [rep_get_parent hrep, rep_get_parent hl]
    · exact rep_get_parent (K := Frame.L x cx vx C :: K) hrep
    · rintro rfl; exact hrep.root
    · intro hK
      obtain ⟨f, F, rfl⟩ := List.exists_cons_of_ne_nil hK
      rw [hrep.root, hl.root]; exact ptr_plug_cons f F _ _
  · obtain ⟨u', e, hrep, haux⟩ := rotate_right_rep hr
    have hv : (plug G (Tree.node y D cy vy (Tree.node q E cq vq H))).values
        = (plug G (Tree.node q (Tree.node y D cy vy E) cq vq H)).values :=
      (rotation_values G y q D E H cy cq vy vq).symm
    refine ⟨u', e, hrep, hv, ?_, rotate_right_payload e, ?_, rep_get_right hrep, ?_, ?_, ?_⟩
    · intro fuel hf
      rw [traversal_rep hr fuel hf, traversal_rep hrep fuel (by rw [haux.2.2.1]; exact hf), hv]
    · rw [rep_get_parent hrep, rep_get_parent hr]
    · exact rep_get_parent (K := Frame.R y cy vy D :: G) hrep
    · rintro rfl; exact hrep.root
    · intro hG
      obtain ⟨f, F, rfl⟩ := List.exists_cons_of_ne_nil hG
      rw [hrep.root, hr.root]; exact ptr_plug_cons f F _ _

theorem rotation_keeps_order_witness :
    Rep sample (plug [] (Tree.node 0
      (Tree.node 1 (Tree.node 3 Tree.nil false 1 Tree.nil) true 2
        (Tree.node 4 Tree.nil false 3 Tree.nil))
      false 4
      (Tree.node 2 (Tree.node 5 Tree.nil true 5 Tree.nil) false 6
        (Tree.node 6 Tree.nil true 7 Tree.nil)))) ∧
    (∃ s', rotate_left sample (some 2) = Except.ok s' ∧ s'.root = some 2 ∧
      traversal 20 s' = traversal 20 sample ∧ SamePayload sample s' ∧
      get_parent s' (some 0) = Except.ok (some 2)) ∧
    (∃ u', rotate_right sample (some 1) = Except.ok u' ∧ u'.root = some 1 ∧
      traversal 20 u' = traversal 20 sample ∧ SamePayload sample u' ∧
      get_parent u' (some 0) = Except.ok (some 1)) := by
  obtain ⟨⟨s', e1, -, -, t1, p1, -, -, g1, r1, -⟩, ⟨u', e2, -, -, t2, p2, -, -, g2, r2, -⟩⟩ :=
    rotation_keeps_order sample sample [] [] 0 2 0 1
      (Tree.node 1 (Tree.node 3 Tree.nil false 1 Tree.nil) true 2
        (Tree.node 4 Tree.nil false 3 Tree.nil))
      (Tree.node 5 Tree.nil true 5 Tree.nil) (Tree.node 6 Tree.nil true 7 Tree.nil)
      (Tree.node 3 Tree.nil false 1 Tree.nil) (Tree.node 4 Tree.nil false 3 Tree.nil)
      (Tree.node 2 (Tree.node 5 Tree.nil true 5 Tree.nil) false 6
        (Tree.node 6 Tree.nil true 7 Tree.nil))
      false false false true 4 6 4 2 rep_sample rep_sample
  exact ⟨rep_sample, ⟨s', e1, r1 rfl, t1 20 (by decide), p1, g1⟩,
    ⟨u', e2, r2 rfl, t2 20 (by decide), p2, g2⟩⟩

/-! ## Successor and first node in order -/

/-- C12: on a well-formed tree in strict search order, `get_next` of a node
returns the node that holds the least value greater than the value of that
node, and returns `NULL` exactly when the node holds the greatest value of the
tree; `get_head` of a subtree returns the node that holds the least value of
that subtree, and `NULL` when the subtree pointer is `NULL`. -/
theorem successor_and_head (s : rb_tree α) (K : List (Frame α)) (a : Nat) (l r : Tree α)
    (c : Bool) (v : α) (fuel : Nat) (hc : TotalCmp s.cmp)
    (hrep : Rep s (plug K (Tree.node a l c v r)))
    (hb : (plug K (Tree.node a l c v r)).bst s.cmp) (hf : s.next < fuel) :
    (∃ q, get_next fuel s (some a) = Except.ok q ∧
      (q = none ↔ ∀ y ∈ (plug K (Tree.node a l c v r)).values, ¬ s.cmp v y < 0) ∧
      ∀ m, q = some m → m ∈ (plug K (Tree.node a l c v r)).addrs ∧
        ∃ n, s.mem m = some n ∧ n.value ∈ (plug K (Tree.node a l c v r)).values ∧
          s.cmp v n.value < 0 ∧
          ∀ y ∈ (plug K (Tree.node a l c v r)).values, s.cmp v y < 0 →
            ¬ s.cmp y n.value < 0) ∧
    (∃ m n, get_head fuel s (some a) = Except.ok (some m) ∧
      m ∈ (Tree.node a l c v r).addrs ∧ s.mem m = some n ∧
      n.value ∈ (Tree.node a l c v r).values ∧
      ∀ y ∈ (Tree.node a l c v r).values, ¬ s.cmp y n.value < 0) ∧
    get_head fuel s none = Except.ok none := by
  have hh : (plug K (Tree.node a l c v r)).height < fuel :=
    lt_of_le_of_lt (rep_height_le hrep) hf
  have hs := (bst_iff_sorted hc _).mp hb
  have hvals : (plug K (Tree.node a l c v r)).values
      = (ctxPre K ++ l.values) ++ v :: (r.values ++ ctxPost K) := by
    rw [values_plug]; simp [Tree.values]
  rw [hvals] at hs
  obtain ⟨h1, h2, h3⟩ := sorted_after hc hs
  refine ⟨?_, ?_, by simp [get_head]⟩
  · rcases get_next_rep hrep fuel hh with ⟨e, hnil⟩ | ⟨m, M, ml, cm, vm, mr, e, hp, hv⟩
    · refine ⟨none, e, ⟨fun _ y hy hlt => ?_, fun _ => rfl⟩, fun m hm => by simp at hm⟩
      rw [hvals] at hy
      have := h1 y hy hlt
      rw [hnil] at this
      simp at this
    · have hrep' : Rep s (plug M (Tree.node m ml cm vm mr)) := by rw [hp]; exact hrep
      have hmem : vm ∈ (plug K (Tree.node a l c v r)).values := by
        rw [← hp]; exact mem_values_plug M m ml mr cm vm
      have hlt : s.cmp v vm < 0 := h2 vm (by rw [← hv]; simp)
      refine ⟨some m, e, ⟨fun h => by simp at h, fun h => absurd hlt (h vm hmem)⟩, ?_⟩
      intro m' hm'
      simp only [Option.some.injEq] at hm'
      subst hm'
      refine ⟨?_, _, rep_focus hrep', hmem, hlt, ?_⟩
      · rw [← hp]
        exact (addrs_plug M _).mem_iff.mpr (by simp [Tree.addrs])
      · intro y hy hvy
        rw [hvals] at hy
        exact h3 vm _ hv.symm y (h1 y hy hvy)
  · have hh2 := height_le_plug K (Tree.node a l c v r)
    obtain ⟨m, N, c', v', r', e, hp, hN⟩ := get_head_loop_first (Tree.node a l c v r) K s fuel
      (by simp) hrep (by omega)
    have hrep' : Rep s (plug (N ++ K) (Tree.node m Tree.nil c' v' r')) := by
      rw [plug_append, ← hp]; exact hrep
    have hv' : (Tree.node a l c v r).values = v' :: (r'.values ++ ctxPost N) := by
      rw [hp, values_plug, hN]; simp [Tree.values]
    have hsub : (Tree.node a l c v r).values.Pairwise (fun a b => s.cmp a b < 0) := by
      have : (plug K (Tree.node a l c v r)).values.Pairwise (fun a b => s.cmp a b < 0) :=
        (bst_iff_sorted hc _).mp hb
      rw [values_plug] at this
      exact (List.pairwise_append.mp (List.pairwise_append.mp this).1).2.1
    refine ⟨m, _, ?_, ?_, rep_focus hrep', ?_, ?_⟩
    · simp only [ptr_node] at e
      simp [get_head, e]
    · rw [hp]; exact (addrs_plug N _).mem_iff.mpr (by simp [Tree.addrs])
    · rw [hv']; simp
    · intro y hy
      rw [hv'] at hy hsub
      simp only [List.pairwise_cons] at hsub
      simp only [List.mem_cons] at hy
      rcases hy with rfl | hy
      · exact totalCmp_irrefl hc y
      · exact totalCmp_asymm hc (hsub.1 y hy)

theorem successor_and_head_witness :
    TotalCmp sample.cmp ∧
    Rep sample (plug [Frame.L 0 false 4 (Tree.node 2 (Tree.node 5 Tree.nil true 5 Tree.nil)
        false 6 (Tree.node 6 Tree.nil true 7 Tree.nil))]
      (Tree.node 1 (Tree.node 3 Tree.nil false 1 Tree.nil) true 2
        (Tree.node 4 Tree.nil false 3 Tree.nil))) ∧
    sample_tree.bst sample.cmp ∧ sample.next < 20 ∧
    (∃ q, get_next 20 sample (some 1) = Except.ok q ∧
      (q = none ↔ ∀ y ∈ sample_tree.values, ¬ sample.cmp 2 y < 0) ∧
      ∀ m, q = some m → m ∈ sample_tree.addrs ∧
        ∃ n, sample.mem m = some n ∧ n.value ∈ sample_tree.values ∧
          sample.cmp 2 n.value < 0 ∧
          ∀ y ∈ sample_tree.values, sample.cmp 2 y < 0 → ¬ sample.cmp y n.value < 0) ∧
    (∃ m n, get_head 20 sample (some 1) = Except.ok (some m) ∧
      m ∈ [3, 1, 4] ∧ sample.mem m = some n ∧ n.value ∈ [1, 2, 3] ∧
      ∀ y ∈ [1, 2, 3], ¬ sample.cmp y n.value < 0) ∧
    get_head 20 sample none = Except.ok none :=
  ⟨totalCmp_cmp_int, rep_sample, valid_sample.bst, by decide,
    successor_and_head sample [Frame.L 0 false 4 (Tree.node 2 (Tree.node 5 Tree.nil true 5
        Tree.nil) false 6 (Tree.node 6 Tree.nil true 7 Tree.nil))] 1
      (Tree.node 3 Tree.nil false 1 Tree.nil) (Tree.node 4 Tree.nil false 3 Tree.nil) true 2 20
      totalCmp_cmp_int rep_sample valid_sample.bst (by decide)⟩

/-! ## Parent references stay the inverses of child references -/

theorem models_parentInverse {mem : Nat → Option (rb_node α)} (t : Tree α) :
    ∀ (par : Option Nat), Models mem par t →
      (∀ r, t.ptr = some r → ∃ n, mem r = some n ∧ n.parent = par) ∧
      ∀ a ∈ t.addrs, ∃ n, mem a = some n ∧
        (∀ c, n.left = some c → c ∈ t.addrs ∧ ∃ k, mem c = some k ∧ k.parent = some a) ∧
        (∀ c, n.right = some c → c ∈ t.addrs ∧ ∃ k, mem c = some k ∧ k.parent = some a) := by
  induction t with
  | nil => intro par _; exact ⟨fun r hr => by simp at hr, fun a ha => by simp [Tree.addrs] at ha⟩
  | node b l c v r ihl ihr =>
    intro par hm
    obtain ⟨hc, hl, hr⟩ := hm
    obtain ⟨l1, l2⟩ := ihl (some b) hl
    obtain ⟨r1, r2⟩ := ihr (some b) hr
    refine ⟨?_, ?_⟩
    · intro k hk
      simp only [ptr_node, Option.some.injEq] at hk
      subst hk
      exact ⟨_, hc, rfl⟩
    · intro a ha
      simp only [Tree.addrs, List.mem_append, List.mem_cons] at ha
      rcases ha with ha | rfl | ha
      · obtain ⟨n, hn, p1, p2⟩ := l2 a ha
        refine ⟨n, hn, fun k hk => ?_, fun k hk => ?_⟩
        · obtain ⟨q1, q2⟩ := p1 k hk
          exact ⟨by simp [Tree.addrs, q1], q2⟩
        · obtain ⟨q1, q2⟩ := p2 k hk
          exact ⟨by simp [Tree.addrs, q1], q2⟩
      · refine ⟨_, hc, fun k hk => ?_, fun k hk => ?_⟩
        · simp only at hk
          exact ⟨by simp [Tree.addrs, ptr_mem_addrs hk], l1 k hk⟩
        · simp only at hk
          exact ⟨by simp [Tree.addrs, ptr_mem_addrs hk], r1 k hk⟩
      · obtain ⟨n, hn, p1, p2⟩ := r2 a ha
        refine ⟨n, hn, fun k hk => ?_, fun k hk => ?_⟩
        · obtain ⟨q1, q2⟩ := p1 k hk
          exact ⟨by simp [Tree.addrs, q1], q2⟩
        · obtain ⟨q1, q2⟩ := p2 k hk
          exact ⟨by simp [Tree.addrs, q1], q2⟩

theorem rep_parentInverse {s : rb_tree α} {t : Tree α} (h : Rep s t) : ParentInverse s t := by
  obtain ⟨h1, h2⟩ := models_parentInverse t none h.models
  exact ⟨fun r hr => h1 r (by rw [← h.root]; exact hr), h2⟩

theorem rep_sample_stale : Rep sample_stale sample_tree := by
  refine ⟨rfl, ?_, by decide, by decide⟩
  simp [Models, sample_stale, sample, sample_tree, sample_cells]

/-- C13: on a state whose parent references are the inverses of its child
references, every `rb_tree_insert` that returns leaves a state with the same
property, whatever the allocator left in the parent field of the fresh cell (a
call that does not return stops at the assertion of `get_uncle`, and on a tree
that satisfies the red-black invariants the call does return); and every
`rb_tree_delete` returns and leaves a state with the same property. -/
theorem parent_links_preserved (s : rb_tree α) (t : Tree α) (v : α) (fuel : Nat)
    (h : Rep s t) (hf : s.next < fuel) :
    ((∃ s' T, rb_tree_insert fuel s v = Except.ok s' ∧ Rep s' T ∧ ParentInverse s' T ∧
        v ∈ T.values) ∨
      rb_tree_insert fuel s v = Except.error Fault.assert_failed) ∧
    (TotalCmp s.cmp → t.valid s.cmp →
      ∃ s' T, rb_tree_insert fuel s v = Except.ok s' ∧ Rep s' T ∧ ParentInverse s' T) ∧
    ∃ b s' T, rb_tree_delete fuel s v = Except.ok (b, s') ∧ Rep s' T ∧ ParentInverse s' T := by
  refine ⟨?_, ?_, ?_⟩
  · rcases rb_tree_insert_wf h v fuel hf with ⟨s', T, e, R, hv, -⟩ | e
    · exact Or.inl ⟨s', T, e, R, rep_parentInverse R, hv⟩
    · exact Or.inr e
  · intro hc hv
    obtain ⟨s', T, e, R, -⟩ := rb_tree_insert_rep hc h hv v fuel hf
    exact ⟨s', T, e, R, rep_parentInverse R⟩
  · obtain ⟨b, s', T, e, R⟩ := rb_tree_delete_wf h v fuel hf
    exact ⟨b, s', T, e, R, rep_parentInverse R⟩

theorem parent_links_preserved_witness :
    Rep sample_stale sample_tree ∧ sample_stale.next < 20 ∧
    ((∃ s' T, rb_tree_insert 20 sample_stale 8 = Except.ok s' ∧ Rep s' T ∧
        ParentInverse s' T ∧ 8 ∈ T.values) ∨
      rb_tree_insert 20 sample_stale 8 = Except.error Fault.assert_failed) ∧
    (TotalCmp sample_stale.cmp → sample_tree.valid sample_stale.cmp →
      ∃ s' T, rb_tree_insert 20 sample_stale 8 = Except.ok s' ∧ Rep s' T ∧
        ParentInverse s' T) ∧
    ∃ b s' T, rb_tree_delete 20 sample_stale 8 = Except.ok (b, s') ∧ Rep s' T ∧
      ParentInverse s' T :=
  ⟨rep_sample_stale, by decide,
    parent_links_preserved sample_stale sample_tree 8 20 rep_sample_stale (by decide)⟩

/-! ## At most two rotations per insertion -/

theorem counted_of_erase {β : Type} {x : Except Fault (β × Nat)} {b : β}
    (h : Except.map Prod.fst x = Except.ok b) : ∃ k, x = Except.ok (b, k) := by
  cases x with
  | error e => cases h
  | ok r =>
    obtain ⟨a, k⟩ := r
    injection h with h
    exact ⟨k, by rw [← h]⟩

theorem loop_counted_red_uncle {s s1 : rb_tree α} {n p : Nat} {u n1 : Option Nat} (fuel : Nat)
    (e1 : get_parent s (some n) = Except.ok (some p))
    (e2 : get_red s (some p) = Except.ok true)
    (e3 : get_uncle s (some n) = Except.ok u)
    (e4 : (if u ≠ none then get_red s u else pure false) = Except.ok true)
    (e5 : fix_recolour s (some n) u = Except.ok (s1, n1)) :
    fix_after_insert_loop_counted (fuel + 1) s (some n)
      = fix_after_insert_loop_counted fuel s1 n1 := by
  simp only [fix_after_insert_loop_counted]
  rw [e1]; simp only [ok_bind]
  rw [e2]; simp only [ok_bind]
  rw [e3]; simp only [ok_bind]
  rw [e4]; simp only [ok_bind]
  rw [e5]; simp

theorem loop_counted_black_uncle {s : rb_tree α} {n p : Nat} {u : Option Nat} (fuel : Nat)
    (e1 : get_parent s (some n) = Except.ok (some p))
    (e2 : get_red s (some p) = Except.ok true)
    (e3 : get_uncle s (some n) = Except.ok u)
    (e4 : (if u ≠ none then get_red s u else pure false) = Except.ok false) :
    fix_after_insert_loop_counted (fuel + 1) s (some n) =
      (fix_inner_counted s (some n) >>= fun x =>
        fix_outer_counted x.1.1 x.1.2 >>= fun y => pure (y.1, x.2 + y.2)) := by
  simp only [fix_after_insert_loop_counted]
  rw [e1]; simp only [ok_bind]
  rw [e2]; simp only [ok_bind]
  rw [e3]; simp only [ok_bind]
  rw [e4]; simp

/-- C14: a call of `rb_tree_insert` on a valid red-black tree returns after at
most two rotations.  An uncle-red iteration of the fix-up loop makes no
rotation: the count of the loop is the count of the loop continued at the
grandparent.  The uncle-black branch makes one or two rotations and is the end
of the loop, so no rotation follows it. -/
theorem insert_rotations_bounded (s : rb_tree α) (t : Tree α) (v : α) (fuel : Nat)
    (hc : TotalCmp s.cmp) (h : Rep s t) (hv : t.valid s.cmp) (hf : s.next < fuel) :
    (∃ s' k, rb_tree_insert_counted fuel s v = Except.ok (s', k) ∧
      rb_tree_insert fuel s v = Except.ok s' ∧ k ≤ 2) ∧
    (∀ (u u1 : rb_tree α) (n p : Nat) (q n1 : Option Nat) (k : Nat),
      get_parent u (some n) = Except.ok (some p) → get_red u (some p) = Except.ok true →
      get_uncle u (some n) = Except.ok q →
      (if q ≠ none then get_red u q else pure false) = Except.ok true →
      fix_recolour u (some n) q = Except.ok (u1, n1) →
      fix_after_insert_loop_counted (k + 1) u (some n)
        = fix_after_insert_loop_counted k u1 n1) ∧
    (∀ (u : rb_tree α) (n p : Nat) (q : Option Nat) (k : Nat),
      get_parent u (some n) = Except.ok (some p) → get_red u (some p) = Except.ok true →
      get_uncle u (some n) = Except.ok q →
      (if q ≠ none then get_red u q else pure false) = Except.ok false →
      fix_after_insert_loop_counted (k + 1) u (some n) =
        (fix_inner_counted u (some n) >>= fun x =>
          fix_outer_counted x.1.1 x.1.2 >>= fun y => pure (y.1, x.2 + y.2))) ∧
    (∀ (u : rb_tree α) (n : Option Nat) x i,
      fix_inner_counted u n = Except.ok (x, i) → i ≤ 1) ∧
    (∀ (u : rb_tree α) (n : Option Nat) w j,
      fix_outer_counted u n = Except.ok (w, j) → j = 1) ∧
    (∀ (u : rb_tree α) (x : α) (ff : Nat) w k,
      rb_tree_insert_counted ff u x = Except.ok (w, k) →
        k ≤ 2 ∧ rb_tree_insert ff u x = Except.ok w) := by
  refine ⟨?_, ?_, ?_, ?_, ?_, ?_⟩
  · obtain ⟨s', T, e, -⟩ := rb_tree_insert_rep hc h hv v fuel hf
    obtain ⟨k, hk⟩ := counted_of_erase ((rb_tree_insert_erase fuel s v).trans e)
    exact ⟨s', k, hk, e, rb_tree_insert_count_le hk⟩
  · intro u u1 n p q n1 k e1 e2 e3 e4 e5
    exact loop_counted_red_uncle k e1 e2 e3 e4 e5
  · intro u n p q k e1 e2 e3 e4
    exact loop_counted_black_uncle k e1 e2 e3 e4
  · intro u n x i hx
    exact fix_inner_count_le hx
  · intro u n w j hw
    exact fix_outer_count_eq hw
  · intro u x ff w k hk
    refine ⟨rb_tree_insert_count_le hk, ?_⟩
    rw [← rb_tree_insert_erase, hk]
    rfl

theorem insert_rotations_bounded_witness :
    TotalCmp sample.cmp ∧ Rep sample sample_tree ∧ sample_tree.valid sample.cmp ∧
    sample.next < 20 ∧
    (∃ s' k, rb_tree_insert_counted 20 sample 8 = Except.ok (s', k) ∧
      rb_tree_insert 20 sample 8 = Except.ok s' ∧ k ≤ 2) ∧
    (rb_tree_insert_counted 20 sample 8).toOption.map Prod.snd = some 0 ∧
    (rb_tree_insert_counted 20 (tree_of [3, 1]) 2).toOption.map Prod.snd = some 2 ∧
    (rb_tree_insert_counted 20 (tree_of [1, 2]) 3).toOption.map Prod.snd = some 1 :=
  ⟨totalCmp_cmp_int, rep_sample, valid_sample, by decide,
    (insert_rotations_bounded sample sample_tree 8 20 totalCmp_cmp_int rep_sample valid_sample
      (by decide)).1, rfl, rfl, rfl⟩

/-! ## The loop of `fix_after_insert` ends -/

/-- C15 (as the code has it): on every tree with consistent parent links and
for every node of it, the loop of `fix_after_insert` ends when given fuel beyond
the depth of the node: it returns a well-formed tree, or it stops at the
assertion of `get_uncle`, which happens when a red parent has no parent of its
own.  An uncle-red iteration continues at the grandparent, two levels higher;
the iterations for an absent parent, a black parent and a black uncle do not
continue.  So `rb_tree_insert` ends on every well-formed tree in one of these
two ways, and it returns whenever the tree satisfies the red-black
invariants. -/
theorem fix_loop_ends (s : rb_tree α) (K : List (Frame α)) (n : Nat) (l r : Tree α) (c : Bool)
    (v : α) (fuel : Nat) (hrep : Rep s (plug K (Tree.node n l c v r)))
    (hf : K.length < fuel) :
    ((∃ s' T, fix_after_insert_loop fuel s (some n) = Except.ok s' ∧ Rep s' T) ∨
      fix_after_insert_loop fuel s (some n) = Except.error Fault.assert_failed) ∧
    (∀ f g G u, K = f :: g :: G → f.red = true → g.sib.ptr = some u → g.sib.isRed = true →
      ∃ s1 gl gc gv gr, fix_recolour s (some n) (some u) = Except.ok (s1, some g.addr) ∧
        fix_after_insert_loop fuel s (some n)
          = fix_after_insert_loop (fuel - 1) s1 (some g.addr) ∧
        Rep s1 (plug G (Tree.node g.addr gl gc gv gr)) ∧ G.length + 2 = K.length) ∧
    (K = [] → ∃ s', fix_after_insert_loop fuel s (some n) = Except.ok s' ∧
      set_red s (some n) false = Except.ok s') ∧
    (∀ f F, K = f :: F → f.red = false →
      fix_after_insert_loop fuel s (some n) = Except.ok s) ∧
    (∀ f g G, K = f :: g :: G → f.red = true → g.sib.isRed = false →
      fix_after_insert_loop fuel s (some n)
        = (fix_inner s (some n) >>= fun x => fix_outer x.1 x.2)) ∧
    (∀ f, K = [f] → f.red = true →
      fix_after_insert_loop fuel s (some n) = Except.error Fault.assert_failed) ∧
    (∀ x ff, s.next < ff →
      (∃ s' T, rb_tree_insert ff s x = Except.ok s' ∧ Rep s' T) ∨
      rb_tree_insert ff s x = Except.error Fault.assert_failed) ∧
    (∀ x ff, s.next < ff → TotalCmp s.cmp → (plug K (Tree.node n l c v r)).valid s.cmp →
      ∃ s' T, rb_tree_insert ff s x = Except.ok s' ∧ Rep s' T) := by
  obtain ⟨k, rfl⟩ : ∃ k, fuel = k + 1 := ⟨fuel - 1, by omega⟩
  have e1 := rep_get_parent hrep
  refine ⟨?_, ?_, ?_, ?_, ?_, ?_, ?_, ?_⟩
  · rcases fix_loop_wf _ K (k + 1) s n l r c v le_rfl hf hrep with ⟨s', T, e, R, -⟩ | e
    · exact Or.inl ⟨s', T, e, R⟩
    · exact Or.inr e
  · rintro f g G u rfl hfr hup hu
    have e2 := frame_get_red hrep
    have e3 := get_uncle_rep hrep
    have e4 := sib_get_red (f := g) (F := G) hrep
    simp only [ctxPtr_cons] at e1
    rw [hfr] at e2
    rw [hu] at e4
    rw [hup] at e3 e4
    obtain ⟨s1, e5, R1, -⟩ := fix_recolour_rep hrep hup
    obtain ⟨gl, gc, gv, gr, hg⟩ : ∃ gl gc gv gr,
        ((g.withSib (g.sib.paint false)).paint true).fill
          ((f.paint false).fill (Tree.node n l c v r)) = Tree.node g.addr gl gc gv gr := by
      rcases g with ⟨gg, cg, vg, usib⟩ | ⟨gg, cg, vg, usib⟩
      · exact ⟨_, _, _, _, rfl⟩
      · exact ⟨_, _, _, _, rfl⟩
    refine ⟨s1, gl, gc, gv, gr, e5, ?_, ?_, by simp⟩
    · simpa using loop_red_uncle k e1 e2 e3 e4 e5
    · rw [← hg]; exact R1
  · rintro rfl
    obtain ⟨s', e2, -⟩ := set_red_rep hrep false
    simp only [ctxPtr_nil] at e1
    exact ⟨s', loop_root k e1 e2, e2⟩
  · rintro f F rfl hfr
    have e2 := frame_get_red hrep
    simp only [ctxPtr_cons] at e1
    rw [hfr] at e2
    exact loop_black_parent k e1 e2
  · rintro f g G rfl hfr hu
    have e2 := frame_get_red hrep
    have e3 := get_uncle_rep hrep
    have e4 := sib_get_red (f := g) (F := G) hrep
    simp only [ctxPtr_cons] at e1
    rw [hfr] at e2
    rw [hu] at e4
    exact loop_black_uncle k e1 e2 e3 e4
  · rintro f rfl hfr
    have e2 := frame_get_red hrep
    simp only [ctxPtr_cons] at e1
    rw [hfr] at e2
    exact loop_uncle_fault k e1 e2 (get_uncle_root hrep)
  · intro x ff hff
    rcases rb_tree_insert_wf hrep x ff hff with ⟨s', T, e, R, -⟩ | e
    · exact Or.inl ⟨s', T, e, R⟩
    · exact Or.inr e
  · intro x ff hff hc hv
    obtain ⟨s', T, e, R, -⟩ := rb_tree_insert_rep hc hrep hv x ff hff
    exact ⟨s', T, e, R⟩

/-- C15, the run on which the statement with "runs to completion on every
well-formed tree" fails: after the insertions 10, ..., 60, the deletion of 10
and the insertions of 5 and 15, the state holds a tree with consistent links
whose root 20 is red; the insertion of 1 then repaints 5 and 15, moves to node
10, finds its parent 20 red without a parent of its own, and stops at the
assertion of `get_uncle`, with any amount of fuel. -/
theorem insert_aborts_under_red_root :
    Rep red_rooted red_rooted_tree ∧
    rb_tree_insert 20 red_rooted 1 = Except.error Fault.assert_failed ∧
    ∀ fuel s', rb_tree_insert fuel red_rooted 1 ≠ Except.ok s' := by
  refine ⟨rep_red_rooted, rfl, ?_⟩
  intro fuel s' h
  have key : ∀ k, rb_tree_insert (k + 4) red_rooted 1 = Except.error Fault.assert_failed :=
    fun k => rfl
  have low : ∀ k, k < 4 → ∃ e, rb_tree_insert k red_rooted 1 = Except.error e := by
    intro k hk
    interval_cases k
    · exact ⟨_, rfl⟩
    · exact ⟨_, rfl⟩
    · exact ⟨_, rfl⟩
    · exact ⟨_, rfl⟩
  by_cases hk : fuel < 4
  · obtain ⟨e, he⟩ := low fuel hk
    rw [he] at h; cases h
  · obtain ⟨k, rfl⟩ : ∃ k, fuel = k + 4 := ⟨fuel - 4, by omega⟩
    rw [key k] at h; cases h

theorem fix_loop_ends_witness :
    Rep red_rooted (plug [Frame.L 1 true 20
        (Tree.node 3 (Tree.node 2 Tree.nil false 30 Tree.nil) false 40
          (Tree.node 4 Tree.nil false 50 (Tree.node 5 Tree.nil true 60 Tree.nil)))]
      (Tree.node 0 (Tree.node 6 Tree.nil true 5 Tree.nil) false 10
        (Tree.node 7 Tree.nil true 15 Tree.nil))) ∧
    [Frame.L 1 true 20
        (Tree.node 3 (Tree.node 2 Tree.nil false 30 Tree.nil) false 40
          (Tree.node 4 Tree.nil false 50 (Tree.node 5 Tree.nil true 60 Tree.nil)))].length < 5 ∧
    ((∃ s' T, fix_after_insert_loop 5 red_rooted (some 0) = Except.ok s' ∧ Rep s' T) ∨
      fix_after_insert_loop 5 red_rooted (some 0) = Except.error Fault.assert_failed) ∧
    fix_after_insert_loop 5 red_rooted (some 0) = Except.error Fault.assert_failed ∧
    (∀ x ff, red_rooted.next < ff →
      (∃ s' T, rb_tree_insert ff red_rooted x = Except.ok s' ∧ Rep s' T) ∨
      rb_tree_insert ff red_rooted x = Except.error Fault.assert_failed) := by
  have h := fix_loop_ends red_rooted [Frame.L 1 true 20
        (Tree.node 3 (Tree.node 2 Tree.nil false 30 Tree.nil) false 40
          (Tree.node 4 Tree.nil false 50 (Tree.node 5 Tree.nil true 60 Tree.nil)))] 0
      (Tree.node 6 Tree.nil true 5 Tree.nil) (Tree.node 7 Tree.nil true 15 Tree.nil) false 10 5
      rep_red_rooted (by decide)
  exact ⟨rep_red_rooted, by decide, h.1, h.2.2.2.2.2.1 _ rfl rfl, h.2.2.2.2.2.2.1⟩

/-! ## No assertion fails during an insertion into a valid tree -/

/-- C16: during `rb_tree_insert` on a tree that satisfies the red-black
invariants no assertion fails, and the call returns.  The fix-up loop is entered
in a state that satisfies the loop condition `LoopInv` (or the value of an
equal node is replaced and no fix-up runs).  In every state that satisfies that
condition and has a red parent, the parent has a parent of its own, so
`get_uncle` returns; the uncle-red step leads to a state that satisfies the
condition again; and in the uncle-black branch both rotation steps return.  A
rotation that returns was called on a pivot with a parent, of which it is the
right child for `rotate_left` and the left child for `rotate_right`. -/
theorem insert_asserts_hold (s : rb_tree α) (t : Tree α) (v : α) (fuel : Nat)
    (hc : TotalCmp s.cmp) (h : Rep s t) (hv : t.valid s.cmp) (hf : s.next < fuel) :
    (∃ s', rb_tree_insert fuel s v = Except.ok s') ∧
    rb_tree_insert fuel s v ≠ Except.error Fault.assert_failed ∧
    ((∃ s3 M, rb_tree_insert fuel s v = fix_after_insert_loop fuel s3 (some s.next) ∧
        LoopInv s3 M s.next Tree.nil v Tree.nil ∧ M.length < fuel) ∨
      (∃ s', rb_tree_insert fuel s v = Except.ok s' ∧ s'.next = s.next)) ∧
    (∀ (u : rb_tree α) K n l x r, LoopInv u K n l x r → ∀ f F, K = f :: F → f.red = true →
      ∃ g G, F = g :: G ∧ get_parent u (some n) = Except.ok (some f.addr) ∧
        get_parent u (some f.addr) = Except.ok (some g.addr) ∧
        get_uncle u (some n) = Except.ok g.sib.ptr ∧
        (∀ w, g.sib.ptr = some w → g.sib.isRed = true →
          ∃ u1 gl gx gr, fix_recolour u (some n) (some w) = Except.ok (u1, some g.addr) ∧
            LoopInv u1 G g.addr gl gx gr) ∧
        (g.sib.isRed = false →
          ∃ u1 n1 u2, fix_inner u (some n) = Except.ok (u1, n1) ∧
            fix_outer u1 n1 = Except.ok u2)) ∧
    (∀ (u u' : rb_tree α) pv, rotate_left u pv = Except.ok u' →
      pv ≠ none ∧ ∃ q, get_parent u pv = Except.ok (some q) ∧
        get_right u (some q) = Except.ok pv) ∧
    (∀ (u u' : rb_tree α) pv, rotate_right u pv = Except.ok u' →
      pv ≠ none ∧ ∃ q, get_parent u pv = Except.ok (some q) ∧
        get_left u (some q) = Except.ok pv) := by
  obtain ⟨s', T, e, -⟩ := rb_tree_insert_rep hc h hv v fuel hf
  refine ⟨⟨s', e⟩, by rw [e]; simp, ?_, ?_, fun u u' pv hr => rotate_left_pre hr,
    fun u u' pv hr => rotate_right_pre hr⟩
  · exact insert_reaches h hv.root_black hv.no_red_red (balanced_of_equalBlack hv.equal_black)
      v fuel hf
  · rintro u K n l x r hi f F rfl hfr
    obtain ⟨g, G, rfl, -, e1, e2, e3⟩ := loopInv_uncle hi hfr
    refine ⟨g, G, rfl, e1, e2, e3, ?_, ?_⟩
    · intro w hw hu
      obtain ⟨u1, gl, gx, gr, e5, hi1, -⟩ := loopInv_step hi hfr hw hu
      exact ⟨u1, gl, gx, gr, e5, hi1⟩
    · intro _
      obtain ⟨u1, n1, u2, -, i1, o1, -⟩ := loop_rotations_ok hi.1
      exact ⟨u1, n1, u2, i1, o1⟩

theorem insert_asserts_hold_witness :
    TotalCmp sample.cmp ∧ Rep sample sample_tree ∧ sample_tree.valid sample.cmp ∧
    sample.next < 20 ∧
    (∃ s', rb_tree_insert 20 sample 8 = Except.ok s') ∧
    rb_tree_insert 20 sample 8 ≠ Except.error Fault.assert_failed ∧
    ((∃ s3 M, rb_tree_insert 20 sample 8 = fix_after_insert_loop 20 s3 (some sample.next) ∧
        LoopInv s3 M sample.next Tree.nil 8 Tree.nil ∧ M.length < 20) ∨
      (∃ s', rb_tree_insert 20 sample 8 = Except.ok s' ∧ s'.next = sample.next)) := by
  have h := insert_asserts_hold sample sample_tree 8 20 totalCmp_cmp_int rep_sample
    valid_sample (by decide)
  exact ⟨totalCmp_cmp_int, rep_sample, valid_sample, by decide, h.1, h.2.1, h.2.2.1⟩

/-! ## Deleting a red node -/

/-- C17: on a valid red-black tree, when the key is present and the node
`pick_node_to_delete` returns for it (the matching node, or the first node of
its right subtree after the swap of the two values) is red, `rb_tree_delete`
returns true; the picked node has no child and is cut out by `detach_node`,
which writes one child pointer of its parent (or the root of the handle) and
nothing else, so no cell changes colour and no other link changes; the state
then holds a tree that satisfies the four invariants, whose values are the
previous ones without the deleted key and whose nodes are the previous ones
without the picked node. -/
theorem delete_red_node (s : rb_tree α) (t : Tree α) (v : α) (fuel a m : Nat)
    (hc : TotalCmp s.cmp) (h : Rep s t) (hv : t.valid s.cmp) (hf : s.next < fuel)
    (hfind : find fuel s s.root v = Except.ok (some a))
    (hpick : ∃ s2, pick_node_to_delete fuel s (some a) = Except.ok (s2, some m) ∧
      get_red s2 (some m) = Except.ok true) :
    ∃ s2 s' T' pre x post,
      pick_node_to_delete fuel s (some a) = Except.ok (s2, some m) ∧
      get_left s2 (some m) = Except.ok none ∧ get_right s2 (some m) = Except.ok none ∧
      detach_node s2 (some m) = Except.ok s' ∧
      rb_tree_delete fuel s v = Except.ok (true, s') ∧
      Rep s' T' ∧ T'.valid s'.cmp ∧
      t.values = pre ++ x :: post ∧ s.cmp v x = 0 ∧ T'.values = pre ++ post ∧
      t.addrs.Perm (m :: T'.addrs) ∧
      SamePayload s2 s' ∧
      (∀ k, (s'.mem k).map rb_node.red = (s.mem k).map rb_node.red) ∧
      (∀ k p, get_parent s2 (some m) = Except.ok p → p ≠ some k → s'.mem k = s2.mem k) := by
  have hh : t.height < fuel := lt_of_le_of_lt (rep_height_le h) hf
  have hsorted := (bst_iff_sorted hc t).mp hv.bst
  have hbal := balanced_of_equalBlack hv.equal_black
  obtain ⟨s2, hp2, hred⟩ := hpick
  rcases find_rep v t [] s fuel hc h hv.bst hh with ⟨e, -⟩ | ⟨b, M0, bl, cb, bx, br, e, hp, heq⟩
  · rw [← h.root, hfind] at e; cases e
  rw [← h.root, hfind] at e
  injection e with e; injection e with e; subst e
  simp only [plug_nil] at hp
  subst hp
  have hdel : ∀ s', delete_node fuel s (some a) = Except.ok s' →
      rb_tree_delete fuel s v = Except.ok (true, s') := by
    intro s' hd
    simp [rb_tree_delete, hfind, hd]
  rcases pick_precise h fuel hh with ⟨hone, e0⟩ |
    ⟨s2', m', N, cm, vm, mr, pm, hl, hr, hN, e0, R2, A, ham, hroot, cmem, hmem⟩
  · rw [e0] at hp2
    injection hp2 with hp2
    simp only [Prod.mk.injEq, Option.some.injEq] at hp2
    obtain ⟨rfl, rfl⟩ := hp2
    have hcb : cb = true := by
      rw [rep_get_red h] at hred; injection hred
    subst hcb
    obtain ⟨rfl, rfl, s', e1, e2, R, k1, k2, k3, A, P, hk⟩ :=
      delete_red_rep fuel e0 h hone hv.root_black hv.no_red_red hbal
    have hvals : (plug M0 (Tree.node a Tree.nil true bx Tree.nil)).values
        = ctxPre M0 ++ bx :: ctxPost M0 := by
      rw [values_plug]; simp [Tree.values]
    have hvals' : (plug M0 (Tree.nil : Tree α)).values = ctxPre M0 ++ ctxPost M0 := by
      rw [values_plug]; simp [Tree.values]
    refine ⟨s, s', _, ctxPre M0, bx, ctxPost M0, e0, rep_get_left h, rep_get_right h, e2,
      hdel s' e1, R, ⟨?_, k1, k2, equalBlack_of_balanced k3⟩, hvals, heq, hvals', ?_, P,
      samePayload_red P, ?_⟩
    · rw [A.1, bst_iff_sorted hc, hvals']
      rw [hvals] at hsorted
      exact sorted_remove hsorted
    · refine (addrs_plug M0 _).trans ?_
      simp only [Tree.addrs, List.nil_append, List.singleton_append]
      exact List.Perm.cons _ (by simpa [Tree.addrs] using (addrs_plug M0 Tree.nil).symm)
    · intro k p hp hne
      rw [rep_get_parent h] at hp
      injection hp with hp
      exact hk k (by rw [hp]; exact hne)
  · rw [e0] at hp2
    injection hp2 with hp2
    simp only [Prod.mk.injEq, Option.some.injEq] at hp2
    obtain ⟨rfl, rfl⟩ := hp2
    have hcm : cm = true := by
      rw [rep_get_red R2] at hred; injection hred
    subst hcm
    obtain ⟨c1, c2, c3⟩ := colours_revalue (v := vm) hv.root_black hv.no_red_red hbal
    have hshape : plug M0 (Tree.node a bl cb vm br)
        = plug (N ++ Frame.R a cb vm bl :: M0) (Tree.node m' Tree.nil true vm mr) := by
      rw [plug_append, hr]; rfl
    rw [hshape] at c1 c2 c3
    obtain ⟨d1, d2, d3⟩ := colours_revalue (v := bx) c1 c2 c3
    obtain ⟨-, rfl, s', e1, e2, R, k1, k2, k3, A', P, hk⟩ :=
      delete_red_rep fuel e0 R2 (Or.inl rfl) d1 d2 d3
    have hvals : (plug M0 (Tree.node a bl cb bx br)).values
        = (ctxPre M0 ++ bl.values) ++ bx :: (vm :: ctxPost N ++ ctxPost M0) := by
      rw [values_plug, hr]; simp [Tree.values, values_plug, hN]
    have hvals' : (plug (N ++ Frame.R a cb vm bl :: M0) (Tree.nil : Tree α)).values
        = (ctxPre M0 ++ bl.values) ++ (vm :: ctxPost N ++ ctxPost M0) := by
      rw [values_plug, ctxPre_append, ctxPost_append]
      simp [Tree.values, ctxPre, ctxPost, hN]
    refine ⟨s2', s', _, _, bx, _, e0, rep_get_left R2, rep_get_right R2, e2,
      hdel s' e1, R, ⟨?_, k1, k2, equalBlack_of_balanced k3⟩, hvals, heq, hvals', ?_, P, ?_, ?_⟩
    · rw [A'.1, A.1, bst_iff_sorted hc, hvals']
      rw [hvals] at hsorted
      exact sorted_remove hsorted
    · have hshape0 : plug M0 (Tree.node a bl cb bx br)
          = plug (N ++ Frame.R a cb bx bl :: M0) (Tree.node m' Tree.nil true vm Tree.nil) := by
        rw [plug_append, hr]; rfl
      rw [hshape0]
      refine (addrs_plug _ _).trans ?_
      simp only [Tree.addrs, List.nil_append, List.singleton_append]
      refine List.Perm.cons _ ?_
      refine List.Perm.trans ?_ (addrs_plug (N ++ Frame.R a cb vm bl :: M0) Tree.nil).symm
      simp [Tree.addrs, ctxAddrs_append, ctxAddrs]
    · intro k
      rw [samePayload_red P k, hmem]
      by_cases hka : k = a
      · subst hka; simp [rep_focus h]
      · by_cases hkm : k = m'
        · subst hkm; simp [hka, cmem]
        · simp [hka, hkm]
    · intro k p hp hne
      rw [rep_get_parent R2] at hp
      injection hp with hp
      exact hk k (by rw [hp]; exact hne)

theorem delete_red_node_witness :
    TotalCmp sample.cmp ∧ Rep sample sample_tree ∧ sample_tree.valid sample.cmp ∧
    sample.next < 20 ∧ find 20 sample sample.root 6 = Except.ok (some 2) ∧
    (∃ s2, pick_node_to_delete 20 sample (some 2) = Except.ok (s2, some 6) ∧
      get_red s2 (some 6) = Except.ok true) ∧
    ∃ s' T', rb_tree_delete 20 sample 6 = Except.ok (true, s') ∧ Rep s' T' ∧
      T'.valid s'.cmp ∧ sample_tree.addrs.Perm (6 :: T'.addrs) ∧
      traversal 20 s' = Except.ok [1, 2, 3, 4, 5, 7] := by
  have hp : ∃ s2, pick_node_to_delete 20 sample (some 2) = Except.ok (s2, some 6) ∧
      get_red s2 (some 6) = Except.ok true :=
    ⟨(match pick_node_to_delete 20 sample (some 2) with
      | Except.ok r => r.1
      | Except.error _ => sample), rfl, rfl⟩
  obtain ⟨s2, s', T', pre, x, post, -, -, -, -, e, R, V, -, -, -, P, -⟩ :=
    delete_red_node sample sample_tree 6 20 2 6 totalCmp_cmp_int rep_sample valid_sample
      (by decide) rfl hp
  have e' : rb_tree_delete 20 sample 6 = Except.ok (true, after_delete sample 6) := rfl
  have hs : s' = after_delete sample 6 := by
    rw [e] at e'
    injection e' with e'
    exact (Prod.mk.inj e').2
  refine ⟨totalCmp_cmp_int, rep_sample, valid_sample, by decide, rfl, hp, s', T', e, R, V, P, ?_⟩
  rw [hs]
  rfl

/-! ## Deleting a black node with one red child -/

/-- C18 (failing run): in the valid tree built by inserting 1, 2, 3, 4 the node 3
is black and has exactly one child, the red node 4.  `rb_tree_delete` of 3
returns true and splices node 4 into the place of node 3, but the store that
follows names a member `ref`, which `struct rb_node` does not have, and the
colour bit of node 4 is never written: node 4 is still red, the paths through it
hold one black node less than the path through node 1, and the invariants no
longer hold. -/
theorem delete_leaves_child_red :
    insert_all 20 fresh [1, 2, 3, 4] = Except.ok (tree_of [1, 2, 3, 4]) ∧
    rb_valid (tree_of [1, 2, 3, 4]) ∧
    find 20 (tree_of [1, 2, 3, 4]) (tree_of [1, 2, 3, 4]).root 3 = Except.ok (some 2) ∧
    pick_node_to_delete 20 (tree_of [1, 2, 3, 4]) (some 2)
      = Except.ok (tree_of [1, 2, 3, 4], some 2) ∧
    get_red (tree_of [1, 2, 3, 4]) (some 2) = Except.ok false ∧
    get_left (tree_of [1, 2, 3, 4]) (some 2) = Except.ok none ∧
    get_right (tree_of [1, 2, 3, 4]) (some 2) = Except.ok (some 3) ∧
    get_red (tree_of [1, 2, 3, 4]) (some 3) = Except.ok true ∧
    rb_tree_delete 20 (tree_of [1, 2, 3, 4]) 3 =
      Except.ok (true, after_delete (tree_of [1, 2, 3, 4]) 3) ∧
    traversal 20 (after_delete (tree_of [1, 2, 3, 4]) 3) = Except.ok [1, 2, 4] ∧
    get_red (after_delete (tree_of [1, 2, 3, 4]) 3) (some 3) = Except.ok true ∧
    readTree 20 (after_delete (tree_of [1, 2, 3, 4]) 3).mem none
        (after_delete (tree_of [1, 2, 3, 4]) 3).root
      = some (Tree.node 1 (Tree.node 0 Tree.nil false 1 Tree.nil) false 2
          (Tree.node 3 Tree.nil true 4 Tree.nil)) ∧
    (Tree.node 1 (Tree.node 0 Tree.nil false 1 Tree.nil) false (2 : Int)
      (Tree.node 3 Tree.nil true 4 Tree.nil)).blackCounts = [2, 2, 1, 1] ∧
    ¬ rb_valid (after_delete (tree_of [1, 2, 3, 4]) 3) := by
  refine ⟨rfl, rb_valid_tree_of _ (by decide), rfl, rfl, rfl, rfl, rfl, rfl, rfl, rfl, rfl, rfl,
    rfl, ?_⟩
  rintro ⟨t, R, hv⟩
  have h1 := readTree_of_rep R 20 (by decide)
  have h2 : readTree 20 (after_delete (tree_of [1, 2, 3, 4]) 3).mem none
        (after_delete (tree_of [1, 2, 3, 4]) 3).root
      = some (Tree.node 1 (Tree.node 0 Tree.nil false 1 Tree.nil) false 2
          (Tree.node 3 Tree.nil true 4 Tree.nil)) := rfl
  rw [h2] at h1
  injection h1 with h1
  subst h1
  have := hv.equal_black 2 (by simp [Tree.blackCounts]) 1 (by simp [Tree.blackCounts])
  omega

/-! ## Deleting a black leaf below the root -/

/-- C19: on a valid red-black tree, when the key is present and the node
`pick_node_to_delete` returns for it is black, has no child and has a parent,
`rb_tree_delete` returns true and removes nothing: the state holds a tree on the
same nodes with the same values up to order, every cell keeps its three links
(so nothing is rotated or unlinked), nothing is freed and the destructor is not
called.  Either every cell keeps its colour, or the picked node is the left
child of its parent, its right sibling was red, and exactly these two change:
the sibling is now black and the parent red. -/
theorem delete_black_leaf_stays (s : rb_tree α) (t : Tree α) (v : α) (fuel a m : Nat)
    (hc : TotalCmp s.cmp) (h : Rep s t) (hv : t.valid s.cmp) (hf : s.next < fuel)
    (hfind : find fuel s s.root v = Except.ok (some a))
    (hpick : ∃ s2 p, pick_node_to_delete fuel s (some a) = Except.ok (s2, some m) ∧
      get_red s2 (some m) = Except.ok false ∧ get_left s2 (some m) = Except.ok none ∧
      get_right s2 (some m) = Except.ok none ∧
      get_parent s2 (some m) = Except.ok (some p)) :
    ∃ s' T', rb_tree_delete fuel s v = Except.ok (true, s') ∧ Rep s' T' ∧
      T'.addrs.Perm t.addrs ∧ T'.values.Perm t.values ∧
      s'.destroyed = s.destroyed ∧ s'.freed = s.freed ∧ s'.root = s.root ∧
      s'.next = s.next ∧
      (∀ k, (s'.mem k).map rb_node.links = (s.mem k).map rb_node.links) ∧
      ((∀ k, (s'.mem k).map rb_node.red = (s.mem k).map rb_node.red) ∨
        ∃ p u, get_parent s (some m) = Except.ok (some p) ∧
          get_left s (some p) = Except.ok (some m) ∧
          get_right s (some p) = Except.ok (some u) ∧
          get_red s (some u) = Except.ok true ∧
          get_red s' (some p) = Except.ok true ∧ get_red s' (some u) = Except.ok false ∧
          ∀ k, k ≠ p → k ≠ u → (s'.mem k).map rb_node.red = (s.mem k).map rb_node.red) := by
  have hh : t.height < fuel := lt_of_le_of_lt (rep_height_le h) hf
  obtain ⟨s2, p, e0, q1, q2, q3, q4⟩ := hpick
  rcases find_rep v t [] s fuel hc h hv.bst hh with ⟨e, -⟩ | ⟨b, M0, bl, cb, bx, br, e, hp, heq⟩
  · rw [← h.root, hfind] at e; cases e
  rw [← h.root, hfind] at e
  injection e with e; injection e with e; subst e
  simp only [plug_nil] at hp
  subst hp
  obtain ⟨M, ml, cm, vm, mr, R2, hone, A, hroot, hcol, hlink, hperm, hvperm⟩ :=
    pick_keeps h fuel hh e0
  rw [rep_get_red R2] at q1
  rw [rep_get_left R2] at q2
  rw [rep_get_right R2] at q3
  rw [rep_get_parent R2] at q4
  injection q1 with q1
  injection q2 with q2
  injection q3 with q3
  injection q4 with q4
  subst q1
  have hml : ml = Tree.nil := by cases ml <;> simp_all
  have hmr : mr = Tree.nil := by cases mr <;> simp_all
  subst hml hmr
  obtain ⟨f, F, rfl⟩ : ∃ f F, M = f :: F := by
    cases M with
    | nil => simp at q4
    | cons f F => exact ⟨f, F, rfl⟩
  have hprog : delete_node fuel s (some a) = delete_leaf s2 (some m) := by
    rw [delete_node_prog fuel e0 R2 hone (q := none) (by simp)]
    simp
  have hdel : ∀ s', delete_leaf s2 (some m) = Except.ok s' →
      rb_tree_delete fuel s v = Except.ok (true, s') := by
    intro s' hd
    rw [← hprog] at hd
    simp [rb_tree_delete, hfind, hd]
  rcases delete_leaf_nonroot R2 with
    ⟨p', cp, vp, u, ul, uv, ur, s', rfl, e1, R, A', hroot', hpu, cp0, cu0, hmem⟩ | ⟨-, e1⟩
  · have hs'p : s'.mem p' = some ⟨ctxPtr F, some m, some u, true, vp⟩ := by
      rw [hmem]; simp
    have hs'u : s'.mem u = some ⟨some p', ul.ptr, ur.ptr, false, uv⟩ := by
      rw [hmem]; simp [hpu.symm]
    have hother : ∀ k, k ≠ p' → k ≠ u → s'.mem k = s2.mem k := by
      intro k h1 h2; rw [hmem]; simp [h1, h2]
    refine ⟨s', _, hdel s' e1, R, ?_, ?_, by rw [A'.2.2.2.2.1, A.2.2.2.2.1],
      by rw [A'.2.2.2.2.2, A.2.2.2.2.2], by rw [hroot', hroot], by rw [A'.2.2.1, A.2.2.1],
      ?_, Or.inr ⟨p', u, ?_, ?_, ?_, ?_, get_red_of_mem hs'p, get_red_of_mem hs'u, ?_⟩⟩
    · refine List.Perm.trans ?_ hperm
      refine (addrs_plug _ _).trans (List.Perm.trans ?_ (addrs_plug _ _).symm)
      simp [Tree.addrs, ctxAddrs]
    · refine List.Perm.trans ?_ hvperm
      rw [values_plug, values_plug]
      simp [Tree.values, ctxPre, ctxPost]
    · intro k
      rw [← hlink k]
      by_cases hkp : k = p'
      · subst hkp; rw [hs'p, cp0]; rfl
      · by_cases hku : k = u
        · subst hku; rw [hs'u, cu0]; rfl
        · rw [hother k hkp hku]
    · exact (get_links_of_map (by rw [← hlink m, rep_focus R2]; rfl)).1
    · exact (get_links_of_map (by rw [← hlink p', cp0]; rfl)).2.1
    · exact (get_links_of_map (by rw [← hlink p', cp0]; rfl)).2.2
    · exact get_red_of_map (by rw [← hcol u, cu0]; rfl)
    · intro k hkp hku
      rw [hother k hkp hku, hcol k]
  · refine ⟨s2, _, hdel s2 e1, R2, hperm, hvperm, A.2.2.2.2.1, A.2.2.2.2.2, hroot, A.2.2.1,
      hlink, Or.inl hcol⟩

theorem delete_black_leaf_stays_witness :
    TotalCmp (tree_of [1, 2, 3, 4, 5, 6]).cmp ∧
    (∃ T, Rep (tree_of [1, 2, 3, 4, 5, 6]) T ∧ T.valid (tree_of [1, 2, 3, 4, 5, 6]).cmp) ∧
    (tree_of [1, 2, 3, 4, 5, 6]).next < 20 ∧
    find 20 (tree_of [1, 2, 3, 4, 5, 6]) (tree_of [1, 2, 3, 4, 5, 6]).root 1
      = Except.ok (some 0) ∧
    (∃ s2 p, pick_node_to_delete 20 (tree_of [1, 2, 3, 4, 5, 6]) (some 0)
        = Except.ok (s2, some 0) ∧
      get_red s2 (some 0) = Except.ok false ∧ get_left s2 (some 0) = Except.ok none ∧
      get_right s2 (some 0) = Except.ok none ∧
      get_parent s2 (some 0) = Except.ok (some p)) ∧
    ∃ s' T', rb_tree_delete 20 (tree_of [1, 2, 3, 4, 5, 6]) 1 = Except.ok (true, s') ∧
      Rep s' T' ∧ T'.values.Perm [1, 2, 3, 4, 5, 6] ∧
      s'.destroyed = [] ∧ s'.freed = [] ∧
      get_red s' s'.root = Except.ok true := by
  obtain ⟨T, R, V⟩ := rb_valid_tree_of [1, 2, 3, 4, 5, 6] (by decide)
  have hT : T.values = [1, 2, 3, 4, 5, 6] := by
    have := traversal_rep R 20 (by decide)
    have e : traversal 20 (tree_of [1, 2, 3, 4, 5, 6]) = Except.ok [1, 2, 3, 4, 5, 6] := rfl
    rw [e] at this
    injection this with this
    exact this.symm
  have hp : ∃ s2 p, pick_node_to_delete 20 (tree_of [1, 2, 3, 4, 5, 6]) (some 0)
        = Except.ok (s2, some 0) ∧
      get_red s2 (some 0) = Except.ok false ∧ get_left s2 (some 0) = Except.ok none ∧
      get_right s2 (some 0) = Except.ok none ∧
      get_parent s2 (some 0) = Except.ok (some p) :=
    ⟨tree_of [1, 2, 3, 4, 5, 6], 1, rfl, rfl, rfl, rfl, rfl⟩
  obtain ⟨s', T', e, R', -, hv, hd, hfr, -, -, -, -⟩ :=
    delete_black_leaf_stays (tree_of [1, 2, 3, 4, 5, 6]) T 1 20 0 0 totalCmp_cmp_int R V
      (by decide) rfl hp
  have e' : rb_tree_delete 20 (tree_of [1, 2, 3, 4, 5, 6]) 1
      = Except.ok (true, after_delete (tree_of [1, 2, 3, 4, 5, 6]) 1) := rfl
  have hs : s' = after_delete (tree_of [1, 2, 3, 4, 5, 6]) 1 := by
    rw [e] at e'
    injection e' with e'
    exact (Prod.mk.inj e').2
  refine ⟨totalCmp_cmp_int, ⟨T, R, V⟩, by decide, rfl, hp, s', T', e, R', by rw [← hT]; exact hv,
    hd, hfr, ?_⟩
  rw [hs]
  rfl

/-! ## Disposal walks the left spine only -/

theorem spine_length_le_height (t : Tree α) : t.spine.length ≤ t.height := by
  induction t with
  | nil => simp [Tree.spine]
  | node a l c v r ihl _ =>
    simp only [Tree.spine, Tree.height, List.length_cons]
    omega

theorem dispose_loop_spine (t : Tree α) : ∀ (par : Option Nat) (s : rb_tree α) (fuel : Nat),
    t ≠ Tree.nil → Models s.mem par t → t.addrs.Nodup →
    ∃ s', rb_tree_dispose_loop (fuel + (2 * t.spine.length - 1)) s t.ptr
        = rb_tree_dispose_loop fuel s' par ∧
      s'.freed = s.freed ++ (t.spine.map Prod.fst).reverse ∧
      s'.destroyed = (if s.fr then s.destroyed ++ (t.spine.map Prod.snd).reverse
        else s.destroyed) ∧
      s'.root = s.root ∧ s'.fr = s.fr ∧ s'.cmp = s.cmp ∧ s'.next = s.next ∧
      (∀ b, b ∉ t.spine.map Prod.fst → s'.mem b = s.mem b) ∧
      (∀ b, b ∈ t.spine.map Prod.fst → s'.mem b = none) := by
  induction t with
  | nil => intro par s fuel h; exact absurd rfl h
  | node a l c v r ihl _ =>
    intro par s fuel _ hm hnd
    obtain ⟨hc, hml, hmr⟩ := hm
    have hal : a ∉ l.addrs := by
      intro h; simp [Tree.addrs, List.nodup_append, List.nodup_cons] at hnd
      exact hnd.2.2.1 h
    have har : ¬ some a = r.ptr := by
      intro h
      have := ptr_mem_addrs h.symm
      simp [Tree.addrs, List.nodup_append, List.nodup_cons] at hnd
      exact hnd.2.1.1 this
    cases l with
    | nil =>
      obtain ⟨s3, e3, m3, f3, d3, r3, fr3, c3, n3⟩ := free_node_of_mem hc
      refine ⟨s3, ?_, ?_⟩
      · have e1 : get_left s (some a) = Except.ok none := by rw [get_left_of_mem hc]; rfl
        have e2 : get_right s (some a) = Except.ok r.ptr := get_right_of_mem hc
        have e4 : get_parent s (some a) = Except.ok par := get_parent_of_mem hc
        simp [Tree.spine, rb_tree_dispose_loop, e1, e2, e4, e3, har]
      · simp [Tree.spine, f3, d3, r3, fr3, c3, n3, m3]
        intro b hb; simp [hb]
    | node b bl bc bv br =>
      have hc1 : (store s a (⟨par, none, r.ptr, c, v⟩ : rb_node α)).mem a = some (⟨par, none, r.ptr, c, v⟩ : rb_node α) := by simp [store_mem]
      have hm1 : Models (store s a (⟨par, none, r.ptr, c, v⟩ : rb_node α)).mem (some a) (Tree.node b bl bc bv br) := by
        refine models_congr hml ?_
        intro k hk; rw [store_mem, if_neg]; rintro rfl; exact hal hk
      have hnd1 : (Tree.node b bl bc bv br).addrs.Nodup := by
        simp only [Tree.addrs] at hnd ⊢
        exact (List.nodup_append.1 hnd).1
      obtain ⟨s2, e2, f2, d2, r2, fr2, c2, n2, m2, z2⟩ :=
        ihl (some a) _ (fuel + 1) (by simp) hm1 hnd1
      have has : a ∉ (Tree.node b bl bc bv br).spine.map Prod.fst := by
        intro h; exact hal (spine_subset _ a h)
      have hc2 : s2.mem a = some (⟨par, none, r.ptr, c, v⟩ : rb_node α) := by rw [m2 a has, hc1]
      obtain ⟨s3, e3, m3, f3, d3, r3, fr3, c3, n3⟩ := free_node_of_mem hc2
      refine ⟨s3, ?_, ?_⟩
      · have g1 : get_left s (some a) = Except.ok (some b) := by rw [get_left_of_mem hc]; rfl
        have g2 : set_left s (some a) none = Except.ok (store s a (⟨par, none, r.ptr, c, v⟩ : rb_node α)) := by
          rw [set_left, modify_of_mem hc]
        have g3 : get_left s2 (some a) = Except.ok none := get_left_of_mem hc2
        have g4 : get_right s2 (some a) = Except.ok r.ptr := get_right_of_mem hc2
        have g5 : get_parent s2 (some a) = Except.ok par := get_parent_of_mem hc2
        have hlen : fuel + (2 * (Tree.node a (Tree.node b bl bc bv br) c v r).spine.length - 1)
            = (fuel + 1 + (2 * (Tree.node b bl bc bv br).spine.length - 1)) + 1 := by
          simp [Tree.spine]; omega
        rw [hlen]
        simp only [ptr_node] at e2
        simp only [ptr_node]
        rw [rb_tree_dispose_loop]
        simp only [ne_eq, not_false_eq_true, if_true, reduceCtorEq, g1, ok_bind, g2]
        rw [e2, rb_tree_dispose_loop]
        simp [g3, g4, g5, e3, har]
      · simp only [store_freed, store_destroyed, store_root, store_fr, store_cmp,
          store_next] at f2 d2 r2 fr2 c2 n2
        refine ⟨?_, ?_, by rw [r3, r2], by rw [fr3, fr2], by rw [c3, c2], by rw [n3, n2], ?_, ?_⟩
        · rw [f3, f2]; simp [Tree.spine]
        · rw [d3, d2, fr2]; by_cases hfr : s.fr = true <;> simp [hfr, Tree.spine]
        · intro k hk
          have hka : k ≠ a := by rintro rfl; exact hk (by simp [Tree.spine])
          have hks : k ∉ (Tree.node b bl bc bv br).spine.map Prod.fst := by
            intro h; exact hk (by rw [spine_node, List.map_cons, List.mem_cons]; exact Or.inr h)
          rw [m3]; simp only [hka, if_false]; rw [m2 k hks, store_mem, if_neg hka]
        · intro k hk
          rw [m3]
          by_cases hka : k = a
          · simp [hka]
          · simp only [hka, if_false]
            apply z2
            rw [spine_node, List.map_cons, List.mem_cons] at hk
            exact hk.resolve_left hka

/-- C20: on every non-empty well-formed tree `rb_tree_dispose` returns.  It frees
exactly the cells of the left spine, the leftmost node first and the root last,
and hands their values to the destructor in that order when one is registered;
every other cell, so every node of a right subtree, is left as it was, and the
`root` field of the handle still holds the address of the freed root cell. -/
theorem dispose_frees_left_spine (s : rb_tree α) (t : Tree α) (fuel : Nat)
    (h : Rep s t) (hne : t ≠ Tree.nil) (hf : 2 * s.next < fuel) :
    ∃ s', rb_tree_dispose fuel s = Except.ok s' ∧
      s'.freed = s.freed ++ (t.spine.map Prod.fst).reverse ∧
      s'.destroyed = (if s.fr then s.destroyed ++ (t.spine.map Prod.snd).reverse
        else s.destroyed) ∧
      (∀ b, b ∈ t.spine.map Prod.fst → s'.mem b = none) ∧
      (∀ b, b ∉ t.spine.map Prod.fst → s'.mem b = s.mem b) ∧
      s'.root = s.root ∧ s'.root = t.ptr := by
  have hlen : t.spine.length ≤ s.next :=
    le_trans (spine_length_le_height t) (rep_height_le h)
  obtain ⟨k, hk⟩ : ∃ k, fuel = (k + 1) + (2 * t.spine.length - 1) :=
    ⟨fuel - 1 - (2 * t.spine.length - 1), by omega⟩
  obtain ⟨s', e, f, d, r, -, -, -, m, z⟩ :=
    dispose_loop_spine t none s (k + 1) hne h.models h.nodup
  refine ⟨s', ?_, f, d, z, m, r, by rw [r, h.root]⟩
  rw [rb_tree_dispose, h.root, hk, e]
  simp [rb_tree_dispose_loop]

theorem dispose_frees_left_spine_witness :
    Rep sample sample_tree ∧ sample_tree ≠ Tree.nil ∧ 2 * sample.next < 20 ∧
    ∃ s', rb_tree_dispose 20 sample = Except.ok s' ∧
      s'.freed = [] ++ [3, 1, 0] ∧
      s'.destroyed = (if sample.fr then [] ++ [1, 2, 4] else sample.destroyed) ∧
      (∀ b, b ∈ sample_tree.spine.map Prod.fst → s'.mem b = none) ∧
      (∀ b, b ∉ sample_tree.spine.map Prod.fst → s'.mem b = sample.mem b) ∧
      s'.root = sample.root ∧ s'.root = some 0 :=
  ⟨rep_sample, by decide, by decide,
    dispose_frees_left_spine sample sample_tree 20 rep_sample (by decide) (by decide)⟩

end Rb
